import Mathlib

/-!
# Parallel Merkle-Patricia trie layer (arcology-network/concurrent-evm)

A shallow embedding of `trie/trie_parallel.go` and `trie/parallel_util.go`,
together with the parts of the base trie engine they call, and theorems about
`ParallelUpdate`, `ParallelGet` and `ThreadSafeGet`.

Conventions of the embedding:

* a Go `[]byte` is a `List Nat` (a byte `b` is read as `b % 256`); a nil slice
  and an empty slice are both `[]`;
* a hex key is a list of nibbles `Fin 17` (0..15 hex digits, 16 the terminator),
  so that indexing the 17 child slots of a branch node is always in range;
* a Go panic (failed type assertion, index out of range, `panic(...)`) is the
  result `Except.error Stop.panic`; an ordinary Go `error` value is an
  `Option Err` inside the result;
* recursion is structural on the in-memory node; only the resolution of a
  hash reference through the database reader leaves the in-memory node, and
  it alone consumes fuel (`Except.error Stop.fuel` when the fuel is used up);
* the tracer of a trie is the sequence of events it has received;
* the concurrent tasks of `ParallelWorker` are run one after the other in
  index order: the tasks of `ParallelUpdate` and `ParallelGet` write disjoint
  slots of the state they share;
* node flags (cached hash, dirty bit) are not modelled: they do not take part
  in any decision of the code embedded here, and two equal nodes have equal
  hashes;
* the base engine (`insert`, `delete`, `update`, `Update`, `get`, `Get`,
  `keybytesToHex`, `prefixLen`) belongs to the go-ethereum `trie` package that
  this repository extends; its source is not part of the files embedded here.
-/

namespace ParaTrie

/-! ## Data model -/

/-- A child slot of a branch node: 0..15 are the hex digits, 16 is the value slot. -/
abbrev Nibble := Fin 17

/-- Modelled from the spec: the node variants of the base engine (declared
outside src/): Go nil, `valueNode`, `*shortNode`, `*fullNode` (17 child slots)
and `hashNode`. -/
inductive Node where
  | nil : Node
  | value (v : List Nat) : Node
  | short (key : List Nibble) (val : Node) : Node
  | full (children : Nibble → Node) : Node
  | hash (h : List Nat) : Node

instance : Inhabited Node := ⟨Node.nil⟩

/-- Why a run produced no result: a Go panic, or the resolution fuel ran out. -/
inductive Stop where
  | panic : Stop
  | fuel : Stop
  deriving DecidableEq, Repr

/-- A computation that may panic or run out of fuel. -/
abbrev Run (α : Type) := Except Stop α

/-- Modelled from the spec: an error value of the base engine (declared outside
src/): a node that the reader cannot find (its hash and its path), or the use
of a trie that was already committed. -/
inductive Err where
  | missingNode (hash : List Nat) (path : List Nat) : Err
  | committed : Err
  deriving DecidableEq, Repr

/-- Modelled from the spec: the database reader of a trie (declared outside
src/): `node` is `reader.node(prefix, hash)`, which yields the blob or an
error; `decode` is `mustDecodeNode(hash, blob)`, which yields the node or
panics (`none`). -/
structure Reader where
  node : List Nat → List Nat → Except Err (List Nat)
  decode : List Nat → List Nat → Option Node

/-- The per-shard access cache: parallel sequences of paths and blobs. -/
structure AccessListCache where
  keys : List (List Nat)
  data : List (List Nat)
  deriving DecidableEq, Repr

/-- An event received by the tracer of a trie (`onRead`, `onInsert`, `onDelete`
of `tracerInterface`). -/
inductive TraceEvent where
  | onRead (path : List Nat) (blob : List Nat) : TraceEvent
  | onInsert (path : List Nat) : TraceEvent
  | onDelete (path : List Nat) : TraceEvent
  deriving DecidableEq, Repr

/-- Modelled from the spec: the trie handle of the base engine (declared outside
src/): root node, database reader, tracer (the events it has received so far,
oldest first), the `unhashed` counter and the `committed` flag. -/
structure Trie where
  root : Node
  reader : Reader
  tracer : List TraceEvent
  unhashed : Nat
  committed : Bool

/-- The bytes of a nibble path, as handed to the tracer and the access cache. -/
def pathBytes (p : List Nibble) : List Nat := p.map Fin.val

/-- The high nibble of a byte: `b >> 4` on a `uint8`. -/
def hiNibble (b : Nat) : Nat := (b % 256) / 16

/-- The low nibble of a byte: `b % 16` on a `uint8`. -/
def loNibble (b : Nat) : Nat := (b % 256) % 16

/-- A number as a nibble slot (numbers above 16 do not occur: callers pass nibbles). -/
def toNibble (n : Nat) : Nibble := ⟨n % 17, Nat.mod_lt _ (by decide)⟩

/-- The terminator nibble 16. -/
def term16 : Nibble := ⟨16, by decide⟩

/-- Modelled from the spec: the base engine's `keybytesToHex` (not under src/):
two nibbles per byte, then the terminator 16. -/
def keybytesToHex : List Nat → List Nibble
  | [] => [term16]
  | b :: rest => toNibble (hiNibble b) :: toNibble (loNibble b) :: keybytesToHex rest

/-- Go `AccessListCache.Add`: append one record. -/
def AccessListCache.Add (c : AccessListCache) (key val : List Nat) : AccessListCache :=
  ⟨c.keys ++ [key], c.data ++ [val]⟩

/-- One empty access cache. -/
def AccessListCache.empty : AccessListCache := ⟨[], []⟩

/-- Go `NewAccessListCaches(num)`: `num` empty caches. -/
def NewAccessListCaches (num : Nat) : List AccessListCache :=
  List.replicate num AccessListCache.empty

/-! ## Thread-safe lookup (`trie_parallel.go`) -/

/-- The result of `threadSafeResolveAndTrack`: the node or the error, and the cache. -/
structure ResolveRes where
  node : Node
  err : Option Err
  accesses : AccessListCache

/-- Go `threadSafeResolveAndTrack`: read the blob of a hash node; on an error
return it, otherwise record (prefix, blob) in the cache and decode the blob
(a blob that does not decode panics). -/
def threadSafeResolveAndTrack (rd : Reader) (h : List Nat) (pfx : List Nibble)
    (accesses : AccessListCache) : Run ResolveRes :=
  match rd.node (pathBytes pfx) h with
  | .error e => pure ⟨Node.nil, some e, accesses⟩
  | .ok blob =>
    match rd.decode h blob with
    | none => .error Stop.panic
    | some n => pure ⟨n, none, accesses.Add (pathBytes pfx) blob⟩

/-- The four results of `threadSafeGet`, and the access cache after the call. -/
structure GetRes where
  value : List Nat
  newnode : Node
  didResolve : Bool
  err : Option Err
  accesses : AccessListCache

/-- Go `threadSafeGet`, by recursion on the in-memory node; `onHash` is the
recursive call on a node resolved from the database. -/
def threadSafeGetAux (rd : Reader)
    (onHash : Node → List Nibble → Nat → AccessListCache → Run GetRes) :
    Node → List Nibble → Nat → AccessListCache → Run GetRes
  | .nil, _, _, accesses => pure ⟨[], Node.nil, false, none, accesses⟩
  | .value v, _, _, accesses => pure ⟨v, Node.value v, false, none, accesses⟩
  | .short k val, key, pos, accesses =>
    if (key.length : Int) - (pos : Int) < (k.length : Int)
        ∨ k ≠ (key.drop pos).take k.length then
      pure ⟨[], Node.short k val, false, none, accesses⟩
    else
      match threadSafeGetAux rd onHash val key (pos + k.length) accesses with
      | .error s => .error s
      | .ok r =>
        if r.err.isNone && r.didResolve then
          pure ⟨r.value, Node.short k r.newnode, r.didResolve, r.err, r.accesses⟩
        else
          pure ⟨r.value, Node.short k val, r.didResolve, r.err, r.accesses⟩
  | .full c, key, pos, accesses =>
    match key.get? pos with
    | none => .error Stop.panic
    | some i =>
      match threadSafeGetAux rd onHash (c i) key (pos + 1) accesses with
      | .error s => .error s
      | .ok r => pure ⟨r.value, Node.full c, r.didResolve, r.err, r.accesses⟩
  | .hash h, key, pos, accesses =>
    match threadSafeResolveAndTrack rd h (key.take pos) accesses with
    | .error s => .error s
    | .ok rr =>
      match rr.err with
      | some e => pure ⟨[], Node.hash h, true, some e, rr.accesses⟩
      | none =>
        match onHash rr.node key pos rr.accesses with
        | .error s => .error s
        | .ok r => pure ⟨r.value, r.newnode, true, r.err, r.accesses⟩

/-- Go `threadSafeGet` with `fuel` database resolutions allowed in a row. -/
def threadSafeGet (rd : Reader) : Nat → Node → List Nibble → Nat → AccessListCache → Run GetRes
  | 0 => threadSafeGetAux rd (fun _ _ _ _ => .error Stop.fuel)
  | fuel + 1 => threadSafeGetAux rd (threadSafeGet rd fuel)


/-- Go `ThreadSafeGet`: the value and the error of the lookup, the access cache
after it, and the trie after the call. -/
structure LookupRes where
  value : List Nat
  err : Option Err
  accesses : AccessListCache
  trie : Trie

/-- Go `ThreadSafeGet`: look the key up from the root; the new node computed by
the traversal is dropped and no field of the trie is assigned. -/
def ThreadSafeGet (fuel : Nat) (t : Trie) (key : List Nat) (accesses : AccessListCache) :
    Run LookupRes :=
  match threadSafeGet t.reader fuel t.root (keybytesToHex key) 0 accesses with
  | .error s => .error s
  | .ok r => pure ⟨r.value, r.err, r.accesses, t⟩

/-! ## The base engine (go-ethereum `trie.go`, used unmodified) -/

/-- The result of the base engine's `insert` and `delete`: the dirty flag, the
new node, the error, and the tracer events emitted, in order. -/
structure UpdRes where
  dirty : Bool
  node : Node
  err : Option Err
  events : List TraceEvent

/-- Modelled from the spec: the base engine's `prefixLen` (not under src/), the
length of the common prefix of two nibble sequences. -/
def prefixLen : List Nibble → List Nibble → Nat
  | a :: as, b :: bs => if a = b then prefixLen as bs + 1 else 0
  | _, _ => 0

/-- Modelled from the spec: the base engine's `insert` applied to a nil node
(not under src/): an empty key yields the value itself, otherwise a new short
node is created and reported to the tracer. -/
def insertNil (pfx key : List Nibble) (value : Node) : UpdRes :=
  match key with
  | [] => ⟨true, value, none, []⟩
  | _ :: _ => ⟨true, Node.short key value, none, [TraceEvent.onInsert (pathBytes pfx)]⟩

/-- The 17 empty child slots of a fresh `fullNode`. -/
def noChildren : Nibble → Node := fun _ => Node.nil

/-- Modelled from the spec: the base engine's single-key `insert` (go-ethereum
`Trie.insert`, not under src/), by recursion on the in-memory node; `onHash` is
the recursive call on a node resolved from the database. -/
def insertAux (rd : Reader)
    (onHash : Node → List Nibble → List Nibble → Node → Run UpdRes) :
    Node → List Nibble → List Nibble → Node → Run UpdRes
  | n, pfx, key, value =>
    match key with
    | [] =>
      match n with
      | .value v =>
        match value with
        | .value w => pure ⟨v != w, value, none, []⟩
        | _ => .error Stop.panic
      | _ => pure ⟨true, value, none, []⟩
    | a :: rest =>
      match n with
      | .short k val =>
        let matchlen := prefixLen key k
        if matchlen = k.length then
          match insertAux rd onHash val (pfx ++ key.take matchlen) (key.drop matchlen) value with
          | .error s => .error s
          | .ok r =>
            if !r.dirty || r.err.isSome then pure ⟨false, Node.short k val, r.err, r.events⟩
            else pure ⟨true, Node.short k r.node, none, r.events⟩
        else
          match k.get? matchlen, key.get? matchlen with
          | some kn, some kk =>
            let r1 := insertNil (pfx ++ k.take (matchlen + 1)) (k.drop (matchlen + 1)) val
            let r2 := insertNil (pfx ++ key.take (matchlen + 1)) (key.drop (matchlen + 1)) value
            let branch := Node.full
              (Function.update (Function.update noChildren kn r1.node) kk r2.node)
            if matchlen = 0 then pure ⟨true, branch, none, r1.events ++ r2.events⟩
            else pure ⟨true, Node.short (key.take matchlen) branch, none,
              r1.events ++ r2.events ++ [TraceEvent.onInsert (pathBytes (pfx ++ key.take matchlen))]⟩
          | _, _ => .error Stop.panic
      | .full c =>
        match insertAux rd onHash (c a) (pfx ++ [a]) rest value with
        | .error s => .error s
        | .ok r =>
          if !r.dirty || r.err.isSome then pure ⟨false, Node.full c, r.err, r.events⟩
          else pure ⟨true, Node.full (Function.update c a r.node), none, r.events⟩
      | .nil => pure (insertNil pfx key value)
      | .hash h =>
        match rd.node (pathBytes pfx) h with
        | .error e => pure ⟨false, Node.nil, some e, []⟩
        | .ok blob =>
          match rd.decode h blob with
          | none => .error Stop.panic
          | some rn =>
            match onHash rn pfx key value with
            | .error s => .error s
            | .ok r =>
              if !r.dirty || r.err.isSome then
                pure ⟨false, rn, r.err, TraceEvent.onRead (pathBytes pfx) blob :: r.events⟩
              else
                pure ⟨true, r.node, none, TraceEvent.onRead (pathBytes pfx) blob :: r.events⟩
      | .value _ => .error Stop.panic

/-- Modelled from the spec: the base engine's `insert` (not under src/) with
`fuel` database resolutions allowed in a row. -/
def insert (rd : Reader) : Nat → Node → List Nibble → List Nibble → Node → Run UpdRes
  | 0 => insertAux rd (fun _ _ _ _ => .error Stop.fuel)
  | fuel + 1 => insertAux rd (insert rd fuel)

/-- Go `n == nil` on a node interface. -/
def Node.isNil : Node → Bool
  | .nil => true
  | _ => false

/-- Go `_, ok := n.(*shortNode)`. -/
def Node.isShort : Node → Bool
  | .short _ _ => true
  | _ => false

/-- Go `_, ok := n.(*fullNode)`. -/
def Node.isFull : Node → Bool
  | .full _ => true
  | _ => false

/-- The slots of a branch node that hold a child, in increasing order. -/
def nonNilSlots (c : Nibble → Node) : List Nibble :=
  (List.finRange 17).filter (fun i => !(c i).isNil)

/-- Modelled from the spec: the reduction step of the base engine's `delete` on
a branch node whose child was removed (not under src/): when exactly one child
is left the branch becomes a short node, merged with that child when the child
(resolved from the database if need be) is itself a short node. -/
def reduceFull (rd : Reader) (pfx : List Nibble) (c : Nibble → Node)
    (events : List TraceEvent) : Run UpdRes :=
  match nonNilSlots c with
  | [pos] =>
    if pos ≠ term16 then
      match c pos with
      | .hash h =>
        match rd.node (pathBytes (pfx ++ [pos])) h with
        | .error e => pure ⟨false, Node.nil, some e, events⟩
        | .ok blob =>
          match rd.decode h blob with
          | none => .error Stop.panic
          | some (.short k v) =>
            pure ⟨true, Node.short (pos :: k) v, none,
              events ++ [TraceEvent.onRead (pathBytes (pfx ++ [pos])) blob,
                TraceEvent.onDelete (pathBytes (pfx ++ [pos]))]⟩
          | some _ =>
            pure ⟨true, Node.short [pos] (c pos), none,
              events ++ [TraceEvent.onRead (pathBytes (pfx ++ [pos])) blob]⟩
      | .short k v =>
        pure ⟨true, Node.short (pos :: k) v, none,
          events ++ [TraceEvent.onDelete (pathBytes (pfx ++ [pos]))]⟩
      | _ => pure ⟨true, Node.short [pos] (c pos), none, events⟩
    else pure ⟨true, Node.short [pos] (c pos), none, events⟩
  | _ => pure ⟨true, Node.full c, none, events⟩

/-- Modelled from the spec: the base engine's single-key `delete` (go-ethereum
`Trie.delete`, not under src/), by recursion on the in-memory node; `onHash` is
the recursive call on a node resolved from the database. -/
def deleteAux (rd : Reader)
    (onHash : Node → List Nibble → List Nibble → Run UpdRes) :
    Node → List Nibble → List Nibble → Run UpdRes
  | .short k val, pfx, key =>
    let matchlen := prefixLen key k
    if matchlen < k.length then pure ⟨false, Node.short k val, none, []⟩
    else if matchlen = key.length then
      pure ⟨true, Node.nil, none, [TraceEvent.onDelete (pathBytes pfx)]⟩
    else
      match deleteAux rd onHash val (pfx ++ key.take k.length) (key.drop k.length) with
      | .error s => .error s
      | .ok r =>
        if !r.dirty || r.err.isSome then pure ⟨false, Node.short k val, r.err, r.events⟩
        else
          match r.node with
          | .short ck cv =>
            pure ⟨true, Node.short (k ++ ck) cv, none,
              r.events ++ [TraceEvent.onDelete (pathBytes (pfx ++ k))]⟩
          | child => pure ⟨true, Node.short k child, none, r.events⟩
  | .full c, pfx, key =>
    match key with
    | [] => .error Stop.panic
    | a :: rest =>
      match deleteAux rd onHash (c a) (pfx ++ [a]) rest with
      | .error s => .error s
      | .ok r =>
        if !r.dirty || r.err.isSome then pure ⟨false, Node.full c, r.err, r.events⟩
        else if !r.node.isNil then
          pure ⟨true, Node.full (Function.update c a r.node), none, r.events⟩
        else reduceFull rd pfx (Function.update c a r.node) r.events
  | .value _, _, _ => pure ⟨true, Node.nil, none, []⟩
  | .nil, _, _ => pure ⟨false, Node.nil, none, []⟩
  | .hash h, pfx, key =>
    match rd.node (pathBytes pfx) h with
    | .error e => pure ⟨false, Node.nil, some e, []⟩
    | .ok blob =>
      match rd.decode h blob with
      | none => .error Stop.panic
      | some rn =>
        match onHash rn pfx key with
        | .error s => .error s
        | .ok r =>
          if !r.dirty || r.err.isSome then
            pure ⟨false, rn, r.err, TraceEvent.onRead (pathBytes pfx) blob :: r.events⟩
          else
            pure ⟨true, r.node, none, TraceEvent.onRead (pathBytes pfx) blob :: r.events⟩

/-- Modelled from the spec: the base engine's `delete` (not under src/) with
`fuel` database resolutions allowed in a row. -/
def delete (rd : Reader) : Nat → Node → List Nibble → List Nibble → Run UpdRes
  | 0 => deleteAux rd (fun _ _ _ => .error Stop.fuel)
  | fuel + 1 => deleteAux rd (delete rd fuel)

/-- Modelled from the spec: the base engine's unexported `update` (not under
src/): count the change, then insert the value, or delete the key when the
value is empty; the root is replaced only when the engine reports no error. -/
def Trie.update (fuel : Nat) (t : Trie) (key value : List Nat) : Run (Trie × Option Err) :=
  let t1 : Trie := { t with unhashed := t.unhashed + 1 }
  let k := keybytesToHex key
  if value.length ≠ 0 then
    match insert t.reader fuel t1.root [] k (Node.value value) with
    | .error s => .error s
    | .ok r =>
      match r.err with
      | some e => pure ({ t1 with tracer := t1.tracer ++ r.events }, some e)
      | none => pure ({ t1 with root := r.node, tracer := t1.tracer ++ r.events }, none)
  else
    match delete t.reader fuel t1.root [] k with
    | .error s => .error s
    | .ok r =>
      match r.err with
      | some e => pure ({ t1 with tracer := t1.tracer ++ r.events }, some e)
      | none => pure ({ t1 with root := r.node, tracer := t1.tracer ++ r.events }, none)

/-- Modelled from the spec: the base engine's single-key `Update` (not under
src/): refused on a committed trie, otherwise `update`. -/
def Trie.Update (fuel : Nat) (t : Trie) (key value : List Nat) : Run (Trie × Option Err) :=
  if t.committed then pure (t, some Err.committed) else t.update fuel key value

/-- Go `NewEmptyParallel`: an empty trie with a fresh parallel tracer. -/
def NewEmptyParallel (rd : Reader) : Trie :=
  { root := Node.nil, reader := rd, tracer := [], unhashed := 0, committed := false }

/-- A reader over an empty database: every read is a missing node. -/
def emptyReader : Reader :=
  { node := fun path h => .error (Err.missingNode h path), decode := fun _ _ => none }

/-- The four results of the base engine's `get`, and the tracer events emitted. -/
structure BaseGetRes where
  value : List Nat
  newnode : Node
  didResolve : Bool
  err : Option Err
  events : List TraceEvent

/-- Modelled from the spec: the base engine's single-key lookup `get`
(go-ethereum `Trie.get`, not under src/): like `threadSafeGet`, but a resolved
node is reported to the tracer and spliced into the copy of its parent. -/
def getAux (rd : Reader)
    (onHash : Node → List Nibble → Nat → Run BaseGetRes) :
    Node → List Nibble → Nat → Run BaseGetRes
  | .nil, _, _ => pure ⟨[], Node.nil, false, none, []⟩
  | .value v, _, _ => pure ⟨v, Node.value v, false, none, []⟩
  | .short k val, key, pos =>
    if (key.length : Int) - (pos : Int) < (k.length : Int)
        ∨ k ≠ (key.drop pos).take k.length then
      pure ⟨[], Node.short k val, false, none, []⟩
    else
      match getAux rd onHash val key (pos + k.length) with
      | .error s => .error s
      | .ok r =>
        if r.err.isNone && r.didResolve then
          pure ⟨r.value, Node.short k r.newnode, r.didResolve, r.err, r.events⟩
        else
          pure ⟨r.value, Node.short k val, r.didResolve, r.err, r.events⟩
  | .full c, key, pos =>
    match key.get? pos with
    | none => .error Stop.panic
    | some i =>
      match getAux rd onHash (c i) key (pos + 1) with
      | .error s => .error s
      | .ok r =>
        if r.err.isNone && r.didResolve then
          pure ⟨r.value, Node.full (Function.update c i r.newnode), r.didResolve, r.err, r.events⟩
        else
          pure ⟨r.value, Node.full c, r.didResolve, r.err, r.events⟩
  | .hash h, key, pos =>
    match rd.node (pathBytes (key.take pos)) h with
    | .error e => pure ⟨[], Node.hash h, true, some e, []⟩
    | .ok blob =>
      match rd.decode h blob with
      | none => .error Stop.panic
      | some child =>
        match onHash child key pos with
        | .error s => .error s
        | .ok r =>
          pure ⟨r.value, r.newnode, true, r.err,
            TraceEvent.onRead (pathBytes (key.take pos)) blob :: r.events⟩

/-- Modelled from the spec: the base engine's `get` (not under src/) with
`fuel` database resolutions allowed in a row. -/
def get (rd : Reader) : Nat → Node → List Nibble → Nat → Run BaseGetRes
  | 0 => getAux rd (fun _ _ _ => .error Stop.fuel)
  | fuel + 1 => getAux rd (get rd fuel)

/-- Modelled from the spec: the base engine's `Get` (not under src/): refused
on a committed trie; the root is replaced by the resolved one when the lookup
resolved a node without error. -/
def Trie.Get (fuel : Nat) (t : Trie) (key : List Nat) : Run (List Nat × Option Err × Trie) :=
  if t.committed then pure ([], some Err.committed, t)
  else
    match get t.reader fuel t.root (keybytesToHex key) 0 with
    | .error s => .error s
    | .ok r =>
      let t1 : Trie := { t with tracer := t.tracer ++ r.events }
      if r.err.isNone && r.didResolve then pure (r.value, r.err, { t1 with root := r.newnode })
      else pure (r.value, r.err, t1)

/-! ## The fan-out/fan-in scheduler (`parallel_util.go`) -/

/-- A finite `float64` that is not negative: the number `num / 2 ^ scale`. -/
structure Float64 where
  num : Nat
  scale : Nat
  deriving DecidableEq

/-- The quotient `x / 2 ^ sh` rounded to the nearest integer, a tie going to the even one.
`sticky` says that the number to round is not `x` itself but lies strictly between `x` and
`x + 1` (used with `sh ≥ 1` only). -/
def roundHalfEven (x sh : Nat) (sticky : Bool) : Nat :=
  let q := x / 2 ^ sh
  let r := x % 2 ^ sh
  if 2 ^ sh < 2 * r ∨ (2 * r = 2 ^ sh ∧ (sticky = true ∨ q % 2 = 1)) then q + 1 else q

/-- The position of the leading bit of `x` when `x < 2 ^ fuel`: the `e` with
`2 ^ e ≤ x < 2 ^ (e + 1)`, and 0 for `x = 0`. -/
def leadingBit : Nat → Nat → Nat
  | 0, _ => 0
  | fuel + 1, x => if x < 2 then 0 else leadingBit fuel (x / 2) + 1

/-- The position of the leading bit of `x`. -/
def log2 (x : Nat) : Nat :=
  leadingBit x x

/-- Go `float64(x)` for an `int` `x ≥ 0`: `x` rounded to 53 significant bits, ties to the
even significand (`x` itself when `x < 2 ^ 53`). -/
def Float64.ofInt (x : Nat) : Float64 :=
  let sh := log2 x - 52
  ⟨roundHalfEven x sh false * 2 ^ sh, 0⟩

/-- Go `a / b` on `float64`, for `a ≥ 0` and `b > 0`: the quotient rounded to 53 significant
bits, ties to the even significand. The quotient `x / y` of the two numbers is scaled by
`2 ^ k` so that its integer part `q` has at least 54 bits, and `q` is rounded at bit
`sh = log2 q - 52`. The quotient of two `int` values neither overflows nor underflows. A
division by zero, which gives an infinity or a NaN in Go, is given as 0 here: it occurs for
a worker count of 0 only, and the step is then multiplied by 0 alone. -/
def Float64.div (a b : Float64) : Float64 :=
  let x := a.num * 2 ^ b.scale
  let y := b.num * 2 ^ a.scale
  if x = 0 ∨ y = 0 then ⟨0, 0⟩
  else
    let k := log2 y + 54
    let q := x * 2 ^ k / y
    let sticky := decide (x * 2 ^ k % y ≠ 0)
    let sh := log2 q - 52
    ⟨roundHalfEven q sh sticky * 2 ^ sh, k⟩

/-- Go `math.Ceil` on a `float64` that is not negative. -/
def Float64.ceil (a : Float64) : Float64 :=
  ⟨(a.num + 2 ^ a.scale - 1) / 2 ^ a.scale, 0⟩

/-- Go `math.Min` on two `float64` that are not negative. -/
def Float64.min (a b : Float64) : Float64 :=
  if a.num * 2 ^ b.scale ≤ b.num * 2 ^ a.scale then a else b

/-- Go `int(f)` for a `float64` `f ≥ 0` below `2 ^ 63`: the integer part. -/
def Float64.toInt (a : Float64) : Nat :=
  a.num / 2 ^ a.scale

/-- Go `GenerateRanges`: `numThreads + 1` boundaries, boundary `i` being the smaller of
`float64(step * i)` and `float64(length)`, turned back into an `int`, where `step` is
`int(math.Ceil(float64(length) / float64(numThreads)))`. The arguments are `int` values
that are not negative and lie below `2 ^ 62`, so that no `int` product `step * i` wraps and
no conversion to `int` leaves the range of `int`. -/
def GenerateRanges (length numThreads : Nat) : List Nat :=
  let step := (Float64.ceil (Float64.div (Float64.ofInt length) (Float64.ofInt numThreads))).toInt
  (List.range (numThreads + 1)).map (fun i =>
    (Float64.min (Float64.ofInt (step * i)) (Float64.ofInt length)).toInt)

/-- Specification side (C11): the boundaries with the ceiling and the minimum taken in exact
integer arithmetic. -/
def exactRanges (length numThreads : Nat) : List Nat :=
  let step := (length + numThreads - 1) / numThreads
  (List.range (numThreads + 1)).map (fun i => min (step * i) length)

/-- One pass over consecutive boundaries: the worker runs on every non-empty
range `[start, end)` with the index of the range. -/
def runRanges {σ : Type} (worker : Nat → Nat → Nat → σ → Run σ) :
    List Nat → Nat → σ → Run σ
  | start :: stop :: rest, idx, s =>
    if start ≠ stop then
      match worker start stop idx s with
      | .error e => .error e
      | .ok s1 => runRanges worker (stop :: rest) (idx + 1) s1
    else runRanges worker (stop :: rest) (idx + 1) s
  | _, _, s => pure s

/-- Go `ParallelWorker`: one task per non-empty range of `GenerateRanges`,
joined before returning. The tasks are run here one after the other in index
order on the state they share; a panic in a task ends the run. -/
def ParallelWorker {σ : Type} (total nThds : Nat) (worker : Nat → Nat → Nat → σ → Run σ)
    (s : σ) : Run σ :=
  runRanges worker (GenerateRanges total nThds) 0 s

/-! ## Parallel update (`trie_parallel.go`) -/

/-- The shard index computed by `ParallelUpdate` and `initSubRoots`: the high
nibble of the first byte, 0 for an empty key. -/
def shardOf (key : List Nat) : Nat :=
  match key with
  | [] => 0
  | b :: _ => hiNibble b

/-- Go `threadSafeUpdate`: insert the value, or delete the key when the value
is empty, below the given root; on an error the returned node is nil. The
tracer events of the engine are returned as the third component. -/
def threadSafeUpdate (rd : Reader) (fuel : Nat) (root : Node) (key value : List Nat) :
    Run (Node × Option Err × List TraceEvent) :=
  let k := keybytesToHex key
  if value.length ≠ 0 then
    match insert rd fuel root [] k (Node.value value) with
    | .error s => .error s
    | .ok r =>
      match r.err with
      | some e => pure (Node.nil, some e, r.events)
      | none => pure (r.node, none, r.events)
  else
    match delete rd fuel root [] k with
    | .error s => .error s
    | .ok r =>
      match r.err with
      | some e => pure (Node.nil, some e, r.events)
      | none => pure (r.node, none, r.events)

/-- The loop of Go `initSubRoots` from index `i` on: the first pair of every
shard index is applied through `Update` (its error is dropped). -/
def initSubRootsLoop (fuel : Nat) (values : List (List Nat)) :
    List (List Nat) → Nat → List Bool → Trie → Run Trie
  | [], _, _, t => pure t
  | key :: rest, i, intialized, t =>
    let nibble := shardOf key
    if !(intialized.getD nibble true) then
      match values.get? i with
      | none => .error Stop.panic
      | some value =>
        match t.Update fuel key value with
        | .error s => .error s
        | .ok (t1, _) => initSubRootsLoop fuel values rest (i + 1) (intialized.set nibble true) t1
    else initSubRootsLoop fuel values rest (i + 1) intialized t

/-- Go `initSubRoots`: run the bootstrap loop, then report whether the root is
a short node. -/
def initSubRoots (fuel : Nat) (t : Trie) (keys values : List (List Nat)) : Run (Trie × Bool) :=
  match initSubRootsLoop fuel values keys 0 (List.replicate 16 false) t with
  | .error s => .error s
  | .ok t1 => pure (t1, t1.root.isShort)

/-- The sequential loop of `ParallelUpdate` from index `i` on: every pair goes
through the engine's `update`, whose error is dropped. -/
def sequentialLoop (fuel : Nat) (values : List (List Nat)) :
    List (List Nat) → Nat → Trie → Run Trie
  | [], _, t => pure t
  | key :: rest, i, t =>
    match values.get? i with
    | none => .error Stop.panic
    | some value =>
      match t.update fuel key value with
      | .error s => .error s
      | .ok (t1, _) => sequentialLoop fuel values rest (i + 1) t1

/-- The state shared by the 16 update tasks: the snapshot roots, the error
slots and the tracer. -/
structure ParState where
  rootSnapshots : List Node
  errs : List (Option Err)
  tracer : List TraceEvent

/-- The body of the `inserters` closure for shard `start`, from index `i` on. -/
def insertersLoop (rd : Reader) (fuel : Nat) (root : Node) (values : List (List Nat))
    (start : Nat) : List (List Nat) → Nat → ParState → Run ParState
  | [], _, s => pure s
  | key :: rest, i, s =>
    let nibble := shardOf key
    if nibble = start then
      let snap := s.rootSnapshots.getD nibble Node.nil
      let snap1 := if snap.isNil then root else snap
      match values.get? i with
      | none => .error Stop.panic
      | some value =>
        match threadSafeUpdate rd fuel snap1 key value with
        | .error e => .error e
        | .ok (n, err, events) =>
          let s1 : ParState :=
            { rootSnapshots := s.rootSnapshots.set nibble n,
              errs := if err.isSome then s.errs.set nibble err else s.errs,
              tracer := s.tracer ++ events }
          insertersLoop rd fuel root values start rest (i + 1) s1
    else insertersLoop rd fuel root values start rest (i + 1) s

/-- The `inserters` closure of `ParallelUpdate`. -/
def inserters (rd : Reader) (fuel : Nat) (root : Node) (keys values : List (List Nat))
    (start _stop _index : Nat) (s : ParState) : Run ParState :=
  insertersLoop rd fuel root values start keys 0 s

/-- The snapshot root of shard `i`: an empty branch node that holds child `i`
of the real root. -/
def seedSnapshot (c : Nibble → Node) (i : Nat) : Node :=
  Node.full (Function.update noChildren (toNibble i) (c (toNibble i)))

/-- The merge loop of `ParallelUpdate`: slot `i` of the root takes child `i` of
snapshot `i`, for the shards listed; a snapshot that is not a branch node panics. -/
def mergeLoop (snaps : List Node) : List Nat → (Nibble → Node) → Run (Nibble → Node)
  | [], c => pure c
  | i :: rest, c =>
    match snaps.getD i Node.nil with
    | .full sc => mergeLoop snaps rest (Function.update c (toNibble i) (sc (toNibble i)))
    | _ => .error Stop.panic

/-- Go `ParallelUpdate`: the error slots and the trie after the call. -/
def ParallelUpdate (fuel : Nat) (t : Trie) (keys values : List (List Nat)) :
    Run (List (Option Err) × Trie) :=
  let errs : List (Option Err) := List.replicate 16 none
  if keys.length = 0 ∨ values.length = 0 then pure (errs, t)
  else
    match initSubRoots fuel t keys values with
    | .error s => .error s
    | .ok (t1, true) =>
      match sequentialLoop fuel values keys 0 t1 with
      | .error s => .error s
      | .ok t2 => pure (errs, t2)
    | .ok (t1, false) =>
      match t1.root with
      | .full c =>
        let rootSnapshots := (List.range 16).map (seedSnapshot c)
        match ParallelWorker 16 16 (inserters t1.reader fuel t1.root keys values)
            ⟨rootSnapshots, errs, t1.tracer⟩ with
        | .error s => .error s
        | .ok s =>
          match mergeLoop s.rootSnapshots (List.range 16) c with
          | .error e => .error e
          | .ok c1 =>
            pure (s.errs, { t1 with root := Node.full c1, tracer := s.tracer, unhashed := 1024 })
      | _ => .error Stop.panic

/-! ## Parallel lookup (`trie_parallel.go`) -/

/-- The state shared by the 16 lookup tasks: the output values, the access
caches and the trie. -/
structure GetState where
  values : List (List Nat)
  caches : List AccessListCache
  trie : Trie

/-- The body of the closure of `ParallelGet` for shard `start`, from index `j` on. -/
def gettersLoop (fuel : Nat) (start : Nat) : List (List Nat) → Nat → GetState → Run GetState
  | [], _, s => pure s
  | key :: rest, j, s =>
    match key with
    | [] => .error Stop.panic
    | b :: _ =>
      let nibble := hiNibble b
      if nibble = start then
        match threadSafeGet s.trie.reader fuel s.trie.root (keybytesToHex key) 0
            (s.caches.getD nibble AccessListCache.empty) with
        | .error e => .error e
        | .ok r =>
          gettersLoop fuel start rest (j + 1)
            { s with values := s.values.set j r.value, caches := s.caches.set nibble r.accesses }
      else gettersLoop fuel start rest (j + 1) s

/-- The result of `ParallelGet`: the values, the error, and the trie after the call. -/
structure ParGetRes where
  values : List (List Nat)
  err : Option Err
  trie : Trie

/-- Go `ParallelGet`: one lookup task per shard; the error returned is always nil. -/
def ParallelGet (fuel : Nat) (t : Trie) (keys : List (List Nat)) : Run ParGetRes :=
  let values : List (List Nat) := List.replicate keys.length []
  if keys.length = 0 then pure ⟨values, none, t⟩
  else
    match ParallelWorker 16 16 (fun start _ _ s => gettersLoop fuel start keys 0 s)
        ⟨values, NewAccessListCaches 16, t⟩ with
    | .error e => .error e
    | .ok s => pure ⟨s.values, none, s.trie⟩

/-! ## Concrete tries used as inputs -/

/-- A trie handle over the empty database with the given root, a fresh tracer
and a zero counter. -/
def memTrie (root : Node) : Trie :=
  { root := root, reader := emptyReader, tracer := [], unhashed := 0, committed := false }

/-- The results of a lookup without the access cache. -/
def GetRes.core (r : GetRes) : List Nat × Node × Bool × Option Err :=
  (r.value, r.newnode, r.didResolve, r.err)

/-- The value of a sequential `ThreadSafeGet` of one key with a fresh cache. -/
def lookupValue (fuel : Nat) (t : Trie) (key : List Nat) : Run (List Nat) :=
  Except.map LookupRes.value (ThreadSafeGet fuel t key AccessListCache.empty)

/-- A reader over a one-node database: the hash `[7]` holds a leaf for the
remaining path `[0, 16]` with value `[5]`; every other read is a missing node. -/
def leafReader : Reader :=
  { node := fun path h => if h = [7] then .ok [7, 7] else .error (Err.missingNode h path),
    decode := fun _ blob =>
      if blob = [7, 7] then some (Node.short [0, term16] (Node.value [5])) else none }

/-- A branch root whose child 0 is the hash reference `[7]` and whose child 1
is a leaf with value `[9]`. -/
def hashChildRoot : Node :=
  Node.full (Function.update (Function.update noChildren 0 (Node.hash [7])) 1
    (Node.short [0, term16] (Node.value [9])))

/-- The trie with root `hashChildRoot` over `leafReader`. -/
def resolvableTrie : Trie :=
  { root := hashChildRoot, reader := leafReader, tracer := [], unhashed := 0, committed := false }

/-- Child slots: slot 0 is a hash reference missing from the database, slot 1
is a leaf. -/
def danglingChildren : Nibble → Node :=
  Function.update (Function.update noChildren 0 (Node.hash [7])) 1
    (Node.short [0, term16] (Node.value [9]))

/-- A branch root with the children `danglingChildren`. -/
def danglingRoot : Node := Node.full danglingChildren

/-- Child slots: slot 0 is a branch with two hash references, `[7]` in slot 0
and `[8]` in slot 1, both missing from the database; slot 1 is a leaf. -/
def twoDanglingChildren : Nibble → Node :=
  Function.update (Function.update noChildren 0
    (Node.full (Function.update (Function.update noChildren 0 (Node.hash [7])) 1
      (Node.hash [8])))) 1
    (Node.short [0, term16] (Node.value [9]))

/-- A branch root with the children `twoDanglingChildren`. -/
def twoDanglingRoot : Node := Node.full twoDanglingChildren

/-- The pairs of shard `start` run on the snapshot of that shard alone, from
index `i` on: the snapshot at the end and the errors the engine returned, in
list order. -/
def shardRun (rd : Reader) (fuel : Nat) (root : Node) (values : List (List Nat)) (start : Nat) :
    List (List Nat) → Nat → Node → List Err → Run (Node × List Err)
  | [], _, snap, es => pure (snap, es)
  | key :: rest, i, snap, es =>
    if shardOf key = start then
      match values.get? i with
      | none => .error Stop.panic
      | some value =>
        match threadSafeUpdate rd fuel (if snap.isNil then root else snap) key value with
        | .error e => .error e
        | .ok (n, err, _) =>
          shardRun rd fuel root values start rest (i + 1) n
            (match err with
             | some e => es ++ [e]
             | none => es)
    else shardRun rd fuel root values start rest (i + 1) snap es

/-! ## Insertion on in-memory trees, as a pure function -/

/-- Go `_, ok := n.(valueNode)`. -/
def Node.isValue : Node → Bool
  | .value _ => true
  | _ => false

/-- The node the engine's `insert` builds from a nil node: the value itself for
an empty key, a short node otherwise. -/
def leaf (k : List Nibble) (v : Node) : Node :=
  match k with
  | [] => v
  | _ :: _ => Node.short k v

/-- The node returned by the engine's `insert` on a tree without hash
references: the same case analysis as `insertAux`, without the dirty flag, the
tracer and the reader. -/
def ins : Node → List Nibble → Node → Node
  | n, key, value =>
    match key with
    | [] => value
    | a :: rest =>
      match n with
      | .short k val =>
        if prefixLen key k = k.length then
          Node.short k (ins val (key.drop (prefixLen key k)) value)
        else
          match k.get? (prefixLen key k), key.get? (prefixLen key k) with
          | some kn, some kk =>
            let branch := Node.full
              (Function.update (Function.update noChildren kn
                (leaf (k.drop (prefixLen key k + 1)) val)) kk
                (leaf (key.drop (prefixLen key k + 1)) value))
            if prefixLen key k = 0 then branch
            else Node.short (key.take (prefixLen key k)) branch
          | _, _ => Node.short k val
      | .full c => Node.full (Function.update c a (ins (c a) rest value))
      | .nil => Node.short key value
      | .value w => Node.value w
      | .hash h => Node.hash h

/-- A hex key as produced by `keybytesToHex`: hex digits, then the terminator. -/
def termKey : List Nibble → Prop
  | [] => False
  | [a] => a = term16
  | a :: b :: rest => a ≠ term16 ∧ termKey (b :: rest)

/-- A nibble sequence without the terminator. -/
def noTerm (k : List Nibble) : Prop := ∀ a ∈ k, a ≠ term16

/-- The in-memory trees the engine builds from terminated keys: no hash
references, a short node leads either by a terminated key to a value or by a
terminator-free, non-empty key to a branch, and in a branch only slot 16 may
hold a value. -/
def WFN : Node → Prop
  | .nil => True
  | .value _ => False
  | .hash _ => False
  | .short k val =>
    (termKey k ∧ val.isValue = true) ∨ (k ≠ [] ∧ noTerm k ∧ val.isFull = true ∧ WFN val)
  | .full c =>
    ((c term16).isNil = true ∨ (c term16).isValue = true) ∧ ∀ i, i ≠ term16 → WFN (c i)

/-- A short node one nibble longer: the nibble is put in front of the key of a
short node, any other node becomes the value of a one-nibble short node. -/
def consShort (x : Nibble) : Node → Node
  | .short k v => Node.short (x :: k) v
  | n => Node.short [x] n

/-- The pairs of a batch applied in list order by the pure insertion. -/
def insAll (n : Node) : List (List Nat × List Nat) → Node
  | [] => n
  | (k, v) :: rest => insAll (ins n (keybytesToHex k) (Node.value v)) rest

/-- A node that is a short node or a branch. -/
def Node.isInner (n : Node) : Bool := n.isShort || n.isFull

/-- The keys the engine may meet at a node of a well-formed tree: a terminated
key at a well-formed node, or the used-up key at a value or at an empty slot. -/
def Compat (n : Node) (key : List Nibble) : Prop :=
  (WFN n ∧ termKey key) ∨ ((n.isValue = true ∨ n.isNil = true) ∧ key = [])

/-- The pairs of a batch applied one at a time, in list order, through the
base engine's single-key `Update` (an empty value deletes; errors of single
updates are dropped). -/
def UpdateAll (fuel : Nat) : Trie → List (List Nat × List Nat) → Run Trie
  | t, [] => pure t
  | t, (k, v) :: rest =>
    match t.Update fuel k v with
    | .error s => .error s
    | .ok (t1, _) => UpdateAll fuel t1 rest

/-- The pairs that the bootstrap loop of `initSubRoots` applies: the first pair
of every shard index that is not yet marked. -/
def bootPairs : List (List Nat × List Nat) → List Bool → List (List Nat × List Nat)
  | [], _ => []
  | (k, v) :: rest, intialized =>
    if !(intialized.getD (shardOf k) true) then
      (k, v) :: bootPairs rest (intialized.set (shardOf k) true)
    else bootPairs rest intialized

/-- The value stored in slot 16 of a branch root (the value of the empty key),
empty when the root is no branch or the slot holds no value. -/
def Node.slot16Value : Node → List Nat
  | .full c =>
    match c term16 with
    | .value v => v
    | _ => []
  | _ => []

/-- Whether a run returned a result that passes the check. -/
def Run.check {α : Type} (r : Run α) (p : α → Bool) : Bool :=
  match r with
  | .ok a => p a
  | .error _ => false

/-- Whether a run ended in a panic. -/
def Run.panics {α : Type} (r : Run α) : Bool :=
  match r with
  | .error Stop.panic => true
  | _ => false

/-! ## The scheduler, task by task -/

/-- The body of the goroutine that `ParallelWorker` starts for range `i`: the
worker is invoked with `(ranges[i], ranges[i+1], i)` when the range is not empty. -/
def runTask {σ : Type} (worker : Nat → Nat → Nat → σ → Run σ) (ranges : List Nat) (i : Nat)
    (s : σ) : Run σ :=
  if ranges.getD i 0 ≠ ranges.getD (i + 1) 0 then
    worker (ranges.getD i 0) (ranges.getD (i + 1) 0) i s
  else pure s

/-- The goroutines of the listed ranges run to completion one after the other,
in the listed order. -/
def runTasksIn {σ : Type} (worker : Nat → Nat → Nat → σ → Run σ) (ranges : List Nat) :
    List Nat → σ → Run σ
  | [], s => pure s
  | i :: rest, s =>
    match runTask worker ranges i s with
    | .error e => .error e
    | .ok s1 => runTasksIn worker ranges rest s1

/-- Go `ParallelWorker` under a schedule: `order` lists the indices of the
goroutines in the order in which they run. -/
def ParallelWorkerIn {σ : Type} (order : List Nat) (total nThds : Nat)
    (worker : Nat → Nat → Nat → σ → Run σ) (s : σ) : Run σ :=
  runTasksIn worker (GenerateRanges total nThds) order s

/-- A worker that only records the arguments of its invocation. -/
def logWorker (start stop idx : Nat) (log : List (Nat × Nat × Nat)) :
    Run (List (Nat × Nat × Nat)) :=
  pure (log ++ [(start, stop, idx)])

/-- The invocations that the contract of the scheduler prescribes: one
`(b[i], b[i+1], i)` for every non-empty range of `GenerateRanges`, none for an
empty range. -/
def expectedCalls (total nThds : Nat) : List (Nat × Nat × Nat) :=
  (List.range nThds).filterMap (fun i =>
    if (GenerateRanges total nThds).getD i 0 ≠ (GenerateRanges total nThds).getD (i + 1) 0 then
      some ((GenerateRanges total nThds).getD i 0, (GenerateRanges total nThds).getD (i + 1) 0, i)
    else none)

/-- A worker invoked on a list of argument triples, in list order. -/
def runCalls {σ : Type} (worker : Nat → Nat → Nat → σ → Run σ) :
    List (Nat × Nat × Nat) → σ → Run σ
  | [], s => pure s
  | (a, b, i) :: rest, s =>
    match worker a b i s with
    | .error e => .error e
    | .ok s1 => runCalls worker rest s1

/-! ## The scheduler of the sharded database (`parahashdb/util.go`) -/

/-- The boundaries computed at the head of the sharded database's
`ParallelWorker`: for `i = 0..nThds` the smaller of `float64(step * i)` and
`float64(nThds)`, turned back into an `int`, where `step` is
`int(math.Ceil(float64(total) / float64(nThds)))`. -/
def hashdb.ranges (total nThds : Nat) : List Nat :=
  let step := (Float64.ceil (Float64.div (Float64.ofInt total) (Float64.ofInt nThds))).toInt
  (List.range (nThds + 1)).map (fun i =>
    (Float64.min (Float64.ofInt (step * i)) (Float64.ofInt nThds)).toInt)

/-- Go `ParallelWorker` of package `hashdb`: one task per non-empty range of its
own boundaries, joined before returning (tasks run in index order). -/
def hashdb.ParallelWorker {σ : Type} (total nThds : Nat)
    (worker : Nat → Nat → Nat → σ → Run σ) (s : σ) : Run σ :=
  runRanges worker (hashdb.ranges total nThds) 0 s

/-! ## Go maps

A Go map is a finite table with one entry for each key.  It is kept as the list of its entries;
the order of the list is not observable through `GoMap.find`, and a `range` loop over the map
visits the entries in an order chosen by the runtime. -/

abbrev GoMap (K V : Type) := List (K × V)

/-- Go `m[k]` with the comma-ok result. -/
def GoMap.find {K V : Type} [DecidableEq K] : GoMap K V → K → Option V
  | [], _ => none
  | (k1, v1) :: rest, k => if k1 = k then some v1 else GoMap.find rest k

/-- Go `m[k] = v`. -/
def GoMap.put {K V : Type} [DecidableEq K] : GoMap K V → K → V → GoMap K V
  | [], k, v => [(k, v)]
  | (k1, v1) :: rest, k, v =>
    if k1 = k then (k1, v) :: rest else (k1, v1) :: GoMap.put rest k v

/-- Go `delete(m, k)`. -/
def GoMap.del {K V : Type} [DecidableEq K] (m : GoMap K V) (k : K) : GoMap K V :=
  m.filter (fun e => decide (e.1 ≠ k))

/-- The keys of a map, in the order of its entries. -/
def GoMap.keyList {K V : Type} (m : GoMap K V) : List K := m.map Prod.fst

/-! ## The access cache: `Merge`, `ToMap`, `Unique` (`access_list_cache_paralllel.go`) -/

/-- The caches that exist, by address; a pointer `*AccessListCache` is an index into this list
and a pointer that is not an index is `nil`. -/
abbrev CacheHeap := List AccessListCache

/-- The loop of `Merge`: for each argument in order, append its keys and then its data to the
receiver.  The argument is read from the heap at the moment of its turn. -/
def AccessListCache.MergeLoop (this : Nat) : List Nat → CacheHeap → Run CacheHeap
  | [], h => pure h
  | v :: rest, h =>
    match h.get? this, h.get? v with
    | some t, some c =>
      let t1 : AccessListCache := { t with keys := t.keys ++ c.keys }
      let h1 := h.set this t1
      match h1.get? v with
      | some c1 =>
        AccessListCache.MergeLoop this rest
          (h1.set this { t1 with data := t1.data ++ c1.data })
      | none => .error .panic
    | _, _ => .error .panic

/-- Go `this.Merge(accesses...)` on the heap. -/
def AccessListCache.Merge (h : CacheHeap) (this : Nat) (accesses : List Nat) : Run CacheHeap :=
  AccessListCache.MergeLoop this accesses h

/-- The loop of `ToMap`: `hashmap[string(k)] = this.data[i]` for the keys from index `i` on;
indexing `data` out of range panics. -/
def AccessListCache.ToMapLoop (data : List (List Nat)) :
    List (List Nat) → Nat → GoMap (List Nat) (List Nat) → Run (GoMap (List Nat) (List Nat))
  | [], _, m => pure m
  | k :: ks, i, m =>
    match data.get? i with
    | none => .error .panic
    | some d => AccessListCache.ToMapLoop data ks (i + 1) (m.put k d)

/-- Go `ToMap`. -/
def AccessListCache.ToMap (c : AccessListCache) : Run (GoMap (List Nat) (List Nat)) :=
  AccessListCache.ToMapLoop c.data c.keys 0 []

/-- Go `Unique`: the keys and the values of the map of `ToMap`, in the order in which the
`range` loop visits the map; `iter` is that order. -/
def AccessListCache.Unique (iter : GoMap (List Nat) (List Nat) → GoMap (List Nat) (List Nat))
    (c : AccessListCache) : Run (List (List Nat) × List (List Nat)) :=
  match c.ToMap with
  | .error e => .error e
  | .ok hashmap =>
    pure ((iter hashmap).foldl (fun (kv : List (List Nat) × List (List Nat)) e =>
      (kv.1 ++ [e.1], kv.2 ++ [e.2])) ([], []))

/-- The caches that `Add` and `Merge` build from an empty cache: `Merge` appends the records
that its argument holds at that moment, and the argument may be the receiver itself. -/
inductive Built : AccessListCache → Prop
  | empty : Built AccessListCache.empty
  | add (c : AccessListCache) (key val : List Nat) : Built c → Built (c.Add key val)
  | merge (t c : AccessListCache) : Built t → Built c →
      Built ⟨t.keys ++ c.keys, t.data ++ c.data⟩

/-- Storing a list of entries into a map, first to last. -/
def GoMap.putAll {K V : Type} [DecidableEq K] (m : GoMap K V) (recs : List (K × V)) : GoMap K V :=
  recs.foldl (fun m e => GoMap.put m e.1 e.2) m

/-- The keys recorded by the caches at the addresses `accesses`, in argument order. -/
def keysOf (h : CacheHeap) (accesses : List Nat) : List (List Nat) :=
  (accesses.map (fun a => (h.getD a AccessListCache.empty).keys)).flatten

/-- The blobs recorded by the caches at the addresses `accesses`, in argument order. -/
def dataOf (h : CacheHeap) (accesses : List Nat) : List (List Nat) :=
  (accesses.map (fun a => (h.getD a AccessListCache.empty).data)).flatten

/-- Three caches: an empty target, and two caches that both record the path `[7]`, with
different blobs. -/
def exampleHeap : CacheHeap :=
  [AccessListCache.empty,
   ((AccessListCache.empty.Add [1] [11]).Add [2] [21]).Add [7] [77],
   ((AccessListCache.empty.Add [3] [21]).Add [4] [22]).Add [7] [78]]

/-- The target of `exampleHeap` after merging the two other caches into it. -/
def exampleMerged : AccessListCache :=
  ⟨[[1], [2], [7], [3], [4], [7]], [[11], [21], [77], [21], [22], [78]]⟩

/-! ## Loops over a list of items -/

/-- A `for` loop whose body may panic: the body runs for each item in turn on the state
left by the previous item. -/
def Run.forEach {α σ : Type} (step : α → σ → Run σ) : List α → σ → Run σ
  | [], s => pure s
  | x :: rest, s =>
    match step x s with
    | .error e => .error e
    | .ok s1 => Run.forEach step rest s1

/-! ## The node-change-set regrouper (`trienode/regrouper.go`) -/

/-- Modelled from the spec: a node mutation of a change set (`trienode.Node`, declared outside
src/): the hash and the blob of the node. -/
structure TNode where
  Hash : Nat
  Blob : List Nat
  deriving DecidableEq, Repr

/-- Modelled from the spec: the node mutations of one owner (`trienode.NodeSet`, declared
outside src/): the owner and `Nodes`, the map from path to node.  The fields that `Regroup`
and `Count` neither read nor write are left out. -/
structure NodeSet where
  Owner : Nat
  Nodes : GoMap (List Nat) TNode
  deriving DecidableEq, Repr

/-- The node sets that exist, by address; a `*NodeSet` is an index into this list and a pointer
that is not an index is `nil`. -/
abbrev SetHeap := List NodeSet

/-- Modelled from the spec: a node-change-set (`trienode.MergedNodeSet`, declared outside
src/): `Sets`, the map from owner to (a pointer to) its node set. -/
structure MergedNodeSet where
  Sets : GoMap Nat Nat
  deriving DecidableEq, Repr

/-- Modelled from the spec: `NewNodeSet(owner)`, an empty node set of the owner. -/
def NewNodeSet (owner : Nat) : NodeSet := ⟨owner, []⟩

/-- Modelled from the spec: `NewMergedNodeSet()`, a change set without owners. -/
def NewMergedNodeSet : MergedNodeSet := ⟨[]⟩

/-- The variables of `Regroup`: the heap of node sets, `regrouped` and `shards`. -/
structure RegroupState where
  heap : SetHeap
  regrouped : List MergedNodeSet
  shards : List Bool
  deriving DecidableEq, Repr

/-- The statement `regrouped[i].Sets[owner] = NewNodeSet(owner)`: a fresh node set is allocated
at the end of the heap. -/
def Regroup.allocStep (i : Nat) (owner : Nat) (s : RegroupState) : Run RegroupState :=
  match s.regrouped.get? i with
  | none => .error .panic
  | some m =>
    pure { s with
      heap := s.heap ++ [NewNodeSet owner]
      regrouped := s.regrouped.set i ⟨GoMap.put m.Sets owner s.heap.length⟩ }

/-- The body of the first loop for index `i`: a fresh change set, then a fresh node set for
every owner of the input, in the order `owners` of the `range` over `set.Sets`. -/
def Regroup.initRound (owners : Nat → List Nat) (i : Nat) (s : RegroupState) :
    Run RegroupState :=
  Run.forEach (Regroup.allocStep i) (owners i)
    { s with regrouped := s.regrouped.set i NewMergedNodeSet }

/-- The statement `regrouped[i].Sets[owner].Nodes[k] = v`; a missing change set, owner or node
set is a `nil` dereference. -/
def Regroup.store (i : Nat) (owner : Nat) (k : List Nat) (v : TNode) (s : RegroupState) :
    Run RegroupState :=
  match s.regrouped.get? i with
  | none => .error .panic
  | some m =>
    match GoMap.find m.Sets owner with
    | none => .error .panic
    | some a =>
      match s.heap.get? a with
      | none => .error .panic
      | some ns => pure { s with heap := s.heap.set a { ns with Nodes := GoMap.put ns.Nodes k v } }

/-- The body of the innermost loop for the entry `k, v` of the owner: a non-empty path marks
`shards[k[0]]` (an index past the 16 flags panics) and goes to `regrouped[k[0]]`, the empty
path goes to `regrouped[16]`. -/
def Regroup.place (owner : Nat) (e : List Nat × TNode) (s : RegroupState) : Run RegroupState :=
  match e.1 with
  | [] => Regroup.store 16 owner e.1 e.2 s
  | b :: _ =>
    if b < s.shards.length then
      Regroup.store b owner e.1 e.2 { s with shards := s.shards.set b true }
    else .error .panic

/-- The body of the loop over `set.Sets` for the entry `owner, v`: the loop over `v.Nodes`,
visited in the order `iterN`; `v` is read from the heap. -/
def Regroup.ownerStep (iterN : GoMap (List Nat) TNode → GoMap (List Nat) TNode)
    (e : Nat × Nat) (s : RegroupState) : Run RegroupState :=
  match s.heap.get? e.2 with
  | none => .error .panic
  | some ns => Run.forEach (Regroup.place e.1) (iterN ns.Nodes) s

/-- The outcome of `Regroup`: the heap, and the three results. -/
structure RegroupRes where
  heap : SetHeap
  sharded : List MergedNodeSet
  rootShard : MergedNodeSet
  shards : List Bool
  deriving DecidableEq, Repr

/-- Go `Regroup`.  `iterS r` is the order in which the `r`-th `range` over `set.Sets` visits
the map (17 in the first loop, 17 in the second), `iterN r` the order of the `range` loops
over the node maps in round `r` of the second loop. -/
def MergedNodeSet.Regroup (iterS : Nat → GoMap Nat Nat → GoMap Nat Nat)
    (iterN : Nat → GoMap (List Nat) TNode → GoMap (List Nat) TNode)
    (h : SetHeap) (set : MergedNodeSet) : Run RegroupRes :=
  match Run.forEach (Regroup.initRound (fun i => GoMap.keyList (iterS i set.Sets)))
      (List.range 17) ⟨h, List.replicate 17 NewMergedNodeSet, List.replicate 16 false⟩ with
  | .error e => .error e
  | .ok s1 =>
    match Run.forEach (fun i s => Run.forEach (Regroup.ownerStep (iterN i))
        (iterS (17 + i) set.Sets) s) (List.range s1.regrouped.length) s1 with
    | .error e => .error e
    | .ok s2 =>
      pure ⟨s2.heap, s2.regrouped.take 16, s2.regrouped.getD 16 NewMergedNodeSet, s2.shards⟩

/-- Go `MergedNodeSets.Count`: the sum of `len(v.Nodes)` over the node sets of all the change
sets; `iter` is the order of the `range` over `Sets`.  The sum stays far below the range of
`int`: every counted entry is held in memory. -/
def MergedNodeSets.Count (iter : GoMap Nat Nat → GoMap Nat Nat) (h : SetHeap)
    (nodeset : List MergedNodeSet) : Run Nat :=
  Run.forEach (fun (m : MergedNodeSet) total =>
    Run.forEach (fun (e : Nat × Nat) total =>
      match h.get? e.2 with
      | none => .error .panic
      | some v => pure (total + v.Nodes.length)) (iter m.Sets) total) nodeset 0

/-- The node stored under `owner` and `path` in a change set. -/
def MergedNodeSet.lookup (h : SetHeap) (m : MergedNodeSet) (owner : Nat) (path : List Nat) :
    Option TNode :=
  match GoMap.find m.Sets owner with
  | none => none
  | some a =>
    match h.get? a with
    | none => none
    | some ns => GoMap.find ns.Nodes path

/-- The subset a path belongs to: its first byte, or 16 for the empty path. -/
def routeOf (path : List Nat) : Nat :=
  match path with
  | [] => 16
  | b :: _ => b

/-- The node set of `owner` in `regrouped[i]` is at address `a`. -/
def Regroup.addr (s : RegroupState) (i owner a : Nat) : Prop :=
  ∃ m, s.regrouped.get? i = some m ∧ GoMap.find m.Sets owner = some a

/-- What holds of the variables of `Regroup` at every point of its two loops, for the input
`set` on the heap `h0`: the node sets of the input are as they were; the node sets of
`regrouped` are fresh and pairwise different; and a node found in `regrouped[i]` under an
owner and a path is the input's node for them, with the path routed to `i`. -/
structure Regroup.Inv (h0 : SetHeap) (set : MergedNodeSet) (s : RegroupState) : Prop where
  lenR : s.regrouped.length = 17
  lenS : s.shards.length = 16
  lenH : h0.length ≤ s.heap.length
  old : ∀ x, x < h0.length → s.heap.get? x = h0.get? x
  fresh : ∀ i o a, Regroup.addr s i o a → h0.length ≤ a ∧ a < s.heap.length
  owners : ∀ i o a, Regroup.addr s i o a → o ∈ GoMap.keyList set.Sets
  inj : ∀ i o a i2 o2, Regroup.addr s i o a → Regroup.addr s i2 o2 a → i = i2 ∧ o = o2
  keysR : ∀ i m, s.regrouped.get? i = some m → (GoMap.keyList m.Sets).Nodup
  sound : ∀ i o a ns k n, Regroup.addr s i o a → s.heap.get? a = some ns →
    GoMap.find ns.Nodes k = some n → routeOf k = i ∧ MergedNodeSet.lookup h0 set o k = some n
  keysN : ∀ a ns, h0.length ≤ a → s.heap.get? a = some ns → (GoMap.keyList ns.Nodes).Nodup

/-- The input's node for `owner` and `path` is stored in the subset the path is routed to. -/
def Regroup.Stored (s : RegroupState) (b : Nat × List Nat × TNode) : Prop :=
  ∃ a ns, Regroup.addr s (routeOf b.2.1) b.1 a ∧ s.heap.get? a = some ns ∧
    GoMap.find ns.Nodes b.2.1 = some b.2.2

/-- A well-formed input of `Regroup`: `set.Sets` and the `Nodes` of its node sets are maps (one
entry for each key) and no node set pointer is `nil`. -/
structure Regroup.WF (h0 : SetHeap) (set : MergedNodeSet) : Prop where
  keysS : (GoMap.keyList set.Sets).Nodup
  valid : ∀ e ∈ set.Sets, e.2 < h0.length
  keysN : ∀ e ∈ set.Sets, ∀ ns, h0.get? e.2 = some ns → (GoMap.keyList ns.Nodes).Nodup

/-- Every non-empty path of the input starts with a nibble (a byte below 16). -/
def Regroup.Routable (h0 : SetHeap) (set : MergedNodeSet) : Prop :=
  ∀ o k n, MergedNodeSet.lookup h0 set o k = some n → ∀ b, k.head? = some b → b < 16

/-- A heap with the node sets of two owners: owner 7 with the paths `[1, 2]`, `[]` and `[3]`,
owner 8 with the path `[1]`. -/
def exampleSetHeap : SetHeap :=
  [⟨7, [([1, 2], ⟨1, [1]⟩), ([], ⟨2, [2]⟩), ([3], ⟨3, [3]⟩)]⟩, ⟨8, [([1], ⟨4, []⟩)]⟩]

/-- The change set of the two owners of `exampleSetHeap`. -/
def exampleSet : MergedNodeSet := ⟨[(7, 0), (8, 1)]⟩

/-- A change set with a path that starts with the byte 16. -/
def exampleSetHeap16 : SetHeap := [⟨7, [([16], ⟨1, [1]⟩)]⟩]

/-- The number of entries of the node set at an address (0 for `nil`). -/
def cellLen (h : SetHeap) (a : Nat) : Nat :=
  match h.get? a with
  | some ns => ns.Nodes.length
  | none => 0

/-- The number of node mutations of a change set: the entries of all its node sets. -/
def countOf (h : SetHeap) (m : MergedNodeSet) : Nat :=
  (m.Sets.map (fun e => cellLen h e.2)).sum

/-- The entries that the input holds for an owner. -/
def inputNodes (h0 : SetHeap) (set : MergedNodeSet) (o : Nat) : GoMap (List Nat) TNode :=
  match GoMap.find set.Sets o with
  | none => []
  | some a =>
    match h0.get? a with
    | none => []
    | some ns => ns.Nodes

/-! ## The tracers (`tracers_parallel.go`) -/

/-- Modelled from the spec: the single-shard tracer (`tracer`, declared outside src/): the
insert set, the delete set and the access list, each keyed by path. -/
structure tracer where
  inserts : GoMap (List Nat) Unit
  deletes : GoMap (List Nat) Unit
  accessList : GoMap (List Nat) (List Nat)
  deriving DecidableEq, Repr

/-- Modelled from the spec: `newTracer()`, a tracer that holds nothing. -/
def newTracer : tracer := ⟨[], [], []⟩

/-- Modelled from the spec: `onRead` of the single-shard tracer caches the blob under the
path. -/
def tracer.onRead (t : tracer) (path val : List Nat) : tracer :=
  { t with accessList := GoMap.put t.accessList path val }

/-- Modelled from the spec: `onInsert` of the single-shard tracer: a path in the delete set
is wiped from it ("untouched"), any other path joins the insert set. -/
def tracer.onInsert (t : tracer) (path : List Nat) : tracer :=
  match GoMap.find t.deletes path with
  | some _ => { t with deletes := GoMap.del t.deletes path }
  | none => { t with inserts := GoMap.put t.inserts path () }

/-- Modelled from the spec: `onDelete` of the single-shard tracer: a path in the insert set
is wiped from it ("untouched"), any other path joins the delete set. -/
def tracer.onDelete (t : tracer) (path : List Nat) : tracer :=
  match GoMap.find t.inserts path with
  | some _ => { t with inserts := GoMap.del t.inserts path }
  | none => { t with deletes := GoMap.put t.deletes path () }

/-- Modelled from the spec: `reset` of the single-shard tracer clears what it holds. -/
def tracer.reset (_t : tracer) : tracer := ⟨[], [], []⟩

/-- Modelled from the spec: `copy` of the single-shard tracer, a deep copy: a new tracer with
the same content (the caller stores it at a fresh address). -/
def tracer.copy (t : tracer) : tracer := ⟨t.inserts, t.deletes, t.accessList⟩

/-- The single-shard tracers that exist, by address; a `*tracer` is an index into this list
and a pointer that is not an index is `nil`. -/
abbrev TracerHeap := List tracer

/-- The parallel tracer: `tracers [17]*tracer`, the addresses of its sub-tracers. -/
structure parallelTracer where
  tracers : List Nat
  deriving DecidableEq, Repr

/-- The loop of `newParaTracer`: `paraTracer.tracers[i] = newTracer()` for each index. -/
def newParaTracerLoop : List Nat → TracerHeap × parallelTracer → TracerHeap × parallelTracer
  | [], s => s
  | i :: rest, s =>
    newParaTracerLoop rest (s.1 ++ [newTracer], ⟨s.2.tracers.set i s.1.length⟩)

/-- Go `newParaTracer`: 17 fresh single-shard tracers.  The array starts with 17 `nil`
pointers, written here as the address past the heap. -/
def newParaTracer (h : TracerHeap) : TracerHeap × parallelTracer :=
  newParaTracerLoop (List.range 17) (h, ⟨List.replicate 17 (h.length + 17)⟩)

/-- The sub-tracer `t.tracers[i]`, dereferenced: an index outside the array and a `nil`
pointer panic. -/
def parallelTracer.sub (t : parallelTracer) (h : TracerHeap) (i : Nat) : Run (Nat × tracer) :=
  match t.tracers.get? i with
  | none => .error .panic
  | some a =>
    match h.get? a with
    | none => .error .panic
    | some tr => pure (a, tr)

/-- Go `parallelTracer.onRead`: to `tracers[path[0]]`, or to `tracers[16]` for the empty
path. -/
def parallelTracer.onRead (t : parallelTracer) (path val : List Nat) (h : TracerHeap) :
    Run TracerHeap :=
  match t.sub h (routeOf path) with
  | .error e => .error e
  | .ok (a, tr) => pure (h.set a (tr.onRead path val))

/-- Go `parallelTracer.onInsert`. -/
def parallelTracer.onInsert (t : parallelTracer) (path : List Nat) (h : TracerHeap) :
    Run TracerHeap :=
  match t.sub h (routeOf path) with
  | .error e => .error e
  | .ok (a, tr) => pure (h.set a (tr.onInsert path))

/-- Go `parallelTracer.onDelete`. -/
def parallelTracer.onDelete (t : parallelTracer) (path : List Nat) (h : TracerHeap) :
    Run TracerHeap :=
  match t.sub h (routeOf path) with
  | .error e => .error e
  | .ok (a, tr) => pure (h.set a (tr.onDelete path))

/-- Go `parallelTracer.reset`: every sub-tracer is reset, in place. -/
def parallelTracer.reset (t : parallelTracer) (h : TracerHeap) : Run TracerHeap :=
  Run.forEach (fun i h =>
    match t.sub h i with
    | .error e => .error e
    | .ok (a, tr) => pure (h.set a tr.reset)) (List.range 17) h

/-- Go `parallelTracer.copy`: a new parallel tracer whose slots are then pointed at fresh
copies of the sub-tracers. -/
def parallelTracer.copy (t : parallelTracer) (h : TracerHeap) :
    Run (TracerHeap × parallelTracer) :=
  Run.forEach (fun i (s : TracerHeap × parallelTracer) =>
    match t.sub s.1 i with
    | .error e => .error e
    | .ok (_, tr) => pure (s.1 ++ [tr.copy], ⟨s.2.tracers.set i s.1.length⟩))
    (List.range 17) (newParaTracer h)

/-- Go `parallelTracer.getAccessList`: the access lists of the 17 sub-tracers, stored one
after the other into a new map; `iter i` is the order of the `range` over sub-tracer `i`. -/
def parallelTracer.getAccessList
    (iter : Nat → GoMap (List Nat) (List Nat) → GoMap (List Nat) (List Nat))
    (t : parallelTracer) (h : TracerHeap) : Run (GoMap (List Nat) (List Nat)) :=
  Run.forEach (fun i acc =>
    match t.sub h i with
    | .error e => .error e
    | .ok (_, tr) => pure (GoMap.putAll acc (iter i tr.accessList))) (List.range 17) []

/-- Go `parallelTracer.getDeletes`. -/
def parallelTracer.getDeletes (iter : Nat → GoMap (List Nat) Unit → GoMap (List Nat) Unit)
    (t : parallelTracer) (h : TracerHeap) : Run (GoMap (List Nat) Unit) :=
  Run.forEach (fun i acc =>
    match t.sub h i with
    | .error e => .error e
    | .ok (_, tr) => pure (GoMap.putAll acc (iter i tr.deletes))) (List.range 17) []

/-- Go `parallelTracer.getInserts`. -/
def parallelTracer.getInserts (iter : Nat → GoMap (List Nat) Unit → GoMap (List Nat) Unit)
    (t : parallelTracer) (h : TracerHeap) : Run (GoMap (List Nat) Unit) :=
  Run.forEach (fun i acc =>
    match t.sub h i with
    | .error e => .error e
    | .ok (_, tr) => pure (GoMap.putAll acc (iter i tr.inserts))) (List.range 17) []

/-- One of the three events, sent to the parallel tracer. -/
def parallelTracer.on (t : parallelTracer) (e : TraceEvent) (h : TracerHeap) : Run TracerHeap :=
  match e with
  | .onRead path val => t.onRead path val h
  | .onInsert path => t.onInsert path h
  | .onDelete path => t.onDelete path h

/-- One of the three events, sent to a single-shard tracer. -/
def tracer.on (tr : tracer) (e : TraceEvent) : tracer :=
  match e with
  | .onRead path val => tr.onRead path val
  | .onInsert path => tr.onInsert path
  | .onDelete path => tr.onDelete path

/-- The path of an event. -/
def TraceEvent.path : TraceEvent → List Nat
  | .onRead path _ => path
  | .onInsert path => path
  | .onDelete path => path

/-- A single-shard tracer holds a path: in its insert set, its delete set or its access
list. -/
def tracer.holds (tr : tracer) (p : List Nat) : Prop :=
  p ∈ GoMap.keyList tr.inserts ∨ p ∈ GoMap.keyList tr.deletes ∨ p ∈ GoMap.keyList tr.accessList

/-- The states a parallel tracer reaches: made by `newParaTracer` or by `copy`, then
receiving events with nibble paths and resets, while the rest of the heap may change. -/
inductive parallelTracer.Reach : TracerHeap → parallelTracer → Prop
  | new (h : TracerHeap) : parallelTracer.Reach (newParaTracer h).1 (newParaTracer h).2
  | event (h h1 : TracerHeap) (t : parallelTracer) (e : TraceEvent) :
      parallelTracer.Reach h t → (∀ b ∈ e.path, b < 16) → t.on e h = .ok h1 →
      parallelTracer.Reach h1 t
  | reset (h h1 : TracerHeap) (t : parallelTracer) :
      parallelTracer.Reach h t → t.reset h = .ok h1 → parallelTracer.Reach h1 t
  | copy (h h1 : TracerHeap) (t t1 : parallelTracer) :
      parallelTracer.Reach h t → t.copy h = .ok (h1, t1) → parallelTracer.Reach h1 t1
  | frame (h h1 : TracerHeap) (t : parallelTracer) :
      parallelTracer.Reach h t → (∀ a ∈ t.tracers, h1.get? a = h.get? a) →
      parallelTracer.Reach h1 t

/-- What holds of a parallel tracer in every state it reaches: 17 different sub-tracers, none
`nil`; sub-tracer `i` holds only nibble paths routed to `i`; no sub-tracer has a path in both
its insert set and its delete set. -/
structure parallelTracer.Inv (h : TracerHeap) (t : parallelTracer) : Prop where
  len : t.tracers.length = 17
  nodup : t.tracers.Nodup
  valid : ∀ a ∈ t.tracers, a < h.length
  routed : ∀ i a tr, t.tracers.get? i = some a → h.get? a = some tr →
    ∀ p, tr.holds p → routeOf p = i ∧ ∀ b ∈ p, b < 16
  disjoint : ∀ i a tr, t.tracers.get? i = some a → h.get? a = some tr →
    ∀ p, ¬ (p ∈ GoMap.keyList tr.inserts ∧ p ∈ GoMap.keyList tr.deletes)

/-- A call that changes a tracer: one of the three events, or `reset`. -/
inductive TracerCall where
  | event (e : TraceEvent) : TracerCall
  | reset : TracerCall
  deriving DecidableEq, Repr

/-- A call on the parallel tracer. -/
def parallelTracer.call (t : parallelTracer) (c : TracerCall) (h : TracerHeap) :
    Run TracerHeap :=
  match c with
  | .event e => t.on e h
  | .reset => t.reset h

/-- The orders in which the `range` loops of the three accessors visit the maps of the
sub-tracers. -/
structure AccessorOrders where
  accessList : Nat → GoMap (List Nat) (List Nat) → GoMap (List Nat) (List Nat)
  inserts : Nat → GoMap (List Nat) Unit → GoMap (List Nat) Unit
  deletes : Nat → GoMap (List Nat) Unit → GoMap (List Nat) Unit

/-- What the three accessors return: `getAccessList()`, `getInserts()`, `getDeletes()`. -/
def parallelTracer.accessors (o : AccessorOrders) (t : parallelTracer) (h : TracerHeap) :
    Run (GoMap (List Nat) (List Nat)) × Run (GoMap (List Nat) Unit) ×
      Run (GoMap (List Nat) Unit) :=
  (t.getAccessList o.accessList h, t.getInserts o.inserts h, t.getDeletes o.deletes h)

/-- Orders that visit every entry of a map once. -/
def AccessorOrders.Fair (o : AccessorOrders) : Prop :=
  (∀ i m, (o.accessList i m).Perm m) ∧ (∀ i m, (o.inserts i m).Perm m) ∧
    (∀ i m, (o.deletes i m).Perm m)

/-- The loop shared by the three accessors: the maps `f` of the sub-tracers of the slots `L`,
stored one after the other into `acc`. -/
def parallelTracer.mergeMaps {V : Type} (f : tracer → GoMap (List Nat) V)
    (iter : Nat → GoMap (List Nat) V → GoMap (List Nat) V) (t : parallelTracer)
    (h : TracerHeap) (L : List Nat) (acc : GoMap (List Nat) V) : Run (GoMap (List Nat) V) :=
  Run.forEach (fun i acc =>
    match t.sub h i with
    | .error e => .error e
    | .ok (_, tr) => pure (GoMap.putAll acc (iter i (f tr)))) L acc

/-- The path is a key of the map that `getInserts()` returns. -/
def parallelTracer.inInserts (iter : Nat → GoMap (List Nat) Unit → GoMap (List Nat) Unit)
    (t : parallelTracer) (h : TracerHeap) (p : List Nat) : Prop :=
  ∃ m, t.getInserts iter h = .ok m ∧ p ∈ GoMap.keyList m

/-- The map that `getInserts()` returns has no entry for the path. -/
def parallelTracer.notInInserts (iter : Nat → GoMap (List Nat) Unit → GoMap (List Nat) Unit)
    (t : parallelTracer) (h : TracerHeap) (p : List Nat) : Prop :=
  ∃ m, t.getInserts iter h = .ok m ∧ p ∉ GoMap.keyList m

/-- The path is a key of the map that `getDeletes()` returns. -/
def parallelTracer.inDeletes (iter : Nat → GoMap (List Nat) Unit → GoMap (List Nat) Unit)
    (t : parallelTracer) (h : TracerHeap) (p : List Nat) : Prop :=
  ∃ m, t.getDeletes iter h = .ok m ∧ p ∈ GoMap.keyList m

/-- The map that `getDeletes()` returns has no entry for the path. -/
def parallelTracer.notInDeletes (iter : Nat → GoMap (List Nat) Unit → GoMap (List Nat) Unit)
    (t : parallelTracer) (h : TracerHeap) (p : List Nat) : Prop :=
  ∃ m, t.getDeletes iter h = .ok m ∧ p ∉ GoMap.keyList m

/-! ## What a lookup resolves on its way down -/

/-- The hash-referenced nodes met on the way down from a node along `key`, from position
`pos` on, with what the reader returns for them: `Resolved rd n key pos recs e` says that the
descent resolves the nodes recorded in `recs`, root side first, each with the nibble prefix
of `key` that leads to it and the blob read for it, and ends without error (`e = none`) or
at a node whose read fails with `e`.  A short node whose key is not next in `key`, a value
and an empty slot end the descent. -/
inductive Resolved (rd : Reader) :
    Node → List Nibble → Nat → List (List Nat × List Nat) → Option Err → Prop
  | nil (key : List Nibble) (pos : Nat) : Resolved rd Node.nil key pos [] none
  | value (v : List Nat) (key : List Nibble) (pos : Nat) :
      Resolved rd (Node.value v) key pos [] none
  | shortMiss (k : List Nibble) (val : Node) (key : List Nibble) (pos : Nat) :
      ((key.length : Int) - (pos : Int) < (k.length : Int)
        ∨ k ≠ (key.drop pos).take k.length) →
      Resolved rd (Node.short k val) key pos [] none
  | shortHit (k : List Nibble) (val : Node) (key : List Nibble) (pos : Nat)
      (recs : List (List Nat × List Nat)) (e : Option Err) :
      ¬ ((key.length : Int) - (pos : Int) < (k.length : Int)
        ∨ k ≠ (key.drop pos).take k.length) →
      Resolved rd val key (pos + k.length) recs e →
      Resolved rd (Node.short k val) key pos recs e
  | full (c : Nibble → Node) (key : List Nibble) (pos : Nat) (i : Nibble)
      (recs : List (List Nat × List Nat)) (e : Option Err) :
      key.get? pos = some i → Resolved rd (c i) key (pos + 1) recs e →
      Resolved rd (Node.full c) key pos recs e
  | hashFail (h : List Nat) (key : List Nibble) (pos : Nat) (e : Err) :
      rd.node (pathBytes (key.take pos)) h = .error e →
      Resolved rd (Node.hash h) key pos [] (some e)
  | hashOk (h : List Nat) (key : List Nibble) (pos : Nat) (blob : List Nat) (n : Node)
      (recs : List (List Nat × List Nat)) (e : Option Err) :
      rd.node (pathBytes (key.take pos)) h = .ok blob → rd.decode h blob = some n →
      Resolved rd n key pos recs e →
      Resolved rd (Node.hash h) key pos ((pathBytes (key.take pos), blob) :: recs) e

/-- The recursive call of `threadSafeGet` on a resolved node, for the fuel left. -/
def threadSafeGet.onHash (rd : Reader) :
    Nat → Node → List Nibble → Nat → AccessListCache → Run GetRes
  | 0 => fun _ _ _ _ => .error Stop.fuel
  | fuel + 1 => threadSafeGet rd fuel

/-- A cache with records appended. -/
def AccessListCache.append (a : AccessListCache) (recs : List (List Nat × List Nat)) :
    AccessListCache :=
  ⟨a.keys ++ recs.map Prod.fst, a.data ++ recs.map Prod.snd⟩

/-! ## One base tracer against the parallel tracer -/

/-- The entries of a map whose path is routed to sub-tracer `i`. -/
def GoMap.routed {V : Type} (i : Nat) (m : GoMap (List Nat) V) : GoMap (List Nat) V :=
  m.filter (fun e => decide (routeOf e.1 = i))

/-- The part of a single tracer whose paths are routed to sub-tracer `i`. -/
def tracer.shard (tr : tracer) (i : Nat) : tracer :=
  ⟨GoMap.routed i tr.inserts, GoMap.routed i tr.deletes, GoMap.routed i tr.accessList⟩

/-- A call on a single tracer. -/
def tracer.call (tr : tracer) (c : TracerCall) : tracer :=
  match c with
  | .event e => tr.on e
  | .reset => tr.reset

/-- One base tracer fed a sequence of calls, from `newTracer()`. -/
def tracer.run (calls : List TracerCall) : tracer :=
  calls.foldl tracer.call newTracer

/-- A parallel tracer fed a sequence of calls. -/
def parallelTracer.run (t : parallelTracer) (calls : List TracerCall) (h : TracerHeap) :
    Run TracerHeap :=
  Run.forEach (fun c h => t.call c h) calls h

/-- Go `parallelTracer.deletedNodes`: the paths of the delete sets of the 17 sub-tracers,
appended one after the other; `iter i` is the order of the `range` over sub-tracer `i`. -/
def parallelTracer.deletedNodes (iter : Nat → GoMap (List Nat) Unit → GoMap (List Nat) Unit)
    (t : parallelTracer) (h : TracerHeap) : Run (List (List Nat)) :=
  Run.forEach (fun i paths =>
    match t.sub h i with
    | .error e => .error e
    | .ok (_, tr) => pure (paths ++ GoMap.keyList (iter i tr.deletes))) (List.range 17) []

/-- The parallel tracer holds what the single tracer `tr` holds: sub-tracer `i` is the part
of `tr` routed to `i`. -/
def parallelTracer.Sim (h : TracerHeap) (t : parallelTracer) (tr : tracer) : Prop :=
  parallelTracer.Inv h t ∧ ∀ i, i < 17 → ∃ a, t.sub h i = .ok (a, tr.shard i)

/-- The calls whose paths are nibble paths. -/
def TracerCall.nibbles (c : TracerCall) : Prop :=
  match c with
  | .event e => ∀ b ∈ e.path, b < 16
  | .reset => True

/-- No map of a tracer repeats a key. -/
def tracer.NodupKeys (tr : tracer) : Prop :=
  (GoMap.keyList tr.inserts).Nodup ∧ (GoMap.keyList tr.deletes).Nodup ∧
    (GoMap.keyList tr.accessList).Nodup

/-! ## The pairs of one shard, by index -/

/-- The indices of the pairs of shard `k`: the indices `i` with the shard index of `keys[i]`
equal to `k`, in increasing order. -/
def shardIndices (keys : List (List Nat)) (k : Nat) : List Nat :=
  (List.range keys.length).filter (fun i => decide (shardOf (keys.getD i []) = k))

/-- One call of `threadSafeUpdate` made by a task of the parallel phase: the index of the
pair, the root node handed to the call and the node the call returned. -/
structure UpdateCall where
  index : Nat
  root : Node
  node : Node

/-- The calls of `threadSafeUpdate` that the `inserters` closure makes for shard `start` from
index `i` on, in the order in which it makes them: the loop of `insertersLoop` on the
snapshot slot of the shard (`snap`), with the argument and the result of every call kept. -/
def shardCalls (rd : Reader) (fuel : Nat) (root : Node) (values : List (List Nat)) (start : Nat) :
    List (List Nat) → Nat → Node → Run (List UpdateCall)
  | [], _, _ => pure []
  | key :: rest, i, snap =>
    if shardOf key = start then
      match values.get? i with
      | none => .error Stop.panic
      | some value =>
        match threadSafeUpdate rd fuel (if snap.isNil then root else snap) key value with
        | .error e => .error e
        | .ok (n, _, _) =>
          match shardCalls rd fuel root values start rest (i + 1) n with
          | .error e => .error e
          | .ok calls => pure (⟨i, if snap.isNil then root else snap, n⟩ :: calls)
    else shardCalls rd fuel root values start rest (i + 1) snap

/-- The snapshot of a shard after its calls: the node returned by the last call, the
snapshot it started with when it made none. -/
def lastSnapshot (snap : Node) (calls : List UpdateCall) : Node :=
  match calls.getLast? with
  | some c => c.node
  | none => snap

/-- Specification side (C29): every call of a shard is made against the shard's own snapshot
root, which is `snap` at the first call and afterwards the node returned by the call
before. -/
def OwnSnapshotCalls : Node → List UpdateCall → Prop
  | _, [] => True
  | snap, c :: calls => c.root = snap ∧ OwnSnapshotCalls c.node calls

/-- Child slots of an in-memory branch root: slot 1 is a leaf with value `[9]`, slot 3 a
leaf with value `[8]`. -/
def exampleBranch : Nibble → Node :=
  Function.update (Function.update noChildren 1 (Node.short [0, term16] (Node.value [9]))) 3
    (Node.short [0, term16] (Node.value [8]))

/-- The child in slot `j` of a branch node; nil for a node that is no branch. -/
def Node.child (n : Node) (j : Nibble) : Node :=
  match n with
  | .full c => c j
  | _ => Node.nil

/-! ## The sharded database (`parahashdb/parallel_database.go`)

A hash (`common.Hash`, 32 bytes) is kept as the number its bytes spell, most significant
byte first. -/

/-- The first byte `hash[0]` of a hash. -/
def hashByte0 (hash : Nat) : Nat := (hash / 2 ^ 248) % 256

/-- Modelled from the spec: `types.EmptyRootHash` (declared outside src/), the root hash of
the empty trie. -/
def EmptyRootHash : Nat :=
  0x56e81f171bcc55a6ff8345e692c0f86e5b48e01b996cadc001622fb5e363b421

/-- The errors of the sharded database and of its backends. -/
inductive DbErr where
  | notFound : DbErr
  | nodeNotFound : DbErr
  | backend (code : Nat) : DbErr
  deriving DecidableEq, Repr

/-- Modelled from the spec: one physical backend (type `database`, declared outside src/), a
get/put-by-hash store: the blobs it holds, by hash. -/
structure database where
  store : GoMap Nat (List Nat)
  deriving DecidableEq, Repr

/-- Modelled from the spec: `database.Node(hash)`, the get of the backend: the blob stored
under the hash, or the error "not found". -/
def database.Node (d : database) (hash : Nat) : List Nat × Option DbErr :=
  match GoMap.find d.store hash with
  | some blob => (blob, none)
  | none => ([], some DbErr.notFound)

/-- Modelled from the spec: `database.Update(root, parent, block, nodes, states)`, the put of
the backend: every node of the change set is stored under its hash.  `iterS` and `iterN` are
the orders in which the owners and the nodes of an owner are visited; a `nil` node set
panics. -/
def database.Update (iterS : GoMap Nat Nat → GoMap Nat Nat)
    (iterN : GoMap (List Nat) TNode → GoMap (List Nat) TNode) (d : database) (h : SetHeap)
    (nodes : MergedNodeSet) : Run database :=
  Run.forEach (fun (e : Nat × Nat) (d : database) =>
    match h.get? e.2 with
    | none => .error .panic
    | some ns =>
      pure ⟨GoMap.putAll d.store ((iterN ns.Nodes).map (fun p => (p.2.Hash, p.2.Blob)))⟩)
    (iterS nodes.Sets) d

/-- The sharded database `Database` with what its calls leave behind: the 16 backends
`dbs`, and the backend `Update` calls issued so far, in order, each with the index of the
backend and the change set passed. -/
structure DbState where
  dbs : List database
  calls : List (Nat × MergedNodeSet)
  deriving DecidableEq, Repr

/-- Go `Database.shard`: the index `hash[0] >> 4` of the backend of a hash. -/
def Database.shard (hash : Nat) : Nat := hiNibble (hashByte0 hash)

/-- Go `Database.Node`: `this.shard(hash[:]).Node(hash)`. -/
def Database.Node (s : DbState) (hash : Nat) : Run (List Nat × Option DbErr) :=
  match s.dbs.get? (Database.shard hash) with
  | none => .error .panic
  | some d => pure (d.Node hash)

/-- Go `paraReader.Node`: the backend `dbs[path[0]]` for a non-empty path (an index past the
16 backends panics), the backend of the hash for the empty path. -/
def paraReader.Node (s : DbState) (_owner : Nat) (path : List Nat) (hash : Nat) :
    Run (List Nat × Option DbErr) :=
  match path with
  | b :: _ =>
    match s.dbs.get? b with
    | none => .error .panic
    | some d => pure (d.Node hash)
  | [] =>
    match s.dbs.get? (Database.shard hash) with
    | none => .error .panic
    | some d => pure (d.Node hash)

/-- The index of the backend that `paraReader.Node` consults. -/
def paraReader.backendOf (path : List Nat) (hash : Nat) : Nat :=
  match path with
  | b :: _ => b
  | [] => Database.shard hash

/-- The loop of `Database.Find` from backend `i` on: the first backend whose `Node` returns a
non-empty blob without error, with the blob; the error "Node not found!" when there is
none. -/
def Database.FindLoop : List database → Nat → Nat → Option Nat × List Nat × Option DbErr
  | [], _, _ => (none, [], some DbErr.nodeNotFound)
  | d :: rest, i, node =>
    if (d.Node node).2.isNone && decide ((d.Node node).1.length > 0) then
      (some i, (d.Node node).1, none)
    else Database.FindLoop rest (i + 1) node

/-- Go `Database.Find`. -/
def Database.Find (s : DbState) (node : Nat) : Option Nat × List Nat × Option DbErr :=
  Database.FindLoop s.dbs 0 node

/-- The sharded database's `ParallelWorker` under a schedule: `order` lists the indices of
the goroutines in the order in which they run. -/
def hashdb.ParallelWorkerIn {σ : Type} (order : List Nat) (total nThds : Nat)
    (worker : Nat → Nat → Nat → σ → Run σ) (s : σ) : Run σ :=
  runTasksIn worker (hashdb.ranges total nThds) order s

/-- What a run of `Database.Update` leaves to the runtime: the orders of the `range` loops of
`Regroup` (`regS`, `regN`), the orders in which backend `i` visits the owners and the nodes
of the change set it is passed (`dbS i`, `dbN i`), and the order in which the goroutines of
`ParallelWorker` run (`schedule`). -/
structure UpdateOrders where
  regS : Nat → GoMap Nat Nat → GoMap Nat Nat
  regN : Nat → GoMap (List Nat) TNode → GoMap (List Nat) TNode
  dbS : Nat → GoMap Nat Nat → GoMap Nat Nat
  dbN : Nat → GoMap (List Nat) TNode → GoMap (List Nat) TNode
  schedule : List Nat

/-- Every `range` loop visits every entry once, and every goroutine runs once. -/
def UpdateOrders.Fair (o : UpdateOrders) : Prop :=
  (∀ i m, (o.regS i m).Perm m) ∧ (∀ i m, (o.regN i m).Perm m) ∧
    (∀ i m, (o.dbS i m).Perm m) ∧ (∀ i m, (o.dbN i m).Perm m) ∧
    o.schedule.Perm (List.range 16)

/-- The call `this.dbs[i].Update(root, common.Hash{}, block, nodes, states)`: backend `i`
stores the change set, and the call is recorded. -/
def Database.backendUpdate (o : UpdateOrders) (i : Nat) (h : SetHeap) (nodes : MergedNodeSet)
    (s : DbState) : Run DbState :=
  match s.dbs.get? i with
  | none => .error .panic
  | some d =>
    match d.Update (o.dbS i) (o.dbN i) h nodes with
    | .error e => .error e
    | .ok d1 => pure { s with dbs := s.dbs.set i d1, calls := s.calls ++ [(i, nodes)] }

/-- The head of `Database.Update`: whether `log.Error("parent state is not present")` is
reached, which it is for a parent other than the empty root whose backend returns no blob
for it. -/
def Database.checkParent (s : DbState) (parent : Nat) : Run Bool :=
  if parent ≠ EmptyRootHash then
    match s.dbs.get? (Database.shard parent) with
    | none => .error .panic
    | some d => pure (decide ((d.Node parent).1.length = 0))
  else pure false

/-- The outcome of `Database.Update`: the database and the heap of node sets after the call,
the error returned, and whether the error about the parent was logged. -/
structure UpdateRes where
  state : DbState
  heap : SetHeap
  err : Option DbErr
  logged : Bool
  deriving DecidableEq, Repr

/-- The `updater` closure of `Database.Update`. -/
def Database.updater (o : UpdateOrders) (h : SetHeap) (sharded : List MergedNodeSet)
    (start _stop _index : Nat) (s : DbState) : Run DbState :=
  match sharded.get? start with
  | none => .error .panic
  | some sub => Database.backendUpdate o start h sub s

/-- Go `Database.Update`. -/
def Database.Update (o : UpdateOrders) (s : DbState) (h : SetHeap) (root parent : Nat)
    (nodes : MergedNodeSet) : Run UpdateRes :=
  match Database.checkParent s parent with
  | .error e => .error e
  | .ok logged =>
    match MergedNodeSet.Regroup o.regS o.regN h nodes with
    | .error e => .error e
    | .ok r =>
      match hashdb.ParallelWorkerIn o.schedule r.sharded.length r.sharded.length
          (Database.updater o r.heap r.sharded) s with
      | .error e => .error e
      | .ok s2 =>
        match Database.backendUpdate o (Database.shard root) r.heap r.rootShard s2 with
        | .error e => .error e
        | .ok s3 => pure ⟨s3, r.heap, none, logged⟩

/-- The loop of `Database.Commit` over `children` from position `k` on: each hash is looked
up with `Find` and committed in the backend found; the first error ends the loop.
`commitErr k i c` is the error of the backend call `dbs[i].Commit(c, report)` at position
`k`. -/
def Database.CommitLoop (commitErr : Nat → Nat → Nat → Option DbErr) (s : DbState) :
    List Nat → Nat → Option DbErr
  | [], _ => none
  | c :: rest, k =>
    match Database.Find s c with
    | (some i, _, _) =>
      match commitErr k i c with
      | some e => some e
      | none => Database.CommitLoop commitErr s rest (k + 1)
    | (none, _, err) => err

/-- Go `Database.Commit`.  `childrenOf` is the child enumeration `resolver.ForEach` (declared
outside src/) and `commitErr` the outcome of the backend calls `Commit` (modelled from the
spec: a backend's `Commit` makes durable what it holds and leaves what `Node` returns as it
is). -/
def Database.Commit (childrenOf : List Nat → List Nat)
    (commitErr : Nat → Nat → Nat → Option DbErr) (s : DbState) (hash : Nat) :
    Run (Option DbErr) :=
  match s.dbs.get? (Database.shard hash) with
  | none => .error .panic
  | some d =>
    match d.Node hash with
    | (_, some e) => pure (some e)
    | (blob, none) => pure (Database.CommitLoop commitErr s (hash :: childrenOf blob) 0)

/-- A database of 16 empty backends, with no call made. -/
def emptyDb : DbState := ⟨List.replicate 16 ⟨[]⟩, []⟩

/-- The runtime orders that visit every map in the order of its entries and run the
goroutines in index order. -/
def plainOrders : UpdateOrders :=
  ⟨fun _ m => m, fun _ m => m, fun _ m => m, fun _ m => m, List.range 16⟩

/-- A backend `Node` call that `Find` accepts: no error and a non-empty blob. -/
def database.Has (d : database) (node : Nat) : Prop :=
  (d.Node node).2 = none ∧ 0 < (d.Node node).1.length

/-- A database whose backend 1 holds the blob `[5]` under the hash `2 ^ 252` (first byte
`0x10`) and nothing else. -/
def danglingDb : DbState :=
  ⟨(List.replicate 16 (⟨[]⟩ : database)).set 1 ⟨[(2 ^ 252, [5])]⟩, []⟩

/-- The change set holds, on the heap `h`, a node with the hash `k` and the blob `v`. -/
def MergedNodeSet.holdsBlob (h : SetHeap) (m : MergedNodeSet) (k : Nat) (v : List Nat) : Prop :=
  ∃ e ∈ m.Sets, ∃ ns, h.get? e.2 = some ns ∧ ∃ x ∈ ns.Nodes, x.2.Hash = k ∧ x.2.Blob = v

/-- How one backend `Update` with the change set `m` relates the store after the call to the
store before it: a hash of the change set is stored with the blob of a node of the change
set that has this hash, every other hash as before. -/
def database.Stores (h : SetHeap) (m : MergedNodeSet) (d d1 : database) : Prop :=
  ∀ k, (∃ v, m.holdsBlob h k v ∧ GoMap.find d1.store k = some v) ∨
    ((∀ v, ¬ m.holdsBlob h k v) ∧ GoMap.find d1.store k = GoMap.find d.store k)

/-- A change set with one node of owner 7: the node at the empty path (the root of the trie
of owner 7), whose hash `3 * 2 ^ 252` has the first byte `0x30`. -/
def storageRootHeap : SetHeap := [⟨7, [([], ⟨3 * 2 ^ 252, [1]⟩)]⟩]

/-- A change set with one node of owner 7: the node at the path `[1]`, whose hash
`3 * 2 ^ 252` has the first byte `0x30`. -/
def crossHeap : SetHeap := [⟨7, [([1], ⟨3 * 2 ^ 252, [1]⟩)]⟩]

/-- The change set of owner 7 whose node set is at address 0. -/
def ownerSevenSet : MergedNodeSet := ⟨[(7, 0)]⟩

/-! ## `SortBy1st` (`parallel_util.go`) -/

/-- The requirement of Go's `sort` package on a `less` function: a strict weak ordering
(irreflexive, transitive, with transitive incomparability). -/
structure StrictWeak {α : Type} (less : α → α → Bool) : Prop where
  irrefl : ∀ a, less a a = false
  trans : ∀ a b c, less a b = true → less b c = true → less a c = true
  incomp : ∀ a b c, less a b = false → less b a = false → less b c = false →
    less c b = false → less a c = false ∧ less c a = false

/-- Two values are equivalent under `less`: neither is less than the other. -/
def eqvBy {α : Type} (less : α → α → Bool) (x y : α) : Bool := !less x y && !less y x

/-- Insertion of `a` into a sorted list: after the elements less than `a`, before the first
element that is not. -/
def sort.insertStable {α : Type} (less : α → α → Bool) (a : α) : List α → List α
  | [] => [a]
  | b :: l => if less b a then b :: sort.insertStable less a l else a :: b :: l

/-- Go `sort.SliceStable` (standard library): the slice sorted by `less`, equal elements in
their original order.  It is written as an insertion sort, element by element from the back;
for a `less` that is a strict weak ordering there is one list that is sorted and keeps equal
elements in order, so every stable sort returns this one. -/
def sort.SliceStable {α : Type} (less : α → α → Bool) : List α → List α
  | [] => []
  | a :: l => sort.insertStable less a (sort.SliceStable less l)

/-- Go `SortBy1st`: the contents of `first` and `second` after the call.  The pairs
`(first[i], second[i])` for `i < len(first)` are sorted by their first component and written
back; a `second` shorter than `first` panics, and the entries of `second` past `len(first)`
stay. -/
def SortBy1st {T0 T1 : Type} (first : List T0) (second : List T1)
    (compare : T0 → T0 → Bool) : Run (List T0 × List T1) :=
  if second.length < first.length then .error .panic
  else
    let array := first.zip second
    let sorted := sort.SliceStable (fun x y => compare x.1 y.1) array
    pure (sorted.map Prod.fst, sorted.map Prod.snd ++ second.drop first.length)

/-- Go `a < b` on strings, on the bytes of the strings: the lexicographic order. -/
def pathLt : List Nat → List Nat → Bool
  | _, [] => false
  | [], _ :: _ => true
  | a :: as, b :: bs => if a < b then true else if b < a then false else pathLt as bs

/-- The cache of `TestAccessListCache` after `Merge`. -/
def testCache : AccessListCache :=
  ⟨[[1], [2], [7], [3], [4], [7]], [[11], [21], [77], [21], [22], [77]]⟩

/-- A comparison that is no total order: numbers compared by their tens. -/
def byTens (a b : Nat) : Bool := decide (a / 10 < b / 10)

/-! # Theorems -/

/-! ## Runs -/

theorem Run.check_ok {α : Type} {r : Run α} {p : α → Bool} (h : r.check p = true) :
    ∃ a, r = .ok a ∧ p a = true := by
  cases r with
  | error e => simp [Run.check] at h
  | ok a => exact ⟨a, rfl, h⟩

theorem Run.panics_eq {α : Type} {r : Run α} (h : r.panics = true) : r = .error Stop.panic := by
  cases r with
  | ok a => simp [Run.panics] at h
  | error e =>
    cases e with
    | panic => rfl
    | fuel => simp [Run.panics] at h

/-! ## Empty input (C9) -/

/-- C9: if `keys` is empty or `values` is empty, `ParallelUpdate` returns
sixteen nil errors and the trie it was given, unchanged in every field
(root, tracer, unhashed counter). -/
theorem ParallelUpdate_empty_input (fuel : Nat) (t : Trie) (keys values : List (List Nat))
    (h : keys = [] ∨ values = []) :
    ParallelUpdate fuel t keys values = .ok (List.replicate 16 none, t) := by
  have h' : keys.length = 0 ∨ values.length = 0 := by
    rcases h with h | h
    · exact Or.inl (by simp [h])
    · exact Or.inr (by simp [h])
  unfold ParallelUpdate
  simp only [if_pos h']
  rfl

/-- C9 at a concrete input: an empty value list on a one-leaf trie. -/
theorem ParallelUpdate_empty_input_witness :
    ParallelUpdate 0 (memTrie (Node.short [term16] (Node.value [5]))) [[1]] []
      = .ok (List.replicate 16 none, memTrie (Node.short [term16] (Node.value [5]))) :=
  ParallelUpdate_empty_input 0 _ [[1]] [] (Or.inr rfl)

/-! ## The scheduler on the fixed 16 shards -/

theorem GenerateRanges_16 : GenerateRanges 16 16 = List.range' 0 17 := by decide

/-- An invariant indexed by the shard number is carried through a run over
consecutive boundaries `a, a+1, ..., a+n`. -/
theorem runRanges_invariant {σ : Type} (worker : Nat → Nat → Nat → σ → Run σ)
    (P : Nat → σ → Prop) (n : Nat) :
    ∀ (a idx : Nat) (s s' : σ),
      (∀ i idx s s', a ≤ i → i < a + n → P i s → worker i (i + 1) idx s = .ok s' → P (i + 1) s') →
      P a s → runRanges worker (List.range' a (n + 1)) idx s = .ok s' → P (a + n) s' := by
  induction n with
  | zero =>
    intro a idx s s' _ h0 hrun
    simp [List.range', runRanges, pure, Except.pure] at hrun
    subst hrun
    simpa using h0
  | succ n ih =>
    intro a idx s s' hstep h0 hrun
    have hl : List.range' a (n + 1 + 1) = a :: (a + 1) :: List.range' (a + 1 + 1) n := by
      simp [List.range']
    rw [hl] at hrun
    simp only [runRanges] at hrun
    have hne : a ≠ a + 1 := by omega
    simp only [if_pos hne] at hrun
    cases hw : worker a (a + 1) idx s with
    | error e => simp [hw] at hrun
    | ok s1 =>
      simp only [hw] at hrun
      have h1 : P (a + 1) s1 := hstep a idx s s1 (le_refl _) (by omega) h0 hw
      have hl2 : (a + 1) :: List.range' (a + 1 + 1) n = List.range' (a + 1) (n + 1) := by
        simp [List.range']
      rw [hl2] at hrun
      have := ih (a + 1) (idx + 1) s1 s'
        (fun i idx s s' hi hi' => hstep i idx s s' (by omega) (by omega)) h1 hrun
      have e : a + (n + 1) = a + 1 + n := by omega
      rw [e]
      exact this

/-- When every shard task returns and re-establishes the invariant, the whole
run over the boundaries `a, a+1, ..., a+n` returns. -/
theorem runRanges_returns {σ : Type} (worker : Nat → Nat → Nat → σ → Run σ)
    (P : Nat → σ → Prop) (n : Nat) :
    ∀ (a idx : Nat) (s : σ),
      (∀ i idx s, a ≤ i → i < a + n → P i s → ∃ s', worker i (i + 1) idx s = .ok s' ∧ P (i + 1) s') →
      P a s → ∃ s', runRanges worker (List.range' a (n + 1)) idx s = .ok s' ∧ P (a + n) s' := by
  induction n with
  | zero =>
    intro a idx s _ h0
    exact ⟨s, by simp [List.range', runRanges, pure, Except.pure], by simpa using h0⟩
  | succ n ih =>
    intro a idx s hstep h0
    have hl : List.range' a (n + 1 + 1) = a :: (a + 1) :: List.range' (a + 1 + 1) n := by
      simp [List.range']
    obtain ⟨s1, hw, h1⟩ := hstep a idx s (le_refl _) (by omega) h0
    have hl2 : (a + 1) :: List.range' (a + 1 + 1) n = List.range' (a + 1) (n + 1) := by
      simp [List.range']
    obtain ⟨s', hrun, hP⟩ := ih (a + 1) (idx + 1) s1
      (fun i idx s hi hi' => hstep i idx s (by omega) (by omega)) h1
    refine ⟨s', ?_, ?_⟩
    · rw [hl]
      simp only [runRanges]
      have hne : a ≠ a + 1 := by omega
      simp only [if_pos hne, hw]
      rw [hl2]
      exact hrun
    · have e : a + (n + 1) = a + 1 + n := by omega
      rw [e]
      exact hP

/-! ## Lookups do not depend on the access cache they record into -/

theorem Run.map_eq_cases {α β γ : Type} {f : α → γ} {g : β → γ} {A : Run α} {B : Run β}
    (h : Except.map f A = Except.map g B) :
    (∃ e, A = .error e ∧ B = .error e) ∨ (∃ a b, A = .ok a ∧ B = .ok b ∧ f a = g b) := by
  cases A with
  | error e =>
    cases B with
    | error e' =>
      simp only [Except.map, Except.error.injEq] at h
      exact Or.inl ⟨e, rfl, by rw [h]⟩
    | ok b => simp [Except.map] at h
  | ok a =>
    cases B with
    | error e' => simp [Except.map] at h
    | ok b =>
      simp only [Except.map, Except.ok.injEq] at h
      exact Or.inr ⟨a, b, rfl, rfl, h⟩

theorem threadSafeGetAux_cache (rd : Reader)
    (onHash : Node → List Nibble → Nat → AccessListCache → Run GetRes)
    (hH : ∀ n key pos a a', Except.map GetRes.core (onHash n key pos a)
      = Except.map GetRes.core (onHash n key pos a')) :
    ∀ n key pos a a', Except.map GetRes.core (threadSafeGetAux rd onHash n key pos a)
      = Except.map GetRes.core (threadSafeGetAux rd onHash n key pos a') := by
  intro n
  induction n with
  | nil => intro key pos a a'; rfl
  | value v => intro key pos a a'; rfl
  | short k val ih =>
    intro key pos a a'
    simp only [threadSafeGetAux]
    split
    · rfl
    · rcases Run.map_eq_cases (ih key (pos + k.length) a a') with ⟨e, h1, h2⟩ | ⟨r, r', h1, h2, h3⟩
      · rw [h1, h2]
      · rw [h1, h2]
        simp only [GetRes.core, Prod.mk.injEq] at h3
        obtain ⟨hv, hn, hd, he⟩ := h3
        simp only [hv, hn, hd, he]
        split <;> simp [Except.map, pure, Except.pure, GetRes.core]
  | full c ih =>
    intro key pos a a'
    simp only [threadSafeGetAux]
    cases hk : key.get? pos with
    | none => rfl
    | some i =>
      simp only []
      rcases Run.map_eq_cases (ih i key (pos + 1) a a') with ⟨e, h1, h2⟩ | ⟨r, r', h1, h2, h3⟩
      · rw [h1, h2]
      · rw [h1, h2]
        simp only [GetRes.core, Prod.mk.injEq] at h3
        obtain ⟨hv, hn, hd, he⟩ := h3
        simp [Except.map, pure, Except.pure, GetRes.core, hv, hd, he]
  | hash h =>
    intro key pos a a'
    simp only [threadSafeGetAux, threadSafeResolveAndTrack]
    cases hr : rd.node (pathBytes (List.take pos key)) h with
    | error e => rfl
    | ok blob =>
      simp only []
      cases hd : rd.decode h blob with
      | none => rfl
      | some child =>
        simp only [pure, Except.pure]
        rcases Run.map_eq_cases (hH child key pos (a.Add (pathBytes (List.take pos key)) blob)
            (a'.Add (pathBytes (List.take pos key)) blob)) with ⟨e, h1, h2⟩ | ⟨r, r', h1, h2, h3⟩
        · rw [h1, h2]
        · rw [h1, h2]
          simp only [GetRes.core, Prod.mk.injEq] at h3
          obtain ⟨hv, hn, hd, he⟩ := h3
          simp [Except.map, GetRes.core, hv, hn, he]

theorem threadSafeGet_cache (rd : Reader) (fuel : Nat) :
    ∀ n key pos a a', Except.map GetRes.core (threadSafeGet rd fuel n key pos a)
      = Except.map GetRes.core (threadSafeGet rd fuel n key pos a') := by
  induction fuel with
  | zero =>
    intro n key pos a a'
    simp only [threadSafeGet]
    exact threadSafeGetAux_cache rd (fun _ _ _ _ => Except.error Stop.fuel)
      (fun _ _ _ _ _ => rfl) n key pos a a'
  | succ f ih =>
    intro n key pos a a'
    simp only [threadSafeGet]
    exact threadSafeGetAux_cache rd _ ih n key pos a a'

/-! ## The engine's `get` and the thread-safe lookup return the same value -/

theorem getAux_threadSafeGetAux (rd : Reader)
    (onHashG : Node → List Nibble → Nat → Run BaseGetRes)
    (onHashT : Node → List Nibble → Nat → AccessListCache → Run GetRes)
    (hH : ∀ n key pos a,
      Except.map (fun r : BaseGetRes => (r.value, r.didResolve, r.err)) (onHashG n key pos)
        = Except.map (fun r : GetRes => (r.value, r.didResolve, r.err)) (onHashT n key pos a)) :
    ∀ n key pos a,
      Except.map (fun r : BaseGetRes => (r.value, r.didResolve, r.err)) (getAux rd onHashG n key pos)
        = Except.map (fun r : GetRes => (r.value, r.didResolve, r.err))
            (threadSafeGetAux rd onHashT n key pos a) := by
  intro n
  induction n with
  | nil => intro key pos a; rfl
  | value v => intro key pos a; rfl
  | short k val ih =>
    intro key pos a
    simp only [getAux, threadSafeGetAux]
    split
    · rfl
    · rcases Run.map_eq_cases (ih key (pos + k.length) a) with ⟨e, h1, h2⟩ | ⟨r, r', h1, h2, h3⟩
      · rw [h1, h2]; rfl
      · rw [h1, h2]
        simp only [Prod.mk.injEq] at h3
        obtain ⟨hv, hd, he⟩ := h3
        simp only [hv, hd, he]
        split <;> simp [Except.map, pure, Except.pure]
  | full c ih =>
    intro key pos a
    simp only [getAux, threadSafeGetAux]
    cases hk : key.get? pos with
    | none => rfl
    | some i =>
      simp only []
      rcases Run.map_eq_cases (ih i key (pos + 1) a) with ⟨e, h1, h2⟩ | ⟨r, r', h1, h2, h3⟩
      · rw [h1, h2]; rfl
      · rw [h1, h2]
        simp only [Prod.mk.injEq] at h3
        obtain ⟨hv, hd, he⟩ := h3
        simp only [hv, hd, he]
        split <;> simp [Except.map, pure, Except.pure]
  | hash h =>
    intro key pos a
    simp only [getAux, threadSafeGetAux, threadSafeResolveAndTrack]
    cases hr : rd.node (pathBytes (List.take pos key)) h with
    | error e => rfl
    | ok blob =>
      simp only []
      cases hd : rd.decode h blob with
      | none => rfl
      | some child =>
        simp only [pure, Except.pure]
        rcases Run.map_eq_cases (hH child key pos (a.Add (pathBytes (List.take pos key)) blob))
          with ⟨e, h1, h2⟩ | ⟨r, r', h1, h2, h3⟩
        · rw [h1, h2]; rfl
        · rw [h1, h2]
          simp only [Prod.mk.injEq] at h3
          obtain ⟨hv, hd, he⟩ := h3
          simp [Except.map, hv, he]

theorem get_threadSafeGet (rd : Reader) (fuel : Nat) :
    ∀ n key pos a,
      Except.map (fun r : BaseGetRes => (r.value, r.didResolve, r.err)) (get rd fuel n key pos)
        = Except.map (fun r : GetRes => (r.value, r.didResolve, r.err))
            (threadSafeGet rd fuel n key pos a) := by
  induction fuel with
  | zero =>
    intro n key pos a
    simp only [get, threadSafeGet]
    exact getAux_threadSafeGetAux rd (fun _ _ _ => Except.error Stop.fuel)
      (fun _ _ _ _ => Except.error Stop.fuel) (fun _ _ _ _ => rfl) n key pos a
  | succ f ih =>
    intro n key pos a
    simp only [get, threadSafeGet]
    exact getAux_threadSafeGetAux rd _ _ ih n key pos a

/-- On a trie that is not committed, the engine's `Get` returns the value and
the error of `ThreadSafeGet`. -/
theorem Get_of_ThreadSafeGet {fuel : Nat} {t : Trie} {key : List Nat} {acc : AccessListCache}
    {r : LookupRes} (hc : t.committed = false) (h : ThreadSafeGet fuel t key acc = .ok r) :
    ∃ t', t.Get fuel key = .ok (r.value, r.err, t') := by
  unfold ThreadSafeGet at h
  cases hg : threadSafeGet t.reader fuel t.root (keybytesToHex key) 0 acc with
  | error e => rw [hg] at h; simp at h
  | ok g =>
    rw [hg] at h
    simp only [pure, Except.pure, Except.ok.injEq] at h
    subst h
    have hm := get_threadSafeGet t.reader fuel t.root (keybytesToHex key) 0 acc
    rw [hg] at hm
    cases hb : get t.reader fuel t.root (keybytesToHex key) 0 with
    | error e => rw [hb] at hm; simp [Except.map] at hm
    | ok b =>
      rw [hb] at hm
      simp only [Except.map, Except.ok.injEq, Prod.mk.injEq] at hm
      obtain ⟨hv, _, he⟩ := hm
      have hcf : (if t.committed = true then (pure ([], some Err.committed, t) :
            Run (List Nat × Option Err × Trie))
          else
            match get t.reader fuel t.root (keybytesToHex key) 0 with
            | .error s => .error s
            | .ok r =>
              if (r.err.isNone && r.didResolve) = true then
                pure (r.value, r.err,
                  { ({ t with tracer := t.tracer ++ r.events } : Trie) with root := r.newnode })
              else pure (r.value, r.err, { t with tracer := t.tracer ++ r.events }))
          = (if (b.err.isNone && b.didResolve) = true then
                pure (b.value, b.err,
                  { ({ t with tracer := t.tracer ++ b.events } : Trie) with root := b.newnode })
              else pure (b.value, b.err, { t with tracer := t.tracer ++ b.events })) := by
        rw [hc, hb]
        rfl
      unfold Trie.Get
      rw [hcf, hv, he]
      by_cases hcond : (g.err.isNone && b.didResolve) = true
      · rw [if_pos hcond]; exact ⟨_, rfl⟩
      · rw [if_neg hcond]; exact ⟨_, rfl⟩

/-! ## `ParallelGet` against sequential lookups -/

theorem lookupValue_of_threadSafeGet {fuel : Nat} {t : Trie} {key : List Nat}
    {acc : AccessListCache} {r : GetRes}
    (h : threadSafeGet t.reader fuel t.root (keybytesToHex key) 0 acc = .ok r) :
    lookupValue fuel t key = .ok r.value := by
  have hc := threadSafeGet_cache t.reader fuel t.root (keybytesToHex key) 0 acc
    AccessListCache.empty
  rw [h] at hc
  cases h2 : threadSafeGet t.reader fuel t.root (keybytesToHex key) 0 AccessListCache.empty with
  | error e => rw [h2] at hc; simp [Except.map] at hc
  | ok r2 =>
    rw [h2] at hc
    simp only [Except.map, Except.ok.injEq, GetRes.core, Prod.mk.injEq] at hc
    simp [lookupValue, ThreadSafeGet, h2, Except.map, pure, Except.pure, hc.1]

theorem threadSafeGet_of_lookupValue {fuel : Nat} {t : Trie} {key : List Nat} {v : List Nat}
    (h : lookupValue fuel t key = .ok v) (acc : AccessListCache) :
    ∃ r, threadSafeGet t.reader fuel t.root (keybytesToHex key) 0 acc = .ok r ∧ r.value = v := by
  have hc := threadSafeGet_cache t.reader fuel t.root (keybytesToHex key) 0 acc
    AccessListCache.empty
  simp only [lookupValue, ThreadSafeGet] at h
  cases h2 : threadSafeGet t.reader fuel t.root (keybytesToHex key) 0 AccessListCache.empty with
  | error e => rw [h2] at h; simp [Except.map] at h
  | ok r2 =>
    rw [h2] at h hc
    simp only [Except.map, pure, Except.pure, Except.ok.injEq] at h
    cases h3 : threadSafeGet t.reader fuel t.root (keybytesToHex key) 0 acc with
    | error e => rw [h3] at hc; simp [Except.map] at hc
    | ok r3 =>
      rw [h3] at hc
      simp only [Except.map, Except.ok.injEq, GetRes.core, Prod.mk.injEq] at hc
      exact ⟨r3, rfl, by rw [hc.1, h]⟩

theorem shardOf_lt (key : List Nat) : shardOf key < 16 := by
  cases key with
  | nil => simp [shardOf]
  | cons b rest =>
    simp only [shardOf, hiNibble]
    omega

/-- What one lookup task leaves behind when it returns: the trie is the one
it was given, the output keeps its length, the positions before `j` and the
positions of other shards are untouched, and the positions of its own shard
hold the looked-up values. -/
theorem gettersLoop_spec (fuel start : Nat) :
    ∀ (rest : List (List Nat)) (j : Nat) (s s' : GetState),
      gettersLoop fuel start rest j s = .ok s' →
      s'.trie = s.trie ∧ s'.values.length = s.values.length ∧
      (∀ i, i < j → s'.values[i]? = s.values[i]?) ∧
      (∀ i (hi : i < rest.length), j + i < s.values.length →
        (shardOf (rest.get ⟨i, hi⟩) = start →
          ∃ v, lookupValue fuel s.trie (rest.get ⟨i, hi⟩) = .ok v ∧ s'.values[j + i]? = some v) ∧
        (shardOf (rest.get ⟨i, hi⟩) ≠ start → s'.values[j + i]? = s.values[j + i]?)) := by
  intro rest
  induction rest with
  | nil =>
    intro j s s' h
    simp only [gettersLoop, pure, Except.pure, Except.ok.injEq] at h
    subst h
    exact ⟨rfl, rfl, fun _ _ => rfl, fun i hi => absurd hi (by simp)⟩
  | cons key rest ih =>
    intro j s s' h
    cases key with
    | nil => simp [gettersLoop] at h
    | cons b bs =>
      simp only [gettersLoop] at h
      by_cases hs : hiNibble b = start
      · simp only [if_pos hs] at h
        cases hg : threadSafeGet s.trie.reader fuel s.trie.root (keybytesToHex (b :: bs)) 0
            (s.caches.getD (hiNibble b) AccessListCache.empty) with
        | error e => rw [hg] at h; simp at h
        | ok r =>
          rw [hg] at h
          simp only [] at h
          obtain ⟨h1, h2, h3, h4⟩ := ih (j + 1) _ s' h
          simp only [List.length_set] at h2 h4
          refine ⟨h1, h2, ?_, ?_⟩
          · intro i hi
            rw [h3 i (by omega)]
            simp only []
            rw [List.getElem?_set_ne (by omega)]
          · intro i hi hlen
            cases i with
            | zero =>
              refine ⟨fun _ => ⟨r.value, lookupValue_of_threadSafeGet hg, ?_⟩,
                fun hne => absurd hs hne⟩
              rw [Nat.add_zero, h3 j (by omega)]
              simp only []
              simp only [Nat.add_zero] at hlen
              simp [List.getElem?_set, hlen]
            | succ i =>
              have hi' : i < rest.length := by simpa using hi
              obtain ⟨ha, hb⟩ := h4 i hi' (by omega)
              have e : j + (i + 1) = j + 1 + i := by omega
              simp only [List.get_cons_succ, e]
              refine ⟨fun hsh => ?_, fun hsh => ?_⟩
              · exact ha hsh
              · rw [hb hsh]
                rw [List.getElem?_set_ne (by omega)]
      · simp only [if_neg hs] at h
        obtain ⟨h1, h2, h3, h4⟩ := ih (j + 1) s s' h
        refine ⟨h1, h2, fun i hi => h3 i (by omega), ?_⟩
        intro i hi hlen
        cases i with
        | zero =>
          refine ⟨fun hsh => absurd hsh hs, fun _ => ?_⟩
          rw [Nat.add_zero]
          exact h3 j (by omega)
        | succ i =>
          have hi' : i < rest.length := by simpa using hi
          obtain ⟨ha, hb⟩ := h4 i hi' (by omega)
          have e : j + (i + 1) = j + 1 + i := by omega
          simp only [List.get_cons_succ, e]
          exact ⟨ha, hb⟩

theorem gettersLoop_returns (fuel start : Nat) :
    ∀ (rest : List (List Nat)) (j : Nat) (s : GetState),
      (∀ k ∈ rest, k ≠ [] ∧ ∃ v, lookupValue fuel s.trie k = .ok v) →
      ∃ s', gettersLoop fuel start rest j s = .ok s' := by
  intro rest
  induction rest with
  | nil => intro j s _; exact ⟨s, rfl⟩
  | cons key rest ih =>
    intro j s h
    obtain ⟨hne, v, hv⟩ := h key (List.mem_cons_self _ _)
    cases key with
    | nil => exact absurd rfl hne
    | cons b bs =>
      simp only [gettersLoop]
      by_cases hs : hiNibble b = start
      · simp only [if_pos hs]
        obtain ⟨r, hr, _⟩ := threadSafeGet_of_lookupValue hv
          (s.caches.getD (hiNibble b) AccessListCache.empty)
        rw [hr]
        exact ih (j + 1) _ (fun k hk => h k (List.mem_cons_of_mem _ hk))
      · simp only [if_neg hs]
        exact ih (j + 1) s (fun k hk => h k (List.mem_cons_of_mem _ hk))

/-- The invariant of `ParallelGet` after the tasks of the shards below `i`. -/
theorem gettersLoop_step (fuel : Nat) (t : Trie) (keys : List (List Nat)) (i : Nat)
    (s s' : GetState)
    (hP : s.trie = t ∧ s.values.length = keys.length ∧
      ∀ j (hj : j < keys.length), shardOf (keys.get ⟨j, hj⟩) < i →
        ∃ v, lookupValue fuel t (keys.get ⟨j, hj⟩) = .ok v ∧ s.values[j]? = some v)
    (hrun : gettersLoop fuel i keys 0 s = .ok s') :
    s'.trie = t ∧ s'.values.length = keys.length ∧
      ∀ j (hj : j < keys.length), shardOf (keys.get ⟨j, hj⟩) < i + 1 →
        ∃ v, lookupValue fuel t (keys.get ⟨j, hj⟩) = .ok v ∧ s'.values[j]? = some v := by
  obtain ⟨ht, hl, hv⟩ := hP
  obtain ⟨h1, h2, _, h4⟩ := gettersLoop_spec fuel i keys 0 s s' hrun
  refine ⟨h1.trans ht, h2.trans hl, ?_⟩
  intro j hj hsh
  obtain ⟨ha, hb⟩ := h4 j hj (by omega)
  simp only [Nat.zero_add] at ha hb
  by_cases he : shardOf (keys.get ⟨j, hj⟩) = i
  · obtain ⟨v, hv1, hv2⟩ := ha he
    exact ⟨v, by rw [← ht]; exact hv1, hv2⟩
  · obtain ⟨v, hv1, hv2⟩ := hv j hj (by omega)
    exact ⟨v, hv1, by rw [hb he]; exact hv2⟩

/-- C4: for a list of non-empty keys, a returning `ParallelGet` yields exactly
`len(keys)` values, and position `j` holds the value that the sequential
`ThreadSafeGet` of `keys[j]` returns on the same trie (with any access cache),
whatever the shard of the key, which is also the value the engine's `Get`
returns when the trie is not committed; and `ParallelGet` returns whenever
each of these sequential lookups returns. -/
theorem ParallelGet_positions (fuel : Nat) (t : Trie) (keys : List (List Nat))
    (hne : ∀ k ∈ keys, k ≠ []) :
    (∀ r, ParallelGet fuel t keys = .ok r →
      r.values.length = keys.length ∧
      ∀ j (hj : j < keys.length) (acc : AccessListCache),
        ∃ r', ThreadSafeGet fuel t (keys.get ⟨j, hj⟩) acc = .ok r' ∧
          r.values[j]? = some r'.value ∧
          (t.committed = false →
            ∃ t', t.Get fuel (keys.get ⟨j, hj⟩) = .ok (r'.value, r'.err, t'))) ∧
    ((∀ k ∈ keys, ∃ r', ThreadSafeGet fuel t k AccessListCache.empty = .ok r') →
      ∃ r, ParallelGet fuel t keys = .ok r) := by
  constructor
  · intro r hr
    unfold ParallelGet at hr
    by_cases h0 : keys.length = 0
    · simp only [if_pos h0, pure, Except.pure, Except.ok.injEq] at hr
      subst hr
      refine ⟨by simp, fun j hj => absurd hj (by omega)⟩
    · simp only [if_neg h0] at hr
      cases hw : ParallelWorker 16 16 (fun start _ _ s => gettersLoop fuel start keys 0 s)
          ⟨List.replicate keys.length [], NewAccessListCaches 16, t⟩ with
      | error e => rw [hw] at hr; simp at hr
      | ok s =>
        rw [hw] at hr
        simp only [pure, Except.pure, Except.ok.injEq] at hr
        subst hr
        simp only [ParallelWorker, GenerateRanges_16] at hw
        have hinv := runRanges_invariant (fun start _ _ s => gettersLoop fuel start keys 0 s)
          (fun i s => s.trie = t ∧ s.values.length = keys.length ∧
            ∀ j (hj : j < keys.length), shardOf (keys.get ⟨j, hj⟩) < i →
              ∃ v, lookupValue fuel t (keys.get ⟨j, hj⟩) = .ok v ∧ s.values[j]? = some v)
          16 0 0 _ s
          (fun i _ s s' _ _ hP hrun => gettersLoop_step fuel t keys i s s' hP hrun)
          ⟨rfl, by simp, fun j hj h => absurd h (by omega)⟩ hw
        obtain ⟨_, hl, hv⟩ := hinv
        refine ⟨hl, fun j hj acc => ?_⟩
        obtain ⟨v, hv1, hv2⟩ := hv j hj (by have := shardOf_lt (keys.get ⟨j, hj⟩); omega)
        obtain ⟨r', hr1, hr2⟩ := threadSafeGet_of_lookupValue hv1 acc
        have hts : ThreadSafeGet fuel t (keys.get ⟨j, hj⟩) acc
            = .ok ⟨r'.value, r'.err, r'.accesses, t⟩ := by
          unfold ThreadSafeGet; rw [hr1]; rfl
        exact ⟨⟨r'.value, r'.err, r'.accesses, t⟩, hts, by rw [hv2, hr2],
          fun hc => Get_of_ThreadSafeGet hc hts⟩
  · intro hall
    unfold ParallelGet
    by_cases h0 : keys.length = 0
    · simp only [if_pos h0]
      exact ⟨_, rfl⟩
    · simp only [if_neg h0, ParallelWorker, GenerateRanges_16]
      have hlk : ∀ k ∈ keys, k ≠ [] ∧ ∃ v, lookupValue fuel t k = .ok v := by
        intro k hk
        refine ⟨hne k hk, ?_⟩
        obtain ⟨r', hr'⟩ := hall k hk
        simp only [lookupValue, hr']
        exact ⟨_, rfl⟩
      obtain ⟨s', hrun, _⟩ := runRanges_returns (fun start _ _ s => gettersLoop fuel start keys 0 s)
        (fun _ s => s.trie = t) 16 0 0 ⟨List.replicate keys.length [], NewAccessListCaches 16, t⟩
        (fun i _ s _ _ hP => by
          obtain ⟨s', hs'⟩ := gettersLoop_returns fuel i keys 0 s (by rw [hP]; exact hlk)
          exact ⟨s', hs', (gettersLoop_spec fuel i keys 0 s s' hs').1.trans hP⟩)
        rfl
      rw [hrun]
      exact ⟨_, rfl⟩

/-- C4 at a concrete input: two keys of shards 1 and 0, in that order, on a
trie whose child 0 is resolved from the database. -/
theorem ParallelGet_positions_witness :
    (∀ k ∈ [[16], [0]], k ≠ ([] : List Nat)) ∧
    ∃ r, ParallelGet 1 resolvableTrie [[16], [0]] = .ok r ∧ r.values = [[9], [5]] ∧
      ∃ r', ThreadSafeGet 1 resolvableTrie [0] AccessListCache.empty = .ok r' ∧
        r.values[1]? = some r'.value ∧
        (resolvableTrie.committed = false →
          ∃ t', resolvableTrie.Get 1 [0] = .ok (r'.value, r'.err, t')) := by
  have hne : ∀ k ∈ [[16], [0]], k ≠ ([] : List Nat) := by decide
  refine ⟨hne, ?_⟩
  have h := ParallelGet_positions 1 resolvableTrie [[16], [0]] hne
  refine ⟨_, rfl, rfl, ?_⟩
  exact (h.1 _ rfl).2 1 (by decide) AccessListCache.empty

/-! ## Read-only lookups (C10) -/

/-- C10: `ParallelGet` and `ThreadSafeGet` are read-only: whenever they return,
the trie after the call (root node with everything below it, tracer, counters)
is the trie before the call. -/
theorem lookups_read_only (fuel : Nat) (t : Trie) (keys : List (List Nat)) (key : List Nat)
    (acc : AccessListCache) :
    (∀ r, ParallelGet fuel t keys = .ok r → r.trie = t) ∧
    (∀ r, ThreadSafeGet fuel t key acc = .ok r → r.trie = t) := by
  constructor
  · intro r hr
    unfold ParallelGet at hr
    by_cases h0 : keys.length = 0
    · simp only [if_pos h0, pure, Except.pure, Except.ok.injEq] at hr
      subst hr
      rfl
    · simp only [if_neg h0] at hr
      cases hw : ParallelWorker 16 16 (fun start _ _ s => gettersLoop fuel start keys 0 s)
          ⟨List.replicate keys.length [], NewAccessListCaches 16, t⟩ with
      | error e => rw [hw] at hr; simp at hr
      | ok s =>
        rw [hw] at hr
        simp only [pure, Except.pure, Except.ok.injEq] at hr
        subst hr
        simp only [ParallelWorker, GenerateRanges_16] at hw
        exact runRanges_invariant (fun start _ _ s => gettersLoop fuel start keys 0 s)
          (fun _ s => s.trie = t) 16 0 0 _ s
          (fun i _ s s' _ _ hP hrun => (gettersLoop_spec fuel i keys 0 s s' hrun).1.trans hP)
          rfl hw
  · intro r hr
    unfold ThreadSafeGet at hr
    cases hg : threadSafeGet t.reader fuel t.root (keybytesToHex key) 0 acc with
    | error e => rw [hg] at hr; simp at hr
    | ok g =>
      rw [hg] at hr
      simp only [pure, Except.pure, Except.ok.injEq] at hr
      subst hr
      rfl

/-- C10 at a concrete input: both lookups resolve the hash reference `[7]`
from the database, return the value `[5]`, and leave the trie as it was. -/
theorem lookups_read_only_witness :
    (∃ r, ParallelGet 1 resolvableTrie [[0]] = .ok r ∧ r.values = [[5]] ∧
      r.trie = resolvableTrie) ∧
    (∃ r, ThreadSafeGet 1 resolvableTrie [0] AccessListCache.empty = .ok r ∧ r.value = [5] ∧
      r.accesses = ⟨[[0]], [[7, 7]]⟩ ∧ r.trie = resolvableTrie) :=
  ⟨⟨_, rfl, rfl,
      (lookups_read_only 1 resolvableTrie [[0]] [0] AccessListCache.empty).1 _ rfl⟩,
    ⟨_, rfl, rfl, rfl,
      (lookups_read_only 1 resolvableTrie [[0]] [0] AccessListCache.empty).2 _ rfl⟩⟩

/-! ## Errors of lookups (C7) -/

/-- C7: on a trie whose child 0 is a hash reference missing from the database,
`ThreadSafeGet` of a key below it returns the missing-node error, while
`ParallelGet` of the same key returns a nil error and an empty value. -/
theorem ParallelGet_drops_error :
    (∃ r, ThreadSafeGet 1 (memTrie danglingRoot) [0] AccessListCache.empty = .ok r ∧
      r.err = some (Err.missingNode [7] [0])) ∧
    (∃ r, ParallelGet 1 (memTrie danglingRoot) [[0]] = .ok r ∧ r.err = none ∧
      r.values = [[]]) :=
  ⟨⟨_, rfl, rfl⟩, ⟨_, rfl, rfl, rfl⟩⟩

/-! ## A failing pair in the parallel phase (C5) -/

/-- C5: on a trie whose root is a branch and whose child 0 is a hash reference
missing from the database, the engine fails for the single pair of shard 0;
the snapshot of shard 0 is then nil and `ParallelUpdate` panics in the merge
instead of returning the error slots. With a pair of shard 1 added, which the
engine applies without error, the call panics all the same. -/
theorem ParallelUpdate_failing_pair_panics :
    (∃ ev, threadSafeUpdate emptyReader 1 (seedSnapshot danglingChildren 0) [0] [1]
      = .ok (Node.nil, some (Err.missingNode [7] [0]), ev)) ∧
    ParallelUpdate 1 (memTrie danglingRoot) [[0]] [[1]] = .error Stop.panic ∧
    ParallelUpdate 1 (memTrie danglingRoot) [[0], [16]] [[1], [2]] = .error Stop.panic :=
  ⟨⟨_, rfl⟩, rfl, rfl⟩

/-! ## The root after the bootstrap (C8) -/

/-- C8: on the empty trie with the one-pair batch that deletes key `[0]`, the
root is still nil after the bootstrap step, the sequential fallback is not
taken, and `ParallelUpdate` panics on the root's type assertion; applying the
pair through the engine's `Update` returns and leaves the empty trie. -/
theorem ParallelUpdate_nil_root_panics :
    (∃ t, initSubRoots 0 (NewEmptyParallel emptyReader) [[0]] [[]] = .ok (t, false) ∧
      t.root.isNil = true) ∧
    ParallelUpdate 0 (NewEmptyParallel emptyReader) [[0]] [[]] = .error Stop.panic ∧
    (∃ t, (NewEmptyParallel emptyReader).Update 0 [0] [] = .ok (t, none) ∧
      t.root.isNil = true) :=
  ⟨⟨_, rfl, rfl⟩, rfl, ⟨_, rfl, rfl⟩⟩

/-! ## One update task against its own snapshot -/

theorem getD_set_self {α : Type} (l : List α) (i : Nat) (x d : α) (h : i < l.length) :
    (l.set i x).getD i d = x := by
  simp [List.getD_eq_getElem?_getD, List.getElem?_set, h]

theorem getD_set_other {α : Type} (l : List α) (i k : Nat) (x d : α) (h : i ≠ k) :
    (l.set i x).getD k d = l.getD k d := by
  simp [List.getD_eq_getElem?_getD, List.getElem?_set_ne h]

/-- The task of shard `start` reads and writes only slot `start` of the
snapshots and of the error slots: the slot of the snapshots ends as the
snapshot of `shardRun`, the error slot ends as the last error `shardRun`
lists (or is untouched when it lists none), and all other slots are as before. -/
theorem insertersLoop_spec (rd : Reader) (fuel : Nat) (root : Node) (values : List (List Nat))
    (start : Nat) :
    ∀ (rest : List (List Nat)) (i : Nat) (s s' : ParState) (es : List Err),
      start < s.rootSnapshots.length → start < s.errs.length →
      s.errs.getD start none = es.getLast? →
      insertersLoop rd fuel root values start rest i s = .ok s' →
      s'.rootSnapshots.length = s.rootSnapshots.length ∧ s'.errs.length = s.errs.length ∧
      (∃ snap es', shardRun rd fuel root values start rest i
          (s.rootSnapshots.getD start Node.nil) es = .ok (snap, es') ∧
        s'.rootSnapshots.getD start Node.nil = snap ∧
        s'.errs.getD start none = es'.getLast?) ∧
      (∀ k, k ≠ start → s'.rootSnapshots.getD k Node.nil = s.rootSnapshots.getD k Node.nil ∧
        s'.errs.getD k none = s.errs.getD k none) := by
  intro rest
  induction rest with
  | nil =>
    intro i s s' es _ _ he h
    simp only [insertersLoop, pure, Except.pure, Except.ok.injEq] at h
    subst h
    exact ⟨rfl, rfl, ⟨_, es, rfl, rfl, he⟩, fun k _ => ⟨rfl, rfl⟩⟩
  | cons key rest ih =>
    intro i s s' es hl1 hl2 he h
    simp only [insertersLoop] at h
    by_cases hs : shardOf key = start
    · simp only [if_pos hs] at h
      simp only [shardRun, if_pos hs]
      cases hv : values.get? i with
      | none => rw [hv] at h; simp at h
      | some value =>
        rw [hv] at h
        simp only [] at h ⊢
        rw [hs] at h
        cases hu : threadSafeUpdate rd fuel
            (if (s.rootSnapshots.getD start Node.nil).isNil = true then root
              else s.rootSnapshots.getD start Node.nil) key value with
        | error e => rw [hu] at h; simp at h
        | ok res =>
          obtain ⟨n, err, events⟩ := res
          rw [hu] at h
          simp only [] at h ⊢
          have hes : (if err.isSome = true then s.errs.set start err else s.errs).getD start none
              = (match err with
                 | some e => es ++ [e]
                 | none => es).getLast? := by
            cases err with
            | none => simpa using he
            | some e =>
              simp only [Option.isSome_some, if_true]
              rw [getD_set_self _ _ _ _ hl2]
              simp
          have hlen1 : start < (s.rootSnapshots.set start n).length := by simpa using hl1
          have hlen2 : start < (if err.isSome = true then s.errs.set start err else s.errs).length := by
            split <;> simpa using hl2
          obtain ⟨h1, h2, ⟨snap, es', h3, h4, h5⟩, h6⟩ := ih (i + 1) _ s' _ hlen1 hlen2 hes h
          simp only [] at h1 h2 h3 h6
          rw [getD_set_self _ _ _ _ hl1] at h3
          refine ⟨by simpa using h1, ?_, ⟨snap, es', h3, h4, h5⟩, ?_⟩
          · rw [h2]; split <;> simp
          · intro k hk
            obtain ⟨h7, h8⟩ := h6 k hk
            rw [h7, h8, getD_set_other _ _ _ _ _ (Ne.symm hk)]
            refine ⟨rfl, ?_⟩
            split
            · rw [getD_set_other _ _ _ _ _ (Ne.symm hk)]
            · rfl
    · simp only [if_neg hs] at h
      simp only [shardRun, if_neg hs]
      exact ih (i + 1) s s' es hl1 hl2 he h

theorem getD_map_range (f : Nat → Node) (n k : Nat) (h : k < n) :
    ((List.range n).map f).getD k Node.nil = f k := by
  simp [List.getD_eq_getElem?_getD, List.getElem?_map, List.getElem?_range h]

/-- The state after the 16 update tasks: every slot `k` holds the outcome of
`shardRun` for shard `k` on the seeded snapshot of that shard. -/
theorem parallel_phase_spec (rd : Reader) (fuel : Nat) (root : Node) (c : Nibble → Node)
    (keys values : List (List Nat)) (tr : List TraceEvent) (s : ParState)
    (h : ParallelWorker 16 16 (inserters rd fuel root keys values)
      ⟨(List.range 16).map (seedSnapshot c), List.replicate 16 none, tr⟩ = .ok s) :
    s.rootSnapshots.length = 16 ∧ s.errs.length = 16 ∧
    ∀ k, k < 16 → ∃ snap es,
      shardRun rd fuel root values k keys 0 (seedSnapshot c k) [] = .ok (snap, es) ∧
      s.rootSnapshots.getD k Node.nil = snap ∧ s.errs.getD k none = es.getLast? := by
  simp only [ParallelWorker, GenerateRanges_16] at h
  have hinv := runRanges_invariant (inserters rd fuel root keys values)
    (fun i s => s.rootSnapshots.length = 16 ∧ s.errs.length = 16 ∧
      (∀ k, k < i → ∃ snap es,
        shardRun rd fuel root values k keys 0 (seedSnapshot c k) [] = .ok (snap, es) ∧
        s.rootSnapshots.getD k Node.nil = snap ∧ s.errs.getD k none = es.getLast?) ∧
      (∀ k, i ≤ k → k < 16 → s.rootSnapshots.getD k Node.nil = seedSnapshot c k ∧
        s.errs.getD k none = none))
    16 0 0 _ s ?_ ?_ h
  · obtain ⟨h1, h2, h3, _⟩ := hinv
    exact ⟨h1, h2, fun k hk => h3 k (by omega)⟩
  · intro i idx s s' _ hi hP hrun
    obtain ⟨hl1, hl2, hdone, htodo⟩ := hP
    simp only [inserters] at hrun
    obtain ⟨hi1, hi2⟩ := htodo i (le_refl _) (by omega)
    obtain ⟨g1, g2, ⟨snap, es', g3, g4, g5⟩, g6⟩ := insertersLoop_spec rd fuel root values i keys 0
      s s' [] (by omega) (by omega) (by simpa using hi2) hrun
    rw [hi1] at g3
    refine ⟨g1.trans hl1, g2.trans hl2, ?_, ?_⟩
    · intro k hk
      by_cases hki : k = i
      · subst hki
        exact ⟨snap, es', g3, g4, g5⟩
      · obtain ⟨snap', es'', d1, d2, d3⟩ := hdone k (by omega)
        obtain ⟨e1, e2⟩ := g6 k hki
        exact ⟨snap', es'', d1, by rw [e1, d2], by rw [e2, d3]⟩
    · intro k hk hk16
      obtain ⟨e1, e2⟩ := g6 k (by omega)
      obtain ⟨f1, f2⟩ := htodo k (by omega) hk16
      exact ⟨by rw [e1, f1], by rw [e2, f2]⟩
  · refine ⟨by simp, by simp, fun k hk => absurd hk (by omega), ?_⟩
    intro k _ hk16
    refine ⟨getD_map_range _ _ _ hk16, ?_⟩
    show (List.replicate 16 (none : Option Err)).getD k none = none
    rw [List.getD_eq_getElem?_getD, List.getElem?_replicate]
    simp [hk16]

/-! ## The error slots of the parallel phase (C6) -/

/-- C6 as amended: a returning `ParallelUpdate` yields exactly 16 error slots;
when the call went through the parallel phase (the root is a branch after the
bootstrap), slot `k` holds the error of the last failing pair of shard `k` in
list order, nil when no pair of the shard failed, all pairs of the shard
having been run (`shardRun` lists the error of every failing pair). -/
theorem ParallelUpdate_error_slots (fuel : Nat) (t : Trie) (keys values : List (List Nat))
    (errs : List (Option Err)) (t' : Trie)
    (h : ParallelUpdate fuel t keys values = .ok (errs, t')) :
    errs.length = 16 ∧
    ∀ t1 c, keys ≠ [] → values ≠ [] →
      initSubRoots fuel t keys values = .ok (t1, false) → t1.root = Node.full c →
      ∀ k, k < 16 → ∃ snap es,
        shardRun t1.reader fuel t1.root values k keys 0 (seedSnapshot c k) [] = .ok (snap, es) ∧
        errs.getD k none = es.getLast? := by
  unfold ParallelUpdate at h
  by_cases h0 : keys.length = 0 ∨ values.length = 0
  · simp only [if_pos h0, pure, Except.pure, Except.ok.injEq, Prod.mk.injEq] at h
    refine ⟨by rw [← h.1]; simp, ?_⟩
    intro t1 c hk hv
    rcases h0 with h0 | h0
    · exact absurd (List.length_eq_zero.mp h0) hk
    · exact absurd (List.length_eq_zero.mp h0) hv
  · simp only [if_neg h0] at h
    cases hi : initSubRoots fuel t keys values with
    | error e => rw [hi] at h; simp at h
    | ok res =>
      obtain ⟨t1, b⟩ := res
      rw [hi] at h
      cases b with
      | true =>
        simp only [] at h
        cases hsq : sequentialLoop fuel values keys 0 t1 with
        | error e => rw [hsq] at h; simp at h
        | ok t2 =>
          rw [hsq] at h
          simp only [pure, Except.pure, Except.ok.injEq, Prod.mk.injEq] at h
          refine ⟨by rw [← h.1]; simp, ?_⟩
          intro t1' c _ _ hcontra
          simp at hcontra
      | false =>
        simp only [] at h
        cases hroot : t1.root with
        | full c =>
          rw [hroot] at h
          simp only [] at h
          cases hw : ParallelWorker 16 16 (inserters t1.reader fuel (Node.full c) keys values)
              ⟨(List.range 16).map (seedSnapshot c), List.replicate 16 none, t1.tracer⟩ with
          | error e => rw [hw] at h; simp at h
          | ok s =>
            rw [hw] at h
            simp only [] at h
            cases hm : mergeLoop s.rootSnapshots (List.range 16) c with
            | error e => rw [hm] at h; simp at h
            | ok c1 =>
              rw [hm] at h
              simp only [pure, Except.pure, Except.ok.injEq, Prod.mk.injEq] at h
              obtain ⟨p1, p2, p3⟩ := parallel_phase_spec _ _ _ _ _ _ _ _ hw
              refine ⟨by rw [← h.1]; exact p2, ?_⟩
              intro t1' c' _ _ heq hroot'
              simp only [Except.ok.injEq, Prod.mk.injEq, and_true] at heq
              subst heq
              rw [hroot] at hroot'
              cases hroot'
              intro k hk
              obtain ⟨snap, es, q1, _, q3⟩ := p3 k hk
              rw [hroot]
              exact ⟨snap, es, q1, by rw [← h.1]; exact q3⟩
        | nil => rw [hroot] at h; simp at h
        | value v => rw [hroot] at h; simp at h
        | short k v => rw [hroot] at h; simp at h
        | hash hh => rw [hroot] at h; simp at h

/-- C6 as stated fails: on a branch root whose shard 0 holds two dangling hash
references, the pairs with keys `[0]` and `[1]` of shard 0 fail in this order
with the errors for `[7]` and `[8]`, the third pair of the shard succeeds, and
the returned slot 0 holds the error for `[8]`, not the first one. -/
theorem ParallelUpdate_first_error_counterexample :
    ∃ errs t' snap es,
      ParallelUpdate 1 (memTrie twoDanglingRoot) [[0], [1], [2]] [[1], [1], [1]]
        = .ok (errs, t') ∧
      shardRun emptyReader 1 twoDanglingRoot [[1], [1], [1]] 0 [[0], [1], [2]] 0
        (seedSnapshot twoDanglingChildren 0) [] = .ok (snap, es) ∧
      es = [Err.missingNode [7] [0, 0], Err.missingNode [8] [0, 1]] ∧
      errs.getD 0 none = some (Err.missingNode [8] [0, 1]) ∧
      errs.getD 0 none ≠ es.head? :=
  ⟨_, _, _, _, rfl, rfl, rfl, rfl, by decide⟩

/-- C6 as amended, at the same input: slot 0 holds the last of the two errors
of shard 0. -/
theorem ParallelUpdate_error_slots_witness :
    ∃ errs t', ParallelUpdate 1 (memTrie twoDanglingRoot) [[0], [1], [2]] [[1], [1], [1]]
        = .ok (errs, t') ∧ errs.length = 16 ∧
      ∃ snap es, shardRun emptyReader 1 twoDanglingRoot [[1], [1], [1]] 0 [[0], [1], [2]] 0
          (seedSnapshot twoDanglingChildren 0) [] = .ok (snap, es) ∧
        errs.getD 0 none = es.getLast? := by
  have hex : ∃ errs t', ParallelUpdate 1 (memTrie twoDanglingRoot) [[0], [1], [2]]
      [[1], [1], [1]] = .ok (errs, t') := ⟨_, _, rfl⟩
  obtain ⟨errs, t', hp⟩ := hex
  have h := ParallelUpdate_error_slots 1 (memTrie twoDanglingRoot) [[0], [1], [2]]
    [[1], [1], [1]] errs t' hp
  exact ⟨errs, t', hp, h.1, h.2 _ twoDanglingChildren (by decide) (by decide) rfl rfl 0
    (by decide)⟩

/-! ## Terminated keys -/

theorem termKey_cons_cons {a b : Nibble} {rest : List Nibble} :
    termKey (a :: b :: rest) ↔ a ≠ term16 ∧ termKey (b :: rest) := Iff.rfl

theorem termKey_ne_nil {k : List Nibble} (h : termKey k) : k ≠ [] := by
  intro e; subst e; exact h

theorem termKey_tail {a : Nibble} {rest : List Nibble} (h : termKey (a :: rest))
    (hr : rest ≠ []) : a ≠ term16 ∧ termKey rest := by
  cases rest with
  | nil => exact absurd rfl hr
  | cons b r => exact h

theorem termKey_head16 {a : Nibble} {rest : List Nibble} (h : termKey (a :: rest))
    (ha : a = term16) : rest = [] := by
  cases rest with
  | nil => rfl
  | cons b r => exact absurd ha h.1

theorem termKey_head_ne {a : Nibble} {rest : List Nibble} (h : termKey (a :: rest))
    (ha : a ≠ term16) : termKey rest := by
  cases rest with
  | nil => exact absurd h ha
  | cons b r => exact h.2

theorem toNibble_ne_term16 {n : Nat} (h : n < 16) : toNibble n ≠ term16 := by
  intro e
  have := congrArg Fin.val e
  simp only [toNibble, term16] at this
  omega

theorem termKey_keybytesToHex (key : List Nat) : termKey (keybytesToHex key) := by
  induction key with
  | nil => simp [keybytesToHex, termKey]
  | cons b rest ih =>
    have h1 : toNibble (hiNibble b) ≠ term16 := toNibble_ne_term16 (by unfold hiNibble; omega)
    have h2 : toNibble (loNibble b) ≠ term16 := toNibble_ne_term16 (by unfold loNibble; omega)
    simp only [keybytesToHex]
    refine ⟨h1, ?_⟩
    cases hk : keybytesToHex rest with
    | nil => rw [hk] at ih; exact absurd ih (by simp [termKey])
    | cons c r => rw [hk] at ih; exact ⟨h2, ih⟩

theorem prefixLen_le_left : ∀ (key k : List Nibble), prefixLen key k ≤ key.length := by
  intro key
  induction key with
  | nil => intro k; simp [prefixLen]
  | cons a rest ih =>
    intro k
    cases k with
    | nil => simp [prefixLen]
    | cons b k2 =>
      simp only [prefixLen]
      split
      · have := ih k2; simp; omega
      · simp

theorem prefixLen_le_right : ∀ (key k : List Nibble), prefixLen key k ≤ k.length := by
  intro key
  induction key with
  | nil => intro k; simp [prefixLen]
  | cons a rest ih =>
    intro k
    cases k with
    | nil => simp [prefixLen]
    | cons b k2 =>
      simp only [prefixLen]
      split
      · have := ih k2; simp; omega
      · simp

/-- A terminated key is never used up inside the key of a well-formed short node. -/
theorem prefixLen_lt_key : ∀ (key k : List Nibble), termKey key → (termKey k ∨ noTerm k) →
    prefixLen key k < k.length → prefixLen key k < key.length := by
  intro key
  induction key with
  | nil => intro k h; exact absurd h (by simp [termKey])
  | cons a rest ih =>
    intro k hkey hk hlt
    cases k with
    | nil => simp [prefixLen] at hlt
    | cons b k2 =>
      simp only [prefixLen] at hlt ⊢
      by_cases hab : a = b
      · simp only [if_pos hab] at hlt ⊢
        subst hab
        cases rest with
        | nil =>
          have ha : a = term16 := hkey
          rcases hk with hk | hk
          · have := termKey_head16 hk ha
            subst this
            simp [prefixLen] at hlt
          · exact absurd ha (hk a (List.mem_cons_self _ _))
        | cons c r =>
          have hk2 : termKey k2 ∨ noTerm k2 := by
            rcases hk with hk | hk
            · cases k2 with
              | nil => simp [prefixLen] at hlt
              | cons d k3 => exact Or.inl hk.2
            · exact Or.inr (fun x hx => hk x (List.mem_cons_of_mem _ hx))
          have := ih k2 hkey.2 hk2 (by simpa using hlt)
          simp at this ⊢
          omega
      · simp [if_neg hab]

/-! ## One step of the pure insertion into a short node -/

theorem prefixLen_cons_same (x : Nibble) (rest k : List Nibble) :
    prefixLen (x :: rest) (x :: k) = prefixLen rest k + 1 := by
  simp [prefixLen]

theorem prefixLen_cons_diff {a x : Nibble} (h : a ≠ x) (rest k : List Nibble) :
    prefixLen (a :: rest) (x :: k) = 0 := by
  simp [prefixLen, h]

theorem ins_nil_key (n v : Node) : ins n [] v = v := by
  cases n <;> simp [ins]

theorem ins_nil_node (key : List Nibble) (v : Node) : ins Node.nil key v = leaf key v := by
  cases key with
  | nil => simp [ins, leaf]
  | cons a rest => simp [ins, leaf]

theorem ins_full (c : Nibble → Node) (a : Nibble) (rest : List Nibble) (v : Node) :
    ins (Node.full c) (a :: rest) v = Node.full (Function.update c a (ins (c a) rest v)) := by
  simp [ins]

/-- Inserting below a short node whose key starts with another nibble: a
branch with the two leaves. -/
theorem ins_short_diff {a x : Nibble} (h : a ≠ x) (k rest : List Nibble) (val v : Node) :
    ins (Node.short (x :: k) val) (a :: rest) v
      = Node.full (Function.update (Function.update noChildren x (leaf k val)) a
          (leaf rest v)) := by
  simp [ins, prefixLen, h]

/-- Inserting below a short node whose key starts with the same nibble: the
nibble is kept in front and the insertion goes on below it. -/
theorem ins_short_same (x : Nibble) (k rest : List Nibble) (val v : Node)
    (h1 : k = [] → (ins val rest v).isShort = false)
    (h2 : k ≠ [] → rest ≠ [])
    (h3 : prefixLen rest k < k.length → prefixLen rest k < rest.length) :
    ins (Node.short (x :: k) val) (x :: rest) v = consShort x (ins (leaf k val) rest v) := by
  by_cases hp : prefixLen rest k = k.length
  · have hL : ins (Node.short (x :: k) val) (x :: rest) v
        = Node.short (x :: k) (ins val (rest.drop (prefixLen rest k)) v) := by
      simp [ins, prefixLen, hp]
    rw [hL]
    cases k with
    | nil =>
      have h0 : prefixLen rest [] = 0 := by cases rest <;> simp [prefixLen]
      rw [h0]
      simp only [leaf, List.drop_zero]
      have hs := h1 rfl
      cases hi : ins val rest v with
      | short k2 v2 => rw [hi] at hs; simp [Node.isShort] at hs
      | nil => rfl
      | value w => rfl
      | full c => rfl
      | hash hh => rfl
    | cons y k2 =>
      obtain ⟨b, r, hr⟩ := List.exists_cons_of_ne_nil (h2 (by simp))
      subst hr
      simp only [leaf]
      have hR : ins (Node.short (y :: k2) val) (b :: r) v
          = Node.short (y :: k2) (ins val ((b :: r).drop (prefixLen (b :: r) (y :: k2))) v) := by
        simp [ins, hp]
      rw [hR]
      rfl
  · have hlt : prefixLen rest k < k.length :=
      lt_of_le_of_ne (prefixLen_le_right rest k) hp
    have hlt2 := h3 hlt
    obtain ⟨kn, hkn⟩ : ∃ kn, k.get? (prefixLen rest k) = some kn :=
      ⟨k.get ⟨_, hlt⟩, List.get?_eq_get hlt⟩
    obtain ⟨kk, hkk⟩ : ∃ kk, rest.get? (prefixLen rest k) = some kk :=
      ⟨rest.get ⟨_, hlt2⟩, List.get?_eq_get hlt2⟩
    have hkn' : k[prefixLen rest k]? = some kn := by simpa using hkn
    have hkk' : rest[prefixLen rest k]? = some kk := by simpa using hkk
    have hkne : k ≠ [] := by intro e; subst e; simp at hlt
    obtain ⟨b, r, hr⟩ := List.exists_cons_of_ne_nil (h2 hkne)
    obtain ⟨y, k2, hk2⟩ := List.exists_cons_of_ne_nil hkne
    have hL : ins (Node.short (x :: k) val) (x :: rest) v
        = Node.short (x :: rest.take (prefixLen rest k))
            (Node.full (Function.update (Function.update noChildren kn
              (leaf (k.drop (prefixLen rest k + 1)) val)) kk
              (leaf (rest.drop (prefixLen rest k + 1)) v))) := by
      simp [ins, prefixLen, hp, hkn', hkk']
    rw [hL]
    have hR : ins (leaf k val) rest v
        = (if prefixLen rest k = 0 then
            Node.full (Function.update (Function.update noChildren kn
              (leaf (k.drop (prefixLen rest k + 1)) val)) kk
              (leaf (rest.drop (prefixLen rest k + 1)) v))
          else Node.short (rest.take (prefixLen rest k))
            (Node.full (Function.update (Function.update noChildren kn
              (leaf (k.drop (prefixLen rest k + 1)) val)) kk
              (leaf (rest.drop (prefixLen rest k + 1)) v)))) := by
      subst hr hk2
      simp only [leaf, ins, if_neg hp, hkn, hkk]
    rw [hR]
    by_cases h0 : prefixLen rest k = 0
    · simp [h0, consShort]
    · simp [h0, consShort]

/-! ## Well-formed trees, one nibble at a time -/

theorem noTerm_tail {x : Nibble} {k : List Nibble} (h : noTerm (x :: k)) : noTerm k :=
  fun a ha => h a (List.mem_cons_of_mem _ ha)

theorem WFN_short_tail {x y : Nibble} {k : List Nibble} {val : Node}
    (h : WFN (Node.short (x :: y :: k) val)) : WFN (Node.short (y :: k) val) := by
  simp only [WFN] at h ⊢
  rcases h with ⟨h1, h2⟩ | ⟨_, h2, h3, h4⟩
  · exact Or.inl ⟨h1.2, h2⟩
  · exact Or.inr ⟨by simp, noTerm_tail h2, h3, h4⟩

theorem WFN_short_head {x y : Nibble} {k : List Nibble} {val : Node}
    (h : WFN (Node.short (x :: y :: k) val)) : x ≠ term16 := by
  simp only [WFN] at h
  rcases h with ⟨h1, _⟩ | ⟨_, h2, _, _⟩
  · exact h1.1
  · exact h2 x (List.mem_cons_self _ _)

theorem WFN_consShort {x : Nibble} {L : Node} (hx : x ≠ term16) (hL : WFN L)
    (hg : L.isInner = true) : WFN (consShort x L) := by
  cases L with
  | nil => simp [Node.isInner, Node.isShort, Node.isFull] at hg
  | value v => simp [Node.isInner, Node.isShort, Node.isFull] at hg
  | hash h => simp [Node.isInner, Node.isShort, Node.isFull] at hg
  | full c =>
    simp only [consShort, WFN] at hL ⊢
    refine Or.inr ⟨by simp, ?_, rfl, hL⟩
    intro a ha
    simp only [List.mem_singleton] at ha
    subst ha
    exact hx
  | short k v =>
    simp only [consShort, WFN] at hL ⊢
    rcases hL with ⟨h1, h2⟩ | ⟨h1, h2, h3, h4⟩
    · left
      refine ⟨?_, h2⟩
      cases k with
      | nil => exact absurd h1 (by simp [termKey])
      | cons y k2 => exact ⟨hx, h1⟩
    · right
      refine ⟨by simp, ?_, h3, h4⟩
      intro a ha
      rcases List.mem_cons.mp ha with e | e
      · subst e; exact hx
      · exact h2 a e

/-- Induction over well-formed trees that takes a short node apart one nibble
at a time. -/
theorem WFN_induction (P : Node → Prop)
    (hnil : P Node.nil)
    (hfull : ∀ c, WFN (Node.full c) → (∀ i, i ≠ term16 → P (c i)) → P (Node.full c))
    (hleaf : ∀ v, P (Node.short [term16] (Node.value v)))
    (hcons : ∀ x L, x ≠ term16 → WFN L → L.isInner = true → P L → P (consShort x L)) :
    ∀ n, WFN n → P n := by
  intro n
  induction n with
  | nil => intro _; exact hnil
  | value v => intro h; exact absurd h (by simp [WFN])
  | hash h => intro h; exact absurd h (by simp [WFN])
  | full c ih =>
    intro h
    exact hfull c h (fun i hi => ih i (by simp only [WFN] at h; exact h.2 i hi))
  | short k val ih =>
    induction k with
    | nil =>
      intro h
      simp only [WFN] at h
      rcases h with ⟨h1, _⟩ | ⟨h1, _⟩
      · exact absurd h1 (by simp [termKey])
      · exact absurd rfl h1
    | cons x k ihk =>
      intro h
      cases k with
      | nil =>
        simp only [WFN] at h
        rcases h with ⟨h1, h2⟩ | ⟨_, h2, h3, h4⟩
        · have hx : x = term16 := h1
          subst hx
          cases val with
          | value v => exact hleaf v
          | nil => simp [Node.isValue] at h2
          | short a b => simp [Node.isValue] at h2
          | full c => simp [Node.isValue] at h2
          | hash a => simp [Node.isValue] at h2
        · have hx : x ≠ term16 := h2 x (List.mem_cons_self _ _)
          cases val with
          | full c =>
            exact hcons x (Node.full c) hx h4 rfl (ih h4)
          | nil => simp [Node.isFull] at h3
          | short a b => simp [Node.isFull] at h3
          | value c => simp [Node.isFull] at h3
          | hash a => simp [Node.isFull] at h3
      | cons y k2 =>
        have hL := WFN_short_tail h
        exact hcons x (Node.short (y :: k2) val) (WFN_short_head h) hL rfl (ihk hL)

theorem WFN_short_key {k : List Nibble} {val : Node} (h : WFN (Node.short k val)) :
    k ≠ [] ∧ (termKey k ∨ noTerm k) := by
  simp only [WFN] at h
  rcases h with ⟨h1, _⟩ | ⟨h1, h2, _, _⟩
  · exact ⟨termKey_ne_nil h1, Or.inl h1⟩
  · exact ⟨h1, Or.inr h2⟩

theorem leaf_of_ne_nil {k : List Nibble} (h : k ≠ []) (v : Node) : leaf k v = Node.short k v := by
  cases k with
  | nil => exact absurd rfl h
  | cons a r => rfl

theorem isInner_consShort (x : Nibble) (L : Node) : (consShort x L).isInner = true := by
  cases L <;> rfl

theorem ins_cons_diff {a x : Nibble} (h : a ≠ x) (L : Node) (hL : WFN L)
    (hg : L.isInner = true) (rest : List Nibble) (v : Node) :
    ins (consShort x L) (a :: rest) v
      = Node.full (Function.update (Function.update noChildren x L) a (leaf rest v)) := by
  cases L with
  | nil => simp [Node.isInner, Node.isShort, Node.isFull] at hg
  | value v => simp [Node.isInner, Node.isShort, Node.isFull] at hg
  | hash h => simp [Node.isInner, Node.isShort, Node.isFull] at hg
  | full c =>
    simp only [consShort]
    rw [ins_short_diff h]
    rfl
  | short k val =>
    simp only [consShort]
    rw [ins_short_diff h, leaf_of_ne_nil (WFN_short_key hL).1]

theorem ins_cons_same {x : Nibble} (hx : x ≠ term16) (L : Node) (hL : WFN L)
    (hg : L.isInner = true) (rest : List Nibble) (hk : termKey (x :: rest)) (v : Node) :
    ins (consShort x L) (x :: rest) v = consShort x (ins L rest v) := by
  have hrest : termKey rest := termKey_head_ne hk hx
  obtain ⟨b, r, hr⟩ := List.exists_cons_of_ne_nil (termKey_ne_nil hrest)
  cases L with
  | nil => simp [Node.isInner, Node.isShort, Node.isFull] at hg
  | value v => simp [Node.isInner, Node.isShort, Node.isFull] at hg
  | hash h => simp [Node.isInner, Node.isShort, Node.isFull] at hg
  | full c =>
    have e : consShort x (Node.full c) = Node.short [x] (Node.full c) := rfl
    rw [e, ins_short_same x [] rest (Node.full c) v]
    · rfl
    · intro _
      subst hr
      rw [ins_full]
      rfl
    · intro h; exact absurd rfl h
    · intro h; simp at h
  | short k val =>
    have e : consShort x (Node.short k val) = Node.short (x :: k) val := rfl
    have hkk := WFN_short_key hL
    rw [e, ins_short_same x k rest val v]
    · rw [leaf_of_ne_nil hkk.1]
    · intro h; exact absurd h hkk.1
    · intro _; exact termKey_ne_nil hrest
    · exact prefixLen_lt_key rest k hrest hkk.2

theorem WFN_leaf_value {rest : List Nibble} (hk : termKey rest) {v : Node}
    (hv : v.isValue = true) : WFN (leaf rest v) := by
  rw [leaf_of_ne_nil (termKey_ne_nil hk)]
  simp only [WFN]
  exact Or.inl ⟨hk, hv⟩

theorem WFN_nil : WFN Node.nil := by simp [WFN]

/-- The pure insertion of a terminated key keeps a tree well-formed and never
returns nil, a bare value or a hash reference. -/
theorem ins_WFN : ∀ n, WFN n → ∀ (key : List Nibble) (v : Node), termKey key →
    v.isValue = true → WFN (ins n key v) ∧ (ins n key v).isInner = true := by
  refine WFN_induction _ ?_ ?_ ?_ ?_
  · intro key v hk hv
    rw [ins_nil_node]
    refine ⟨WFN_leaf_value hk hv, ?_⟩
    rw [leaf_of_ne_nil (termKey_ne_nil hk)]
    rfl
  · intro c hc ih key v hk hv
    obtain ⟨a, rest, hr⟩ := List.exists_cons_of_ne_nil (termKey_ne_nil hk)
    subst hr
    rw [ins_full]
    refine ⟨?_, rfl⟩
    simp only [WFN] at hc ⊢
    by_cases ha : a = term16
    · have hrest := termKey_head16 hk ha
      subst hrest
      subst ha
      rw [ins_nil_key]
      refine ⟨Or.inr (by simp [hv]), ?_⟩
      intro i hi
      rw [Function.update_noteq hi]
      exact hc.2 i hi
    · refine ⟨?_, ?_⟩
      · rw [Function.update_noteq (Ne.symm ha)]
        exact hc.1
      · intro i hi
        by_cases hia : i = a
        · subst hia
          rw [Function.update_same]
          exact (ih i hi rest v (termKey_head_ne hk ha) hv).1
        · rw [Function.update_noteq hia]
          exact hc.2 i hi
  · intro w key v hk hv
    obtain ⟨a, rest, hr⟩ := List.exists_cons_of_ne_nil (termKey_ne_nil hk)
    subst hr
    by_cases ha : a = term16
    · have hrest := termKey_head16 hk ha
      subst hrest
      subst ha
      have e : ins (Node.short [term16] (Node.value w)) [term16] v = Node.short [term16] v := by
        simp [ins, prefixLen]
      rw [e]
      refine ⟨?_, rfl⟩
      simp only [WFN]
      exact Or.inl ⟨rfl, hv⟩
    · rw [ins_short_diff ha]
      refine ⟨?_, rfl⟩
      simp only [WFN]
      refine ⟨?_, ?_⟩
      · rw [Function.update_noteq (Ne.symm ha), Function.update_same]
        right; rfl
      · intro i hi
        by_cases hia : i = a
        · subst hia
          rw [Function.update_same]
          exact WFN_leaf_value (termKey_head_ne hk ha) hv
        · rw [Function.update_noteq hia, Function.update_noteq hi]
          exact WFN_nil
  · intro x L hx hL hg ih key v hk hv
    obtain ⟨a, rest, hr⟩ := List.exists_cons_of_ne_nil (termKey_ne_nil hk)
    subst hr
    by_cases hax : a = x
    · subst hax
      rw [ins_cons_same hx L hL hg rest hk v]
      obtain ⟨h1, h2⟩ := ih rest v (termKey_head_ne hk hx) hv
      exact ⟨WFN_consShort hx h1 h2, isInner_consShort _ _⟩
    · rw [ins_cons_diff hax L hL hg]
      refine ⟨?_, rfl⟩
      simp only [WFN]
      refine ⟨?_, ?_⟩
      · by_cases ha : a = term16
        · have hrest := termKey_head16 hk ha
          subst hrest
          subst ha
          rw [Function.update_same]
          right; exact hv
        · rw [Function.update_noteq (Ne.symm ha), Function.update_noteq (Ne.symm hx)]
          left; rfl
      · intro i hi
        by_cases hia : i = a
        · subst hia
          rw [Function.update_same]
          exact WFN_leaf_value (termKey_head_ne hk hi) hv
        · rw [Function.update_noteq hia]
          by_cases hix : i = x
          · subst hix
            rw [Function.update_same]
            exact hL
          · rw [Function.update_noteq hix]
            exact WFN_nil

/-! ## Insertions commute, and a later insertion overwrites an earlier one -/

theorem update_three {f : Nibble → Node} {x b : Nibble} (h : x ≠ b) (L M X : Node) :
    Function.update (Function.update (Function.update f x L) b M) x X
      = Function.update (Function.update f x X) b M := by
  rw [Function.update_comm (Ne.symm h), Function.update_idem]

theorem prefixLen_self (k : List Nibble) : prefixLen k k = k.length := by
  induction k with
  | nil => rfl
  | cons a r ih => simp [prefixLen, ih]

theorem ins_short_self {k : List Nibble} (hk : k ≠ []) (v1 v2 : Node) :
    ins (Node.short k v1) k v2 = Node.short k v2 := by
  obtain ⟨a, r, hr⟩ := List.exists_cons_of_ne_nil hk
  subst hr
  have e : ins (Node.short (a :: r) v1) (a :: r) v2
      = Node.short (a :: r) (ins v1 ((a :: r).drop (prefixLen (a :: r) (a :: r))) v2) := by
    simp only [ins, prefixLen_self, if_true]
  rw [e, prefixLen_self, List.drop_length, ins_nil_key]

theorem ins_leaf_self (r : List Nibble) (v1 v2 : Node) : ins (leaf r v1) r v2 = leaf r v2 := by
  cases r with
  | nil => simp [leaf, ins_nil_key]
  | cons a r2 => simp only [leaf]; exact ins_short_self (by simp) v1 v2

/-- Two distinct terminated keys inserted into the empty tree, in either order. -/
theorem ins_leaf_comm : ∀ (k1 k2 : List Nibble) (v1 v2 : Node), termKey k1 → termKey k2 →
    k1 ≠ k2 → v1.isValue = true → v2.isValue = true →
    ins (Node.short k1 v1) k2 v2 = ins (Node.short k2 v2) k1 v1 := by
  intro k1
  induction k1 with
  | nil => intro k2 v1 v2 h; exact absurd h (by simp [termKey])
  | cons x r1 ih =>
    intro k2 v1 v2 h1 h2 hne hv1 hv2
    obtain ⟨a, r2, hr⟩ := List.exists_cons_of_ne_nil (termKey_ne_nil h2)
    subst hr
    by_cases hax : a = x
    · subst hax
      have hx : a ≠ term16 := by
        intro e
        have e1 := termKey_head16 h1 e
        have e2 := termKey_head16 h2 e
        subst e1 e2
        exact hne rfl
      have t1 := termKey_head_ne h1 hx
      have t2 := termKey_head_ne h2 hx
      have c1 : Node.short (a :: r1) v1 = consShort a (Node.short r1 v1) := rfl
      have c2 : Node.short (a :: r2) v2 = consShort a (Node.short r2 v2) := rfl
      have w1 : WFN (Node.short r1 v1) := by simp only [WFN]; exact Or.inl ⟨t1, hv1⟩
      have w2 : WFN (Node.short r2 v2) := by simp only [WFN]; exact Or.inl ⟨t2, hv2⟩
      rw [c1, c2, ins_cons_same hx _ w1 rfl r2 h2, ins_cons_same hx _ w2 rfl r1 h1,
        ih r2 v1 v2 t1 t2 (fun e => hne (by rw [e])) hv1 hv2]
    · rw [ins_short_diff hax, ins_short_diff (Ne.symm hax), Function.update_comm hax]

/-- A branch made of one subtree and one leaf receives a second key outside
the subtree: the two keys can be swapped. -/
theorem ins_branch_comm {x a b : Nibble} (L : Node) (r1 r2 : List Nibble) (v1 v2 : Node)
    (hbx : b ≠ x) (hax : a ≠ x)
    (hsame : a = b → termKey r1 ∧ termKey r2 ∧ r1 ≠ r2)
    (hv1 : v1.isValue = true) (hv2 : v2.isValue = true) :
    ins (Node.full (Function.update (Function.update noChildren x L) a (leaf r1 v1)))
        (b :: r2) v2
      = ins (Node.full (Function.update (Function.update noChildren x L) b (leaf r2 v2)))
        (a :: r1) v1 := by
  rw [ins_full, ins_full]
  by_cases hab : a = b
  · subst hab
    obtain ⟨t1, t2, hne⟩ := hsame rfl
    rw [Function.update_same, Function.update_same, Function.update_idem, Function.update_idem,
      leaf_of_ne_nil (termKey_ne_nil t1), leaf_of_ne_nil (termKey_ne_nil t2),
      ins_leaf_comm r1 r2 v1 v2 t1 t2 hne hv1 hv2]
  · rw [Function.update_noteq (Ne.symm hab), Function.update_noteq hbx,
      Function.update_noteq hab, Function.update_noteq hax]
    have e : noChildren b = Node.nil := rfl
    have e' : noChildren a = Node.nil := rfl
    rw [e, e', ins_nil_node, ins_nil_node, Function.update_comm hab]

theorem tails_of_same_head {a : Nibble} {r1 r2 : List Nibble} (t1 : termKey (a :: r1))
    (t2 : termKey (a :: r2)) (hne : a :: r1 ≠ a :: r2) :
    a ≠ term16 ∧ termKey r1 ∧ termKey r2 ∧ r1 ≠ r2 := by
  have ha : a ≠ term16 := by
    intro e
    have e1 := termKey_head16 t1 e
    have e2 := termKey_head16 t2 e
    subst e1 e2
    exact hne rfl
  exact ⟨ha, termKey_head_ne t1 ha, termKey_head_ne t2 ha, fun e => hne (by rw [e])⟩

/-- Insertions of two distinct terminated keys into a well-formed tree commute. -/
theorem ins_comm : ∀ n, WFN n → ∀ (k1 k2 : List Nibble) (v1 v2 : Node), termKey k1 →
    termKey k2 → k1 ≠ k2 → v1.isValue = true → v2.isValue = true →
    ins (ins n k1 v1) k2 v2 = ins (ins n k2 v2) k1 v1 := by
  refine WFN_induction _ ?_ ?_ ?_ ?_
  · intro k1 k2 v1 v2 t1 t2 hne hv1 hv2
    rw [ins_nil_node, ins_nil_node, leaf_of_ne_nil (termKey_ne_nil t1),
      leaf_of_ne_nil (termKey_ne_nil t2)]
    exact ins_leaf_comm k1 k2 v1 v2 t1 t2 hne hv1 hv2
  · intro c hc ih k1 k2 v1 v2 t1 t2 hne hv1 hv2
    obtain ⟨a, r1, e1⟩ := List.exists_cons_of_ne_nil (termKey_ne_nil t1)
    obtain ⟨b, r2, e2⟩ := List.exists_cons_of_ne_nil (termKey_ne_nil t2)
    subst e1 e2
    rw [ins_full, ins_full, ins_full, ins_full]
    by_cases hab : a = b
    · subst hab
      obtain ⟨ha, tr1, tr2, hr⟩ := tails_of_same_head t1 t2 hne
      rw [Function.update_same, Function.update_same, Function.update_idem,
        Function.update_idem, ih a ha r1 r2 v1 v2 tr1 tr2 hr hv1 hv2]
    · rw [Function.update_noteq (Ne.symm hab), Function.update_noteq hab,
        Function.update_comm hab]
  · intro w k1 k2 v1 v2 t1 t2 hne hv1 hv2
    obtain ⟨a, r1, e1⟩ := List.exists_cons_of_ne_nil (termKey_ne_nil t1)
    obtain ⟨b, r2, e2⟩ := List.exists_cons_of_ne_nil (termKey_ne_nil t2)
    subst e1 e2
    have hself : ∀ v, ins (Node.short [term16] (Node.value w)) [term16] v
        = Node.short [term16] v := fun v => ins_short_self (by simp) _ v
    by_cases ha : a = term16
    · have hr1 := termKey_head16 t1 ha
      subst hr1 ha
      have hb : b ≠ term16 := by
        intro e
        have hr2 := termKey_head16 t2 e
        subst hr2 e
        exact hne rfl
      rw [hself, ins_short_diff hb, ins_short_diff hb, ins_full,
        Function.update_noteq (Ne.symm hb), Function.update_same, ins_nil_key,
        update_three (Ne.symm hb)]
      rfl
    · by_cases hb : b = term16
      · have hr2 := termKey_head16 t2 hb
        subst hr2 hb
        rw [hself, ins_short_diff ha, ins_short_diff ha, ins_full,
          Function.update_noteq (Ne.symm ha), Function.update_same, ins_nil_key,
          update_three (Ne.symm ha)]
        rfl
      · rw [ins_short_diff ha, ins_short_diff hb]
        exact ins_branch_comm _ r1 r2 v1 v2 hb ha
          (fun e => by
            subst e
            obtain ⟨_, tr1, tr2, hr⟩ := tails_of_same_head t1 t2 hne
            exact ⟨tr1, tr2, hr⟩) hv1 hv2
  · intro x L hx hL hg ih k1 k2 v1 v2 t1 t2 hne hv1 hv2
    obtain ⟨a, r1, e1⟩ := List.exists_cons_of_ne_nil (termKey_ne_nil t1)
    obtain ⟨b, r2, e2⟩ := List.exists_cons_of_ne_nil (termKey_ne_nil t2)
    subst e1 e2
    by_cases hax : a = x
    · subst hax
      have tr1 := termKey_head_ne t1 hx
      obtain ⟨w1, g1⟩ := ins_WFN L hL r1 v1 tr1 hv1
      by_cases hba : b = a
      · subst hba
        have tr2 := termKey_head_ne t2 hx
        obtain ⟨w2, g2⟩ := ins_WFN L hL r2 v2 tr2 hv2
        rw [ins_cons_same hx L hL hg r1 t1, ins_cons_same hx _ w1 g1 r2 t2,
          ins_cons_same hx L hL hg r2 t2, ins_cons_same hx _ w2 g2 r1 t1,
          ih r1 r2 v1 v2 tr1 tr2 (fun e => hne (by rw [e])) hv1 hv2]
      · rw [ins_cons_same hx L hL hg r1 t1, ins_cons_diff hba _ w1 g1,
          ins_cons_diff hba L hL hg, ins_full, Function.update_noteq (Ne.symm hba),
          Function.update_same, update_three (Ne.symm hba)]
    · by_cases hbx : b = x
      · subst hbx
        have tr2 := termKey_head_ne t2 hx
        obtain ⟨w2, g2⟩ := ins_WFN L hL r2 v2 tr2 hv2
        rw [ins_cons_same hx L hL hg r2 t2, ins_cons_diff hax _ w2 g2,
          ins_cons_diff hax L hL hg, ins_full, Function.update_noteq (Ne.symm hax),
          Function.update_same, update_three (Ne.symm hax)]
      · rw [ins_cons_diff hax L hL hg, ins_cons_diff hbx L hL hg]
        exact ins_branch_comm _ r1 r2 v1 v2 hbx hax
          (fun e => by
            subst e
            obtain ⟨_, tr1, tr2, hr⟩ := tails_of_same_head t1 t2 hne
            exact ⟨tr1, tr2, hr⟩) hv1 hv2

/-- A second insertion under the same key replaces the value of the first. -/
theorem ins_overwrite : ∀ n, WFN n → ∀ (k : List Nibble) (v1 v2 : Node), termKey k →
    v1.isValue = true → v2.isValue = true → ins (ins n k v1) k v2 = ins n k v2 := by
  refine WFN_induction _ ?_ ?_ ?_ ?_
  · intro k v1 v2 t _ _
    rw [ins_nil_node, ins_nil_node, ins_leaf_self]
  · intro c hc ih k v1 v2 t hv1 hv2
    obtain ⟨a, r, e⟩ := List.exists_cons_of_ne_nil (termKey_ne_nil t)
    subst e
    rw [ins_full, ins_full, ins_full, Function.update_same, Function.update_idem]
    by_cases ha : a = term16
    · have hr := termKey_head16 t ha
      subst hr
      rw [ins_nil_key, ins_nil_key]
    · rw [ih a ha r v1 v2 (termKey_head_ne t ha) hv1 hv2]
  · intro w k v1 v2 t hv1 hv2
    obtain ⟨a, r, e⟩ := List.exists_cons_of_ne_nil (termKey_ne_nil t)
    subst e
    by_cases ha : a = term16
    · have hr := termKey_head16 t ha
      subst hr ha
      rw [ins_short_self (by simp), ins_short_self (by simp), ins_short_self (by simp)]
    · rw [ins_short_diff ha, ins_short_diff ha, ins_full, Function.update_same,
        Function.update_idem, ins_leaf_self]
  · intro x L hx hL hg ih k v1 v2 t hv1 hv2
    obtain ⟨a, r, e⟩ := List.exists_cons_of_ne_nil (termKey_ne_nil t)
    subst e
    by_cases hax : a = x
    · subst hax
      have tr := termKey_head_ne t hx
      obtain ⟨w1, g1⟩ := ins_WFN L hL r v1 tr hv1
      rw [ins_cons_same hx L hL hg r t, ins_cons_same hx _ w1 g1 r t,
        ins_cons_same hx L hL hg r t, ih r v1 v2 tr hv1 hv2]
    · rw [ins_cons_diff hax L hL hg, ins_cons_diff hax L hL hg, ins_full,
        Function.update_same, Function.update_idem, ins_leaf_self]

/-! ## Batches of insertions -/

theorem isValue_value (v : List Nat) : (Node.value v).isValue = true := rfl

theorem insAll_WFN : ∀ (pairs : List (List Nat × List Nat)) (n : Node), WFN n →
    WFN (insAll n pairs) := by
  intro pairs
  induction pairs with
  | nil => intro n h; exact h
  | cons p rest ih =>
    intro n h
    obtain ⟨k, v⟩ := p
    simp only [insAll]
    exact ih _ (ins_WFN n h _ _ (termKey_keybytesToHex k) (isValue_value v)).1

theorem insAll_append (n : Node) (xs ys : List (List Nat × List Nat)) :
    insAll n (xs ++ ys) = insAll (insAll n xs) ys := by
  induction xs generalizing n with
  | nil => rfl
  | cons p rest ih =>
    obtain ⟨k, v⟩ := p
    simp only [List.cons_append, insAll]
    exact ih _

/-- An insertion is absorbed by a batch that writes the same key later. -/
theorem insAll_absorb : ∀ (pairs : List (List Nat × List Nat)) (n : Node), WFN n →
    ∀ (k v : List Nat), (∃ p ∈ pairs, keybytesToHex p.1 = keybytesToHex k) →
    insAll (ins n (keybytesToHex k) (Node.value v)) pairs = insAll n pairs := by
  intro pairs
  induction pairs with
  | nil => intro n _ k v h; obtain ⟨p, hp, _⟩ := h; simp at hp
  | cons q rest ih =>
    intro n hn k v h
    obtain ⟨k', v'⟩ := q
    simp only [insAll]
    by_cases he : keybytesToHex k' = keybytesToHex k
    · rw [he, ins_overwrite n hn _ (Node.value v) (Node.value v') (termKey_keybytesToHex k)
        rfl rfl]
    · rw [ins_comm n hn _ _ (Node.value v) (Node.value v') (termKey_keybytesToHex k)
        (termKey_keybytesToHex k') (Ne.symm he) rfl rfl]
      apply ih _ (ins_WFN n hn _ (Node.value v') (termKey_keybytesToHex k') rfl).1
      obtain ⟨p, hp, hpk⟩ := h
      rcases List.mem_cons.mp hp with e | e
      · subst e; exact absurd hpk he
      · exact ⟨p, e, hpk⟩

/-- A batch is absorbed by a batch that writes all of its keys again. -/
theorem insAll_absorb_list : ∀ (pre pairs : List (List Nat × List Nat)) (n : Node), WFN n →
    (∀ q ∈ pre, ∃ p ∈ pairs, keybytesToHex p.1 = keybytesToHex q.1) →
    insAll n (pre ++ pairs) = insAll n pairs := by
  intro pre
  induction pre with
  | nil => intro pairs n _ _; rfl
  | cons q rest ih =>
    intro pairs n hn h
    obtain ⟨k, v⟩ := q
    show insAll (ins n (keybytesToHex k) (Node.value v)) (rest ++ pairs) = insAll n pairs
    rw [ih pairs _ (ins_WFN n hn _ (Node.value v) (termKey_keybytesToHex k) rfl).1
      (fun q hq => h q (List.mem_cons_of_mem _ hq))]
    exact insAll_absorb pairs n hn k v (h (k, v) (List.mem_cons_self _ _))

/-! ## The engine's `insert` on well-formed trees is the pure insertion -/

theorem drop_of_termKey : ∀ (k key : List Nibble), termKey key → termKey k →
    prefixLen key k = k.length → key.drop k.length = [] := by
  intro k
  induction k with
  | nil => intro key _ h; exact absurd h (by simp [termKey])
  | cons b k2 ih =>
    intro key hkey hk hp
    obtain ⟨a, rest, e⟩ := List.exists_cons_of_ne_nil (termKey_ne_nil hkey)
    subst e
    by_cases hab : a = b
    · subst hab
      rw [prefixLen_cons_same] at hp
      simp only [List.length_cons, Nat.add_right_cancel_iff] at hp
      cases k2 with
      | nil =>
        have ha : a = term16 := hk
        rw [termKey_head16 hkey ha]
        rfl
      | cons c k3 =>
        have ha : a ≠ term16 := hk.1
        simp only [List.length_cons, List.drop_succ_cons]
        exact ih rest (termKey_head_ne hkey ha) hk.2 hp
    · rw [prefixLen_cons_diff hab] at hp
      simp at hp

theorem drop_of_noTerm : ∀ (k key : List Nibble), termKey key → noTerm k →
    prefixLen key k = k.length → termKey (key.drop k.length) := by
  intro k
  induction k with
  | nil => intro key hkey _ _; simpa using hkey
  | cons b k2 ih =>
    intro key hkey hk hp
    obtain ⟨a, rest, e⟩ := List.exists_cons_of_ne_nil (termKey_ne_nil hkey)
    subst e
    by_cases hab : a = b
    · subst hab
      rw [prefixLen_cons_same] at hp
      simp only [List.length_cons, Nat.add_right_cancel_iff] at hp
      have ha : a ≠ term16 := hk a (List.mem_cons_self _ _)
      simp only [List.length_cons, List.drop_succ_cons]
      exact ih rest (termKey_head_ne hkey ha) (noTerm_tail hk) hp
    · rw [prefixLen_cons_diff hab] at hp
      simp at hp

theorem insertNil_node (pfx key : List Nibble) (v : Node) :
    (insertNil pfx key v).node = leaf key v := by
  cases key <;> rfl

/-- On a well-formed tree and a terminated key the engine's `insert` returns
without error the node of the pure insertion; when it reports no change, that
node is the node it was given. No hash reference is met, so the result does
not depend on the fuel. -/
theorem insertAux_ins (rd : Reader)
    (onHash : Node → List Nibble → List Nibble → Node → Run UpdRes) :
    ∀ (n : Node) (pfx key : List Nibble) (w : List Nat), Compat n key →
      ∃ r, insertAux rd onHash n pfx key (Node.value w) = .ok r ∧ r.err = none ∧
        r.node = ins n key (Node.value w) ∧ (r.dirty = false → r.node = n) := by
  intro n
  induction n with
  | nil =>
    intro pfx key w hc
    cases key with
    | nil => exact ⟨_, by simp only [insertAux]; rfl, rfl, by simp [ins], by simp⟩
    | cons a rest =>
      refine ⟨insertNil pfx (a :: rest) (Node.value w), by simp only [insertAux]; rfl, rfl, ?_,
        by simp [insertNil]⟩
      rw [ins_nil_node, insertNil_node]
  | value v =>
    intro pfx key w hc
    rcases hc with ⟨h, _⟩ | ⟨_, h⟩
    · exact absurd h (by simp [WFN])
    · subst h
      refine ⟨⟨v != w, Node.value w, none, []⟩, by simp only [insertAux]; rfl, rfl,
        by simp [ins], ?_⟩
      intro hd
      simp only [bne_eq_false_iff_eq] at hd
      rw [hd]
  | hash h =>
    intro pfx key w hc
    rcases hc with ⟨h, _⟩ | ⟨h, _⟩
    · exact absurd h (by simp [WFN])
    · simp [Node.isValue, Node.isNil] at h
  | full c ih =>
    intro pfx key w hc
    rcases hc with ⟨hw, hk⟩ | ⟨h, _⟩
    · obtain ⟨a, rest, e⟩ := List.exists_cons_of_ne_nil (termKey_ne_nil hk)
      subst e
      have hcompat : Compat (c a) rest := by
        simp only [WFN] at hw
        by_cases ha : a = term16
        · have hr := termKey_head16 hk ha
          subst hr ha
          exact Or.inr ⟨hw.1.symm, rfl⟩
        · exact Or.inl ⟨hw.2 a ha, termKey_head_ne hk ha⟩
      obtain ⟨r, hr, he, hn, hd⟩ := ih a (pfx ++ [a]) rest w hcompat
      cases hdirty : r.dirty with
      | false =>
        refine ⟨⟨false, Node.full c, r.err, r.events⟩, ?_, he, ?_, fun _ => rfl⟩
        · simp only [insertAux, hr, hdirty]
          rfl
        · rw [ins_full, ← hn, hd hdirty, Function.update_eq_self]
      | true =>
        refine ⟨⟨true, Node.full (Function.update c a r.node), none, r.events⟩, ?_, rfl, ?_,
          by simp⟩
        · simp only [insertAux, hr, hdirty, he]
          rfl
        · rw [ins_full, ← hn]
    · simp [Node.isValue, Node.isNil] at h
  | short k val ih =>
    intro pfx key w hc
    rcases hc with ⟨hw, hk⟩ | ⟨h, _⟩
    · obtain ⟨a, rest, e⟩ := List.exists_cons_of_ne_nil (termKey_ne_nil hk)
      have hkk := WFN_short_key hw
      by_cases hp : prefixLen key k = k.length
      · have hcompat : Compat val (key.drop (prefixLen key k)) := by
          rw [hp]
          simp only [WFN] at hw
          rcases hw with ⟨h1, h2⟩ | ⟨_, h2, _, h4⟩
          · exact Or.inr ⟨Or.inl h2, drop_of_termKey k key hk h1 hp⟩
          · exact Or.inl ⟨h4, drop_of_noTerm k key hk h2 hp⟩
        obtain ⟨r, hr, he, hn, hd⟩ := ih (pfx ++ key.take (prefixLen key k))
          (key.drop (prefixLen key k)) w hcompat
        have hins : ins (Node.short k val) key (Node.value w)
            = Node.short k (ins val (key.drop (prefixLen key k)) (Node.value w)) := by
          subst e
          simp only [ins, if_pos hp]
        cases hdirty : r.dirty with
        | false =>
          refine ⟨⟨false, Node.short k val, r.err, r.events⟩, ?_, he, ?_, fun _ => rfl⟩
          · subst e
            simp only [insertAux, if_pos hp, hr, hdirty]
            rfl
          · rw [hins, ← hn, hd hdirty]
        | true =>
          refine ⟨⟨true, Node.short k r.node, none, r.events⟩, ?_, rfl, ?_, by simp⟩
          · subst e
            simp only [insertAux, if_pos hp, hr, hdirty, he]
            rfl
          · rw [hins, ← hn]
      · have hlt : prefixLen key k < k.length :=
          lt_of_le_of_ne (prefixLen_le_right key k) hp
        have hlt2 := prefixLen_lt_key key k hk hkk.2 hlt
        obtain ⟨kn, hkn⟩ : ∃ kn, k.get? (prefixLen key k) = some kn :=
          ⟨k.get ⟨_, hlt⟩, List.get?_eq_get hlt⟩
        obtain ⟨kk, hkk'⟩ : ∃ kk, key.get? (prefixLen key k) = some kk :=
          ⟨key.get ⟨_, hlt2⟩, List.get?_eq_get hlt2⟩
        subst e
        by_cases h0 : prefixLen (a :: rest) k = 0
        · refine ⟨_, by simp only [insertAux, if_neg hp, hkn, hkk', if_pos h0]; rfl, rfl, ?_,
            by simp⟩
          simp only [ins, if_neg hp, hkn, hkk', if_pos h0, insertNil_node]
        · refine ⟨_, by simp only [insertAux, if_neg hp, hkn, hkk', if_neg h0]; rfl, rfl, ?_,
            by simp⟩
          simp only [ins, if_neg hp, hkn, hkk', if_neg h0, insertNil_node]
    · simp [Node.isValue, Node.isNil] at h

/-! ## The update loops on well-formed trees and insert-only batches -/

theorem insert_ins (rd : Reader) (fuel : Nat) (n : Node) (pfx key : List Nibble) (w : List Nat)
    (hc : Compat n key) :
    ∃ r, insert rd fuel n pfx key (Node.value w) = .ok r ∧ r.err = none ∧
      r.node = ins n key (Node.value w) := by
  cases fuel with
  | zero =>
    obtain ⟨r, h1, h2, h3, _⟩ := insertAux_ins rd (fun _ _ _ _ => .error Stop.fuel) n pfx key w hc
    exact ⟨r, by simp only [insert]; exact h1, h2, h3⟩
  | succ f =>
    obtain ⟨r, h1, h2, h3, _⟩ := insertAux_ins rd (insert rd f) n pfx key w hc
    exact ⟨r, by simp only [insert]; exact h1, h2, h3⟩

theorem length_ne_zero_of_ne_nil {α : Type} {l : List α} (h : l ≠ []) : l.length ≠ 0 := by
  intro e; exact h (List.length_eq_zero.mp e)

theorem update_ins (fuel : Nat) (t : Trie) (key value : List Nat) (hw : WFN t.root)
    (hv : value ≠ []) :
    ∃ t', t.update fuel key value = .ok (t', none) ∧
      t'.root = ins t.root (keybytesToHex key) (Node.value value) ∧
      t'.reader = t.reader ∧ t'.committed = t.committed := by
  obtain ⟨r, h1, h2, h3⟩ := insert_ins t.reader fuel t.root [] (keybytesToHex key) value
    (Or.inl ⟨hw, termKey_keybytesToHex key⟩)
  refine ⟨{ t with root := r.node, unhashed := t.unhashed + 1, tracer := t.tracer ++ r.events },
    ?_, h3, rfl, rfl⟩
  simp only [Trie.update, if_pos (length_ne_zero_of_ne_nil hv), h1, h2]
  rfl

theorem Update_ins (fuel : Nat) (t : Trie) (key value : List Nat) (hw : WFN t.root)
    (hv : value ≠ []) (hc : t.committed = false) :
    ∃ t', t.Update fuel key value = .ok (t', none) ∧
      t'.root = ins t.root (keybytesToHex key) (Node.value value) ∧
      t'.reader = t.reader ∧ t'.committed = false := by
  obtain ⟨t', h1, h2, h3, h4⟩ := update_ins fuel t key value hw hv
  refine ⟨t', ?_, h2, h3, h4.trans hc⟩
  simp only [Trie.Update, hc]
  exact h1

theorem threadSafeUpdate_ins (rd : Reader) (fuel : Nat) (root : Node) (key value : List Nat)
    (hw : WFN root) (hv : value ≠ []) :
    ∃ ev, threadSafeUpdate rd fuel root key value
      = .ok (ins root (keybytesToHex key) (Node.value value), none, ev) := by
  obtain ⟨r, h1, h2, h3⟩ := insert_ins rd fuel root [] (keybytesToHex key) value
    (Or.inl ⟨hw, termKey_keybytesToHex key⟩)
  refine ⟨r.events, ?_⟩
  simp only [threadSafeUpdate, if_pos (length_ne_zero_of_ne_nil hv), h1, h2, h3]
  rfl

theorem get?_of_drop {α : Type} {l : List α} {i : Nat} {v : α} {vs : List α}
    (h : l.drop i = v :: vs) : l.get? i = some v ∧ l.drop (i + 1) = vs := by
  induction l generalizing i with
  | nil => simp at h
  | cons a l ih =>
    cases i with
    | zero =>
      simp only [List.drop_zero, List.cons.injEq] at h
      simp [h.1, h.2]
    | succ i =>
      simp only [List.drop_succ_cons] at h
      have := ih h
      simpa using this

theorem UpdateAll_ins (fuel : Nat) : ∀ (pairs : List (List Nat × List Nat)) (t : Trie),
    WFN t.root → t.committed = false → (∀ p ∈ pairs, p.2 ≠ []) →
    ∃ t', UpdateAll fuel t pairs = .ok t' ∧ t'.root = insAll t.root pairs := by
  intro pairs
  induction pairs with
  | nil => intro t _ _ _; exact ⟨t, rfl, rfl⟩
  | cons p rest ih =>
    intro t hw hc hv
    obtain ⟨k, v⟩ := p
    obtain ⟨t1, h1, h2, _, h4⟩ := Update_ins fuel t k v hw (hv (k, v) (List.mem_cons_self _ _)) hc
    have hw1 : WFN t1.root := by
      rw [h2]; exact (ins_WFN _ hw _ (Node.value v) (termKey_keybytesToHex k) rfl).1
    obtain ⟨t', g1, g2⟩ := ih t1 hw1 h4 (fun p hp => hv p (List.mem_cons_of_mem _ hp))
    refine ⟨t', ?_, ?_⟩
    · simp only [UpdateAll, h1]
      exact g1
    · rw [g2, h2]
      rfl

theorem sequentialLoop_ins (fuel : Nat) (values : List (List Nat)) :
    ∀ (rest : List (List Nat × List Nat)) (i : Nat) (t : Trie),
      WFN t.root → (∀ p ∈ rest, p.2 ≠ []) → values.drop i = rest.map Prod.snd →
      ∃ t', sequentialLoop fuel values (rest.map Prod.fst) i t = .ok t' ∧
        t'.root = insAll t.root rest ∧ t'.reader = t.reader ∧ t'.committed = t.committed := by
  intro rest
  induction rest with
  | nil => intro i t _ _ _; exact ⟨t, rfl, rfl, rfl, rfl⟩
  | cons p rest ih =>
    intro i t hw hv hd
    obtain ⟨k, v⟩ := p
    simp only [List.map_cons] at hd
    obtain ⟨hg, hd'⟩ := get?_of_drop hd
    obtain ⟨t1, h1, h2, h3, h4⟩ := update_ins fuel t k v hw (hv (k, v) (List.mem_cons_self _ _))
    have hw1 : WFN t1.root := by
      rw [h2]; exact (ins_WFN _ hw _ (Node.value v) (termKey_keybytesToHex k) rfl).1
    obtain ⟨t', g1, g2, g3, g4⟩ :=
      ih (i + 1) t1 hw1 (fun p hp => hv p (List.mem_cons_of_mem _ hp)) hd'
    refine ⟨t', ?_, ?_, g3.trans h3, g4.trans h4⟩
    · simp only [List.map_cons, sequentialLoop, hg, h1]
      exact g1
    · rw [g2, h2]
      rfl

theorem initSubRootsLoop_ins (fuel : Nat) (values : List (List Nat)) :
    ∀ (rest : List (List Nat × List Nat)) (i : Nat) (intialized : List Bool) (t : Trie),
      WFN t.root → t.committed = false → (∀ p ∈ rest, p.2 ≠ []) →
      values.drop i = rest.map Prod.snd →
      ∃ t', initSubRootsLoop fuel values (rest.map Prod.fst) i intialized t = .ok t' ∧
        t'.root = insAll t.root (bootPairs rest intialized) ∧ t'.reader = t.reader ∧
        t'.committed = false := by
  intro rest
  induction rest with
  | nil => intro i init t _ hc _ _; exact ⟨t, rfl, rfl, rfl, hc⟩
  | cons p rest ih =>
    intro i init t hw hc hv hd
    obtain ⟨k, v⟩ := p
    simp only [List.map_cons] at hd
    obtain ⟨hg, hd'⟩ := get?_of_drop hd
    by_cases hb : (!(init.getD (shardOf k) true)) = true
    · obtain ⟨t1, h1, h2, h3, h4⟩ :=
        Update_ins fuel t k v hw (hv (k, v) (List.mem_cons_self _ _)) hc
      have hw1 : WFN t1.root := by
        rw [h2]; exact (ins_WFN _ hw _ (Node.value v) (termKey_keybytesToHex k) rfl).1
      obtain ⟨t', g1, g2, g3, g4⟩ := ih (i + 1) (init.set (shardOf k) true) t1 hw1 h4
        (fun p hp => hv p (List.mem_cons_of_mem _ hp)) hd'
      refine ⟨t', ?_, ?_, g3.trans h3, g4⟩
      · simp only [List.map_cons, initSubRootsLoop, if_pos hb, hg, h1]
        exact g1
      · rw [g2, h2]
        simp only [bootPairs, if_pos hb, insAll]
    · obtain ⟨t', g1, g2, g3, g4⟩ := ih (i + 1) init t hw hc
        (fun p hp => hv p (List.mem_cons_of_mem _ hp)) hd'
      refine ⟨t', ?_, ?_, g3, g4⟩
      · simp only [List.map_cons, initSubRootsLoop, if_neg hb]
        exact g1
      · rw [g2]
        simp only [bootPairs, if_neg hb]

theorem bootPairs_mem : ∀ (rest : List (List Nat × List Nat)) (intialized : List Bool)
    (q : List Nat × List Nat), q ∈ bootPairs rest intialized → q ∈ rest := by
  intro rest
  induction rest with
  | nil => intro init q h; simp [bootPairs] at h
  | cons p rest ih =>
    intro init q h
    obtain ⟨k, v⟩ := p
    simp only [bootPairs] at h
    split at h
    · rcases List.mem_cons.mp h with e | e
      · rw [e]; exact List.mem_cons_self _ _
      · exact List.mem_cons_of_mem _ (ih _ q e)
    · exact List.mem_cons_of_mem _ (ih _ q h)

theorem bootPairs_ne_nil (p : List Nat × List Nat) (rest : List (List Nat × List Nat)) :
    bootPairs (p :: rest) (List.replicate 16 false) ≠ [] := by
  obtain ⟨k, v⟩ := p
  have h : (List.replicate 16 false).getD (shardOf k) true = false := by
    rw [List.getD_eq_getElem?_getD, List.getElem?_replicate]
    simp [shardOf_lt k]
  have hb : (!((List.replicate 16 false).getD (shardOf k) true)) = true := by rw [h]; rfl
  simp only [bootPairs, if_pos hb]
  exact List.cons_ne_nil _ _

theorem insAll_isInner_of_inner : ∀ (pairs : List (List Nat × List Nat)) (n : Node), WFN n →
    n.isInner = true → (insAll n pairs).isInner = true := by
  intro pairs
  induction pairs with
  | nil => intro n _ h; exact h
  | cons p rest ih =>
    intro n hw _
    obtain ⟨k, v⟩ := p
    obtain ⟨h1, h2⟩ := ins_WFN n hw _ (Node.value v) (termKey_keybytesToHex k) rfl
    exact ih _ h1 h2

theorem insAll_isInner {pairs : List (List Nat × List Nat)} (hp : pairs ≠ []) (n : Node)
    (hw : WFN n) : (insAll n pairs).isInner = true := by
  obtain ⟨p, rest, e⟩ := List.exists_cons_of_ne_nil hp
  subst e
  obtain ⟨k, v⟩ := p
  obtain ⟨h1, h2⟩ := ins_WFN n hw _ (Node.value v) (termKey_keybytesToHex k) rfl
  exact insAll_isInner_of_inner rest _ h1 h2

theorem isNil_of_isInner {n : Node} (h : n.isInner = true) : n.isNil = false := by
  cases n <;> simp_all [Node.isInner, Node.isShort, Node.isFull, Node.isNil]

/-- The task of one shard on a well-formed snapshot and an insert-only batch:
it returns, lists no error, and leaves the pure insertion of the pairs of the
shard, in list order. -/
theorem shardRun_ins (rd : Reader) (fuel : Nat) (root : Node) (values : List (List Nat))
    (k : Nat) :
    ∀ (rest : List (List Nat × List Nat)) (i : Nat) (snap : Node) (es : List Err),
      WFN snap → snap.isInner = true → (∀ p ∈ rest, p.2 ≠ []) →
      values.drop i = rest.map Prod.snd →
      shardRun rd fuel root values k (rest.map Prod.fst) i snap es
        = .ok (insAll snap (rest.filter (fun p => decide (shardOf p.1 = k))), es) := by
  intro rest
  induction rest with
  | nil => intro i snap es _ _ _ _; rfl
  | cons p rest ih =>
    intro i snap es hw hin hv hd
    obtain ⟨key, v⟩ := p
    simp only [List.map_cons] at hd
    obtain ⟨hg, hd'⟩ := get?_of_drop hd
    by_cases hs : shardOf key = k
    · obtain ⟨ev, hu⟩ := threadSafeUpdate_ins rd fuel snap key v hw
        (hv (key, v) (List.mem_cons_self _ _))
      obtain ⟨h1, h2⟩ := ins_WFN snap hw _ (Node.value v) (termKey_keybytesToHex key) rfl
      have hf : List.filter (fun p => decide (shardOf p.1 = k)) ((key, v) :: rest)
          = (key, v) :: List.filter (fun p => decide (shardOf p.1 = k)) rest := by
        simp [List.filter, hs]
      rw [hf]
      have hsnap : (if snap.isNil = true then root else snap) = snap := by
        rw [isNil_of_isInner hin]; rfl
      simp only [List.map_cons, shardRun, if_pos hs, hg, hsnap, hu, insAll]
      exact ih (i + 1) _ es h1 h2 (fun p hp => hv p (List.mem_cons_of_mem _ hp)) hd'
    · have hf : List.filter (fun p => decide (shardOf p.1 = k)) ((key, v) :: rest)
          = List.filter (fun p => decide (shardOf p.1 = k)) rest := by
        simp [List.filter, hs]
      rw [hf]
      simp only [List.map_cons, shardRun, if_neg hs]
      exact ih (i + 1) snap es hw hin (fun p hp => hv p (List.mem_cons_of_mem _ hp)) hd'

/-! ## Snapshots, slot by slot -/

theorem toNibble_inj {i j : Nat} (hi : i < 16) (hj : j < 16) (h : toNibble i = toNibble j) :
    i = j := by
  have := congrArg Fin.val h
  simp only [toNibble] at this
  omega

theorem toNibble_val (j : Nibble) : toNibble j.val = j := by
  apply Fin.ext
  simp only [toNibble]
  exact Nat.mod_eq_of_lt j.isLt

theorem keybytesToHex_cons (b : Nat) (bs : List Nat) :
    keybytesToHex (b :: bs)
      = toNibble (shardOf (b :: bs)) :: toNibble (loNibble b) :: keybytesToHex bs := rfl

/-- The snapshot of shard `k` follows the real root: inserting the pairs of
shard `k` into the snapshot seeded from a branch yields the snapshot seeded
from the branch that received the whole batch; slot 16 of the branch is not
touched by non-empty keys. -/
theorem insAll_seed : ∀ (pairs : List (List Nat × List Nat)) (c : Nibble → Node),
    (∀ p ∈ pairs, p.1 ≠ []) →
    ∃ c', insAll (Node.full c) pairs = Node.full c' ∧ c' term16 = c term16 ∧
      ∀ k, k < 16 →
        insAll (seedSnapshot c k) (pairs.filter (fun p => decide (shardOf p.1 = k)))
          = seedSnapshot c' k := by
  intro pairs
  induction pairs with
  | nil => intro c _; exact ⟨c, rfl, rfl, fun k _ => rfl⟩
  | cons p rest ih =>
    intro c hk
    obtain ⟨key, v⟩ := p
    obtain ⟨b, bs, e⟩ := List.exists_cons_of_ne_nil (hk (key, v) (List.mem_cons_self _ _))
    subst e
    have hsh : shardOf (b :: bs) < 16 := shardOf_lt _
    obtain ⟨c', h1, h2, h3⟩ := ih
      (Function.update c (toNibble (shardOf (b :: bs)))
        (ins (c (toNibble (shardOf (b :: bs)))) (toNibble (loNibble b) :: keybytesToHex bs)
          (Node.value v)))
      (fun p hp => hk p (List.mem_cons_of_mem _ hp))
    refine ⟨c', ?_, ?_, ?_⟩
    · simp only [insAll]
      rw [keybytesToHex_cons, ins_full]
      exact h1
    · rw [h2, Function.update_noteq (Ne.symm (toNibble_ne_term16 hsh))]
    · intro k hk16
      by_cases hs : shardOf (b :: bs) = k
      · have hf : List.filter (fun p => decide (shardOf p.1 = k)) ((b :: bs, v) :: rest)
            = (b :: bs, v) :: List.filter (fun p => decide (shardOf p.1 = k)) rest := by
          simp [List.filter, hs]
        rw [hf, ← h3 k hk16]
        simp only [insAll]
        congr 1
        rw [keybytesToHex_cons, hs]
        simp only [seedSnapshot]
        rw [ins_full, Function.update_same, Function.update_idem, Function.update_same]
      · have hf : List.filter (fun p => decide (shardOf p.1 = k)) ((b :: bs, v) :: rest)
            = List.filter (fun p => decide (shardOf p.1 = k)) rest := by
          simp [List.filter, hs]
        rw [hf, ← h3 k hk16]
        congr 1
        simp only [seedSnapshot]
        rw [Function.update_noteq (fun e => hs (toNibble_inj hk16 hsh e).symm)]

theorem foldl_update_apply (c' : Nibble → Node) :
    ∀ (l : List Nat) (c0 : Nibble → Node) (j : Nibble),
      (l.foldl (fun f i => Function.update f (toNibble i) (c' (toNibble i))) c0) j
        = if l.any (fun i => decide (toNibble i = j)) then c' j else c0 j := by
  intro l
  induction l with
  | nil => intro c0 j; simp
  | cons i rest ih =>
    intro c0 j
    simp only [List.foldl_cons, List.any_cons]
    rw [ih]
    by_cases h : toNibble i = j
    · subst h
      simp
    · simp [h, Function.update_noteq (Ne.symm h)]

/-- The merge of snapshots that follow the branch `c'`: the root takes the
slots 0..15 of `c'`. -/
theorem mergeLoop_seed (c' : Nibble → Node) (snaps : List Node)
    (hs : ∀ k, k < 16 → snaps.getD k Node.nil = seedSnapshot c' k) :
    ∀ (l : List Nat) (c0 : Nibble → Node), (∀ i ∈ l, i < 16) →
      mergeLoop snaps l c0
        = .ok (l.foldl (fun f i => Function.update f (toNibble i) (c' (toNibble i))) c0) := by
  intro l
  induction l with
  | nil => intro c0 _; rfl
  | cons i rest ih =>
    intro c0 hl
    have hi := hl i (List.mem_cons_self _ _)
    simp only [mergeLoop, hs i hi, seedSnapshot, Function.update_same, List.foldl_cons]
    exact ih _ (fun j hj => hl j (List.mem_cons_of_mem _ hj))

theorem mergeLoop_range (c c' : Nibble → Node) (snaps : List Node)
    (hs : ∀ k, k < 16 → snaps.getD k Node.nil = seedSnapshot c' k)
    (h16 : c' term16 = c term16) :
    mergeLoop snaps (List.range 16) c = .ok c' := by
  rw [mergeLoop_seed c' snaps hs (List.range 16) c (fun i hi => List.mem_range.mp hi)]
  congr 1
  funext j
  rw [foldl_update_apply]
  by_cases hj : j = term16
  · subst hj
    have : (List.range 16).any (fun i => decide (toNibble i = term16)) = false := by decide
    rw [this]
    simp [h16]
  · have hlt : j.val < 16 := by
      have h1 := j.isLt
      have h2 : j.val ≠ 16 := fun e => hj (Fin.ext e)
      omega
    have : (List.range 16).any (fun i => decide (toNibble i = j)) = true := by
      rw [List.any_eq_true]
      exact ⟨j.val, List.mem_range.mpr hlt, by simp [toNibble_val]⟩
    rw [this]
    simp

/-! ## The parallel phase returns when every shard task does -/

theorem insertersLoop_returns (rd : Reader) (fuel : Nat) (root : Node)
    (values : List (List Nat)) (start : Nat) :
    ∀ (rest : List (List Nat)) (i : Nat) (s : ParState) (es : List Err)
      (res : Node × List Err),
      start < s.rootSnapshots.length →
      shardRun rd fuel root values start rest i (s.rootSnapshots.getD start Node.nil) es
        = .ok res →
      ∃ s', insertersLoop rd fuel root values start rest i s = .ok s' := by
  intro rest
  induction rest with
  | nil => intro i s es res _ _; exact ⟨s, rfl⟩
  | cons key rest ih =>
    intro i s es res hl h
    simp only [shardRun] at h
    simp only [insertersLoop]
    by_cases hs : shardOf key = start
    · simp only [if_pos hs] at h ⊢
      rw [hs]
      cases hv : values.get? i with
      | none => rw [hv] at h; simp at h
      | some value =>
        rw [hv] at h
        simp only [] at h ⊢
        cases hu : threadSafeUpdate rd fuel
            (if (s.rootSnapshots.getD start Node.nil).isNil = true then root
              else s.rootSnapshots.getD start Node.nil) key value with
        | error e => rw [hu] at h; simp at h
        | ok r =>
          obtain ⟨n, err, events⟩ := r
          rw [hu] at h
          simp only [] at h ⊢
          cases err with
          | none =>
            refine ih (i + 1) _ es res (by simpa using hl) ?_
            simp only []
            rw [getD_set_self _ _ _ _ hl]
            exact h
          | some e =>
            refine ih (i + 1) _ (es ++ [e]) res (by simpa using hl) ?_
            simp only []
            rw [getD_set_self _ _ _ _ hl]
            exact h
    · simp only [if_neg hs] at h ⊢
      exact ih (i + 1) s es res hl h

theorem parallel_phase_returns (rd : Reader) (fuel : Nat) (root : Node) (c : Nibble → Node)
    (keys values : List (List Nat)) (tr : List TraceEvent)
    (h : ∀ k, k < 16 → ∃ res,
      shardRun rd fuel root values k keys 0 (seedSnapshot c k) [] = .ok res) :
    ∃ s, ParallelWorker 16 16 (inserters rd fuel root keys values)
      ⟨(List.range 16).map (seedSnapshot c), List.replicate 16 none, tr⟩ = .ok s := by
  simp only [ParallelWorker, GenerateRanges_16]
  have hstep : ∀ (i idx : Nat) (s : ParState), 0 ≤ i → i < 0 + 16 →
      (s.rootSnapshots.length = 16 ∧ s.errs.length = 16 ∧
        (∀ k, i ≤ k → k < 16 → s.rootSnapshots.getD k Node.nil = seedSnapshot c k ∧
          s.errs.getD k none = none)) →
      ∃ s', inserters rd fuel root keys values i (i + 1) idx s = .ok s' ∧
        (s'.rootSnapshots.length = 16 ∧ s'.errs.length = 16 ∧
          (∀ k, i + 1 ≤ k → k < 16 → s'.rootSnapshots.getD k Node.nil = seedSnapshot c k ∧
            s'.errs.getD k none = none)) := by
    intro i idx s _ hi hP
    obtain ⟨hl1, hl2, htodo⟩ := hP
    obtain ⟨hi1, hi2⟩ := htodo i (le_refl _) (by omega)
    obtain ⟨res, hres⟩ := h i (by omega)
    rw [← hi1] at hres
    obtain ⟨s', hs'⟩ := insertersLoop_returns rd fuel root values i keys 0 s [] res
      (by omega) hres
    obtain ⟨g1, g2, _, g6⟩ := insertersLoop_spec rd fuel root values i keys 0
      s s' [] (by omega) (by omega) (by simpa using hi2) hs'
    refine ⟨s', hs', g1.trans hl1, g2.trans hl2, ?_⟩
    intro k hk hk16
    obtain ⟨e1, e2⟩ := g6 k (by omega)
    obtain ⟨f1, f2⟩ := htodo k (by omega) hk16
    exact ⟨by rw [e1, f1], by rw [e2, f2]⟩
  have hinit : ((List.range 16).map (seedSnapshot c)).length = 16 ∧
      (List.replicate 16 (none : Option Err)).length = 16 ∧
      (∀ k, 0 ≤ k → k < 16 →
        ((List.range 16).map (seedSnapshot c)).getD k Node.nil = seedSnapshot c k ∧
        (List.replicate 16 (none : Option Err)).getD k none = none) := by
    refine ⟨by simp, by simp, ?_⟩
    intro k _ hk16
    refine ⟨getD_map_range _ _ _ hk16, ?_⟩
    rw [List.getD_eq_getElem?_getD, List.getElem?_replicate]
    simp [hk16]
  obtain ⟨s, hs, _⟩ := runRanges_returns (inserters rd fuel root keys values)
    (fun i s => s.rootSnapshots.length = 16 ∧ s.errs.length = 16 ∧
      (∀ k, i ≤ k → k < 16 → s.rootSnapshots.getD k Node.nil = seedSnapshot c k ∧
        s.errs.getD k none = none))
    16 0 0 ⟨(List.range 16).map (seedSnapshot c), List.replicate 16 none, tr⟩ hstep hinit
  exact ⟨s, hs⟩

/-! ## `ParallelUpdate` on insert-only batches -/

theorem WFN_seedSnapshot {c : Nibble → Node} (hw : WFN (Node.full c)) {k : Nat} (hk : k < 16) :
    WFN (seedSnapshot c k) ∧ (seedSnapshot c k).isInner = true := by
  refine ⟨?_, rfl⟩
  simp only [WFN] at hw
  simp only [seedSnapshot, WFN]
  refine ⟨?_, ?_⟩
  · rw [Function.update_noteq (Ne.symm (toNibble_ne_term16 hk))]
    left; rfl
  · intro i hi
    by_cases hik : i = toNibble k
    · subst hik
      rw [Function.update_same]
      exact hw.2 _ hi
    · rw [Function.update_noteq hik]
      exact WFN_nil

theorem eq_replicate_none {l : List (Option Err)} (hl : l.length = 16)
    (h : ∀ k, k < 16 → l.getD k none = none) : l = List.replicate 16 none := by
  rw [List.eq_replicate_iff]
  refine ⟨hl, ?_⟩
  intro b hb
  obtain ⟨i, hi, e⟩ := List.getElem_of_mem hb
  have := h i (by omega)
  rw [List.getD_eq_getElem?_getD, List.getElem?_eq_getElem hi] at this
  simpa [e] using this

theorem isFull_of_inner_not_short {n : Node} (h1 : n.isInner = true) (h2 : n.isShort = false) :
    ∃ c, n = Node.full c := by
  cases n with
  | full c => exact ⟨c, rfl⟩
  | nil => simp [Node.isInner, Node.isShort, Node.isFull] at h1
  | value v => simp [Node.isInner, Node.isShort, Node.isFull] at h1
  | hash v => simp [Node.isInner, Node.isShort, Node.isFull] at h1
  | short k v => simp [Node.isShort] at h2

/-- On a well-formed in-memory tree, `ParallelUpdate` of a batch of non-empty
keys with non-empty values returns sixteen nil errors, and the root it leaves
is the root of the pure insertion of the pairs in list order. -/
theorem ParallelUpdate_insert_only (fuel : Nat) (t : Trie)
    (pairs : List (List Nat × List Nat)) (hw : WFN t.root) (hc : t.committed = false)
    (hk : ∀ p ∈ pairs, p.1 ≠ []) (hv : ∀ p ∈ pairs, p.2 ≠ []) :
    ∃ t', ParallelUpdate fuel t (pairs.map Prod.fst) (pairs.map Prod.snd)
        = .ok (List.replicate 16 none, t') ∧
      t'.root = insAll t.root pairs ∧ t'.reader = t.reader ∧ t'.committed = false := by
  cases hp : pairs with
  | nil => exact ⟨t, rfl, rfl, rfl, hc⟩
  | cons p rest =>
    rw [← hp]
    have hne : pairs ≠ [] := by rw [hp]; exact List.cons_ne_nil _ _
    have h0 : ¬ ((pairs.map Prod.fst).length = 0 ∨ (pairs.map Prod.snd).length = 0) := by
      simp [hp]
    obtain ⟨t1, b1, b2, b3, b4⟩ := initSubRootsLoop_ins fuel (pairs.map Prod.snd) pairs 0
      (List.replicate 16 false) t hw hc hv rfl
    have hboot : bootPairs pairs (List.replicate 16 false) ≠ [] := by
      rw [hp]; exact bootPairs_ne_nil p rest
    have hw1 : WFN t1.root := by rw [b2]; exact insAll_WFN _ _ hw
    have hin1 : t1.root.isInner = true := by rw [b2]; exact insAll_isInner hboot _ hw
    have habs : insAll t1.root pairs = insAll t.root pairs := by
      rw [b2, ← insAll_append]
      exact insAll_absorb_list _ pairs _ hw
        (fun q hq => ⟨q, bootPairs_mem _ _ q hq, rfl⟩)
    unfold ParallelUpdate
    simp only [if_neg h0, initSubRoots, b1]
    cases hshort : t1.root.isShort with
    | true =>
      obtain ⟨t2, s1, s2, s3, s4⟩ := sequentialLoop_ins fuel (pairs.map Prod.snd) pairs 0 t1 hw1
        hv rfl
      refine ⟨t2, ?_, s2.trans habs, s3.trans b3, s4.trans b4⟩
      simp only [pure, Except.pure, s1]
    | false =>
      obtain ⟨c, hroot⟩ := isFull_of_inner_not_short hin1 hshort
      rw [hroot] at hw1 habs
      obtain ⟨c', i1, i2, i3⟩ := insAll_seed pairs c hk
      have hshard : ∀ k, k < 16 →
          shardRun t1.reader fuel (Node.full c) (pairs.map Prod.snd) k (pairs.map Prod.fst) 0
            (seedSnapshot c k) [] = .ok (seedSnapshot c' k, []) := by
        intro k hk16
        obtain ⟨w1, w2⟩ := WFN_seedSnapshot hw1 hk16
        rw [shardRun_ins t1.reader fuel (Node.full c) (pairs.map Prod.snd) k pairs 0
          (seedSnapshot c k) [] w1 w2 hv rfl, i3 k hk16]
      obtain ⟨s, hs⟩ := parallel_phase_returns t1.reader fuel (Node.full c) c
        (pairs.map Prod.fst) (pairs.map Prod.snd) t1.tracer
        (fun k hk16 => ⟨_, hshard k hk16⟩)
      obtain ⟨p1, p2, p3⟩ := parallel_phase_spec _ _ _ _ _ _ _ _ hs
      have hsn : ∀ k, k < 16 → s.rootSnapshots.getD k Node.nil = seedSnapshot c' k := by
        intro k hk16
        obtain ⟨snap, es, q1, q2, _⟩ := p3 k hk16
        rw [hshard k hk16] at q1
        simp only [Except.ok.injEq, Prod.mk.injEq] at q1
        rw [q2, ← q1.1]
      have herr : s.errs = List.replicate 16 none := by
        apply eq_replicate_none p2
        intro k hk16
        obtain ⟨snap, es, q1, _, q3⟩ := p3 k hk16
        rw [hshard k hk16] at q1
        simp only [Except.ok.injEq, Prod.mk.injEq] at q1
        rw [q3, ← q1.2]
        rfl
      have hm := mergeLoop_range c c' s.rootSnapshots hsn i2
      refine ⟨{ t1 with root := Node.full c', tracer := s.tracer, unhashed := 1024 }, ?_, ?_,
        b3, b4⟩
      · simp only [hroot, hs, hm, pure, Except.pure, herr]
      · show Node.full c' = insAll t.root pairs
        rw [← habs, i1]

/-! ## Root equivalence (C1) -/

/-- Root equivalence on insert-only batches: for every batch of non-empty keys
with non-empty values applied to an empty parallel trie, `ParallelUpdate`
returns and leaves the same root node (hence the same root hash) as applying
the pairs one at a time, in list order, through the base engine's single-key
`Update`. -/
theorem ParallelUpdate_root_eq_sequential (fuel : Nat) (rd : Reader)
    (pairs : List (List Nat × List Nat))
    (hk : ∀ p ∈ pairs, p.1 ≠ []) (hv : ∀ p ∈ pairs, p.2 ≠ []) :
    ∃ errs t' t'',
      ParallelUpdate fuel (NewEmptyParallel rd) (pairs.map Prod.fst) (pairs.map Prod.snd)
        = .ok (errs, t') ∧
      UpdateAll fuel (NewEmptyParallel rd) pairs = .ok t'' ∧ t'.root = t''.root := by
  obtain ⟨t', h1, h2, _, _⟩ := ParallelUpdate_insert_only fuel (NewEmptyParallel rd) pairs
    WFN_nil rfl hk hv
  obtain ⟨t'', g1, g2⟩ := UpdateAll_ins fuel pairs (NewEmptyParallel rd) WFN_nil rfl hv
  exact ⟨_, t', t'', h1, g1, by rw [h2, g2]⟩

/-- Root equivalence on an insert-only batch of four pairs of shards 0, 1, 0,
0, which take the parallel phase. -/
theorem ParallelUpdate_root_eq_sequential_witness :
    (∀ p ∈ [([0], [1]), ([16], [2]), ([1], [3]), ([0, 1], [4])], p.1 ≠ ([] : List Nat)) ∧
    (∀ p ∈ [([0], [1]), ([16], [2]), ([1], [3]), ([0, 1], [4])], p.2 ≠ ([] : List Nat)) ∧
    ∃ errs t' t'',
      ParallelUpdate 0 (NewEmptyParallel emptyReader) [[0], [16], [1], [0, 1]]
        [[1], [2], [3], [4]] = .ok (errs, t') ∧
      UpdateAll 0 (NewEmptyParallel emptyReader)
        [([0], [1]), ([16], [2]), ([1], [3]), ([0, 1], [4])] = .ok t'' ∧
      t'.root = t''.root :=
  ⟨by decide, by decide,
    ParallelUpdate_root_eq_sequential 0 emptyReader
      [([0], [1]), ([16], [2]), ([1], [3]), ([0, 1], [4])] (by decide) (by decide)⟩

/-- C1 fails on the code, on the empty trie: `ParallelUpdate` and the pairs
applied one at a time through the engine's `Update` both return, with
different roots. With a pair that deletes (batch `[0]→[1], [16]→[1], [16]→[]`)
the parallel phase leaves a branch root with one child where the sequential
engine leaves the canonical short node. With an empty key (batch
`[0]→[1], [16]→[1], []→[1]`, no empty value) the parallel phase loses the
value of the empty key, which the sequential engine stores in slot 16. -/
theorem ParallelUpdate_root_counterexample :
    (∃ errs t' t'',
      ParallelUpdate 0 (NewEmptyParallel emptyReader) [[0], [16], [16]] [[1], [1], []]
        = .ok (errs, t') ∧
      UpdateAll 0 (NewEmptyParallel emptyReader) [([0], [1]), ([16], [1]), ([16], [])]
        = .ok t'' ∧
      t'.root.isFull = true ∧ t''.root.isShort = true ∧ t'.root ≠ t''.root) ∧
    (∃ errs t' t'',
      ParallelUpdate 0 (NewEmptyParallel emptyReader) [[0], [16], []] [[1], [1], [1]]
        = .ok (errs, t') ∧
      UpdateAll 0 (NewEmptyParallel emptyReader) [([0], [1]), ([16], [1]), ([], [1])]
        = .ok t'' ∧
      t'.root.slot16Value = [] ∧ t''.root.slot16Value = [1] ∧ t'.root ≠ t''.root) := by
  refine ⟨⟨_, _, _, rfl, rfl, rfl, rfl, ?_⟩, ⟨_, _, _, rfl, rfl, rfl, rfl, ?_⟩⟩
  · intro h
    exact absurd (congrArg Node.isShort h) (by decide)
  · intro h
    exact absurd (congrArg Node.slot16Value h) (by decide)

/-! ## Repetition (C2) -/

/-- Repetition on insert-only batches: on a well-formed in-memory trie and a
batch of non-empty keys with non-empty values, `ParallelUpdate` returns both
times, and the root after the second call with the identical batch is the root
after the first. -/
theorem ParallelUpdate_twice (fuel : Nat) (t : Trie) (pairs : List (List Nat × List Nat))
    (hw : WFN t.root) (hc : t.committed = false)
    (hk : ∀ p ∈ pairs, p.1 ≠ []) (hv : ∀ p ∈ pairs, p.2 ≠ []) :
    ∃ errs1 t1 errs2 t2,
      ParallelUpdate fuel t (pairs.map Prod.fst) (pairs.map Prod.snd) = .ok (errs1, t1) ∧
      ParallelUpdate fuel t1 (pairs.map Prod.fst) (pairs.map Prod.snd) = .ok (errs2, t2) ∧
      t2.root = t1.root := by
  obtain ⟨t1, h1, h2, _, h4⟩ := ParallelUpdate_insert_only fuel t pairs hw hc hk hv
  have hw1 : WFN t1.root := by rw [h2]; exact insAll_WFN _ _ hw
  obtain ⟨t2, g1, g2, _, _⟩ := ParallelUpdate_insert_only fuel t1 pairs hw1 h4 hk hv
  refine ⟨_, t1, _, t2, h1, g1, ?_⟩
  rw [g2, h2, ← insAll_append]
  exact insAll_absorb_list pairs pairs _ hw (fun q hq => ⟨q, hq, rfl⟩)

/-- Repetition on a one-leaf trie and a batch that writes the key of the leaf
twice and adds a key of another shard. -/
theorem ParallelUpdate_twice_witness :
    WFN (Node.short [0, 0, term16] (Node.value [9])) ∧
    ∃ errs1 t1 errs2 t2,
      ParallelUpdate 0 (memTrie (Node.short [0, 0, term16] (Node.value [9])))
        [[0], [16], [0]] [[1], [2], [3]] = .ok (errs1, t1) ∧
      ParallelUpdate 0 t1 [[0], [16], [0]] [[1], [2], [3]] = .ok (errs2, t2) ∧
      t2.root = t1.root := by
  have hw : WFN (Node.short [0, 0, term16] (Node.value [9])) := by
    simp only [WFN]
    exact Or.inl ⟨⟨by decide, by decide, rfl⟩, rfl⟩
  exact ⟨hw, ParallelUpdate_twice 0 _ [([0], [1]), ([16], [2]), ([0], [3])] hw rfl
    (by decide) (by decide)⟩

/-- C2 fails on the code: a second `ParallelUpdate` with the identical batch
changes the root. (a) With pairs that delete: on the empty trie the batch
`[0]→[1], [16]→[1], [0]→[], [16]→[]` leaves a trie that then receives the batch
`[0]→[1], [16]→[], [0]→[], [16]→[2]` twice; all three calls return, the first
call with the batch leaves a branch root, the second a short node. (b) With an
empty key and no empty value: on the empty trie the batch
`[]→[1], [0]→[2], []→[3]` leaves the value `[3]` under the empty key after one
call and the value `[1]` after two. -/
theorem ParallelUpdate_twice_counterexample :
    (∃ errs0 t0 errs1 t1 errs2 t2,
      ParallelUpdate 0 (NewEmptyParallel emptyReader) [[0], [16], [0], [16]]
        [[1], [1], [], []] = .ok (errs0, t0) ∧
      ParallelUpdate 0 t0 [[0], [16], [0], [16]] [[1], [], [], [2]] = .ok (errs1, t1) ∧
      ParallelUpdate 0 t1 [[0], [16], [0], [16]] [[1], [], [], [2]] = .ok (errs2, t2) ∧
      t1.root.isFull = true ∧ t2.root.isShort = true ∧ t2.root ≠ t1.root) ∧
    (∃ errs1 t1 errs2 t2,
      ParallelUpdate 0 (NewEmptyParallel emptyReader) [[], [0], []] [[1], [2], [3]]
        = .ok (errs1, t1) ∧
      ParallelUpdate 0 t1 [[], [0], []] [[1], [2], [3]] = .ok (errs2, t2) ∧
      t1.root.slot16Value = [3] ∧ t2.root.slot16Value = [1] ∧ t2.root ≠ t1.root) := by
  have ha : (ParallelUpdate 0 (NewEmptyParallel emptyReader) [[0], [16], [0], [16]]
      [[1], [1], [], []]).check (fun r0 =>
        (ParallelUpdate 0 r0.2 [[0], [16], [0], [16]] [[1], [], [], [2]]).check (fun r1 =>
          (ParallelUpdate 0 r1.2 [[0], [16], [0], [16]] [[1], [], [], [2]]).check (fun r2 =>
            r1.2.root.isFull && r2.2.root.isShort && !r1.2.root.isShort))) = true := by
    decide!
  have hb : (ParallelUpdate 0 (NewEmptyParallel emptyReader) [[], [0], []]
      [[1], [2], [3]]).check (fun r1 =>
        (ParallelUpdate 0 r1.2 [[], [0], []] [[1], [2], [3]]).check (fun r2 =>
          decide (r1.2.root.slot16Value = [3]) && decide (r2.2.root.slot16Value = [1]))) = true := by
    decide!
  constructor
  · obtain ⟨r0, h0, hc0⟩ := Run.check_ok ha
    obtain ⟨r1, h1, hc⟩ := Run.check_ok hc0
    obtain ⟨r2, h2, hp⟩ := Run.check_ok hc
    simp only [Bool.and_eq_true, Bool.not_eq_true']  at hp
    refine ⟨r0.1, r0.2, r1.1, r1.2, r2.1, r2.2, h0, h1, h2, hp.1.1, hp.1.2, ?_⟩
    intro h
    rw [h, hp.2] at hp
    exact absurd hp.1.2 (by simp)
  · obtain ⟨r1, h1, hc⟩ := Run.check_ok hb
    obtain ⟨r2, h2, hp⟩ := Run.check_ok hc
    simp only [Bool.and_eq_true, decide_eq_true_eq] at hp
    refine ⟨r1.1, r1.2, r2.1, r2.2, h1, h2, hp.1, hp.2, ?_⟩
    intro h
    rw [h, hp.1] at hp
    exact absurd hp.2 (by decide)

/-! ## Read-after-write (C3) -/

/-- C3: on the empty trie the batch `[0]→[1], [16]→[1], []→[1]` (no empty
value) takes the parallel phase; afterwards `Get` of the empty key returns an
empty value instead of `[1]`, while `Get` of the key `[0]` returns `[1]`, and
`ParallelGet` of the keys of the batch panics on the empty key. Applied
through the engine's `Update`, the same pairs leave a trie on which `Get` of
the empty key returns `[1]`. -/
theorem read_after_write_empty_key :
    (∃ errs t', ParallelUpdate 0 (NewEmptyParallel emptyReader) [[0], [16], []]
        [[1], [1], [1]] = .ok (errs, t') ∧
      (∃ t1, t'.Get 0 [] = .ok ([], none, t1)) ∧
      (∃ t2, t'.Get 0 [0] = .ok ([1], none, t2)) ∧
      ParallelGet 0 t' [[0], [16], []] = .error Stop.panic) ∧
    (∃ t'', UpdateAll 0 (NewEmptyParallel emptyReader) [([0], [1]), ([16], [1]), ([], [1])]
        = .ok t'' ∧ ∃ t3, t''.Get 0 [] = .ok ([1], none, t3)) := by
  have ha : (ParallelUpdate 0 (NewEmptyParallel emptyReader) [[0], [16], []]
      [[1], [1], [1]]).check (fun r =>
        (r.2.Get 0 []).check (fun g => decide (g.1 = []) && decide (g.2.1 = none)) &&
        (r.2.Get 0 [0]).check (fun g => decide (g.1 = [1]) && decide (g.2.1 = none)) &&
        (ParallelGet 0 r.2 [[0], [16], []]).panics) = true := by
    decide!
  have hb : (UpdateAll 0 (NewEmptyParallel emptyReader)
      [([0], [1]), ([16], [1]), ([], [1])]).check (fun t =>
        (t.Get 0 []).check (fun g => decide (g.1 = [1]) && decide (g.2.1 = none))) = true := by
    decide!
  constructor
  · obtain ⟨r, h1, hc⟩ := Run.check_ok ha
    simp only [Bool.and_eq_true] at hc
    obtain ⟨⟨hg1, hg2⟩, hg3⟩ := hc
    obtain ⟨g1, e1, p1⟩ := Run.check_ok hg1
    obtain ⟨g2, e2, p2⟩ := Run.check_ok hg2
    simp only [Bool.and_eq_true, decide_eq_true_eq] at p1 p2
    refine ⟨r.1, r.2, h1, ⟨g1.2.2, ?_⟩, ⟨g2.2.2, ?_⟩, Run.panics_eq hg3⟩
    · rw [e1, ← p1.1, ← p1.2]
    · rw [e2, ← p2.1, ← p2.2]
  · obtain ⟨t, h1, hc⟩ := Run.check_ok hb
    obtain ⟨g, e, p⟩ := Run.check_ok hc
    simp only [Bool.and_eq_true, decide_eq_true_eq] at p
    refine ⟨t, h1, g.2.2, ?_⟩
    rw [e, ← p.1, ← p.2]

/-! ## `GenerateRanges` (C11) -/

theorem exactRanges_getD (total n i : Nat) (hi : i ≤ n) :
    (exactRanges total n).getD i 0 = min ((total + n - 1) / n * i) total := by
  simp only [exactRanges]
  rw [List.getD_eq_getElem?_getD, List.getElem?_map, List.getElem?_range (by omega)]
  rfl

theorem ceil_mul_ge (total n : Nat) (hn : 1 ≤ n) : total ≤ (total + n - 1) / n * n := by
  have h1 := Nat.div_add_mod (total + n - 1) n
  have h2 := Nat.mod_lt (total + n - 1) (show n > 0 by omega)
  rw [Nat.mul_comm] at h1
  omega

/-- A point between the first and the last of monotone boundaries lies in one range. -/
theorem exists_range_of_monotone (b : Nat → Nat) (u : Nat) :
    ∀ n, b 0 ≤ u → u < b n → ∃ i, i < n ∧ b i ≤ u ∧ u < b (i + 1) := by
  intro n
  induction n with
  | zero => intro h0 h1; omega
  | succ m ih =>
    intro h0 h1
    by_cases hm : u < b m
    · obtain ⟨i, hi, h2, h3⟩ := ih h0 hm
      exact ⟨i, by omega, h2, h3⟩
    · exact ⟨m, by omega, by omega, h1⟩

/-- In exact integer arithmetic the boundaries are a partition: for a worker count `n ≥ 1`
there are `n + 1` of them, they start at 0, end at `total` and never decrease, and every
unit of `[0, total)` lies in exactly one range `[b[i], b[i+1])`. -/
theorem exactRanges_partition (total n : Nat) (hn : 1 ≤ n) :
    (exactRanges total n).length = n + 1 ∧
    (exactRanges total n).getD 0 0 = 0 ∧
    (exactRanges total n).getD n 0 = total ∧
    (∀ i, i < n →
      (exactRanges total n).getD i 0 ≤ (exactRanges total n).getD (i + 1) 0) ∧
    (∀ u, u < total → ∃ i, (i < n ∧ (exactRanges total n).getD i 0 ≤ u ∧
        u < (exactRanges total n).getD (i + 1) 0) ∧
      ∀ j, (j < n ∧ (exactRanges total n).getD j 0 ≤ u ∧
        u < (exactRanges total n).getD (j + 1) 0) → j = i) := by
  have hmono : ∀ i j, i ≤ j →
      min ((total + n - 1) / n * i) total ≤ min ((total + n - 1) / n * j) total := by
    intro i j hij
    have := Nat.mul_le_mul_left ((total + n - 1) / n) hij
    omega
  have hlast : min ((total + n - 1) / n * n) total = total := by
    have := ceil_mul_ge total n hn
    omega
  refine ⟨by simp [exactRanges], ?_, ?_, ?_, ?_⟩
  · rw [exactRanges_getD total n 0 (by omega)]
    simp
  · rw [exactRanges_getD total n n (le_refl _)]
    exact hlast
  · intro i hi
    rw [exactRanges_getD total n i (by omega), exactRanges_getD total n (i + 1) (by omega)]
    exact hmono i (i + 1) (by omega)
  · intro u hu
    obtain ⟨i, hi, h1, h2⟩ := exists_range_of_monotone
      (fun i => min ((total + n - 1) / n * i) total) u n (by simp) (by simp only [hlast]; exact hu)
    refine ⟨i, ⟨hi, ?_, ?_⟩, ?_⟩
    · rw [exactRanges_getD total n i (by omega)]; exact h1
    · rw [exactRanges_getD total n (i + 1) (by omega)]; exact h2
    · intro j hj
      obtain ⟨hj1, hj2, hj3⟩ := hj
      rw [exactRanges_getD total n j (by omega)] at hj2
      rw [exactRanges_getD total n (j + 1) (by omega)] at hj3
      have h1' : min ((total + n - 1) / n * i) total ≤ u := h1
      have h2' : u < min ((total + n - 1) / n * (i + 1)) total := h2
      by_contra hne
      rcases Nat.lt_or_gt_of_ne hne with hlt | hgt
      · have := hmono (j + 1) i (by omega)
        omega
      · have := hmono (i + 1) j (by omega)
        omega

/-- The partition in exact arithmetic at 10 units for 4 workers: the boundaries
0, 3, 6, 9, 10. -/
theorem exactRanges_partition_witness :
    1 ≤ 4 ∧ exactRanges 10 4 = [0, 3, 6, 9, 10] ∧
    (exactRanges 10 4).length = 4 + 1 ∧ (exactRanges 10 4).getD 4 0 = 10 :=
  ⟨by decide, by decide, (exactRanges_partition 10 4 (by decide)).1,
    (exactRanges_partition 10 4 (by decide)).2.2.1⟩

/-- C11 fails on the code for a total above `2 ^ 53`. `float64(2 ^ 53 + 1)` is `2 ^ 53`, so
`GenerateRanges(2 ^ 53 + 1, 1)` computes the step `2 ^ 53` and returns the boundaries
`0, 2 ^ 53`: the last boundary is not the total, and the unit `2 ^ 53` of `[0, total)` lies
in no range. In exact integer arithmetic the boundaries are `0, 2 ^ 53 + 1`, and at
10 units for 4 workers the code returns the boundaries `0, 3, 6, 9, 10` of the exact
arithmetic. -/
theorem GenerateRanges_float64_rounding :
    Float64.ofInt (2 ^ 53 + 1) = ⟨2 ^ 53, 0⟩ ∧
    (Float64.ceil (Float64.div (Float64.ofInt (2 ^ 53 + 1)) (Float64.ofInt 1))).toInt = 2 ^ 53 ∧
    GenerateRanges (2 ^ 53 + 1) 1 = [0, 2 ^ 53] ∧
    (GenerateRanges (2 ^ 53 + 1) 1).getD 1 0 ≠ 2 ^ 53 + 1 ∧
    (2 ^ 53 < 2 ^ 53 + 1 ∧ ¬ ∃ i, i < 1 ∧ (GenerateRanges (2 ^ 53 + 1) 1).getD i 0 ≤ 2 ^ 53 ∧
      2 ^ 53 < (GenerateRanges (2 ^ 53 + 1) 1).getD (i + 1) 0) ∧
    exactRanges (2 ^ 53 + 1) 1 = [0, 2 ^ 53 + 1] ∧
    GenerateRanges 10 4 = [0, 3, 6, 9, 10] ∧ exactRanges 10 4 = [0, 3, 6, 9, 10] := by
  have h : GenerateRanges (2 ^ 53 + 1) 1 = [0, 2 ^ 53] := by decide!
  refine ⟨by decide!, by decide!, h, ?_, ⟨Nat.lt_succ_self _, ?_⟩, by decide!, by decide!,
    by decide!⟩
  · rw [h]
    decide!
  · rw [h]
    rintro ⟨i, hi, _, h2⟩
    have hi0 : i = 0 := by omega
    subst hi0
    exact absurd h2 (by decide!)

/-! ## `GenerateRanges` is exact up to a length of `2 ^ 53` -/

theorem leadingBit_spec : ∀ (fuel x : Nat), 1 ≤ x → x ≤ fuel →
    2 ^ leadingBit fuel x ≤ x ∧ x < 2 ^ (leadingBit fuel x + 1) := by
  intro fuel
  induction fuel with
  | zero => intro x h1 h2; omega
  | succ f ih =>
    intro x h1 h2
    by_cases hx : x < 2
    · have hx1 : x = 1 := by omega
      subst hx1
      simp [leadingBit]
    · obtain ⟨ha, hb⟩ := ih (x / 2) (by omega) (by omega)
      simp only [leadingBit, if_neg hx]
      have e1 : 2 ^ (leadingBit f (x / 2) + 1) = 2 * 2 ^ leadingBit f (x / 2) := by ring
      have e2 : 2 ^ (leadingBit f (x / 2) + 1 + 1) = 4 * 2 ^ leadingBit f (x / 2) := by ring
      rw [e1] at hb
      rw [e1, e2]
      omega

theorem log2_spec (x : Nat) (hx : 1 ≤ x) : 2 ^ log2 x ≤ x ∧ x < 2 ^ (log2 x + 1) :=
  leadingBit_spec x x hx (le_refl x)

theorem roundHalfEven_cases (x sh : Nat) (st : Bool) :
    (roundHalfEven x sh st = x / 2 ^ sh ∧ 2 * (x % 2 ^ sh) ≤ 2 ^ sh) ∨
    (roundHalfEven x sh st = x / 2 ^ sh + 1 ∧ 2 ^ sh ≤ 2 * (x % 2 ^ sh)) := by
  unfold roundHalfEven
  simp only []
  split_ifs with h
  · right
    refine ⟨rfl, ?_⟩
    rcases h with h | h
    · omega
    · omega
  · left
    refine ⟨rfl, ?_⟩
    by_contra hc
    exact h (Or.inl (by omega))

theorem Float64.ofInt_of_le (x : Nat) (hx : x ≤ 2 ^ 53) : Float64.ofInt x = ⟨x, 0⟩ := by
  by_cases h0 : x = 0
  · subst h0
    decide
  by_cases hP : x = 2 ^ 53
  · subst hP
    decide!
  have hl := log2_spec x (by omega)
  have hlt : 2 ^ log2 x < 2 ^ 53 := by omega
  have hl2 : log2 x < 53 := (Nat.pow_lt_pow_iff_right (by norm_num)).mp hlt
  have hsh : log2 x - 52 = 0 := by omega
  simp [Float64.ofInt, roundHalfEven, hsh, Nat.mod_one]

theorem Float64.ofInt_ge (x : Nat) (hx : 2 ^ 53 ≤ x) :
    (Float64.ofInt x).scale = 0 ∧ 2 ^ 53 ≤ (Float64.ofInt x).num := by
  refine ⟨rfl, ?_⟩
  have hl := log2_spec x (by omega)
  have hlt : 2 ^ 53 < 2 ^ (log2 x + 1) := by omega
  have hl2 : 53 < log2 x + 1 := (Nat.pow_lt_pow_iff_right (by norm_num)).mp hlt
  obtain ⟨sh, hsh⟩ : ∃ sh, log2 x - 52 = sh + 1 := ⟨log2 x - 53, by omega⟩
  have hL : log2 x = 52 + (sh + 1) := by omega
  have hpow : 2 ^ log2 x = 2 ^ 52 * 2 ^ (sh + 1) := by rw [hL, pow_add]
  have hq : 2 ^ 52 ≤ x / 2 ^ (sh + 1) := by
    rw [Nat.le_div_iff_mul_le (by positivity)]
    omega
  have hr : x / 2 ^ (sh + 1) ≤ roundHalfEven x (sh + 1) false := by
    rcases roundHalfEven_cases x (sh + 1) false with h | h <;> omega
  show 2 ^ 53 ≤ roundHalfEven x (log2 x - 52) false * 2 ^ (log2 x - 52)
  rw [hsh]
  have h2 : 2 ≤ 2 ^ (sh + 1) := by
    have : 2 ^ (sh + 1) = 2 * 2 ^ sh := by ring
    have : 1 ≤ 2 ^ sh := Nat.one_le_two_pow
    omega
  calc 2 ^ 53 = 2 ^ 52 * 2 := by norm_num
    _ ≤ roundHalfEven x (sh + 1) false * 2 ^ (sh + 1) :=
      Nat.mul_le_mul (le_trans hq hr) h2

theorem Float64.div_int (X Y : Nat) (hX : 1 ≤ X) (hY : 1 ≤ Y) :
    Float64.div ⟨X, 0⟩ ⟨Y, 0⟩ =
      ⟨roundHalfEven (X * 2 ^ (log2 Y + 54) / Y) (log2 (X * 2 ^ (log2 Y + 54) / Y) - 52)
          (decide (X * 2 ^ (log2 Y + 54) % Y ≠ 0)) *
        2 ^ (log2 (X * 2 ^ (log2 Y + 54) / Y) - 52), log2 Y + 54⟩ := by
  have h : ¬ (X = 0 ∨ Y = 0) := by omega
  simp only [Float64.div, pow_zero, Nat.mul_one, if_neg h]

/-- The arithmetic of the rounded quotient: a number `v` on the grid `G` next to `q`, the
integer part of `X * K / Y`, lies in `((c - 1) * K, c * K]` for the ceiling `c` of `X / Y`. -/
theorem round_quotient_bounds (X Y K q G H m0 r v cm j : Nat)
    (hX : X ≤ 2 ^ 53) (hK : 2 ^ 53 * Y ≤ K)
    (hq1 : q * Y ≤ X * K) (hq2 : X * K < (q + 1) * Y)
    (hc1 : cm * Y + 1 ≤ X) (hc2 : X ≤ (cm + 1) * Y)
    (hG : G = 2 * H) (hG1 : 2 ^ 52 * G ≤ q)
    (hqr : q = m0 * G + r) (hr : r < G)
    (hj : (cm + 1) * K = j * G)
    (hv : (v = m0 * G ∧ 2 * r ≤ G) ∨ (v = (m0 + 1) * G ∧ G ≤ 2 * r)) :
    cm * K < v ∧ v ≤ (cm + 1) * K := by
  have hYpos : 0 < Y := by
    rcases Nat.eq_zero_or_pos Y with h | h
    · subst h
      simp at hq2
    · exact h
  have hGpos : 0 < G := by omega
  have hqc : q ≤ (cm + 1) * K := by
    have h1 : q * Y ≤ (cm + 1) * K * Y := by
      calc q * Y ≤ X * K := hq1
        _ ≤ (cm + 1) * Y * K := Nat.mul_le_mul_right K hc2
        _ = (cm + 1) * K * Y := by ring
    exact Nat.le_of_mul_le_mul_right h1 hYpos
  have hB : cm * K * Y + K ≤ X * K := by
    calc cm * K * Y + K = (cm * Y + 1) * K := by ring
      _ ≤ X * K := Nat.mul_le_mul_right K hc1
  have hlt : cm * K * Y + K < (q + 1) * Y := lt_of_le_of_lt hB hq2
  have hBq : cm * K ≤ q := by
    by_contra hc
    have h1 : q + 1 ≤ cm * K := by omega
    have h2 : (q + 1) * Y ≤ cm * K * Y := Nat.mul_le_mul_right Y h1
    omega
  obtain ⟨d, hd⟩ : ∃ d, q = cm * K + d := ⟨q - cm * K, by omega⟩
  have hKd : K < (d + 1) * Y := by
    have h1 : (q + 1) * Y = cm * K * Y + (d + 1) * Y := by rw [hd]; ring
    omega
  have hd53 : 2 ^ 53 ≤ d := by
    by_contra hc
    have h1 : d + 1 ≤ 2 ^ 53 := by omega
    have h2 : (d + 1) * Y ≤ 2 ^ 53 * Y := Nat.mul_le_mul_right Y h1
    omega
  have hm0 : 2 ^ 52 ≤ m0 := by
    by_contra hc
    have h1 : m0 + 1 ≤ 2 ^ 52 := by omega
    have h2 : (m0 + 1) * G ≤ 2 ^ 52 * G := Nat.mul_le_mul_right G h1
    have h3 : (m0 + 1) * G = m0 * G + G := by ring
    omega
  constructor
  · rcases hv with ⟨hv1, hv2⟩ | ⟨hv1, hv2⟩
    · by_contra hc
      have hmB : m0 * G ≤ cm * K := by omega
      have hrd : d ≤ r := by omega
      have hdH : d ≤ H := by omega
      have h1 : 2 ^ 52 * G ≤ m0 * G := Nat.mul_le_mul_right G hm0
      have h2 : 2 ^ 53 * H + d ≤ q := by omega
      have h3 : (2 ^ 53 * H + d) * Y ≤ q * Y := Nat.mul_le_mul_right Y h2
      have h4 : X * K ≤ 2 ^ 53 * K := Nat.mul_le_mul_right K hX
      have h5 : (d + 1) * Y ≤ (H + 1) * Y := Nat.mul_le_mul_right Y (by omega)
      have h6 : 2 ^ 53 * K < 2 ^ 53 * ((H + 1) * Y) :=
        Nat.mul_lt_mul_of_pos_left (lt_of_lt_of_le hKd h5) (by norm_num)
      have h7 : (2 ^ 53 * H + d) * Y < (2 ^ 53 * H + 2 ^ 53) * Y := by
        calc (2 ^ 53 * H + d) * Y ≤ q * Y := h3
          _ ≤ X * K := hq1
          _ ≤ 2 ^ 53 * K := h4
          _ < 2 ^ 53 * ((H + 1) * Y) := h6
          _ = (2 ^ 53 * H + 2 ^ 53) * Y := by ring
      have h8 := Nat.lt_of_mul_lt_mul_right h7
      omega
    · have h3 : (m0 + 1) * G = m0 * G + G := by ring
      omega
  · rcases hv with ⟨hv1, hv2⟩ | ⟨hv1, hv2⟩
    · omega
    · rw [hv1, hj]
      apply Nat.mul_le_mul_right
      by_contra hc
      have h1 : j ≤ m0 := by omega
      have h2 : j * G ≤ m0 * G := Nat.mul_le_mul_right G h1
      omega

/-- The step of `GenerateRanges` is exact up to `2 ^ 53`: the ceiling of the rounded
quotient of `X ≤ 2 ^ 53` by `Y ≥ 1` is the ceiling of `X / Y`. -/
theorem Float64.div_ceil_exact (X Y : Nat) (hX : X ≤ 2 ^ 53) (hY : 1 ≤ Y) :
    (Float64.ceil (Float64.div ⟨X, 0⟩ ⟨Y, 0⟩)).toInt = (X + Y - 1) / Y := by
  by_cases hX0 : X = 0
  · subst hX0
    have h0 : (0 + Y - 1) / Y = 0 := Nat.div_eq_of_lt (by omega)
    rw [h0]
    simp [Float64.div, Float64.ceil, Float64.toInt]
  have hX1 : 1 ≤ X := by omega
  have hYpos : 0 < Y := hY
  rw [Float64.div_int X Y hX1 hY]
  simp only [Float64.ceil, Float64.toInt, pow_zero, Nat.div_one]
  obtain ⟨_, hY2⟩ := log2_spec Y hY
  have hK : 2 ^ 53 * Y ≤ 2 ^ (log2 Y + 54) := by
    have e : 2 ^ (log2 Y + 54) = 2 ^ 53 * 2 ^ (log2 Y + 1) := by
      rw [← pow_add]
      congr 1
      omega
    rw [e]
    exact Nat.mul_le_mul_left _ (le_of_lt hY2)
  generalize log2 Y + 54 = k at hK ⊢
  have hq53 : 2 ^ 53 ≤ X * 2 ^ k / Y := by
    rw [Nat.le_div_iff_mul_le hYpos]
    exact le_trans hK (Nat.le_mul_of_pos_left _ hX1)
  have hq1 : X * 2 ^ k / Y * Y ≤ X * 2 ^ k := Nat.div_mul_le_self _ _
  have hq2 : X * 2 ^ k < (X * 2 ^ k / Y + 1) * Y := by
    have h1 := Nat.div_add_mod (X * 2 ^ k) Y
    have h2 := Nat.mod_lt (X * 2 ^ k) hYpos
    have h3 : (X * 2 ^ k / Y + 1) * Y = Y * (X * 2 ^ k / Y) + Y := by ring
    omega
  generalize decide (X * 2 ^ k % Y ≠ 0) = st
  generalize X * 2 ^ k / Y = q at hq53 hq1 hq2 ⊢
  obtain ⟨hL1, hL2⟩ := log2_spec q (by omega)
  have hL53 : 53 < log2 q + 1 :=
    (Nat.pow_lt_pow_iff_right (by norm_num)).mp (lt_of_le_of_lt hq53 hL2)
  obtain ⟨sh, hsh⟩ : ∃ sh, log2 q - 52 = sh + 1 := ⟨log2 q - 53, by omega⟩
  have hL : log2 q = 52 + (sh + 1) := by omega
  rw [hsh]
  rw [hL, pow_add] at hL1
  clear hL2 hL53 hsh hL
  -- the ceiling of X / Y
  have hc := Nat.div_add_mod (X + Y - 1) Y
  have hm := Nat.mod_lt (X + Y - 1) hYpos
  generalize (X + Y - 1) % Y = m at hc hm
  generalize (X + Y - 1) / Y = c at hc ⊢
  cases c with
  | zero =>
    simp only [Nat.mul_zero, Nat.zero_add] at hc
    omega
  | succ cm =>
    have e1 : Y * (cm + 1) = cm * Y + Y := by ring
    have e2 : (cm + 1) * Y = cm * Y + Y := by ring
    have hc1 : cm * Y + 1 ≤ X := by omega
    have hc2 : X ≤ (cm + 1) * Y := by omega
    have hcX : cm + 1 ≤ X := by
      have : cm ≤ cm * Y := Nat.le_mul_of_pos_right cm hYpos
      omega
    have hKpos : 0 < 2 ^ k := by positivity
    have hqc : q ≤ (cm + 1) * 2 ^ k := by
      have h1 : q * Y ≤ (cm + 1) * 2 ^ k * Y := by
        calc q * Y ≤ X * 2 ^ k := hq1
          _ ≤ (cm + 1) * Y * 2 ^ k := Nat.mul_le_mul_right _ hc2
          _ = (cm + 1) * 2 ^ k * Y := by ring
      exact Nat.le_of_mul_le_mul_right h1 hYpos
    -- the grid divides c * K
    have hshk : sh ≤ k := by
      have h1 : 2 ^ 52 * 2 ^ (sh + 1) ≤ 2 ^ 53 * 2 ^ k :=
        le_trans hL1 (le_trans hqc (Nat.mul_le_mul_right _ (le_trans hcX hX)))
      rw [← pow_add, ← pow_add] at h1
      have h2 := (Nat.pow_le_pow_iff_right (by norm_num)).mp h1
      omega
    have hj : ∃ j, (cm + 1) * 2 ^ k = j * 2 ^ (sh + 1) := by
      by_cases hlt : sh + 1 ≤ k
      · refine ⟨(cm + 1) * 2 ^ (k - (sh + 1)), ?_⟩
        have e : 2 ^ k = 2 ^ (k - (sh + 1)) * 2 ^ (sh + 1) := by
          rw [← pow_add]
          congr 1
          omega
        rw [Nat.mul_assoc, ← e]
      · have hk : sh = k := by omega
        subst hk
        have e : 2 ^ (sh + 1) = 2 * 2 ^ sh := by ring
        have h1 : 2 ^ 53 * 2 ^ sh ≤ (cm + 1) * 2 ^ sh := by
          calc 2 ^ 53 * 2 ^ sh = 2 ^ 52 * 2 ^ (sh + 1) := by rw [e]; ring
            _ ≤ q := hL1
            _ ≤ (cm + 1) * 2 ^ sh := hqc
        have h2 : 2 ^ 53 ≤ cm + 1 := Nat.le_of_mul_le_mul_right h1 hKpos
        have h3 : cm + 1 = 2 ^ 53 := by omega
        refine ⟨2 ^ 52, ?_⟩
        rw [h3, e]
        ring
    obtain ⟨j, hj⟩ := hj
    have hqr : q = q / 2 ^ (sh + 1) * 2 ^ (sh + 1) + q % 2 ^ (sh + 1) := by
      have := Nat.div_add_mod q (2 ^ (sh + 1))
      rw [Nat.mul_comm] at this
      exact this.symm
    have hr : q % 2 ^ (sh + 1) < 2 ^ (sh + 1) := Nat.mod_lt _ (by positivity)
    have hG : 2 ^ (sh + 1) = 2 * 2 ^ sh := by ring
    have hv : (roundHalfEven q (sh + 1) st * 2 ^ (sh + 1) = q / 2 ^ (sh + 1) * 2 ^ (sh + 1) ∧
          2 * (q % 2 ^ (sh + 1)) ≤ 2 ^ (sh + 1)) ∨
        (roundHalfEven q (sh + 1) st * 2 ^ (sh + 1) = (q / 2 ^ (sh + 1) + 1) * 2 ^ (sh + 1) ∧
          2 ^ (sh + 1) ≤ 2 * (q % 2 ^ (sh + 1))) := by
      rcases roundHalfEven_cases q (sh + 1) st with ⟨h1, h2⟩ | ⟨h1, h2⟩
      · exact Or.inl ⟨by rw [h1], h2⟩
      · exact Or.inr ⟨by rw [h1], h2⟩
    obtain ⟨hlo, hhi⟩ := round_quotient_bounds X Y (2 ^ k) q (2 ^ (sh + 1)) (2 ^ sh)
      (q / 2 ^ (sh + 1)) (q % 2 ^ (sh + 1)) (roundHalfEven q (sh + 1) st * 2 ^ (sh + 1)) cm j
      hX hK hq1 hq2 hc1 hc2 hG hL1 hqr hr hj hv
    have e3 : (cm + 1) * 2 ^ k = cm * 2 ^ k + 2 ^ k := by ring
    have e4 : (cm + 1 + 1) * 2 ^ k = cm * 2 ^ k + 2 ^ k + 2 ^ k := by ring
    apply Nat.div_eq_of_lt_le
    · omega
    · omega

/-- A boundary of `GenerateRanges` is exact when the length is at most `2 ^ 53`. -/
theorem boundary_exact (p total : Nat) (ht : total ≤ 2 ^ 53) :
    (Float64.min (Float64.ofInt p) (Float64.ofInt total)).toInt = min p total := by
  rw [Float64.ofInt_of_le total ht]
  by_cases hp : p ≤ 2 ^ 53
  · rw [Float64.ofInt_of_le p hp]
    simp only [Float64.min, pow_zero, Nat.mul_one]
    split_ifs with h
    · simp only [Float64.toInt, pow_zero, Nat.div_one]
      omega
    · simp only [Float64.toInt, pow_zero, Nat.div_one]
      omega
  · obtain ⟨hs, hn⟩ := Float64.ofInt_ge p (by omega)
    generalize Float64.ofInt p = a at hs hn
    obtain ⟨num, scale⟩ := a
    simp only at hs hn
    subst hs
    simp only [Float64.min, pow_zero, Nat.mul_one]
    split_ifs with h
    · simp only [Float64.toInt, pow_zero, Nat.div_one]
      omega
    · simp only [Float64.toInt, pow_zero, Nat.div_one]
      omega

theorem ceil_div_of_le (t Y : Nat) (ht : t ≤ Y) (hY : 1 ≤ Y) :
    (t + Y - 1) / Y = if t = 0 then 0 else 1 := by
  split_ifs with h
  · subst h
    exact Nat.div_eq_of_lt (by omega)
  · apply Nat.div_eq_of_lt_le
    · omega
    · omega

/-- Up to a length of `2 ^ 53` the boundaries of `GenerateRanges` are the boundaries of the
exact integer arithmetic. -/
theorem GenerateRanges_eq_exactRanges (total n : Nat) (ht : total ≤ 2 ^ 53) (hn : 1 ≤ n) :
    GenerateRanges total n = exactRanges total n := by
  have hstep : (Float64.ceil (Float64.div (Float64.ofInt total) (Float64.ofInt n))).toInt
      = (total + n - 1) / n := by
    rw [Float64.ofInt_of_le total ht]
    by_cases hn53 : n ≤ 2 ^ 53
    · rw [Float64.ofInt_of_le n hn53]
      exact Float64.div_ceil_exact total n ht hn
    · obtain ⟨hs, hnum⟩ := Float64.ofInt_ge n (by omega)
      generalize Float64.ofInt n = a at hs hnum
      obtain ⟨num, scale⟩ := a
      simp only at hs hnum
      subst hs
      rw [Float64.div_ceil_exact total num ht (by omega),
        ceil_div_of_le total num (by omega) (by omega),
        ceil_div_of_le total n (by omega) hn]
  simp only [GenerateRanges, exactRanges, hstep]
  apply List.map_congr_left
  intro i _
  exact boundary_exact _ total ht

/-- Up to a length of `2 ^ 53` the boundaries of `GenerateRanges` are a partition: for a
worker count `n ≥ 1` there are `n + 1` of them, they start at 0, end at `total` and never
decrease, and every unit of `[0, total)` lies in exactly one range `[b[i], b[i+1])`. -/
theorem GenerateRanges_partition (total n : Nat) (ht : total ≤ 2 ^ 53) (hn : 1 ≤ n) :
    (GenerateRanges total n).length = n + 1 ∧
    (GenerateRanges total n).getD 0 0 = 0 ∧
    (GenerateRanges total n).getD n 0 = total ∧
    (∀ i, i < n →
      (GenerateRanges total n).getD i 0 ≤ (GenerateRanges total n).getD (i + 1) 0) ∧
    (∀ u, u < total → ∃ i, (i < n ∧ (GenerateRanges total n).getD i 0 ≤ u ∧
        u < (GenerateRanges total n).getD (i + 1) 0) ∧
      ∀ j, (j < n ∧ (GenerateRanges total n).getD j 0 ≤ u ∧
        u < (GenerateRanges total n).getD (j + 1) 0) → j = i) := by
  rw [GenerateRanges_eq_exactRanges total n ht hn]
  exact exactRanges_partition total n hn

/-- The partition at the largest length covered, `2 ^ 53` units for 3 workers. -/
theorem GenerateRanges_partition_witness :
    2 ^ 53 ≤ 2 ^ 53 ∧ 1 ≤ 3 ∧ (GenerateRanges (2 ^ 53) 3).length = 3 + 1 ∧
    (GenerateRanges (2 ^ 53) 3).getD 3 0 = 2 ^ 53 :=
  ⟨le_refl _, by decide, (GenerateRanges_partition (2 ^ 53) 3 (le_refl _) (by decide)).1,
    (GenerateRanges_partition (2 ^ 53) 3 (le_refl _) (by decide)).2.2.1⟩

/-! ## `ParallelWorker` (C12) -/

theorem getD_of_get? {α : Type} {l : List α} {i : Nat} {v d : α} (h : l.get? i = some v) :
    l.getD i d = v := by
  simp only [List.get?_eq_getElem?] at h
  simp [List.getD_eq_getElem?_getD, h]

/-- The run over consecutive boundaries is the run of the tasks in index order. -/
theorem runRanges_eq_runTasksIn {σ : Type} (worker : Nat → Nat → Nat → σ → Run σ)
    (ranges : List Nat) :
    ∀ (l : List Nat) (k : Nat) (s : σ), ranges.drop k = l →
      runRanges worker l k s
        = runTasksIn worker ranges (List.range' k (ranges.length - 1 - k)) s := by
  intro l
  induction l with
  | nil =>
    intro k s h
    have hl : ranges.length - k = 0 := by
      have := congrArg List.length h
      simpa using this
    have e : ranges.length - 1 - k = 0 := by omega
    rw [e]
    rfl
  | cons start rest ih =>
    intro k s h
    cases rest with
    | nil =>
      have hl : ranges.length - k = 1 := by
        have := congrArg List.length h
        simpa using this
      have e : ranges.length - 1 - k = 0 := by omega
      rw [e]
      rfl
    | cons stop rest2 =>
      have hl : ranges.length - k = rest2.length + 2 := by
        have := congrArg List.length h
        simpa using this
      have e : ranges.length - 1 - k = (ranges.length - 1 - (k + 1)) + 1 := by omega
      obtain ⟨g1, d1⟩ := get?_of_drop h
      obtain ⟨g2, _⟩ := get?_of_drop d1
      have ih' := ih (k + 1) s d1
      rw [e, List.range'_succ]
      simp only [runRanges, runTasksIn, runTask, getD_of_get? g1, getD_of_get? g2]
      by_cases hne : start ≠ stop
      · simp only [if_pos hne]
        cases hw : worker start stop k s with
        | error e => rfl
        | ok s1 => exact ih (k + 1) s1 d1
      · simp only [if_neg hne]
        exact ih'

theorem ParallelWorker_eq_in_order {σ : Type} (total n : Nat)
    (worker : Nat → Nat → Nat → σ → Run σ) (s : σ) :
    ParallelWorker total n worker s = ParallelWorkerIn (List.range n) total n worker s := by
  unfold ParallelWorker ParallelWorkerIn
  rw [runRanges_eq_runTasksIn worker (GenerateRanges total n) (GenerateRanges total n) 0 s rfl]
  have hl : (GenerateRanges total n).length - 1 - 0 = n := by simp [GenerateRanges]
  rw [hl, List.range_eq_range']

/-- A run of tasks is the worker invoked on the invocations of the tasks whose
range is not empty. -/
theorem runTasksIn_eq_runCalls {σ : Type} (worker : Nat → Nat → Nat → σ → Run σ)
    (ranges : List Nat) :
    ∀ (order : List Nat) (s : σ),
      runTasksIn worker ranges order s
        = runCalls worker (order.filterMap (fun i =>
            if ranges.getD i 0 ≠ ranges.getD (i + 1) 0 then
              some (ranges.getD i 0, ranges.getD (i + 1) 0, i)
            else none)) s := by
  intro order
  induction order with
  | nil => intro s; rfl
  | cons i rest ih =>
    intro s
    simp only [runTasksIn, runTask, List.filterMap_cons]
    by_cases hne : ranges.getD i 0 ≠ ranges.getD (i + 1) 0
    · simp only [if_pos hne, runCalls]
      cases hw : worker (ranges.getD i 0) (ranges.getD (i + 1) 0) i s with
      | error e => rfl
      | ok s1 => exact ih s1
    · simp only [if_neg hne]
      exact ih s

theorem runCalls_logWorker : ∀ (calls log : List (Nat × Nat × Nat)),
    runCalls logWorker calls log = .ok (log ++ calls) := by
  intro calls
  induction calls with
  | nil => intro log; simp [runCalls, pure, Except.pure]
  | cons c rest ih =>
    intro log
    obtain ⟨a, b, i⟩ := c
    simp only [runCalls, logWorker, pure, Except.pure]
    rw [ih]
    simp

/-- C12: for a worker count `n ≥ 1`, `ParallelWorker(total, n, worker)` is the
worker invoked once with `(b[i], b[i+1], i)` for every non-empty range of
`GenerateRanges(total, n)` and never for an empty range; under every schedule
of the `n` tasks the recorded invocations are a permutation of this list, in
which no invocation occurs twice. -/
theorem ParallelWorker_invocations (total n : Nat) (_hn : 1 ≤ n) :
    (∀ (σ : Type) (worker : Nat → Nat → Nat → σ → Run σ) (s : σ),
      ParallelWorker total n worker s = runCalls worker (expectedCalls total n) s) ∧
    ParallelWorker total n logWorker [] = .ok (expectedCalls total n) ∧
    (∀ order : List Nat, order.Perm (List.range n) →
      ∃ log, ParallelWorkerIn order total n logWorker [] = .ok log ∧
        log.Perm (expectedCalls total n)) ∧
    (expectedCalls total n).Nodup ∧
    (∀ c ∈ expectedCalls total n, c.1 ≠ c.2.1) := by
  have hgen : ∀ (σ : Type) (worker : Nat → Nat → Nat → σ → Run σ) (s : σ),
      ParallelWorker total n worker s = runCalls worker (expectedCalls total n) s := by
    intro σ worker s
    rw [ParallelWorker_eq_in_order]
    unfold ParallelWorkerIn
    rw [runTasksIn_eq_runCalls]
    rfl
  refine ⟨hgen, ?_, ?_, ?_, ?_⟩
  · rw [hgen, runCalls_logWorker]
    simp
  · intro order hperm
    unfold ParallelWorkerIn
    rw [runTasksIn_eq_runCalls, runCalls_logWorker]
    refine ⟨_, rfl, ?_⟩
    simp only [List.nil_append]
    exact hperm.filterMap _
  · unfold expectedCalls
    refine List.Nodup.filterMap ?_ (List.nodup_range n)
    intro a a' c hc hc'
    simp only [Option.mem_def] at hc hc'
    split at hc
    · split at hc'
      · simp only [Option.some.injEq] at hc hc'
        rw [← hc] at hc'
        simp only [Prod.mk.injEq] at hc'
        exact hc'.2.2.symm
      · simp at hc'
    · simp at hc
  · intro c hc
    unfold expectedCalls at hc
    rw [List.mem_filterMap] at hc
    obtain ⟨i, _, hi⟩ := hc
    split at hi
    · simp only [Option.some.injEq] at hi
      rw [← hi]
      assumption
    · simp at hi

/-- C12 at a concrete input: 3 units for 4 workers; the fourth range is empty
and its task makes no invocation. -/
theorem ParallelWorker_invocations_witness :
    1 ≤ 4 ∧ expectedCalls 3 4 = [(0, 1, 0), (1, 2, 1), (2, 3, 2)] ∧
    ParallelWorker 3 4 logWorker [] = .ok (expectedCalls 3 4) ∧
    ∃ log, ParallelWorkerIn [3, 1, 0, 2] 3 4 logWorker [] = .ok log ∧
      log.Perm (expectedCalls 3 4) :=
  ⟨by decide, by decide, (ParallelWorker_invocations 3 4 (by decide)).2.1,
    (ParallelWorker_invocations 3 4 (by decide)).2.2.1 [3, 1, 0, 2] (by decide)⟩

/-! ## The scheduler of the sharded database (C13) -/

/-- C13: the boundaries of the sharded database's `ParallelWorker` are capped
at the worker count, not at `total`. For 3 units and 2 workers the boundaries
are 0, 2, 2: the only invocation is `(0, 2, 0)` and unit 2 is handed to no
task. For 1 unit and 2 workers the boundaries are 0, 1, 2: the task of index 1
is invoked on `[1, 2)`, outside `[0, 1)`. The scheduler of package `trie`
hands out `[0, 2)`, `[2, 3)` and `[0, 1)` on the same inputs. -/
theorem hashdb_ParallelWorker_ranges :
    hashdb.ranges 3 2 = [0, 2, 2] ∧
    hashdb.ParallelWorker 3 2 logWorker [] = .ok [(0, 2, 0)] ∧
    (∀ c ∈ [((0 : Nat), (2 : Nat), (0 : Nat))], ¬ (c.1 ≤ 2 ∧ 2 < c.2.1)) ∧
    hashdb.ranges 1 2 = [0, 1, 2] ∧
    hashdb.ParallelWorker 1 2 logWorker [] = .ok [(0, 1, 0), (1, 2, 1)] ∧
    ParallelWorker 3 2 logWorker [] = .ok [(0, 2, 0), (2, 3, 1)] ∧
    ParallelWorker 1 2 logWorker [] = .ok [(0, 1, 0)] :=
  ⟨by decide, rfl, by decide, by decide, rfl, rfl, rfl⟩

/-! ## Go maps: lookups, keys, distinctness -/

theorem GoMap.find_put_self {K V : Type} [DecidableEq K] (m : GoMap K V) (k : K) (v : V) :
    GoMap.find (GoMap.put m k v) k = some v := by
  induction m with
  | nil => simp [GoMap.put, GoMap.find]
  | cons e rest ih =>
    obtain ⟨k1, v1⟩ := e
    by_cases h : k1 = k
    · simp [GoMap.put, GoMap.find, h]
    · simp [GoMap.put, GoMap.find, h, ih]

theorem GoMap.find_put_other {K V : Type} [DecidableEq K] (m : GoMap K V) (k k2 : K) (v : V)
    (hne : k2 ≠ k) : GoMap.find (GoMap.put m k v) k2 = GoMap.find m k2 := by
  induction m with
  | nil =>
    have : ¬ k = k2 := fun e => hne e.symm
    simp [GoMap.put, GoMap.find, this]
  | cons e rest ih =>
    obtain ⟨k1, v1⟩ := e
    have hk : ¬ k = k2 := fun e => hne e.symm
    by_cases h : k1 = k
    · subst h
      simp [GoMap.put, GoMap.find, hk]
    · by_cases h2 : k1 = k2
      · subst h2
        simp [GoMap.put, GoMap.find, h]
      · simp [GoMap.put, GoMap.find, h, h2, ih]

theorem GoMap.mem_keyList_put {K V : Type} [DecidableEq K] (m : GoMap K V) (k k2 : K) (v : V) :
    k2 ∈ GoMap.keyList (GoMap.put m k v) ↔ k2 = k ∨ k2 ∈ GoMap.keyList m := by
  induction m with
  | nil => simp [GoMap.put, GoMap.keyList]
  | cons e rest ih =>
    obtain ⟨k1, v1⟩ := e
    by_cases h : k1 = k
    · subst h
      simp [GoMap.put, GoMap.keyList]
    · simp only [GoMap.keyList] at ih
      simp only [GoMap.put, GoMap.keyList, h, if_false, List.map_cons, List.mem_cons, ih]
      tauto

theorem GoMap.nodup_put {K V : Type} [DecidableEq K] (m : GoMap K V) (k : K) (v : V)
    (hm : (GoMap.keyList m).Nodup) : (GoMap.keyList (GoMap.put m k v)).Nodup := by
  induction m with
  | nil => simp [GoMap.put, GoMap.keyList]
  | cons e rest ih =>
    obtain ⟨k1, v1⟩ := e
    have hm2 : k1 ∉ GoMap.keyList rest ∧ (GoMap.keyList rest).Nodup := by
      simpa [GoMap.keyList] using hm
    by_cases h : k1 = k
    · simpa [GoMap.put, GoMap.keyList, h] using hm
    · have hin : k1 ∉ GoMap.keyList (GoMap.put rest k v) := by
        rw [GoMap.mem_keyList_put]
        rintro (e | e)
        · exact h e
        · exact hm2.1 e
      have := ih hm2.2
      simp only [GoMap.put, h, if_false]
      simp only [GoMap.keyList, List.map_cons, List.nodup_cons]
      exact ⟨hin, this⟩

theorem GoMap.find_eq_none {K V : Type} [DecidableEq K] (m : GoMap K V) (k : K) :
    GoMap.find m k = none ↔ k ∉ GoMap.keyList m := by
  induction m with
  | nil => simp [GoMap.find, GoMap.keyList]
  | cons e rest ih =>
    obtain ⟨k1, v1⟩ := e
    by_cases h : k1 = k
    · simp [GoMap.find, GoMap.keyList, h]
    · simp only [GoMap.keyList] at ih
      simp only [GoMap.find, h, if_false, ih, GoMap.keyList, List.map_cons, List.mem_cons]
      constructor
      · rintro h1 (e | e)
        · exact h e.symm
        · exact h1 e
      · intro h1 e
        exact h1 (Or.inr e)

theorem GoMap.mem_of_find {K V : Type} [DecidableEq K] (m : GoMap K V) (k : K) (v : V)
    (h : GoMap.find m k = some v) : (k, v) ∈ m := by
  induction m with
  | nil => simp [GoMap.find] at h
  | cons e rest ih =>
    obtain ⟨k1, v1⟩ := e
    by_cases hk : k1 = k
    · simp only [GoMap.find, hk, if_true, Option.some.injEq] at h
      simp [hk, h]
    · simp only [GoMap.find, hk, if_false] at h
      exact List.mem_cons_of_mem _ (ih h)

theorem GoMap.find_of_mem {K V : Type} [DecidableEq K] (m : GoMap K V) (k : K) (v : V)
    (hm : (GoMap.keyList m).Nodup) (h : (k, v) ∈ m) : GoMap.find m k = some v := by
  induction m with
  | nil => simp at h
  | cons e rest ih =>
    obtain ⟨k1, v1⟩ := e
    have hm2 : k1 ∉ GoMap.keyList rest ∧ (GoMap.keyList rest).Nodup := by
      simpa [GoMap.keyList] using hm
    rcases List.mem_cons.mp h with e | e
    · simp only [Prod.mk.injEq] at e
      simp [GoMap.find, e.1, e.2]
    · have hk : k1 ≠ k := by
        rintro rfl
        exact hm2.1 (List.mem_map.mpr ⟨(k1, v), e, rfl⟩)
      simp only [GoMap.find, hk, if_false]
      exact ih hm2.2 e

/-! ## Storing a sequence of records into a map: the last record of a key wins -/

theorem GoMap.putAll_nil {K V : Type} [DecidableEq K] (m : GoMap K V) :
    GoMap.putAll m [] = m := rfl

theorem GoMap.putAll_cons {K V : Type} [DecidableEq K] (m : GoMap K V) (e : K × V)
    (recs : List (K × V)) :
    GoMap.putAll m (e :: recs) = GoMap.putAll (GoMap.put m e.1 e.2) recs := rfl

theorem GoMap.putAll_append {K V : Type} [DecidableEq K] (m : GoMap K V)
    (r1 r2 : List (K × V)) :
    GoMap.putAll m (r1 ++ r2) = GoMap.putAll (GoMap.putAll m r1) r2 := by
  simp [GoMap.putAll, List.foldl_append]

theorem GoMap.nodup_putAll {K V : Type} [DecidableEq K] (recs : List (K × V)) :
    ∀ m : GoMap K V, (GoMap.keyList m).Nodup → (GoMap.keyList (GoMap.putAll m recs)).Nodup := by
  induction recs with
  | nil => intro m hm; exact hm
  | cons e rest ih =>
    intro m hm
    rw [GoMap.putAll_cons]
    exact ih _ (GoMap.nodup_put m e.1 e.2 hm)

theorem GoMap.mem_keyList_putAll {K V : Type} [DecidableEq K] (recs : List (K × V)) (k : K) :
    ∀ m : GoMap K V, k ∈ GoMap.keyList (GoMap.putAll m recs) ↔
      k ∈ GoMap.keyList m ∨ k ∈ recs.map Prod.fst := by
  induction recs with
  | nil => intro m; simp [GoMap.putAll_nil]
  | cons e rest ih =>
    intro m
    rw [GoMap.putAll_cons, ih, GoMap.mem_keyList_put]
    simp only [List.map_cons, List.mem_cons]
    tauto

theorem GoMap.find_putAll_not_mem {K V : Type} [DecidableEq K] (recs : List (K × V)) (k : K)
    (hk : k ∉ recs.map Prod.fst) :
    ∀ m : GoMap K V, GoMap.find (GoMap.putAll m recs) k = GoMap.find m k := by
  induction recs with
  | nil => intro m; rfl
  | cons e rest ih =>
    intro m
    simp only [List.map_cons, List.mem_cons, not_or] at hk
    rw [GoMap.putAll_cons, ih hk.2, GoMap.find_put_other _ _ _ _ hk.1]

/-- The value found under a key is the value of the last record with that key. -/
theorem GoMap.find_putAll_last {K V : Type} [DecidableEq K] (m : GoMap K V)
    (pre post : List (K × V)) (k : K) (v : V) (hk : k ∉ post.map Prod.fst) :
    GoMap.find (GoMap.putAll m (pre ++ (k, v) :: post)) k = some v := by
  rw [GoMap.putAll_append, GoMap.putAll_cons, GoMap.find_putAll_not_mem post k hk,
    GoMap.find_put_self]

/-- A key that occurs in a sequence of records has a last record. -/
theorem exists_last_record {K V : Type} (recs : List (K × V)) (k : K)
    (hk : k ∈ recs.map Prod.fst) :
    ∃ pre v post, recs = pre ++ (k, v) :: post ∧ k ∉ post.map Prod.fst := by
  classical
  induction recs with
  | nil => simp at hk
  | cons e rest ih =>
    by_cases hr : k ∈ rest.map Prod.fst
    · obtain ⟨pre, v, post, he, hn⟩ := ih hr
      exact ⟨e :: pre, v, post, by rw [he]; rfl, hn⟩
    · have he : e.1 = k := by
        simp only [List.map_cons, List.mem_cons] at hk
        rcases hk with h | h
        · exact h.symm
        · exact absurd h hr
      refine ⟨[], e.2, rest, ?_, hr⟩
      rw [← he]
      rfl

/-- A split of the zipped records is a split of the keys and of the data at the same
position. -/
theorem split_of_zip_split {K V : Type} (keys : List K) (data : List V)
    (hlen : keys.length = data.length) (pre post : List (K × V)) (k : K) (v : V)
    (h : keys.zip data = pre ++ (k, v) :: post) :
    keys = pre.map Prod.fst ++ k :: post.map Prod.fst ∧
    data = pre.map Prod.snd ++ v :: post.map Prod.snd := by
  constructor
  · have := congrArg (List.map Prod.fst) h
    rw [List.map_fst_zip _ _ (le_of_eq hlen)] at this
    simpa using this
  · have := congrArg (List.map Prod.snd) h
    rw [List.map_snd_zip _ _ (le_of_eq hlen.symm)] at this
    simpa using this

/-! ## `ToMap` and `Unique` -/

theorem Built_aligned (c : AccessListCache) (h : Built c) : c.keys.length = c.data.length := by
  induction h with
  | empty => rfl
  | add c key val _ ih => simp [AccessListCache.Add, ih]
  | merge t c _ _ iht ihc => simp [iht, ihc]

theorem ToMapLoop_eq (data : List (List Nat)) (ks : List (List Nat)) :
    ∀ (i : Nat) (m : GoMap (List Nat) (List Nat)), i + ks.length = data.length →
      AccessListCache.ToMapLoop data ks i m = .ok (GoMap.putAll m (ks.zip (data.drop i))) := by
  induction ks with
  | nil => intro i m _; rfl
  | cons k ks ih =>
    intro i m hlen
    have hi : i < data.length := by simp only [List.length_cons] at hlen; omega
    have hg : data.get? i = some data[i] := by simp [hi]
    have hd : data.drop i = data[i] :: data.drop (i + 1) := List.drop_eq_getElem_cons hi
    simp only [AccessListCache.ToMapLoop, hg]
    rw [ih (i + 1) _ (by simp only [List.length_cons] at hlen; omega), hd]
    rfl

theorem ToMap_eq (c : AccessListCache) (h : c.keys.length = c.data.length) :
    c.ToMap = .ok (GoMap.putAll [] (c.keys.zip c.data)) := by
  have := ToMapLoop_eq c.data c.keys 0 [] (by omega)
  simpa [AccessListCache.ToMap] using this

theorem Unique_fold (l : List (List Nat × List Nat)) :
    ∀ acc : List (List Nat) × List (List Nat),
      l.foldl (fun (kv : List (List Nat) × List (List Nat)) e =>
        (kv.1 ++ [e.1], kv.2 ++ [e.2])) acc =
      (acc.1 ++ l.map Prod.fst, acc.2 ++ l.map Prod.snd) := by
  induction l with
  | nil => intro acc; simp
  | cons e rest ih => intro acc; simp [ih]

theorem Unique_eq (iter : GoMap (List Nat) (List Nat) → GoMap (List Nat) (List Nat))
    (c : AccessListCache) (h : c.keys.length = c.data.length) :
    c.Unique iter = .ok ((iter (GoMap.putAll [] (c.keys.zip c.data))).map Prod.fst,
      (iter (GoMap.putAll [] (c.keys.zip c.data))).map Prod.snd) := by
  simp only [AccessListCache.Unique, ToMap_eq c h, Unique_fold]
  rfl

/-! ## What `Unique` returns for a cache with as many keys as blobs -/

/-- The blob stored under a path by `ToMap` is the blob of the last record with that path. -/
theorem last_record_of_find (keys data : List (List Nat)) (hlen : keys.length = data.length)
    (p v : List Nat) (h : GoMap.find (GoMap.putAll [] (keys.zip data)) p = some v) :
    ∃ preK postK preD postD, keys = preK ++ p :: postK ∧ data = preD ++ v :: postD ∧
      preK.length = preD.length ∧ p ∉ postK := by
  have hin : p ∈ (keys.zip data).map Prod.fst := by
    by_contra hn
    rw [GoMap.find_putAll_not_mem _ _ hn] at h
    simp [GoMap.find] at h
  obtain ⟨pre, w, post, he, hn⟩ := exists_last_record _ _ hin
  have hf := GoMap.find_putAll_last ([] : GoMap (List Nat) (List Nat)) pre post p w hn
  rw [← he, h] at hf
  have hv : v = w := by simpa using hf
  subst hv
  obtain ⟨hk, hd⟩ := split_of_zip_split keys data hlen pre post p v he
  exact ⟨_, _, _, _, hk, hd, by simp, hn⟩

theorem Unique_aligned (iter : GoMap (List Nat) (List Nat) → GoMap (List Nat) (List Nat))
    (hiter : ∀ m, (iter m).Perm m) (c : AccessListCache)
    (hlen : c.keys.length = c.data.length) :
    ∃ ks vs, c.Unique iter = .ok (ks, vs) ∧ ks.length = vs.length ∧ ks.Nodup ∧
      (∀ p, p ∈ ks ↔ p ∈ c.keys) ∧
      ∀ i, i < ks.length →
        GoMap.find (GoMap.putAll [] (c.keys.zip c.data)) (ks.getD i []) = some (vs.getD i []) := by
  have hperm := hiter (GoMap.putAll [] (c.keys.zip c.data))
  have hnd : (GoMap.keyList (GoMap.putAll ([] : GoMap (List Nat) (List Nat))
      (c.keys.zip c.data))).Nodup :=
    GoMap.nodup_putAll _ _ (by simp [GoMap.keyList])
  refine ⟨_, _, Unique_eq iter c hlen, by simp, ?_, ?_, ?_⟩
  · exact ((hperm.map Prod.fst).nodup_iff).mpr hnd
  · intro p
    rw [(hperm.map Prod.fst).mem_iff]
    have := GoMap.mem_keyList_putAll (c.keys.zip c.data) p ([] : GoMap (List Nat) (List Nat))
    simp only [GoMap.keyList] at this
    rw [this, List.map_fst_zip _ _ (le_of_eq hlen)]
    simp
  · intro i hi
    simp only [List.length_map] at hi
    apply GoMap.find_of_mem _ _ _ hnd
    apply hperm.mem_iff.mp
    have : ((List.map Prod.fst (iter (GoMap.putAll [] (c.keys.zip c.data)))).getD i [],
        (List.map Prod.snd (iter (GoMap.putAll [] (c.keys.zip c.data)))).getD i []) =
        (iter (GoMap.putAll [] (c.keys.zip c.data)))[i] := by
      simp [List.getD_eq_getElem?_getD, hi]
    rw [this]
    exact List.getElem_mem _

/-- C14: for every access cache built by `Add` and `Merge`, and every order in which the
`range` loop visits the map, `Unique` returns two sequences of equal length; the returned
paths are pairwise distinct; a path is returned exactly when it was recorded; and the blob
at position `i` is the blob of the last record whose path is the path at position `i`: the
keys split as `preK ++ path :: postK` with the path absent from `postK`, and the data split
at the same position with that blob. -/
theorem Unique_last_writer_wins
    (iter : GoMap (List Nat) (List Nat) → GoMap (List Nat) (List Nat))
    (hiter : ∀ m, (iter m).Perm m) (c : AccessListCache) (hc : Built c) :
    ∃ ks vs, c.Unique iter = .ok (ks, vs) ∧ ks.length = vs.length ∧ ks.Nodup ∧
      (∀ p, p ∈ ks ↔ p ∈ c.keys) ∧
      ∀ i, i < ks.length → ∃ preK postK preD postD,
        c.keys = preK ++ ks.getD i [] :: postK ∧ c.data = preD ++ vs.getD i [] :: postD ∧
        preK.length = preD.length ∧ ks.getD i [] ∉ postK := by
  obtain ⟨ks, vs, hu, hl, hnd, hmem, hfind⟩ := Unique_aligned iter hiter c (Built_aligned c hc)
  exact ⟨ks, vs, hu, hl, hnd, hmem, fun i hi =>
    last_record_of_find c.keys c.data (Built_aligned c hc) _ _ (hfind i hi)⟩

/-! ## `Merge` on the heap -/

theorem keysOf_cons (h : CacheHeap) (a : Nat) (rest : List Nat) :
    keysOf h (a :: rest) = (h.getD a AccessListCache.empty).keys ++ keysOf h rest := by
  simp [keysOf]

theorem dataOf_cons (h : CacheHeap) (a : Nat) (rest : List Nat) :
    dataOf h (a :: rest) = (h.getD a AccessListCache.empty).data ++ dataOf h rest := by
  simp [dataOf]

theorem keysOf_append (h : CacheHeap) (l1 l2 : List Nat) :
    keysOf h (l1 ++ l2) = keysOf h l1 ++ keysOf h l2 := by
  simp [keysOf]

theorem dataOf_append (h : CacheHeap) (l1 l2 : List Nat) :
    dataOf h (l1 ++ l2) = dataOf h l1 ++ dataOf h l2 := by
  simp [dataOf]

theorem keysOf_set (h : CacheHeap) (this : Nat) (t : AccessListCache) (l : List Nat)
    (hl : this ∉ l) : keysOf (h.set this t) l = keysOf h l := by
  unfold keysOf
  congr 1
  apply List.map_congr_left
  intro a ha
  have : this ≠ a := by rintro rfl; exact hl ha
  simp [List.getD_eq_getElem?_getD, List.getElem?_set_ne this]

theorem dataOf_set (h : CacheHeap) (this : Nat) (t : AccessListCache) (l : List Nat)
    (hl : this ∉ l) : dataOf (h.set this t) l = dataOf h l := by
  unfold dataOf
  congr 1
  apply List.map_congr_left
  intro a ha
  have : this ≠ a := by rintro rfl; exact hl ha
  simp [List.getD_eq_getElem?_getD, List.getElem?_set_ne this]

theorem set_getElem_same {α : Type} (l : List α) (i : Nat) (hi : i < l.length) :
    l.set i l[i] = l := by
  apply List.ext_getElem?
  intro j
  by_cases hj : i = j
  · subst hj
    simp [List.getElem?_set, hi]
  · simp [List.getElem?_set_ne hj]

/-- With the receiver not among the arguments, `Merge` replaces the receiver by its records
followed by the records of the arguments, and writes nothing else. -/
theorem MergeLoop_eq (this : Nat) (accesses : List Nat) :
    ∀ (h : CacheHeap) (t : AccessListCache), h.get? this = some t →
      (∀ a ∈ accesses, a < h.length) → this ∉ accesses →
      AccessListCache.MergeLoop this accesses h =
        .ok (h.set this ⟨t.keys ++ keysOf h accesses, t.data ++ dataOf h accesses⟩) := by
  induction accesses with
  | nil =>
    intro h t ht _ _
    have hlt : this < h.length := by
      rcases Nat.lt_or_ge this h.length with hl | hl
      · exact hl
      · rw [List.get?_eq_none.mpr hl] at ht; cases ht
    have ht2 : h[this] = t := by
      have := List.get?_eq_get hlt
      rw [ht] at this
      simpa using this.symm
    have : h.set this ⟨t.keys ++ keysOf h [], t.data ++ dataOf h []⟩ = h := by
      simp only [keysOf, dataOf, List.map_nil, List.flatten_nil, List.append_nil]
      rw [← ht2]
      exact set_getElem_same h this hlt
    rw [this]
    rfl
  | cons v rest ih =>
    intro h t ht hacc hnot
    have hv : v < h.length := hacc v (List.mem_cons_self _ _)
    have hne : this ≠ v := fun e => hnot (e ▸ List.mem_cons_self _ _)
    have hrest : this ∉ rest := fun e => hnot (List.mem_cons_of_mem _ e)
    have hlt : this < h.length := by
      rcases Nat.lt_or_ge this h.length with hl | hl
      · exact hl
      · rw [List.get?_eq_none.mpr hl] at ht; cases ht
    have hgv : h.get? v = some h[v] := by simp [hv]
    have hgv1 : ∀ x : AccessListCache, (h.set this x).get? v = some h[v] := by
      intro x
      simp [List.getElem?_set_ne hne, hv]
    have hd : h.getD v AccessListCache.empty = h[v] := by
      simp [List.getD_eq_getElem?_getD, hv]
    simp only [AccessListCache.MergeLoop, ht, hgv, hgv1]
    rw [List.set_set]
    rw [ih (h.set this _) ⟨t.keys ++ h[v].keys, t.data ++ h[v].data⟩
      (by simp [hlt]) (by intro a ha; simpa using hacc a (List.mem_cons_of_mem _ ha)) hrest]
    rw [List.set_set, keysOf_set _ _ _ _ hrest, dataOf_set _ _ _ _ hrest, keysOf_cons,
      dataOf_cons, hd]
    simp [List.append_assoc]

theorem Built_append_all (h : CacheHeap) (hb : ∀ c ∈ h, Built c) (l : List Nat) :
    ∀ t, Built t → Built ⟨t.keys ++ keysOf h l, t.data ++ dataOf h l⟩ := by
  induction l with
  | nil =>
    intro t ht
    simpa [keysOf, dataOf] using ht
  | cons a rest ih =>
    intro t ht
    have hc : Built (h.getD a AccessListCache.empty) := by
      rcases Nat.lt_or_ge a h.length with hl | hl
      · have : h.getD a AccessListCache.empty = h[a] := by
          simp [List.getD_eq_getElem?_getD, hl]
        rw [this]
        exact hb _ (List.getElem_mem _)
      · have : h.getD a AccessListCache.empty = AccessListCache.empty := by
          simp [List.getD_eq_getElem?_getD, List.getElem?_eq_none hl]
        rw [this]
        exact Built.empty
    have := ih _ (Built.merge t _ ht hc)
    simpa [keysOf_cons, dataOf_cons, List.append_assoc] using this

/-! ## `Unique` after `Merge` -/

theorem GoMap.find_putAll_mem {K V : Type} [DecidableEq K] (m : GoMap K V)
    (recs : List (K × V)) (k : K) (hk : k ∈ recs.map Prod.fst) :
    GoMap.find (GoMap.putAll m recs) k = GoMap.find (GoMap.putAll [] recs) k := by
  obtain ⟨pre, v, post, he, hn⟩ := exists_last_record recs k hk
  rw [he, GoMap.find_putAll_last m pre post k v hn, GoMap.find_putAll_last [] pre post k v hn]

/-- In a concatenation of aligned record sequences, the blob found for a path is decided by
the last sequence that holds the path. -/
theorem find_putAll_middle (kA dA ka da kJ dJ : List (List Nat))
    (hA : kA.length = dA.length) (ha : ka.length = da.length) (hJ : kJ.length = dJ.length)
    (p : List Nat) (hp : p ∈ ka) (hn : p ∉ kJ) :
    GoMap.find (GoMap.putAll [] ((kA ++ (ka ++ kJ)).zip (dA ++ (da ++ dJ)))) p =
      GoMap.find (GoMap.putAll [] (ka.zip da)) p := by
  rw [List.zip_append hA, List.zip_append ha, GoMap.putAll_append, GoMap.putAll_append,
    GoMap.find_putAll_not_mem _ _ (by rw [List.map_fst_zip _ _ (le_of_eq hJ)]; exact hn),
    GoMap.find_putAll_mem _ _ _ (by rw [List.map_fst_zip _ _ (le_of_eq ha)]; exact hp)]

theorem keysOf_dataOf_aligned (h : CacheHeap) (hb : ∀ c ∈ h, Built c) (l : List Nat) :
    (keysOf h l).length = (dataOf h l).length := by
  have := Built_aligned _ (Built_append_all h hb l _ Built.empty)
  simpa [AccessListCache.empty] using this

theorem Built_getD (h : CacheHeap) (hb : ∀ c ∈ h, Built c) (a : Nat) :
    Built (h.getD a AccessListCache.empty) := by
  rcases Nat.lt_or_ge a h.length with hl | hl
  · have : h.getD a AccessListCache.empty = h[a] := by
      simp [List.getD_eq_getElem?_getD, hl]
    rw [this]
    exact hb _ (List.getElem_mem _)
  · have : h.getD a AccessListCache.empty = AccessListCache.empty := by
      simp [List.getD_eq_getElem?_getD, List.getElem?_eq_none hl]
    rw [this]
    exact Built.empty

theorem not_mem_keysOf (h : CacheHeap) (p : List Nat) (post : List Nat)
    (hpost : ∀ b ∈ post, p ∉ (h.getD b AccessListCache.empty).keys) : p ∉ keysOf h post := by
  simp only [keysOf, List.mem_flatten, List.mem_map, not_exists, not_and]
  rintro l ⟨b, hb, rfl⟩
  exact hpost b hb

/-- C15: `Merge` is concatenation.  For a receiver that is not among its arguments, after
`target.Merge(c1, ..., cn)` the target holds its previous keys followed by the keys of `c1`,
..., `cn` and its previous blobs followed by their blobs, in argument order; every other
cache, so each `ci`, is unchanged; caches built by `Add` and `Merge` stay so (as many keys
as blobs).  `Add` appends exactly one record at the end.  Consequently, when a path is
recorded in the cache `a` of the argument list and in no later argument, `Unique` of the
merged target reports for that path the blob of its last record in `a`. -/
theorem Merge_concatenates (h : CacheHeap) (this : Nat) (accesses : List Nat)
    (t : AccessListCache) (ht : h.get? this = some t)
    (hacc : ∀ a ∈ accesses, a < h.length) (hindep : this ∉ accesses) :
    ∃ h1, AccessListCache.Merge h this accesses = .ok h1 ∧ h1.length = h.length ∧
      h1.get? this = some ⟨t.keys ++ keysOf h accesses, t.data ++ dataOf h accesses⟩ ∧
      (∀ a, a ≠ this → h1.get? a = h.get? a) ∧
      ((∀ c ∈ h, Built c) → ∀ c ∈ h1, Built c) ∧
      (∀ (c : AccessListCache) (k v : List Nat),
        (c.Add k v).keys = c.keys ++ [k] ∧ (c.Add k v).data = c.data ++ [v]) ∧
      (∀ iter : GoMap (List Nat) (List Nat) → GoMap (List Nat) (List Nat),
        (∀ m, (iter m).Perm m) → (∀ c ∈ h, Built c) →
        ∀ (pre : List Nat) (a : Nat) (post : List Nat) (p : List Nat),
          accesses = pre ++ a :: post → p ∈ (h.getD a AccessListCache.empty).keys →
          (∀ b ∈ post, p ∉ (h.getD b AccessListCache.empty).keys) →
          ∃ t1 ks vs i, h1.get? this = some t1 ∧ t1.Unique iter = .ok (ks, vs) ∧
            i < ks.length ∧ ks.getD i [] = p ∧
            ∃ preK postK preD postD,
              (h.getD a AccessListCache.empty).keys = preK ++ p :: postK ∧
              (h.getD a AccessListCache.empty).data = preD ++ vs.getD i [] :: postD ∧
              preK.length = preD.length ∧ p ∉ postK) := by
  have hlt : this < h.length := by
    rcases Nat.lt_or_ge this h.length with hl | hl
    · exact hl
    · rw [List.get?_eq_none.mpr hl] at ht; cases ht
  have htm : t ∈ h := by
    have hg := List.get?_eq_get hlt
    rw [ht] at hg
    have e : t = h[this] := by simpa using hg
    rw [e]
    exact List.getElem_mem _
  have hget : (h.set this ⟨t.keys ++ keysOf h accesses, t.data ++ dataOf h accesses⟩).get? this
      = some ⟨t.keys ++ keysOf h accesses, t.data ++ dataOf h accesses⟩ := by
    simp [List.getElem?_set, hlt]
  refine ⟨_, MergeLoop_eq this accesses h t ht hacc hindep, by simp, hget, ?_, ?_, ?_, ?_⟩
  · intro a ha
    simp [List.getElem?_set_ne (Ne.symm ha)]
  · intro hb c hc
    rcases List.mem_or_eq_of_mem_set hc with h1 | h1
    · exact hb c h1
    · rw [h1]
      exact Built_append_all h hb accesses t (hb t htm)
  · intro c k v
    exact ⟨rfl, rfl⟩
  · intro iter hiter hb pre a post p hsplit hp hpost
    have hT : Built ⟨t.keys ++ keysOf h accesses, t.data ++ dataOf h accesses⟩ :=
      Built_append_all h hb accesses t (hb t htm)
    obtain ⟨ks, vs, hu, _, _, hmem, hfind⟩ := Unique_aligned iter hiter _ (Built_aligned _ hT)
    have hpa : p ∈ keysOf h accesses := by
      rw [hsplit, keysOf_append, keysOf_cons]
      exact List.mem_append_right _ (List.mem_append_left _ hp)
    have hpk : p ∈ ks := (hmem p).mpr (List.mem_append_right _ hpa)
    obtain ⟨i, hi, hip⟩ := List.mem_iff_getElem.mp hpk
    have hgd : ks.getD i [] = p := by
      simp [List.getD_eq_getElem?_getD, hi, hip]
    have ha : Built (h.getD a AccessListCache.empty) := Built_getD h hb a
    have hf := hfind i hi
    rw [hgd] at hf
    have hkeys : t.keys ++ keysOf h accesses =
        (t.keys ++ keysOf h pre) ++ ((h.getD a AccessListCache.empty).keys ++ keysOf h post) := by
      rw [hsplit, keysOf_append, keysOf_cons, List.append_assoc]
    have hdata : t.data ++ dataOf h accesses =
        (t.data ++ dataOf h pre) ++ ((h.getD a AccessListCache.empty).data ++ dataOf h post) := by
      rw [hsplit, dataOf_append, dataOf_cons, List.append_assoc]
    simp only [hkeys, hdata] at hf
    rw [find_putAll_middle _ _ _ _ _ _
      (by simp [Built_aligned t (hb t htm), keysOf_dataOf_aligned h hb pre])
      (Built_aligned _ ha) (keysOf_dataOf_aligned h hb post) p hp
      (not_mem_keysOf h p post hpost)] at hf
    exact ⟨_, ks, vs, i, hget, hu, hi, hgd,
      last_record_of_find _ _ (Built_aligned _ ha) p _ hf⟩

/-! ## The example caches -/

theorem exampleHeap_Built : ∀ c ∈ exampleHeap, Built c := by
  intro c hc
  simp only [exampleHeap, List.mem_cons, List.mem_singleton, List.not_mem_nil, or_false] at hc
  rcases hc with rfl | rfl | rfl
  · exact Built.empty
  · exact Built.add _ _ _ (Built.add _ _ _ (Built.add _ _ _ Built.empty))
  · exact Built.add _ _ _ (Built.add _ _ _ (Built.add _ _ _ Built.empty))

theorem exampleMerged_Built : Built exampleMerged :=
  Built.merge _ _
    (Built.add _ _ _ (Built.add _ _ _ (Built.add _ _ _ Built.empty)))
    (Built.add _ _ _ (Built.add _ _ _ (Built.add _ _ _ Built.empty)))

/-- A cache merged into itself is doubled: the argument is read after the receiver, and is
the receiver. -/
theorem Merge_self_doubles (c : AccessListCache) :
    AccessListCache.Merge [c] 0 [0] = .ok [⟨c.keys ++ c.keys, c.data ++ c.data⟩] := rfl

theorem Unique_last_writer_wins_witness :
    (∀ m : GoMap (List Nat) (List Nat), (List.reverse m).Perm m) ∧ Built exampleMerged ∧
    exampleMerged.Unique List.reverse =
      .ok ([[4], [3], [7], [2], [1]], [[22], [21], [78], [21], [11]]) ∧
    ∃ ks vs, exampleMerged.Unique List.reverse = .ok (ks, vs) ∧ ks.length = vs.length ∧
      ks.Nodup ∧ (∀ p, p ∈ ks ↔ p ∈ exampleMerged.keys) ∧
      ∀ i, i < ks.length → ∃ preK postK preD postD,
        exampleMerged.keys = preK ++ ks.getD i [] :: postK ∧
        exampleMerged.data = preD ++ vs.getD i [] :: postD ∧
        preK.length = preD.length ∧ ks.getD i [] ∉ postK :=
  ⟨fun m => List.reverse_perm m, exampleMerged_Built, rfl,
    Unique_last_writer_wins List.reverse (fun m => List.reverse_perm m) exampleMerged
      exampleMerged_Built⟩

theorem Merge_concatenates_witness :
    exampleHeap.get? 0 = some AccessListCache.empty ∧
    (∀ a ∈ [1, 2], a < exampleHeap.length) ∧ 0 ∉ [1, 2] ∧
    AccessListCache.Merge exampleHeap 0 [1, 2] = .ok (exampleHeap.set 0 exampleMerged) ∧
    ∃ h1, AccessListCache.Merge exampleHeap 0 [1, 2] = .ok h1 ∧
      h1.length = exampleHeap.length ∧
      h1.get? 0 = some ⟨AccessListCache.empty.keys ++ keysOf exampleHeap [1, 2],
        AccessListCache.empty.data ++ dataOf exampleHeap [1, 2]⟩ ∧
      (∀ a, a ≠ 0 → h1.get? a = exampleHeap.get? a) := by
  refine ⟨rfl, by decide, by decide, rfl, ?_⟩
  obtain ⟨h1, e1, e2, e3, e4, _⟩ :=
    Merge_concatenates exampleHeap 0 [1, 2] AccessListCache.empty rfl (by decide) (by decide)
  exact ⟨h1, e1, e2, e3, e4⟩

/-! ## Loops: invariants and what the items establish -/

theorem Run.forEach_nil {α σ : Type} (step : α → σ → Run σ) (s : σ) :
    Run.forEach step [] s = .ok s := rfl

theorem Run.forEach_cons_ok {α σ : Type} (step : α → σ → Run σ) (x : α) (rest : List α)
    (s s1 : σ) (h : step x s = .ok s1) :
    Run.forEach step (x :: rest) s = Run.forEach step rest s1 := by
  simp only [Run.forEach, h]

/-- A loop whose body keeps an invariant, establishes facts and destroys none. -/
theorem Run.forEach_mono {α β σ : Type} (step : α → σ → Run σ) (valid : α → Prop)
    (J : σ → Prop) (Q : σ → β → Prop) (est : α → β → Prop)
    (hstep : ∀ x s, valid x → J s → ∃ s1, step x s = .ok s1 ∧ J s1 ∧
      (∀ b, est x b → Q s1 b) ∧ (∀ b, Q s b → Q s1 b)) :
    ∀ (L : List α) (s : σ), (∀ x ∈ L, valid x) → J s →
      ∃ s1, Run.forEach step L s = .ok s1 ∧ J s1 ∧
        (∀ x ∈ L, ∀ b, est x b → Q s1 b) ∧ (∀ b, Q s b → Q s1 b) := by
  intro L
  induction L with
  | nil =>
    intro s _ hJ
    exact ⟨s, rfl, hJ, by simp, fun _ h => h⟩
  | cons x rest ih =>
    intro s hv hJ
    obtain ⟨s1, h1, hJ1, hE1, hM1⟩ := hstep x s (hv x (List.mem_cons_self _ _)) hJ
    obtain ⟨s2, h2, hJ2, hE2, hM2⟩ := ih s1 (fun y hy => hv y (List.mem_cons_of_mem _ hy)) hJ1
    refine ⟨s2, by rw [Run.forEach_cons_ok step x rest s s1 h1]; exact h2, hJ2, ?_,
      fun b hb => hM2 b (hM1 b hb)⟩
    intro y hy b hb
    rcases List.mem_cons.mp hy with e | e
    · subst e
      exact hM2 b (hE1 b hb)
    · exact hE2 y e b hb

/-- A loop whose body keeps an invariant and establishes the facts of its item, destroying
at most facts of the same item; no two items share a fact. -/
theorem Run.forEach_own {α β σ : Type} (step : α → σ → Run σ) (valid : α → Prop)
    (J : σ → Prop) (Q : σ → β → Prop) (own : α → β → Prop)
    (hstep : ∀ x s, valid x → J s → ∃ s1, step x s = .ok s1 ∧ J s1 ∧
      (∀ b, own x b → Q s1 b) ∧ (∀ b, ¬ own x b → Q s b → Q s1 b)) :
    ∀ (L : List α) (s : σ), (∀ x ∈ L, valid x) →
      L.Pairwise (fun x y => ∀ b, own x b → ¬ own y b) → J s →
      ∃ s1, Run.forEach step L s = .ok s1 ∧ J s1 ∧
        (∀ x ∈ L, ∀ b, own x b → Q s1 b) ∧
        (∀ b, (∀ x ∈ L, ¬ own x b) → Q s b → Q s1 b) := by
  intro L
  induction L with
  | nil =>
    intro s _ _ hJ
    exact ⟨s, rfl, hJ, by simp, fun _ _ h => h⟩
  | cons x rest ih =>
    intro s hv hp hJ
    obtain ⟨hpx, hpr⟩ := List.pairwise_cons.mp hp
    obtain ⟨s1, h1, hJ1, hE1, hM1⟩ := hstep x s (hv x (List.mem_cons_self _ _)) hJ
    obtain ⟨s2, h2, hJ2, hE2, hM2⟩ :=
      ih s1 (fun y hy => hv y (List.mem_cons_of_mem _ hy)) hpr hJ1
    refine ⟨s2, by rw [Run.forEach_cons_ok step x rest s s1 h1]; exact h2, hJ2, ?_, ?_⟩
    · intro y hy b hb
      rcases List.mem_cons.mp hy with e | e
      · subst e
        exact hM2 b (fun z hz hzb => hpx z hz b hb hzb) (hE1 b hb)
      · exact hE2 y e b hb
    · intro b hb hq
      exact hM2 b (fun z hz => hb z (List.mem_cons_of_mem _ hz))
        (hM1 b (hb x (List.mem_cons_self _ _)) hq)

/-! ## `Regroup`: the first loop allocates fresh node sets -/

theorem get?_set_iff {α : Type} (l : List α) (i j : Nat) (x y : α) :
    (l.set i x).get? j = some y ↔
      (j = i ∧ i < l.length ∧ y = x) ∨ (j ≠ i ∧ l.get? j = some y) := by
  simp only [List.get?_eq_getElem?, List.getElem?_set]
  by_cases h : i = j
  · subst h
    by_cases hl : i < l.length
    · simp [hl, eq_comm]
    · simp [hl]
  · have h2 : ¬ j = i := fun e => h e.symm
    simp [h, h2]

theorem get?_append_one {α : Type} (l : List α) (x : α) (a : Nat) (y : α) :
    (l ++ [x]).get? a = some y ↔ (a < l.length ∧ l.get? a = some y) ∨ (a = l.length ∧ y = x) := by
  simp only [List.get?_eq_getElem?]
  rcases Nat.lt_trichotomy a l.length with h | h | h
  · rw [List.getElem?_append_left h]
    simp [h, Nat.ne_of_lt h]
  · subst h
    simp [eq_comm]
  · rw [List.getElem?_eq_none (by simp; omega)]
    simp [Nat.not_lt.mpr (Nat.le_of_lt h), Nat.ne_of_gt h]

/-- The addresses of `regrouped` after one of its entries is replaced. -/
theorem Regroup.addr_set (s : RegroupState) (i : Nat) (m1 : MergedNodeSet) (h1 : SetHeap)
    (sh : List Bool) (j o a : Nat) :
    Regroup.addr ⟨h1, s.regrouped.set i m1, sh⟩ j o a ↔
      (j = i ∧ i < s.regrouped.length ∧ GoMap.find m1.Sets o = some a) ∨
      (j ≠ i ∧ Regroup.addr s j o a) := by
  unfold Regroup.addr
  constructor
  · rintro ⟨m, hm, hf⟩
    rcases (get?_set_iff _ _ _ _ _).mp hm with ⟨e1, e2, e3⟩ | ⟨e1, e2⟩
    · subst e3
      exact Or.inl ⟨e1, e2, hf⟩
    · exact Or.inr ⟨e1, m, e2, hf⟩
  · rintro (⟨e1, e2, e3⟩ | ⟨e1, m, e2, e3⟩)
    · exact ⟨m1, (get?_set_iff _ _ _ _ _).mpr (Or.inl ⟨e1, e2, rfl⟩), e3⟩
    · exact ⟨m, (get?_set_iff _ _ _ _ _).mpr (Or.inr ⟨e1, e2⟩), e3⟩

/-- The addresses do not depend on the heap or on the flags. -/
theorem Regroup.addr_congr (s s1 : RegroupState) (h : s1.regrouped = s.regrouped)
    (j o a : Nat) : Regroup.addr s1 j o a ↔ Regroup.addr s j o a := by
  unfold Regroup.addr
  rw [h]

theorem GoMap.find_put_iff {K V : Type} [DecidableEq K] (m : GoMap K V) (k k2 : K) (v v2 : V) :
    GoMap.find (GoMap.put m k v) k2 = some v2 ↔
      (k2 = k ∧ v2 = v) ∨ (k2 ≠ k ∧ GoMap.find m k2 = some v2) := by
  by_cases h : k2 = k
  · subst h
    rw [GoMap.find_put_self]
    simp [eq_comm]
  · rw [GoMap.find_put_other _ _ _ _ h]
    simp [h]

/-- The first statement of a round of the first loop keeps the invariant. -/
theorem Regroup.Inv_reset (h0 : SetHeap) (set : MergedNodeSet) (s : RegroupState) (i : Nat)
    (hI : Regroup.Inv h0 set s) :
    Regroup.Inv h0 set { s with regrouped := s.regrouped.set i NewMergedNodeSet } := by
  have hsub : ∀ j o a,
      Regroup.addr { s with regrouped := s.regrouped.set i NewMergedNodeSet } j o a →
      Regroup.addr s j o a := by
    intro j o a h
    rcases (Regroup.addr_set s i NewMergedNodeSet s.heap s.shards j o a).mp h with
      ⟨_, _, e3⟩ | ⟨_, e2⟩
    · simp [NewMergedNodeSet, GoMap.find] at e3
    · exact e2
  refine ⟨by simpa using hI.lenR, hI.lenS, hI.lenH, hI.old, ?_, ?_, ?_, ?_, ?_, hI.keysN⟩
  · exact fun j o a h => hI.fresh j o a (hsub j o a h)
  · exact fun j o a h => hI.owners j o a (hsub j o a h)
  · exact fun j o a j2 o2 h h2 => hI.inj j o a j2 o2 (hsub _ _ _ h) (hsub _ _ _ h2)
  · intro j m hm
    rcases (get?_set_iff _ _ _ _ _).mp hm with ⟨_, _, e3⟩ | ⟨_, e2⟩
    · subst e3
      simp [NewMergedNodeSet, GoMap.keyList]
    · exact hI.keysR j m e2
  · exact fun j o a ns k n h => hI.sound j o a ns k n (hsub _ _ _ h)

theorem Regroup.allocStep_spec (h0 : SetHeap) (set : MergedNodeSet) (s : RegroupState)
    (i owner : Nat) (hI : Regroup.Inv h0 set s) (hi : i < 17)
    (ho : owner ∈ GoMap.keyList set.Sets) :
    ∃ s1, Regroup.allocStep i owner s = .ok s1 ∧ Regroup.Inv h0 set s1 ∧
      (∃ a, Regroup.addr s1 i owner a) ∧
      (∀ j o, ¬ (j = i ∧ o = owner) → (∃ a, Regroup.addr s j o a) →
        ∃ a, Regroup.addr s1 j o a) := by
  have hlen : i < s.regrouped.length := by rw [hI.lenR]; exact hi
  obtain ⟨m, hm⟩ : ∃ m, s.regrouped.get? i = some m :=
    ⟨s.regrouped[i], by simp [hlen]⟩
  have hstep : Regroup.allocStep i owner s = .ok ⟨s.heap ++ [NewNodeSet owner],
      s.regrouped.set i ⟨GoMap.put m.Sets owner s.heap.length⟩, s.shards⟩ := by
    simp only [Regroup.allocStep, hm]
    rfl
  have hiff := Regroup.addr_set s i ⟨GoMap.put m.Sets owner s.heap.length⟩
    (s.heap ++ [NewNodeSet owner]) s.shards
  have hK : ∀ j o a, Regroup.addr ⟨s.heap ++ [NewNodeSet owner],
      s.regrouped.set i ⟨GoMap.put m.Sets owner s.heap.length⟩, s.shards⟩ j o a →
      (j = i ∧ o = owner ∧ a = s.heap.length) ∨ Regroup.addr s j o a := by
    intro j o a h
    rcases (hiff j o a).mp h with ⟨e1, _, e3⟩ | ⟨_, e2⟩
    · rcases (GoMap.find_put_iff _ _ _ _ _).mp e3 with ⟨e4, e5⟩ | ⟨_, e5⟩
      · exact Or.inl ⟨e1, e4, e5⟩
      · exact Or.inr ⟨m, by rw [e1]; exact hm, e5⟩
    · exact Or.inr e2
  refine ⟨_, hstep, ⟨?_, hI.lenS, ?_, ?_, ?_, ?_, ?_, ?_, ?_, ?_⟩, ?_, ?_⟩
  · simpa using hI.lenR
  · have := hI.lenH
    simp only [List.length_append, List.length_singleton]
    omega
  · intro x hx
    have hx2 : x < s.heap.length := Nat.lt_of_lt_of_le hx hI.lenH
    rw [← hI.old x hx]
    simp only [List.get?_eq_getElem?]
    exact List.getElem?_append_left hx2
  · intro j o a h
    simp only [List.length_append, List.length_singleton]
    rcases hK j o a h with ⟨_, _, e⟩ | e
    · have := hI.lenH
      omega
    · have := hI.fresh j o a e
      omega
  · intro j o a h
    rcases hK j o a h with ⟨_, e, _⟩ | e
    · rw [e]; exact ho
    · exact hI.owners j o a e
  · intro j o a j2 o2 h h2
    rcases hK j o a h with ⟨e1, e2, e3⟩ | e
    · rcases hK j2 o2 a h2 with ⟨f1, f2, _⟩ | f
      · exact ⟨e1.trans f1.symm, e2.trans f2.symm⟩
      · have := (hI.fresh j2 o2 a f).2
        omega
    · rcases hK j2 o2 a h2 with ⟨_, _, f3⟩ | f
      · have := (hI.fresh j o a e).2
        omega
      · exact hI.inj j o a j2 o2 e f
  · intro j m1 hm1
    rcases (get?_set_iff _ _ _ _ _).mp hm1 with ⟨_, _, e3⟩ | ⟨_, e2⟩
    · subst e3
      exact GoMap.nodup_put _ _ _ (hI.keysR i m hm)
    · exact hI.keysR j m1 e2
  · intro j o a ns k n h hns hf
    rcases (get?_append_one _ _ _ _).mp hns with ⟨e1, e2⟩ | ⟨_, e2⟩
    · rcases hK j o a h with ⟨_, _, e3⟩ | e
      · omega
      · exact hI.sound j o a ns k n e e2 hf
    · subst e2
      simp [NewNodeSet, GoMap.find] at hf
  · intro a ns ha hns
    rcases (get?_append_one _ _ _ _).mp hns with ⟨_, e2⟩ | ⟨_, e2⟩
    · exact hI.keysN a ns ha e2
    · subst e2
      simp [NewNodeSet, GoMap.keyList]
  · exact ⟨s.heap.length, (hiff i owner _).mpr
      (Or.inl ⟨rfl, hlen, GoMap.find_put_self _ _ _⟩)⟩
  · rintro j o hne ⟨a, ha⟩
    by_cases hj : j = i
    · have ho2 : o ≠ owner := fun e => hne ⟨hj, e⟩
      obtain ⟨m2, hm2, hf2⟩ := ha
      rw [hj, hm] at hm2
      have e : m2 = m := by simpa using hm2.symm
      subst e
      exact ⟨a, (hiff j o a).mpr (Or.inl ⟨hj, hlen,
        by rw [GoMap.find_put_other _ _ _ _ ho2]; exact hf2⟩)⟩
    · exact ⟨a, (hiff j o a).mpr (Or.inr ⟨hj, ha⟩)⟩

theorem Regroup.initRound_spec (h0 : SetHeap) (set : MergedNodeSet) (owners : Nat → List Nat)
    (hown : ∀ i, (owners i).Perm (GoMap.keyList set.Sets))
    (hnd : (GoMap.keyList set.Sets).Nodup)
    (i : Nat) (s : RegroupState) (hi : i < 17) (hI : Regroup.Inv h0 set s) :
    ∃ s1, Regroup.initRound owners i s = .ok s1 ∧ Regroup.Inv h0 set s1 ∧
      (∀ b : Nat × Nat, b.1 = i →
        b.2 ∈ GoMap.keyList set.Sets → ∃ a, Regroup.addr s1 b.1 b.2 a) ∧
      (∀ b : Nat × Nat, ¬ b.1 = i →
        (b.2 ∈ GoMap.keyList set.Sets → ∃ a, Regroup.addr s b.1 b.2 a) →
        (b.2 ∈ GoMap.keyList set.Sets → ∃ a, Regroup.addr s1 b.1 b.2 a)) := by
  have hnd2 : (owners i).Nodup := ((hown i).nodup_iff).mpr hnd
  have hpw : (owners i).Pairwise
      (fun x y => ∀ b : Nat × Nat, (b.1 = i ∧ b.2 = x) → ¬ (b.1 = i ∧ b.2 = y)) := by
    refine List.Pairwise.imp ?_ hnd2
    intro x y hxy b hb hb2
    exact hxy (hb.2.symm.trans hb2.2)
  obtain ⟨s1, h1, hJ1, hE1, hM1⟩ := Run.forEach_own (Regroup.allocStep i)
    (fun x => x ∈ GoMap.keyList set.Sets) (Regroup.Inv h0 set)
    (fun s (b : Nat × Nat) => ∃ a, Regroup.addr s b.1 b.2 a)
    (fun x b => b.1 = i ∧ b.2 = x)
    (by
      intro x s2 hx hJ
      obtain ⟨s3, e1, e2, e3, e4⟩ := Regroup.allocStep_spec h0 set s2 i x hJ hi hx
      refine ⟨s3, e1, e2, ?_, ?_⟩
      · rintro ⟨j, o⟩ ⟨rfl, rfl⟩
        exact e3
      · rintro ⟨j, o⟩ hne hq
        exact e4 j o hne hq)
    (owners i) { s with regrouped := s.regrouped.set i NewMergedNodeSet }
    (fun x hx => ((hown i).mem_iff).mp hx) hpw (Regroup.Inv_reset h0 set s i hI)
  refine ⟨s1, h1, hJ1, ?_, ?_⟩
  · rintro ⟨j, o⟩ hj ho
    exact hE1 o (((hown i).mem_iff).mpr ho) (j, o) ⟨hj, rfl⟩
  · rintro ⟨j, o⟩ hj hq ho
    obtain ⟨a, ha⟩ := hq ho
    refine hM1 (j, o) (fun x _ hx => hj hx.1) ⟨a, ?_⟩
    exact (Regroup.addr_set s i NewMergedNodeSet s.heap s.shards j o a).mpr (Or.inr ⟨hj, ha⟩)

theorem Regroup.Inv_start (h0 : SetHeap) (set : MergedNodeSet) :
    Regroup.Inv h0 set ⟨h0, List.replicate 17 NewMergedNodeSet, List.replicate 16 false⟩ := by
  have hno : ∀ i o a, ¬ Regroup.addr
      ⟨h0, List.replicate 17 NewMergedNodeSet, List.replicate 16 false⟩ i o a := by
    rintro i o a ⟨m, hm, hf⟩
    have hm2 : m = NewMergedNodeSet := by
      have := List.get?_mem hm
      exact List.eq_of_mem_replicate this
    subst hm2
    simp [NewMergedNodeSet, GoMap.find] at hf
  refine ⟨by simp, by simp, Nat.le_refl _, fun _ _ => rfl, ?_, ?_, ?_, ?_, ?_, ?_⟩
  · exact fun i o a h => absurd h (hno i o a)
  · exact fun i o a h => absurd h (hno i o a)
  · exact fun i o a _ _ h => absurd h (hno i o a)
  · intro i m hm
    have hm2 : m = NewMergedNodeSet := List.eq_of_mem_replicate (List.get?_mem hm)
    subst hm2
    simp [NewMergedNodeSet, GoMap.keyList]
  · exact fun i o a _ _ _ h => absurd h (hno i o a)
  · intro a ns ha hns
    have : a < h0.length := by
      rcases Nat.lt_or_ge a h0.length with hl | hl
      · exact hl
      · rw [List.get?_eq_none.mpr hl] at hns; cases hns
    omega

/-- The first loop of `Regroup` returns; after it every owner of the input has a fresh node
set in each of the 17 change sets. -/
theorem Regroup.init_spec (h0 : SetHeap) (set : MergedNodeSet) (owners : Nat → List Nat)
    (hown : ∀ i, (owners i).Perm (GoMap.keyList set.Sets))
    (hnd : (GoMap.keyList set.Sets).Nodup) :
    ∃ s1, Run.forEach (Regroup.initRound owners) (List.range 17)
        ⟨h0, List.replicate 17 NewMergedNodeSet, List.replicate 16 false⟩ = .ok s1 ∧
      Regroup.Inv h0 set s1 ∧
      ∀ i o, i < 17 → o ∈ GoMap.keyList set.Sets → ∃ a, Regroup.addr s1 i o a := by
  have hpw : (List.range 17).Pairwise
      (fun x y => ∀ b : Nat × Nat, b.1 = x → ¬ b.1 = y) := by
    refine List.Pairwise.imp ?_ (List.nodup_range 17)
    intro x y hxy b hb hb2
    exact hxy (hb.symm.trans hb2)
  obtain ⟨s1, h1, hJ1, hE1, _⟩ := Run.forEach_own (Regroup.initRound owners)
    (fun i => i < 17) (Regroup.Inv h0 set)
    (fun s (b : Nat × Nat) => b.2 ∈ GoMap.keyList set.Sets → ∃ a, Regroup.addr s b.1 b.2 a)
    (fun i b => b.1 = i)
    (fun i s hi hJ => Regroup.initRound_spec h0 set owners hown hnd i s hi hJ)
    (List.range 17) _ (fun i hi => List.mem_range.mp hi) hpw (Regroup.Inv_start h0 set)
  exact ⟨s1, h1, hJ1, fun i o hi ho => hE1 i (List.mem_range.mpr hi) (i, o) rfl ho⟩

/-! ## `Regroup`: the second loop stores every entry where it is routed -/

theorem Regroup.store_eq (s : RegroupState) (i o a : Nat) (ns : NodeSet) (k : List Nat)
    (n : TNode) (ha : Regroup.addr s i o a) (hns : s.heap.get? a = some ns) :
    Regroup.store i o k n s =
      .ok { s with heap := s.heap.set a { ns with Nodes := GoMap.put ns.Nodes k n } } := by
  obtain ⟨m, hm, hf⟩ := ha
  simp only [Regroup.store, hm, hf, hns]
  rfl

/-- Writing the input's node for `o` and `k` into the node set it is routed to keeps the
invariant, stores the node, and keeps what was stored. -/
theorem Regroup.Inv_store (h0 : SetHeap) (set : MergedNodeSet) (s s1 : RegroupState)
    (o a : Nat) (ns : NodeSet) (k : List Nat) (n : TNode)
    (hI : Regroup.Inv h0 set s) (ha : Regroup.addr s (routeOf k) o a)
    (hns : s.heap.get? a = some ns) (hin : MergedNodeSet.lookup h0 set o k = some n)
    (hH : s1.heap = s.heap.set a { ns with Nodes := GoMap.put ns.Nodes k n })
    (hR : s1.regrouped = s.regrouped) (hS : s1.shards.length = 16) :
    Regroup.Inv h0 set s1 ∧ Regroup.Stored s1 (o, k, n) ∧
      ∀ b, Regroup.Stored s b → Regroup.Stored s1 b := by
  have hadd := Regroup.addr_congr s s1 hR
  have hal : a < s.heap.length := (hI.fresh _ _ _ ha).2
  have hget : ∀ a2 ns2, s1.heap.get? a2 = some ns2 ↔
      (a2 = a ∧ ns2 = { ns with Nodes := GoMap.put ns.Nodes k n }) ∨
      (a2 ≠ a ∧ s.heap.get? a2 = some ns2) := by
    intro a2 ns2
    rw [hH, get?_set_iff]
    constructor
    · rintro (⟨e1, _, e3⟩ | e)
      · exact Or.inl ⟨e1, e3⟩
      · exact Or.inr e
    · rintro (⟨e1, e3⟩ | e)
      · exact Or.inl ⟨e1, hal, e3⟩
      · exact Or.inr e
  refine ⟨⟨by rw [hR]; exact hI.lenR, hS, by rw [hH]; simpa using hI.lenH, ?_, ?_, ?_, ?_, ?_,
    ?_, ?_⟩, ?_, ?_⟩
  · intro x hx
    have hxa : x ≠ a := by
      have := (hI.fresh _ _ _ ha).1
      omega
    rw [← hI.old x hx, hH]
    simp only [List.get?_eq_getElem?]
    exact List.getElem?_set_ne (Ne.symm hxa)
  · intro j o2 a2 h
    have := hI.fresh j o2 a2 ((hadd j o2 a2).mp h)
    rw [hH]
    simpa using this
  · exact fun j o2 a2 h => hI.owners j o2 a2 ((hadd j o2 a2).mp h)
  · exact fun j o2 a2 j2 o3 h h2 =>
      hI.inj j o2 a2 j2 o3 ((hadd _ _ _).mp h) ((hadd _ _ _).mp h2)
  · intro j m hm
    rw [hR] at hm
    exact hI.keysR j m hm
  · intro j o2 a2 ns2 k2 n2 h hg hf
    have h2 := (hadd _ _ _).mp h
    rcases (hget a2 ns2).mp hg with ⟨e1, e2⟩ | ⟨_, e2⟩
    · subst e1
      obtain ⟨ej, eo⟩ := hI.inj _ _ _ _ _ h2 ha
      subst e2
      rcases (GoMap.find_put_iff _ _ _ _ _).mp hf with ⟨f1, f2⟩ | ⟨_, f2⟩
      · rw [f1, f2, ej, eo]
        exact ⟨rfl, hin⟩
      · exact hI.sound j o2 a2 ns k2 n2 h2 hns f2
    · exact hI.sound j o2 a2 ns2 k2 n2 h2 e2 hf
  · intro a2 ns2 hge hg
    rcases (hget a2 ns2).mp hg with ⟨e1, e2⟩ | ⟨_, e2⟩
    · subst e1
      subst e2
      exact GoMap.nodup_put _ _ _ (hI.keysN a2 ns hge hns)
    · exact hI.keysN a2 ns2 hge e2
  · exact ⟨a, _, (hadd _ _ _).mpr ha, (hget _ _).mpr (Or.inl ⟨rfl, rfl⟩),
      GoMap.find_put_self _ _ _⟩
  · rintro ⟨o2, k2, n2⟩ ⟨a2, ns2, h2, hg2, hf2⟩
    by_cases e1 : a2 = a
    · subst e1
      have ens : ns2 = ns := by
        rw [hns] at hg2
        exact (Option.some.inj hg2).symm
      subst ens
      obtain ⟨_, eo⟩ := hI.inj _ _ _ _ _ h2 ha
      refine ⟨a2, _, (hadd _ _ _).mpr h2, (hget _ _).mpr (Or.inl ⟨rfl, rfl⟩), ?_⟩
      by_cases ek : k2 = k
      · have hs := (hI.sound _ _ _ _ _ _ h2 hns hf2).2
        have hs2 : MergedNodeSet.lookup h0 set o2 k2 = some n2 := hs
        have eo2 : o2 = o := eo
        rw [eo2, ek, hin] at hs2
        show GoMap.find (GoMap.put ns2.Nodes k n) k2 = some n2
        rw [ek, GoMap.find_put_self, hs2]
      · show GoMap.find (GoMap.put ns2.Nodes k n) k2 = some n2
        rw [GoMap.find_put_other _ _ _ _ ek]
        exact hf2
    · exact ⟨a2, ns2, (hadd _ _ _).mpr h2, (hget _ _).mpr (Or.inr ⟨e1, hg2⟩), hf2⟩

theorem MergedNodeSet.lookup_some (h : SetHeap) (m : MergedNodeSet) (o : Nat) (k : List Nat)
    (n : TNode) :
    MergedNodeSet.lookup h m o k = some n ↔
      ∃ a ns, GoMap.find m.Sets o = some a ∧ h.get? a = some ns ∧
        GoMap.find ns.Nodes k = some n := by
  unfold MergedNodeSet.lookup
  cases hf : GoMap.find m.Sets o with
  | none => simp [hf]
  | some a =>
    cases hg : h.get? a with
    | none =>
      rw [List.get?_eq_getElem?] at hg
      simp [hg]
    | some ns =>
      rw [List.get?_eq_getElem?] at hg
      simp [hg]

theorem GoMap.mem_keyList_of_find {K V : Type} [DecidableEq K] (m : GoMap K V) (k : K) (v : V)
    (h : GoMap.find m k = some v) : k ∈ GoMap.keyList m := by
  by_contra hn
  rw [(GoMap.find_eq_none m k).mpr hn] at h
  cases h

theorem routeOf_lt (k : List Nat) (hr : ∀ b, k.head? = some b → b < 16) : routeOf k < 17 := by
  cases k with
  | nil => simp [routeOf]
  | cons b t =>
    have := hr b rfl
    simp only [routeOf]
    omega

theorem Regroup.place_spec (h0 : SetHeap) (set : MergedNodeSet) (s : RegroupState)
    (o : Nat) (k : List Nat) (n : TNode) (hI : Regroup.Inv h0 set s)
    (hP : ∀ i o, i < 17 → o ∈ GoMap.keyList set.Sets → ∃ a, Regroup.addr s i o a)
    (hin : MergedNodeSet.lookup h0 set o k = some n)
    (hr : ∀ b, k.head? = some b → b < 16) :
    ∃ s1, Regroup.place o (k, n) s = .ok s1 ∧ Regroup.Inv h0 set s1 ∧
      (∀ i o, i < 17 → o ∈ GoMap.keyList set.Sets → ∃ a, Regroup.addr s1 i o a) ∧
      Regroup.Stored s1 (o, k, n) ∧ ∀ b, Regroup.Stored s b → Regroup.Stored s1 b := by
  obtain ⟨a0, _, hf0, _, _⟩ := (MergedNodeSet.lookup_some _ _ _ _ _).mp hin
  have ho : o ∈ GoMap.keyList set.Sets := GoMap.mem_keyList_of_find _ _ _ hf0
  obtain ⟨a, ha⟩ := hP (routeOf k) o (routeOf_lt k hr) ho
  have hal : a < s.heap.length := (hI.fresh _ _ _ ha).2
  have hns : s.heap.get? a = some s.heap[a] := by simp [hal]
  have key : ∀ sh : List Bool, sh.length = 16 →
      Regroup.store (routeOf k) o k n ⟨s.heap, s.regrouped, sh⟩ = .ok ⟨s.heap.set a
        { s.heap[a] with Nodes := GoMap.put s.heap[a].Nodes k n }, s.regrouped, sh⟩ ∧
      Regroup.Inv h0 set ⟨s.heap.set a
        { s.heap[a] with Nodes := GoMap.put s.heap[a].Nodes k n }, s.regrouped, sh⟩ ∧
      (∀ i o, i < 17 → o ∈ GoMap.keyList set.Sets → ∃ a1, Regroup.addr ⟨s.heap.set a
        { s.heap[a] with Nodes := GoMap.put s.heap[a].Nodes k n }, s.regrouped, sh⟩ i o a1) ∧
      Regroup.Stored ⟨s.heap.set a
        { s.heap[a] with Nodes := GoMap.put s.heap[a].Nodes k n }, s.regrouped, sh⟩ (o, k, n) ∧
      ∀ b, Regroup.Stored s b → Regroup.Stored ⟨s.heap.set a
        { s.heap[a] with Nodes := GoMap.put s.heap[a].Nodes k n }, s.regrouped, sh⟩ b := by
    intro sh hsh
    have h1 := Regroup.store_eq ⟨s.heap, s.regrouped, sh⟩ (routeOf k) o a s.heap[a] k n
      ((Regroup.addr_congr s ⟨s.heap, s.regrouped, sh⟩ rfl _ _ _).mpr ha) hns
    obtain ⟨e1, e2, e3⟩ := Regroup.Inv_store h0 set s ⟨s.heap.set a
        { s.heap[a] with Nodes := GoMap.put s.heap[a].Nodes k n }, s.regrouped, sh⟩
      o a s.heap[a] k n hI ha hns hin rfl rfl hsh
    refine ⟨h1, e1, ?_, e2, e3⟩
    intro i o2 hi ho2
    obtain ⟨a1, ha1⟩ := hP i o2 hi ho2
    exact ⟨a1, (Regroup.addr_congr s _ rfl _ _ _).mpr ha1⟩
  cases k with
  | nil =>
    obtain ⟨e1, e2⟩ := key s.shards hI.lenS
    exact ⟨_, e1, e2⟩
  | cons b t =>
    have hb : b < s.shards.length := by
      rw [hI.lenS]
      exact hr b rfl
    obtain ⟨e1, e2⟩ := key (s.shards.set b true) (by simpa using hI.lenS)
    refine ⟨_, ?_, e2⟩
    simp only [Regroup.place, hb, if_true]
    exact e1

theorem Regroup.ownerStep_spec (h0 : SetHeap) (set : MergedNodeSet)
    (hwf : Regroup.WF h0 set) (hrt : Regroup.Routable h0 set)
    (iterN : GoMap (List Nat) TNode → GoMap (List Nat) TNode)
    (hiterN : ∀ m, (iterN m).Perm m) (e : Nat × Nat) (s : RegroupState) (he : e ∈ set.Sets)
    (hJ : Regroup.Inv h0 set s ∧
      ∀ i o, i < 17 → o ∈ GoMap.keyList set.Sets → ∃ a, Regroup.addr s i o a) :
    ∃ s1, Regroup.ownerStep iterN e s = .ok s1 ∧
      (Regroup.Inv h0 set s1 ∧
        ∀ i o, i < 17 → o ∈ GoMap.keyList set.Sets → ∃ a, Regroup.addr s1 i o a) ∧
      (∀ b : Nat × List Nat × TNode, (b.1 = e.1 ∧
        MergedNodeSet.lookup h0 set b.1 b.2.1 = some b.2.2) → Regroup.Stored s1 b) ∧
      (∀ b, Regroup.Stored s b → Regroup.Stored s1 b) := by
  obtain ⟨o, a0⟩ := e
  have ha0 : a0 < h0.length := hwf.valid _ he
  have hfo : GoMap.find set.Sets o = some a0 := GoMap.find_of_mem _ _ _ hwf.keysS he
  have hg0 : h0.get? a0 = some h0[a0] := by simp [ha0]
  have hg : s.heap.get? a0 = some h0[a0] := by rw [hJ.1.old a0 ha0]; exact hg0
  have hnd : (GoMap.keyList h0[a0].Nodes).Nodup := hwf.keysN _ he _ hg0
  obtain ⟨s1, h1, hJ1, hE1, hM1⟩ := Run.forEach_mono (Regroup.place o)
    (fun x => MergedNodeSet.lookup h0 set o x.1 = some x.2)
    (fun s => Regroup.Inv h0 set s ∧
      ∀ i o, i < 17 → o ∈ GoMap.keyList set.Sets → ∃ a, Regroup.addr s i o a)
    Regroup.Stored (fun x b => b = (o, x.1, x.2))
    (by
      rintro ⟨k, n⟩ s2 hx hJ2
      obtain ⟨s3, e1, e2, e3, e4, e5⟩ :=
        Regroup.place_spec h0 set s2 o k n hJ2.1 hJ2.2 hx (hrt o k n hx)
      refine ⟨s3, e1, ⟨e2, e3⟩, ?_, e5⟩
      rintro b rfl
      exact e4)
    (iterN h0[a0].Nodes) s
    (by
      rintro ⟨k, n⟩ hx
      have hx2 : (k, n) ∈ h0[a0].Nodes := ((hiterN _).mem_iff).mp hx
      exact (MergedNodeSet.lookup_some _ _ _ _ _).mpr
        ⟨a0, _, hfo, hg0, GoMap.find_of_mem _ _ _ hnd hx2⟩)
    hJ
  refine ⟨s1, ?_, hJ1, ?_, hM1⟩
  · simp only [Regroup.ownerStep, hg]
    exact h1
  · rintro ⟨o2, k, n⟩ ⟨ho, hl⟩
    simp only at ho hl
    subst ho
    obtain ⟨a, ns, e1, e2, e3⟩ := (MergedNodeSet.lookup_some _ _ _ _ _).mp hl
    rw [hfo] at e1
    have ea : a = a0 := (Option.some.inj e1).symm
    subst ea
    rw [hg0] at e2
    have ens : ns = h0[a] := (Option.some.inj e2).symm
    subst ens
    exact hE1 (k, n) (((hiterN _).mem_iff).mpr (GoMap.mem_of_find _ _ _ e3)) _ rfl

/-- The second loop of `Regroup` returns; after it the invariant holds and every entry of
the input is stored in the subset it is routed to. -/
theorem Regroup.rounds_spec (h0 : SetHeap) (set : MergedNodeSet)
    (hwf : Regroup.WF h0 set) (hrt : Regroup.Routable h0 set)
    (iterS : Nat → GoMap Nat Nat → GoMap Nat Nat) (hiterS : ∀ i m, (iterS i m).Perm m)
    (iterN : Nat → GoMap (List Nat) TNode → GoMap (List Nat) TNode)
    (hiterN : ∀ i m, (iterN i m).Perm m) (s : RegroupState)
    (hJ : Regroup.Inv h0 set s ∧
      ∀ i o, i < 17 → o ∈ GoMap.keyList set.Sets → ∃ a, Regroup.addr s i o a) :
    ∃ s1, Run.forEach (fun i s => Run.forEach (Regroup.ownerStep (iterN i))
        (iterS (17 + i) set.Sets) s) (List.range s.regrouped.length) s = .ok s1 ∧
      (Regroup.Inv h0 set s1 ∧
        ∀ i o, i < 17 → o ∈ GoMap.keyList set.Sets → ∃ a, Regroup.addr s1 i o a) ∧
      ∀ o k n, MergedNodeSet.lookup h0 set o k = some n → Regroup.Stored s1 (o, k, n) := by
  have hround : ∀ (i : Nat) (s : RegroupState), True →
      (Regroup.Inv h0 set s ∧
        ∀ i o, i < 17 → o ∈ GoMap.keyList set.Sets → ∃ a, Regroup.addr s i o a) →
      ∃ s1, Run.forEach (Regroup.ownerStep (iterN i)) (iterS (17 + i) set.Sets) s = .ok s1 ∧
        (Regroup.Inv h0 set s1 ∧
          ∀ i o, i < 17 → o ∈ GoMap.keyList set.Sets → ∃ a, Regroup.addr s1 i o a) ∧
        (∀ b : Nat × List Nat × TNode,
          MergedNodeSet.lookup h0 set b.1 b.2.1 = some b.2.2 → Regroup.Stored s1 b) ∧
        (∀ b, Regroup.Stored s b → Regroup.Stored s1 b) := by
    intro i s _ hJs
    obtain ⟨s1, h1, hJ1, hE1, hM1⟩ := Run.forEach_mono (Regroup.ownerStep (iterN i))
      (fun e => e ∈ set.Sets)
      (fun s => Regroup.Inv h0 set s ∧
        ∀ i o, i < 17 → o ∈ GoMap.keyList set.Sets → ∃ a, Regroup.addr s i o a)
      Regroup.Stored
      (fun e b => b.1 = e.1 ∧ MergedNodeSet.lookup h0 set b.1 b.2.1 = some b.2.2)
      (fun e s2 he hJ2 => Regroup.ownerStep_spec h0 set hwf hrt (iterN i) (hiterN i) e s2 he hJ2)
      (iterS (17 + i) set.Sets) s (fun e he => ((hiterS _ _).mem_iff).mp he) hJs
    refine ⟨s1, h1, hJ1, ?_, hM1⟩
    rintro ⟨o, k, n⟩ hl
    obtain ⟨a, ns, e1, _, _⟩ := (MergedNodeSet.lookup_some _ _ _ _ _).mp hl
    exact hE1 (o, a) (((hiterS _ _).mem_iff).mpr (GoMap.mem_of_find _ _ _ e1)) _ ⟨rfl, hl⟩
  obtain ⟨s1, h1, hJ1, hE1, _⟩ := Run.forEach_mono
    (fun i s => Run.forEach (Regroup.ownerStep (iterN i)) (iterS (17 + i) set.Sets) s)
    (fun _ => True)
    (fun s => Regroup.Inv h0 set s ∧
      ∀ i o, i < 17 → o ∈ GoMap.keyList set.Sets → ∃ a, Regroup.addr s i o a)
    Regroup.Stored
    (fun _ (b : Nat × List Nat × TNode) =>
      MergedNodeSet.lookup h0 set b.1 b.2.1 = some b.2.2)
    hround (List.range s.regrouped.length) s (fun _ _ => trivial) hJ
  refine ⟨s1, h1, hJ1, ?_⟩
  intro o k n hl
  exact hE1 0 (by rw [hJ.1.lenR]; simp) (o, k, n) hl

/-! ## `Regroup` as a whole -/

theorem Regroup.run_spec (h0 : SetHeap) (set : MergedNodeSet)
    (hwf : Regroup.WF h0 set) (hrt : Regroup.Routable h0 set)
    (iterS : Nat → GoMap Nat Nat → GoMap Nat Nat) (hiterS : ∀ i m, (iterS i m).Perm m)
    (iterN : Nat → GoMap (List Nat) TNode → GoMap (List Nat) TNode)
    (hiterN : ∀ i m, (iterN i m).Perm m) :
    ∃ s2, MergedNodeSet.Regroup iterS iterN h0 set = .ok ⟨s2.heap, s2.regrouped.take 16,
        s2.regrouped.getD 16 NewMergedNodeSet, s2.shards⟩ ∧
      Regroup.Inv h0 set s2 ∧
      (∀ i o, i < 17 → o ∈ GoMap.keyList set.Sets → ∃ a, Regroup.addr s2 i o a) ∧
      ∀ o k n, MergedNodeSet.lookup h0 set o k = some n → Regroup.Stored s2 (o, k, n) := by
  obtain ⟨s1, h1, hI1, hP1⟩ := Regroup.init_spec h0 set
    (fun i => GoMap.keyList (iterS i set.Sets))
    (fun i => (hiterS i set.Sets).map Prod.fst) hwf.keysS
  obtain ⟨s2, h2, ⟨hI2, hP2⟩, hS2⟩ :=
    Regroup.rounds_spec h0 set hwf hrt iterS hiterS iterN hiterN s1 ⟨hI1, hP1⟩
  refine ⟨s2, ?_, hI2, hP2, hS2⟩
  simp only [MergedNodeSet.Regroup, h1, h2]
  rfl

/-- What a change set of `regrouped` holds for an entry of the input: the input's node if the
path is routed to it, nothing otherwise. -/
theorem Regroup.lookup_out (h0 : SetHeap) (set : MergedNodeSet) (s2 : RegroupState)
    (hI : Regroup.Inv h0 set s2)
    (hS : ∀ o k n, MergedNodeSet.lookup h0 set o k = some n → Regroup.Stored s2 (o, k, n))
    (j : Nat) (m : MergedNodeSet) (hm : s2.regrouped.get? j = some m)
    (o : Nat) (k : List Nat) (n : TNode) (hin : MergedNodeSet.lookup h0 set o k = some n) :
    MergedNodeSet.lookup s2.heap m o k = if routeOf k = j then some n else none := by
  by_cases hr : routeOf k = j
  · rw [if_pos hr]
    obtain ⟨a, ns, ⟨m2, hm2, hf2⟩, hg, hf⟩ := hS o k n hin
    simp only at hm2 hf2 hg hf
    rw [hr, hm] at hm2
    have e : m2 = m := (Option.some.inj hm2).symm
    subst e
    exact (MergedNodeSet.lookup_some _ _ _ _ _).mpr ⟨a, ns, hf2, hg, hf⟩
  · rw [if_neg hr]
    cases hl : MergedNodeSet.lookup s2.heap m o k with
    | none => rfl
    | some n2 =>
      obtain ⟨a, ns, e1, e2, e3⟩ := (MergedNodeSet.lookup_some _ _ _ _ _).mp hl
      exact absurd (hI.sound j o a ns k n2 ⟨m, hm, e1⟩ e2 e3).1 hr

/-- A node found in a change set of `regrouped` is the input's node for that owner and
path. -/
theorem Regroup.lookup_sound (h0 : SetHeap) (set : MergedNodeSet) (s2 : RegroupState)
    (hI : Regroup.Inv h0 set s2) (j : Nat) (m : MergedNodeSet)
    (hm : s2.regrouped.get? j = some m) (o : Nat) (k : List Nat) (n : TNode)
    (hl : MergedNodeSet.lookup s2.heap m o k = some n) :
    MergedNodeSet.lookup h0 set o k = some n := by
  obtain ⟨a, ns, e1, e2, e3⟩ := (MergedNodeSet.lookup_some _ _ _ _ _).mp hl
  exact (hI.sound j o a ns k n ⟨m, hm, e1⟩ e2 e3).2

theorem Regroup.take_getD (R : List MergedNodeSet) (hR : R.length = 17) (i : Nat)
    (hi : i < 16) : R.get? i = some ((R.take 16).getD i NewMergedNodeSet) := by
  have h1 : i < R.length := by omega
  have h2 : i < (R.take 16).length := by simp [hR]; omega
  have h3 : (R.take 16)[i]? = some R[i] := by
    rw [List.getElem?_eq_getElem h2, List.getElem_take]
  simp [List.getD_eq_getElem?_getD, h1, h3]

theorem Regroup.root_getD (R : List MergedNodeSet) (hR : R.length = 17) :
    R.get? 16 = some (R.getD 16 NewMergedNodeSet) := by
  have h1 : 16 < R.length := by omega
  simp [List.getD_eq_getElem?_getD, h1]

theorem Regroup.mem_outputs (R : List MergedNodeSet) (hR : R.length = 17) (m : MergedNodeSet)
    (hm : m ∈ R.take 16 ++ [R.getD 16 NewMergedNodeSet]) : ∃ j, R.get? j = some m := by
  rcases List.mem_append.mp hm with h | h
  · obtain ⟨j, hj, e⟩ := List.mem_iff_getElem.mp (List.mem_of_mem_take h)
    exact ⟨j, by simp [hj, e]⟩
  · rw [List.mem_singleton] at h
    exact ⟨16, by rw [h]; exact Regroup.root_getD R hR⟩

theorem routeOf_eq_iff (k : List Nat) (i : Nat) (hi : i < 16) :
    routeOf k = i ↔ k.head? = some i := by
  cases k with
  | nil => simp [routeOf]; omega
  | cons b t => simp [routeOf]

theorem routeOf_eq_16 (k : List Nat) (hr : ∀ b, k.head? = some b → b < 16) :
    routeOf k = 16 ↔ k = [] := by
  cases k with
  | nil => simp [routeOf]
  | cons b t =>
    have := hr b rfl
    simp [routeOf]
    omega

/-- A bounded form of `Regroup.Routable`: a check of the entries of the input. -/
theorem Regroup.Routable_of_entries (h0 : SetHeap) (set : MergedNodeSet)
    (h : ∀ e ∈ set.Sets, ∀ ns, h0.get? e.2 = some ns → ∀ x ∈ ns.Nodes,
      ∀ b, x.1.head? = some b → b < 16) : Regroup.Routable h0 set := by
  intro o k n hl b hb
  obtain ⟨a, ns, e1, e2, e3⟩ := (MergedNodeSet.lookup_some _ _ _ _ _).mp hl
  exact h (o, a) (GoMap.mem_of_find _ _ _ e1) ns e2 (k, n) (GoMap.mem_of_find _ _ _ e3) b hb

theorem exampleSet_WF : Regroup.WF exampleSetHeap exampleSet := by
  refine ⟨by decide, by decide, ?_⟩
  intro e he ns hns
  simp only [exampleSet, List.mem_cons, List.mem_singleton, List.not_mem_nil, or_false] at he
  rcases he with rfl | rfl
  · have e : ns = ⟨7, [([1, 2], ⟨1, [1]⟩), ([], ⟨2, [2]⟩), ([3], ⟨3, [3]⟩)]⟩ := by
      simpa [exampleSetHeap] using hns.symm
    subst e
    decide
  · have e : ns = ⟨8, [([1], ⟨4, []⟩)]⟩ := by
      simpa [exampleSetHeap] using hns.symm
    subst e
    decide

theorem exampleSet_Routable : Regroup.Routable exampleSetHeap exampleSet := by
  apply Regroup.Routable_of_entries
  intro e he ns hns
  simp only [exampleSet, List.mem_cons, List.mem_singleton, List.not_mem_nil, or_false] at he
  rcases he with rfl | rfl
  · have e : ns = ⟨7, [([1, 2], ⟨1, [1]⟩), ([], ⟨2, [2]⟩), ([3], ⟨3, [3]⟩)]⟩ := by
      simpa [exampleSetHeap] using hns.symm
    subst e
    intro x hx b hb
    simp only [List.mem_cons, List.mem_singleton, List.not_mem_nil, or_false] at hx
    rcases hx with rfl | rfl | rfl <;> simp at hb <;> omega
  · have e : ns = ⟨8, [([1], ⟨4, []⟩)]⟩ := by
      simpa [exampleSetHeap] using hns.symm
    subst e
    intro x hx b hb
    simp only [List.mem_cons, List.mem_singleton, List.not_mem_nil, or_false] at hx
    rcases hx with rfl
    simp at hb
    omega

/-- A path that starts with the byte 16 stops `Regroup`: there are 16 flags in `shards`. -/
theorem Regroup_byte16_panics :
    MergedNodeSet.Regroup (fun _ => id) (fun _ => id) exampleSetHeap16 ⟨[(7, 0)]⟩ =
      .error .panic := rfl

/-- C20: placement by `Regroup`.  For a well-formed change set whose non-empty paths start
with a nibble, and for every order in which the `range` loops visit the maps, `Regroup`
returns 16 shard subsets and a root-level subset such that, for every input entry (owner
`o`, path `k`, node `n`): shard subset `i` holds `n` under `(o, k)` when `k` starts with the
byte `i` and holds nothing under `(o, k)` otherwise; the root-level subset holds `n` under
`(o, k)` when `k` is empty and nothing under `(o, k)` otherwise; every node that an output
subset holds under an owner and a path is the input's node for them; and the input is
unchanged: the node sets that existed before are as they were, and so is every lookup in
the input. -/
theorem Regroup_placement (h0 : SetHeap) (set : MergedNodeSet)
    (hwf : Regroup.WF h0 set) (hrt : Regroup.Routable h0 set)
    (iterS : Nat → GoMap Nat Nat → GoMap Nat Nat) (hiterS : ∀ i m, (iterS i m).Perm m)
    (iterN : Nat → GoMap (List Nat) TNode → GoMap (List Nat) TNode)
    (hiterN : ∀ i m, (iterN i m).Perm m) :
    ∃ r, MergedNodeSet.Regroup iterS iterN h0 set = .ok r ∧ r.sharded.length = 16 ∧
      (∀ o k n, MergedNodeSet.lookup h0 set o k = some n →
        (∀ i, i < 16 →
          MergedNodeSet.lookup r.heap (r.sharded.getD i NewMergedNodeSet) o k =
            if k.head? = some i then some n else none) ∧
        MergedNodeSet.lookup r.heap r.rootShard o k = if k = [] then some n else none) ∧
      (∀ m ∈ r.sharded ++ [r.rootShard], ∀ o k n,
        MergedNodeSet.lookup r.heap m o k = some n →
          MergedNodeSet.lookup h0 set o k = some n) ∧
      (∀ x, x < h0.length → r.heap.get? x = h0.get? x) ∧
      (∀ o k, MergedNodeSet.lookup r.heap set o k = MergedNodeSet.lookup h0 set o k) := by
  obtain ⟨s2, hrun, hI, _, hS⟩ := Regroup.run_spec h0 set hwf hrt iterS hiterS iterN hiterN
  refine ⟨_, hrun, by simp [hI.lenR], ?_, ?_, hI.old, ?_⟩
  · intro o k n hin
    constructor
    · intro i hi
      have := Regroup.lookup_out h0 set s2 hI hS i _ (Regroup.take_getD _ hI.lenR i hi) o k n hin
      simp only [routeOf_eq_iff k i hi] at this
      exact this
    · have := Regroup.lookup_out h0 set s2 hI hS 16 _ (Regroup.root_getD _ hI.lenR) o k n hin
      simp only [routeOf_eq_16 k (hrt o k n hin)] at this
      exact this
  · intro m hm o k n hl
    obtain ⟨j, hj⟩ := Regroup.mem_outputs _ hI.lenR m hm
    exact Regroup.lookup_sound h0 set s2 hI j m hj o k n hl
  · intro o k
    unfold MergedNodeSet.lookup
    cases hf : GoMap.find set.Sets o with
    | none => rfl
    | some a =>
      have ha : a < h0.length := hwf.valid (o, a) (GoMap.mem_of_find _ _ _ hf)
      show (match s2.heap.get? a with
        | none => none
        | some ns => GoMap.find ns.Nodes k) = _
      rw [hI.old a ha]

theorem Regroup_placement_witness :
    Regroup.WF exampleSetHeap exampleSet ∧ Regroup.Routable exampleSetHeap exampleSet ∧
    MergedNodeSet.lookup exampleSetHeap exampleSet 7 [1, 2] = some ⟨1, [1]⟩ ∧
    ∃ r, MergedNodeSet.Regroup (fun _ => id) (fun _ => List.reverse) exampleSetHeap exampleSet
        = .ok r ∧ r.sharded.length = 16 ∧
      MergedNodeSet.lookup r.heap (r.sharded.getD 1 NewMergedNodeSet) 7 [1, 2]
        = some ⟨1, [1]⟩ ∧
      MergedNodeSet.lookup r.heap (r.sharded.getD 3 NewMergedNodeSet) 7 [1, 2] = none ∧
      MergedNodeSet.lookup r.heap r.rootShard 7 [1, 2] = none := by
  refine ⟨exampleSet_WF, exampleSet_Routable, rfl, ?_⟩
  obtain ⟨r, h1, h2, h3, _⟩ := Regroup_placement exampleSetHeap exampleSet exampleSet_WF
    exampleSet_Routable (fun _ => id) (fun _ _ => List.Perm.refl _) (fun _ => List.reverse)
    (fun _ m => List.reverse_perm m)
  obtain ⟨h4, h5⟩ := h3 7 [1, 2] ⟨1, [1]⟩ rfl
  exact ⟨r, h1, h2, by simpa using h4 1 (by decide), by simpa using h4 3 (by decide),
    by simpa using h5⟩

/-! ## `Count` -/

theorem Count_inner (h : SetHeap) (L : List (Nat × Nat)) :
    ∀ total : Nat, (∀ e ∈ L, e.2 < h.length) →
      Run.forEach (fun (e : Nat × Nat) total =>
        match h.get? e.2 with
        | none => .error .panic
        | some v => pure (total + v.Nodes.length)) L total =
      .ok (total + (L.map (fun e => cellLen h e.2)).sum) := by
  induction L with
  | nil => intro total _; rfl
  | cons e rest ih =>
    intro total hv
    have he : e.2 < h.length := hv e (List.mem_cons_self _ _)
    have hg : h.get? e.2 = some h[e.2] := by simp [he]
    have hstep : (fun (e : Nat × Nat) (total : Nat) =>
        match h.get? e.2 with
        | none => (.error .panic : Run Nat)
        | some v => pure (total + v.Nodes.length)) e total =
        .ok (total + h[e.2].Nodes.length) := by
      simp only [hg]
      rfl
    rw [Run.forEach_cons_ok _ e rest total _ hstep,
      ih _ (fun x hx => hv x (List.mem_cons_of_mem _ hx))]
    have hc : cellLen h e.2 = h[e.2].Nodes.length := by
      simp only [cellLen, hg]
    simp only [List.map_cons, List.sum_cons, hc, Nat.add_assoc]

/-- What `Count` returns: the sum of the sizes of the node sets, whatever the order of the
visit. -/
theorem Count_eq (iter : GoMap Nat Nat → GoMap Nat Nat) (hiter : ∀ m, (iter m).Perm m)
    (h : SetHeap) (Ms : List MergedNodeSet)
    (hv : ∀ m ∈ Ms, ∀ e ∈ m.Sets, e.2 < h.length) :
    MergedNodeSets.Count iter h Ms = .ok ((Ms.map (countOf h)).sum) := by
  have key : ∀ (Ms : List MergedNodeSet) (total : Nat),
      (∀ m ∈ Ms, ∀ e ∈ m.Sets, e.2 < h.length) →
      Run.forEach (fun (m : MergedNodeSet) total =>
        Run.forEach (fun (e : Nat × Nat) total =>
          match h.get? e.2 with
          | none => .error .panic
          | some v => pure (total + v.Nodes.length)) (iter m.Sets) total) Ms total =
      .ok (total + (Ms.map (countOf h)).sum) := by
    intro Ms
    induction Ms with
    | nil => intro total _; rfl
    | cons m rest ih =>
      intro total hv
      have h1 := Count_inner h (iter m.Sets) total
        (fun e he => hv m (List.mem_cons_self _ _) e (((hiter _).mem_iff).mp he))
      have h2 : ((iter m.Sets).map (fun e => cellLen h e.2)).sum = countOf h m :=
        ((hiter m.Sets).map _).sum_eq
      rw [h2] at h1
      rw [Run.forEach_cons_ok _ m rest total _ h1,
        ih _ (fun x hx => hv x (List.mem_cons_of_mem _ hx))]
      simp only [List.map_cons, List.sum_cons, Nat.add_assoc]
  have := key Ms 0 hv
  simpa [MergedNodeSets.Count] using this

/-! ## Sums over the 17 subsets -/

theorem sum_indicator_range (N v : Nat) (hv : v < N) :
    ((List.range N).map (fun j => if v = j then 1 else 0)).sum = 1 := by
  induction N with
  | zero => omega
  | succ N ih =>
    rw [List.range_succ, List.map_append, List.sum_append]
    by_cases h : v = N
    · subst h
      have : ((List.range v).map (fun j => if v = j then 1 else 0)).sum = 0 := by
        apply List.sum_eq_zero
        intro x hx
        obtain ⟨j, hj, rfl⟩ := List.mem_map.mp hx
        have := List.mem_range.mp hj
        simp only [ite_eq_right_iff]
        omega
      simp [this]
    · have hlt : v < N := by omega
      simp [ih hlt, h]

/-- Splitting a list by a route below `N` loses and repeats nothing. -/
theorem sum_filter_route {α : Type} (r : α → Nat) (N : Nat) (I : List α)
    (hr : ∀ x ∈ I, r x < N) :
    ((List.range N).map (fun j => (I.filter (fun x => decide (r x = j))).length)).sum =
      I.length := by
  induction I with
  | nil => simp
  | cons x rest ih =>
    have hx := hr x (List.mem_cons_self _ _)
    have hsplit : ∀ j, ((x :: rest).filter (fun y => decide (r y = j))).length =
        (if r x = j then 1 else 0) + (rest.filter (fun y => decide (r y = j))).length := by
      intro j
      by_cases h : r x = j
      · simp [List.filter_cons, h]; omega
      · simp [List.filter_cons, h]
    simp only [hsplit]
    rw [List.sum_map_add, sum_indicator_range N (r x) hx,
      ih (fun y hy => hr y (List.mem_cons_of_mem _ hy))]
    simp only [List.length_cons]
    omega

theorem sum_sum_comm {α β : Type} (f : α → β → Nat) (L1 : List α) (L2 : List β) :
    (L1.map (fun x => (L2.map (fun y => f x y)).sum)).sum =
      (L2.map (fun y => (L1.map (fun x => f x y)).sum)).sum := by
  induction L1 with
  | nil => simp
  | cons x rest ih =>
    simp only [List.map_cons, List.sum_cons]
    rw [ih, List.sum_map_add]

/-! ## `Regroup` conserves the number of mutations -/

theorem lookup_eq_inputNodes (h0 : SetHeap) (set : MergedNodeSet) (o : Nat) (k : List Nat) :
    MergedNodeSet.lookup h0 set o k = GoMap.find (inputNodes h0 set o) k := by
  unfold MergedNodeSet.lookup inputNodes
  cases hf : GoMap.find set.Sets o with
  | none => rfl
  | some a =>
    cases hg : h0.get? a with
    | none => simp only [hg]; rfl
    | some ns => simp only [hg]

theorem inputNodes_nodup (h0 : SetHeap) (set : MergedNodeSet) (hwf : Regroup.WF h0 set)
    (o : Nat) : (GoMap.keyList (inputNodes h0 set o)).Nodup := by
  unfold inputNodes
  cases hf : GoMap.find set.Sets o with
  | none => simp [GoMap.keyList]
  | some a =>
    cases hg : h0.get? a with
    | none =>
      simp only [hg]
      simp [GoMap.keyList]
    | some ns =>
      simp only [hg]
      exact hwf.keysN (o, a) (GoMap.mem_of_find _ _ _ hf) ns hg

theorem inputNodes_of_mem (h0 : SetHeap) (set : MergedNodeSet) (hwf : Regroup.WF h0 set)
    (e : Nat × Nat) (he : e ∈ set.Sets) :
    (inputNodes h0 set e.1).length = cellLen h0 e.2 := by
  have hf : GoMap.find set.Sets e.1 = some e.2 := GoMap.find_of_mem _ _ _ hwf.keysS he
  unfold inputNodes cellLen
  rw [hf]
  cases hg : h0.get? e.2 with
  | none => simp only [hg]; rfl
  | some ns => simp only [hg]

/-- The size of an output node set: the input entries of its owner that are routed to its
subset. -/
theorem Regroup.cell_length (h0 : SetHeap) (set : MergedNodeSet) (hwf : Regroup.WF h0 set)
    (s2 : RegroupState) (hI : Regroup.Inv h0 set s2)
    (hS : ∀ o k n, MergedNodeSet.lookup h0 set o k = some n → Regroup.Stored s2 (o, k, n))
    (j o a : Nat) (ha : Regroup.addr s2 j o a) :
    cellLen s2.heap a =
      ((inputNodes h0 set o).filter (fun x => decide (routeOf x.1 = j))).length := by
  obtain ⟨hge, hlt⟩ := hI.fresh j o a ha
  have hg : s2.heap.get? a = some s2.heap[a] := by simp [hlt]
  have hc : cellLen s2.heap a = s2.heap[a].Nodes.length := by simp only [cellLen, hg]
  rw [hc]
  apply List.Perm.length_eq
  have hnC : (GoMap.keyList s2.heap[a].Nodes).Nodup := hI.keysN a _ hge hg
  have hnI : (GoMap.keyList (inputNodes h0 set o)).Nodup := inputNodes_nodup h0 set hwf o
  refine (List.perm_ext_iff_of_nodup (List.Nodup.of_map Prod.fst hnC)
    (List.Nodup.filter _ (List.Nodup.of_map Prod.fst hnI))).mpr ?_
  rintro ⟨k, n⟩
  rw [List.mem_filter]
  constructor
  · intro hx
    have hf := GoMap.find_of_mem _ _ _ hnC hx
    obtain ⟨e1, e2⟩ := hI.sound j o a _ k n ha hg hf
    rw [lookup_eq_inputNodes] at e2
    exact ⟨GoMap.mem_of_find _ _ _ e2, by simpa using e1⟩
  · rintro ⟨hx, hr⟩
    have hr2 : routeOf k = j := by simpa using hr
    have hl : MergedNodeSet.lookup h0 set o k = some n := by
      rw [lookup_eq_inputNodes]
      exact GoMap.find_of_mem _ _ _ hnI hx
    obtain ⟨a2, ns2, ⟨m2, hm2, hf2⟩, hg2, hfk⟩ := hS o k n hl
    simp only at hm2 hf2 hg2 hfk
    obtain ⟨m, hm, hf⟩ := ha
    rw [hr2, hm] at hm2
    have em : m2 = m := (Option.some.inj hm2).symm
    subst em
    rw [hf] at hf2
    have ea : a2 = a := (Option.some.inj hf2).symm
    subst ea
    rw [hg] at hg2
    have ens : ns2 = s2.heap[a2] := (Option.some.inj hg2).symm
    subst ens
    exact GoMap.mem_of_find _ _ _ hfk

/-- Each change set of `regrouped` has exactly the owners of the input. -/
theorem Regroup.owners_perm (h0 : SetHeap) (set : MergedNodeSet) (hwf : Regroup.WF h0 set)
    (s2 : RegroupState) (hI : Regroup.Inv h0 set s2)
    (hP : ∀ i o, i < 17 → o ∈ GoMap.keyList set.Sets → ∃ a, Regroup.addr s2 i o a)
    (j : Nat) (hj : j < 17) (m : MergedNodeSet) (hm : s2.regrouped.get? j = some m) :
    (GoMap.keyList m.Sets).Perm (GoMap.keyList set.Sets) := by
  refine (List.perm_ext_iff_of_nodup (hI.keysR j m hm) hwf.keysS).mpr ?_
  intro o
  constructor
  · intro ho
    obtain ⟨⟨o2, a⟩, he, rfl⟩ := List.mem_map.mp ho
    exact hI.owners j o2 a ⟨m, hm, GoMap.find_of_mem _ _ _ (hI.keysR j m hm) he⟩
  · intro ho
    obtain ⟨a, m2, hm2, hf⟩ := hP j o hj ho
    rw [hm] at hm2
    have em : m2 = m := (Option.some.inj hm2).symm
    subst em
    exact GoMap.mem_keyList_of_find _ _ _ hf

theorem Regroup.countOf_out (h0 : SetHeap) (set : MergedNodeSet) (hwf : Regroup.WF h0 set)
    (s2 : RegroupState) (hI : Regroup.Inv h0 set s2)
    (hP : ∀ i o, i < 17 → o ∈ GoMap.keyList set.Sets → ∃ a, Regroup.addr s2 i o a)
    (hS : ∀ o k n, MergedNodeSet.lookup h0 set o k = some n → Regroup.Stored s2 (o, k, n))
    (j : Nat) (hj : j < 17) (m : MergedNodeSet) (hm : s2.regrouped.get? j = some m) :
    countOf s2.heap m = ((GoMap.keyList set.Sets).map (fun o =>
      ((inputNodes h0 set o).filter (fun x => decide (routeOf x.1 = j))).length)).sum := by
  have h1 : countOf s2.heap m = ((GoMap.keyList m.Sets).map (fun o =>
      ((inputNodes h0 set o).filter (fun x => decide (routeOf x.1 = j))).length)).sum := by
    unfold countOf GoMap.keyList
    rw [List.map_map]
    congr 1
    apply List.map_congr_left
    rintro ⟨o, a⟩ he
    exact Regroup.cell_length h0 set hwf s2 hI hS j o a
      ⟨m, hm, GoMap.find_of_mem _ _ _ (hI.keysR j m hm) he⟩
  rw [h1]
  exact ((Regroup.owners_perm h0 set hwf s2 hI hP j hj m hm).map _).sum_eq

theorem Regroup.outs_eq (R : List MergedNodeSet) (hR : R.length = 17) :
    R.take 16 ++ [R.getD 16 NewMergedNodeSet] = R := by
  have h1 : R.drop 16 = [R.getD 16 NewMergedNodeSet] := by
    have h16 : 16 < R.length := by omega
    rw [List.drop_eq_getElem_cons h16]
    have : R.drop 17 = [] := List.drop_eq_nil_of_le (by omega)
    simp [this, List.getD_eq_getElem?_getD, h16]
  rw [← h1]
  exact List.take_append_drop 16 R

theorem Regroup.list_eq_map_range (R : List MergedNodeSet) (hR : R.length = 17) :
    R = (List.range 17).map (fun j => R.getD j NewMergedNodeSet) := by
  apply List.ext_getElem
  · simp [hR]
  · intro n h1 h2
    simp [List.getD_eq_getElem?_getD, h1]

theorem Regroup.Routable_of_nibbles (h0 : SetHeap) (set : MergedNodeSet)
    (hnib : ∀ o k n, MergedNodeSet.lookup h0 set o k = some n → ∀ b ∈ k, b < 16) :
    Regroup.Routable h0 set := by
  intro o k n hl b hb
  apply hnib o k n hl b
  cases k with
  | nil => simp at hb
  | cons c t =>
    simp only [List.head?_cons, Option.some.injEq] at hb
    rw [hb]
    exact List.mem_cons_self _ _

/-- The 17 change sets of `regrouped` hold together as many entries as the input. -/
theorem Regroup.total_eq (h0 : SetHeap) (set : MergedNodeSet) (hwf : Regroup.WF h0 set)
    (hrt : Regroup.Routable h0 set)
    (s2 : RegroupState) (hI : Regroup.Inv h0 set s2)
    (hP : ∀ i o, i < 17 → o ∈ GoMap.keyList set.Sets → ∃ a, Regroup.addr s2 i o a)
    (hS : ∀ o k n, MergedNodeSet.lookup h0 set o k = some n → Regroup.Stored s2 (o, k, n)) :
    (s2.regrouped.map (countOf s2.heap)).sum = countOf h0 set := by
  have h1 : s2.regrouped.map (countOf s2.heap) = (List.range 17).map (fun j =>
      ((GoMap.keyList set.Sets).map (fun o =>
        ((inputNodes h0 set o).filter (fun x => decide (routeOf x.1 = j))).length)).sum) := by
    conv_lhs => rw [Regroup.list_eq_map_range s2.regrouped hI.lenR]
    rw [List.map_map]
    apply List.map_congr_left
    intro j hj
    have hj2 : j < 17 := List.mem_range.mp hj
    have hm : s2.regrouped.get? j = some (s2.regrouped.getD j NewMergedNodeSet) := by
      have : j < s2.regrouped.length := by rw [hI.lenR]; exact hj2
      simp [List.getD_eq_getElem?_getD, this]
    exact Regroup.countOf_out h0 set hwf s2 hI hP hS j hj2 _ hm
  rw [h1, sum_sum_comm (fun j o =>
    ((inputNodes h0 set o).filter (fun x => decide (routeOf x.1 = j))).length)]
  have h2 : ∀ o, ((List.range 17).map (fun j =>
      ((inputNodes h0 set o).filter (fun x => decide (routeOf x.1 = j))).length)).sum =
      (inputNodes h0 set o).length := by
    intro o
    apply sum_filter_route (fun x : List Nat × TNode => routeOf x.1) 17
    rintro ⟨k, n⟩ hx
    have hl : MergedNodeSet.lookup h0 set o k = some n := by
      rw [lookup_eq_inputNodes]
      exact GoMap.find_of_mem _ _ _ (inputNodes_nodup h0 set hwf o) hx
    exact routeOf_lt k (hrt o k n hl)
  simp only [h2]
  unfold countOf GoMap.keyList
  rw [List.map_map]
  congr 1
  apply List.map_congr_left
  intro e he
  exact inputNodes_of_mem h0 set hwf e he

/-- C19: `Regroup` conserves the mutations.  For a well-formed change set whose paths are
nibble sequences, and for every order in which the `range` loops visit the maps, `Regroup`
returns 17 subsets, and `MergedNodeSets.Count` over the 16 shard subsets and the root-level
subset returns the same number as `Count` over the input; every input entry is held by the
one subset its path is routed to and by no other of the 17. -/
theorem Regroup_conservation (h0 : SetHeap) (set : MergedNodeSet)
    (hwf : Regroup.WF h0 set)
    (hnib : ∀ o k n, MergedNodeSet.lookup h0 set o k = some n → ∀ b ∈ k, b < 16)
    (iterS : Nat → GoMap Nat Nat → GoMap Nat Nat) (hiterS : ∀ i m, (iterS i m).Perm m)
    (iterN : Nat → GoMap (List Nat) TNode → GoMap (List Nat) TNode)
    (hiterN : ∀ i m, (iterN i m).Perm m)
    (iterC : GoMap Nat Nat → GoMap Nat Nat) (hiterC : ∀ m, (iterC m).Perm m) :
    ∃ r total, MergedNodeSet.Regroup iterS iterN h0 set = .ok r ∧
      (r.sharded ++ [r.rootShard]).length = 17 ∧
      MergedNodeSets.Count iterC r.heap (r.sharded ++ [r.rootShard]) = .ok total ∧
      MergedNodeSets.Count iterC h0 [set] = .ok total ∧
      ∀ o k n, MergedNodeSet.lookup h0 set o k = some n → ∀ j, j < 17 →
        MergedNodeSet.lookup r.heap ((r.sharded ++ [r.rootShard]).getD j NewMergedNodeSet) o k =
          if routeOf k = j then some n else none := by
  have hrt := Regroup.Routable_of_nibbles h0 set hnib
  obtain ⟨s2, hrun, hI, hP, hS⟩ := Regroup.run_spec h0 set hwf hrt iterS hiterS iterN hiterN
  have houts := Regroup.outs_eq s2.regrouped hI.lenR
  refine ⟨_, countOf h0 set, hrun, ?_, ?_, ?_, ?_⟩
  · show (s2.regrouped.take 16 ++ [s2.regrouped.getD 16 NewMergedNodeSet]).length = 17
    rw [houts, hI.lenR]
  · show MergedNodeSets.Count iterC s2.heap
      (s2.regrouped.take 16 ++ [s2.regrouped.getD 16 NewMergedNodeSet]) = _
    rw [houts, Count_eq iterC hiterC s2.heap s2.regrouped, Regroup.total_eq h0 set hwf hrt s2
      hI hP hS]
    intro m hm e he
    obtain ⟨j, hj, ej⟩ := List.mem_iff_getElem.mp hm
    have hg : s2.regrouped.get? j = some m := by simp [hj, ej]
    exact (hI.fresh j e.1 e.2 ⟨m, hg, GoMap.find_of_mem _ _ _ (hI.keysR j m hg) he⟩).2
  · rw [Count_eq iterC hiterC h0 [set]]
    · simp
    · intro m hm e he
      rw [List.mem_singleton] at hm
      subst hm
      exact hwf.valid e he
  · intro o k n hin j hj
    show MergedNodeSet.lookup s2.heap
      ((s2.regrouped.take 16 ++ [s2.regrouped.getD 16 NewMergedNodeSet]).getD j
        NewMergedNodeSet) o k = _
    rw [houts]
    have hm : s2.regrouped.get? j = some (s2.regrouped.getD j NewMergedNodeSet) := by
      have : j < s2.regrouped.length := by rw [hI.lenR]; exact hj
      simp [List.getD_eq_getElem?_getD, this]
    exact Regroup.lookup_out h0 set s2 hI hS j _ hm o k n hin

theorem Regroup_conservation_witness :
    Regroup.WF exampleSetHeap exampleSet ∧
    (∀ o k n, MergedNodeSet.lookup exampleSetHeap exampleSet o k = some n → ∀ b ∈ k, b < 16) ∧
    MergedNodeSets.Count id exampleSetHeap [exampleSet] = .ok 4 ∧
    ∃ r, MergedNodeSet.Regroup (fun _ => id) (fun _ => List.reverse) exampleSetHeap exampleSet
        = .ok r ∧
      MergedNodeSets.Count id r.heap (r.sharded ++ [r.rootShard]) = .ok 4 := by
  have hnib : ∀ o k n, MergedNodeSet.lookup exampleSetHeap exampleSet o k = some n →
      ∀ b ∈ k, b < 16 := by
    intro o k n hl
    obtain ⟨a, ns, e1, e2, e3⟩ := (MergedNodeSet.lookup_some _ _ _ _ _).mp hl
    have he := GoMap.mem_of_find _ _ _ e1
    have hx := GoMap.mem_of_find _ _ _ e3
    simp only [exampleSet, List.mem_cons, List.mem_singleton, List.not_mem_nil, or_false,
      Prod.mk.injEq] at he
    rcases he with ⟨_, rfl⟩ | ⟨_, rfl⟩
    · have e : ns = ⟨7, [([1, 2], ⟨1, [1]⟩), ([], ⟨2, [2]⟩), ([3], ⟨3, [3]⟩)]⟩ := by
        simpa [exampleSetHeap] using e2.symm
      subst e
      simp only [List.mem_cons, List.mem_singleton, List.not_mem_nil, or_false,
        Prod.mk.injEq] at hx
      rcases hx with ⟨rfl, _⟩ | ⟨rfl, _⟩ | ⟨rfl, _⟩ <;> decide
    · have e : ns = ⟨8, [([1], ⟨4, []⟩)]⟩ := by
        simpa [exampleSetHeap] using e2.symm
      subst e
      simp only [List.mem_cons, List.mem_singleton, List.not_mem_nil, or_false,
        Prod.mk.injEq] at hx
      rcases hx with ⟨rfl, _⟩
      decide
  refine ⟨exampleSet_WF, hnib, rfl, ?_⟩
  obtain ⟨r, total, h1, _, h3, h4, _⟩ := Regroup_conservation exampleSetHeap exampleSet
    exampleSet_WF hnib (fun _ => id) (fun _ _ => List.Perm.refl _) (fun _ => List.reverse)
    (fun _ m => List.reverse_perm m) id (fun _ => List.Perm.refl _)
  have h5 : MergedNodeSets.Count id exampleSetHeap [exampleSet] = .ok 4 := rfl
  rw [h5] at h4
  have e : total = 4 := by
    injection h4 with h4
    exact h4.symm
  subst e
  exact ⟨r, h1, h3⟩

/-! ## The parallel tracer: `newParaTracer` -/

theorem newParaTracerLoop_spec (L : List Nat) :
    ∀ (h : TracerHeap) (t : parallelTracer), L.Nodup → (∀ i ∈ L, i < t.tracers.length) →
      (newParaTracerLoop L (h, t)).1 = h ++ List.replicate L.length newTracer ∧
      (newParaTracerLoop L (h, t)).2.tracers.length = t.tracers.length ∧
      (∀ i, i ∉ L → (newParaTracerLoop L (h, t)).2.tracers.get? i = t.tracers.get? i) ∧
      (∀ k i, L.get? k = some i →
        (newParaTracerLoop L (h, t)).2.tracers.get? i = some (h.length + k)) := by
  induction L with
  | nil =>
    intro h t _ _
    simp [newParaTracerLoop]
  | cons j rest ih =>
    intro h t hnd hlt
    obtain ⟨hj, hnd2⟩ := List.nodup_cons.mp hnd
    have hjl : j < t.tracers.length := hlt j (List.mem_cons_self _ _)
    obtain ⟨e1, e2, e3, e4⟩ := ih (h ++ [newTracer]) ⟨t.tracers.set j h.length⟩ hnd2
      (by intro i hi; simpa using hlt i (List.mem_cons_of_mem _ hi))
    have hdef : newParaTracerLoop (j :: rest) (h, t) =
        newParaTracerLoop rest (h ++ [newTracer], ⟨t.tracers.set j h.length⟩) := rfl
    rw [hdef]
    refine ⟨?_, ?_, ?_, ?_⟩
    · rw [e1]
      simp [List.replicate_succ]
    · rw [e2]
      simp
    · intro i hi
      have hi1 : i ≠ j := fun e => hi (e ▸ List.mem_cons_self _ _)
      have hi2 : i ∉ rest := fun e => hi (List.mem_cons_of_mem _ e)
      rw [e3 i hi2]
      simp only [List.get?_eq_getElem?]
      exact List.getElem?_set_ne (Ne.symm hi1)
    · intro k i hk
      cases k with
      | zero =>
        have e : i = j := by simpa using hk.symm
        subst e
        rw [e3 i hj]
        simp [List.getElem?_set, hjl]
      | succ k =>
        have hk2 : rest.get? k = some i := by simpa using hk
        rw [e4 k i hk2]
        simp only [List.length_append, List.length_singleton]
        congr 1
        omega

theorem get?_range (n k : Nat) (hk : k < n) : (List.range n).get? k = some k := by
  simp [hk]

theorem list_eq_map_range_of_get? (l : List Nat) (n base : Nat) (hl : l.length = n)
    (h : ∀ k, k < n → l.get? k = some (base + k)) :
    l = (List.range n).map (fun i => base + i) := by
  apply List.ext_getElem
  · simp [hl]
  · intro k h1 h2
    have := h k (by omega)
    simp only [List.get?_eq_getElem?, List.getElem?_eq_getElem h1, Option.some.injEq] at this
    simp [this]

/-- The result of `newParaTracer`: 17 new sub-tracers at the end of the heap, in slot
order. -/
theorem newParaTracer_eq (h : TracerHeap) :
    newParaTracer h = (h ++ List.replicate 17 newTracer,
      ⟨(List.range 17).map (fun i => h.length + i)⟩) := by
  obtain ⟨e1, e2, _, e4⟩ := newParaTracerLoop_spec (List.range 17) h
    ⟨List.replicate 17 (h.length + 17)⟩ (List.nodup_range 17)
    (by intro i hi; simpa using List.mem_range.mp hi)
  have e5 := list_eq_map_range_of_get? _ 17 h.length (by rw [e2]; simp)
    (fun k hk => e4 k k (get?_range 17 k hk))
  have e6 : (newParaTracer h).1 = h ++ List.replicate 17 newTracer := by
    simpa [newParaTracer] using e1
  have e7 : (newParaTracer h).2 = ⟨(List.range 17).map (fun i => h.length + i)⟩ := by
    have : (newParaTracer h).2.tracers = (List.range 17).map (fun i => h.length + i) := e5
    cases hh : (newParaTracer h).2
    rw [hh] at this
    simp only at this
    rw [this]
  exact Prod.ext e6 e7

/-! ## The single-shard tracer -/

theorem GoMap.mem_keyList_del {K V : Type} [DecidableEq K] (m : GoMap K V) (k k2 : K) :
    k2 ∈ GoMap.keyList (GoMap.del m k) ↔ k2 ≠ k ∧ k2 ∈ GoMap.keyList m := by
  simp only [GoMap.keyList, GoMap.del, List.mem_map, List.mem_filter, decide_eq_true_eq]
  constructor
  · rintro ⟨e, ⟨he, hne⟩, rfl⟩
    exact ⟨hne, e, he, rfl⟩
  · rintro ⟨hne, e, he, rfl⟩
    exact ⟨e, ⟨he, hne⟩, rfl⟩

theorem GoMap.find_isSome_iff {K V : Type} [DecidableEq K] (m : GoMap K V) (k : K) :
    (∃ v, GoMap.find m k = some v) ↔ k ∈ GoMap.keyList m := by
  constructor
  · rintro ⟨v, hv⟩
    exact GoMap.mem_keyList_of_find m k v hv
  · intro hk
    cases hf : GoMap.find m k with
    | none => exact absurd hk ((GoMap.find_eq_none m k).mp hf)
    | some v => exact ⟨v, rfl⟩

theorem tracer.onInsert_of_deleted (tr : tracer) (p : List Nat)
    (hp : p ∈ GoMap.keyList tr.deletes) :
    tr.onInsert p = { tr with deletes := GoMap.del tr.deletes p } := by
  obtain ⟨v, hv⟩ := (GoMap.find_isSome_iff _ _).mpr hp
  simp only [tracer.onInsert, hv]

theorem tracer.onInsert_of_not_deleted (tr : tracer) (p : List Nat)
    (hp : p ∉ GoMap.keyList tr.deletes) :
    tr.onInsert p = { tr with inserts := GoMap.put tr.inserts p () } := by
  simp only [tracer.onInsert, (GoMap.find_eq_none _ _).mpr hp]

theorem tracer.onDelete_of_inserted (tr : tracer) (p : List Nat)
    (hp : p ∈ GoMap.keyList tr.inserts) :
    tr.onDelete p = { tr with inserts := GoMap.del tr.inserts p } := by
  obtain ⟨v, hv⟩ := (GoMap.find_isSome_iff _ _).mpr hp
  simp only [tracer.onDelete, hv]

theorem tracer.onDelete_of_not_inserted (tr : tracer) (p : List Nat)
    (hp : p ∉ GoMap.keyList tr.inserts) :
    tr.onDelete p = { tr with deletes := GoMap.put tr.deletes p () } := by
  simp only [tracer.onDelete, (GoMap.find_eq_none _ _).mpr hp]

/-- An event adds at most its own path to what a single-shard tracer holds. -/
theorem tracer.holds_on (tr : tracer) (e : TraceEvent) (q : List Nat)
    (h : (tr.on e).holds q) : tr.holds q ∨ q = e.path := by
  cases e with
  | onRead p v =>
    simp only [tracer.on, tracer.onRead, tracer.holds, GoMap.mem_keyList_put] at h
    simp only [tracer.holds, TraceEvent.path]
    tauto
  | onInsert p =>
    by_cases hp : p ∈ GoMap.keyList tr.deletes
    · simp only [tracer.on, tracer.onInsert_of_deleted tr p hp, tracer.holds,
        GoMap.mem_keyList_del] at h
      simp only [tracer.holds, TraceEvent.path]
      tauto
    · simp only [tracer.on, tracer.onInsert_of_not_deleted tr p hp, tracer.holds,
        GoMap.mem_keyList_put] at h
      simp only [tracer.holds, TraceEvent.path]
      tauto
  | onDelete p =>
    by_cases hp : p ∈ GoMap.keyList tr.inserts
    · simp only [tracer.on, tracer.onDelete_of_inserted tr p hp, tracer.holds,
        GoMap.mem_keyList_del] at h
      simp only [tracer.holds, TraceEvent.path]
      tauto
    · simp only [tracer.on, tracer.onDelete_of_not_inserted tr p hp, tracer.holds,
        GoMap.mem_keyList_put] at h
      simp only [tracer.holds, TraceEvent.path]
      tauto

/-- An event keeps the insert set and the delete set of a single-shard tracer apart. -/
theorem tracer.disjoint_on (tr : tracer) (e : TraceEvent)
    (hd : ∀ q, ¬ (q ∈ GoMap.keyList tr.inserts ∧ q ∈ GoMap.keyList tr.deletes)) :
    ∀ q, ¬ (q ∈ GoMap.keyList (tr.on e).inserts ∧ q ∈ GoMap.keyList (tr.on e).deletes) := by
  intro q
  cases e with
  | onRead p v => exact hd q
  | onInsert p =>
    by_cases hp : p ∈ GoMap.keyList tr.deletes
    · simp only [tracer.on, tracer.onInsert_of_deleted tr p hp, GoMap.mem_keyList_del]
      have := hd q
      tauto
    · simp only [tracer.on, tracer.onInsert_of_not_deleted tr p hp, GoMap.mem_keyList_put]
      rintro ⟨h1 | h1, h2⟩
      · exact hp (h1 ▸ h2)
      · exact hd q ⟨h1, h2⟩
  | onDelete p =>
    by_cases hp : p ∈ GoMap.keyList tr.inserts
    · simp only [tracer.on, tracer.onDelete_of_inserted tr p hp, GoMap.mem_keyList_del]
      have := hd q
      tauto
    · simp only [tracer.on, tracer.onDelete_of_not_inserted tr p hp, GoMap.mem_keyList_put]
      rintro ⟨h1, h2 | h2⟩
      · exact hp (h2 ▸ h1)
      · exact hd q ⟨h1, h2⟩

theorem tracer.copy_eq (tr : tracer) : tr.copy = tr := rfl

/-! ## Loops again: congruence, and relations kept by every step -/

theorem Run.forEach_congr {α σ : Type} (step1 step2 : α → σ → Run σ) (L : List α)
    (h : ∀ x ∈ L, ∀ s, step1 x s = step2 x s) :
    ∀ s, Run.forEach step1 L s = Run.forEach step2 L s := by
  induction L with
  | nil => intro s; rfl
  | cons x rest ih =>
    intro s
    simp only [Run.forEach, h x (List.mem_cons_self _ _) s]
    cases step2 x s with
    | error e => rfl
    | ok s1 => exact ih (fun y hy => h y (List.mem_cons_of_mem _ hy)) s1

theorem Run.forEach_rel {α σ : Type} (step : α → σ → Run σ) (R : σ → σ → Prop)
    (hrefl : ∀ s, R s s) (htrans : ∀ s s1 s2, R s s1 → R s1 s2 → R s s2)
    (hstep : ∀ x s s1, step x s = .ok s1 → R s s1) (L : List α) :
    ∀ s s1, Run.forEach step L s = .ok s1 → R s s1 := by
  induction L with
  | nil =>
    intro s s1 h
    have e : s = s1 := by
      simp only [Run.forEach, pure, Except.pure, Except.ok.injEq] at h
      exact h
    rw [e]
    exact hrefl s1
  | cons x rest ih =>
    intro s s1 h
    cases hx : step x s with
    | error e => simp [Run.forEach, hx] at h
    | ok s2 =>
      rw [Run.forEach_cons_ok step x rest s s2 hx] at h
      exact htrans s s2 s1 (hstep x s s2 hx) (ih s2 s1 h)

/-! ## The parallel tracer: one event changes one sub-tracer -/

theorem parallelTracer.sub_eq_ok (t : parallelTracer) (h : TracerHeap) (i a : Nat)
    (tr : tracer) :
    t.sub h i = .ok (a, tr) ↔ t.tracers.get? i = some a ∧ h.get? a = some tr := by
  unfold parallelTracer.sub
  cases h1 : t.tracers.get? i with
  | none => simp
  | some a1 =>
    cases h2 : h.get? a1 with
    | none =>
      simp only [h2]
      constructor
      · intro e
        cases e
      · rintro ⟨e1, e2⟩
        have e3 : a1 = a := Option.some.inj e1
        rw [← e3, h2] at e2
        cases e2
    | some tr1 =>
      simp only [h2, pure, Except.pure, Except.ok.injEq, Prod.mk.injEq, Option.some.injEq]
      constructor
      · rintro ⟨e1, e2⟩
        rw [← e1, h2, e2]
        exact ⟨rfl, rfl⟩
      · rintro ⟨e1, e2⟩
        rw [← e1, h2] at e2
        exact ⟨e1, Option.some.inj e2⟩

theorem get?_lt_of_some {α : Type} (l : List α) (i : Nat) (x : α) (h : l.get? i = some x) :
    i < l.length := by
  rcases Nat.lt_or_ge i l.length with hl | hl
  · exact hl
  · rw [List.get?_eq_none.mpr hl] at h; cases h

theorem get?_inj_of_nodup {α : Type} (l : List α) (hl : l.Nodup) (i j : Nat) (x : α)
    (hi : l.get? i = some x) (hj : l.get? j = some x) : i = j := by
  have h1 := get?_lt_of_some l i x hi
  have h2 := get?_lt_of_some l j x hj
  simp only [List.get?_eq_getElem?, List.getElem?_eq_getElem h1,
    List.getElem?_eq_getElem h2, Option.some.injEq] at hi hj
  exact (List.Nodup.getElem_inj_iff hl).mp (hi.trans hj.symm)

theorem parallelTracer.Inv.sub_ok {h : TracerHeap} {t : parallelTracer}
    (hI : parallelTracer.Inv h t) (i : Nat) (hi : i < 17) :
    ∃ a tr, t.tracers.get? i = some a ∧ h.get? a = some tr ∧ t.sub h i = .ok (a, tr) := by
  have h1 : i < t.tracers.length := by rw [hI.len]; exact hi
  have h2 : t.tracers.get? i = some t.tracers[i] := by simp [h1]
  have h3 : t.tracers[i] < h.length := hI.valid _ (List.getElem_mem _)
  have h4 : h.get? t.tracers[i] = some h[t.tracers[i]] := by simp [h3]
  exact ⟨_, _, h2, h4, (parallelTracer.sub_eq_ok _ _ _ _ _).mpr ⟨h2, h4⟩⟩

/-- An event that returns has rewritten the sub-tracer its path is routed to, by the event
of the single-shard tracer. -/
theorem parallelTracer.on_ok_iff (t : parallelTracer) (e : TraceEvent) (h h1 : TracerHeap) :
    t.on e h = .ok h1 ↔
      ∃ a tr, t.sub h (routeOf e.path) = .ok (a, tr) ∧ h1 = h.set a (tr.on e) := by
  cases e with
  | onRead p v =>
    simp only [parallelTracer.on, parallelTracer.onRead, TraceEvent.path, tracer.on]
    cases hs : t.sub h (routeOf p) with
    | error x => simp
    | ok r =>
      obtain ⟨a, tr⟩ := r
      simp only [pure, Except.pure, Except.ok.injEq, Prod.mk.injEq]
      constructor
      · intro e1
        exact ⟨a, tr, ⟨rfl, rfl⟩, e1.symm⟩
      · rintro ⟨a1, tr1, ⟨rfl, rfl⟩, e1⟩
        exact e1.symm
  | onInsert p =>
    simp only [parallelTracer.on, parallelTracer.onInsert, TraceEvent.path, tracer.on]
    cases hs : t.sub h (routeOf p) with
    | error x => simp
    | ok r =>
      obtain ⟨a, tr⟩ := r
      simp only [pure, Except.pure, Except.ok.injEq, Prod.mk.injEq]
      constructor
      · intro e1
        exact ⟨a, tr, ⟨rfl, rfl⟩, e1.symm⟩
      · rintro ⟨a1, tr1, ⟨rfl, rfl⟩, e1⟩
        exact e1.symm
  | onDelete p =>
    simp only [parallelTracer.on, parallelTracer.onDelete, TraceEvent.path, tracer.on]
    cases hs : t.sub h (routeOf p) with
    | error x => simp
    | ok r =>
      obtain ⟨a, tr⟩ := r
      simp only [pure, Except.pure, Except.ok.injEq, Prod.mk.injEq]
      constructor
      · intro e1
        exact ⟨a, tr, ⟨rfl, rfl⟩, e1.symm⟩
      · rintro ⟨a1, tr1, ⟨rfl, rfl⟩, e1⟩
        exact e1.symm

/-- Replacing one sub-tracer by a tracer that holds only paths of its slot keeps the
invariant. -/
theorem parallelTracer.Inv_set (h : TracerHeap) (t : parallelTracer)
    (hI : parallelTracer.Inv h t) (i a : Nat) (tr1 : tracer)
    (ha : t.tracers.get? i = some a)
    (hr : ∀ p, tr1.holds p → routeOf p = i ∧ ∀ b ∈ p, b < 16)
    (hd : ∀ p, ¬ (p ∈ GoMap.keyList tr1.inserts ∧ p ∈ GoMap.keyList tr1.deletes)) :
    parallelTracer.Inv (h.set a tr1) t := by
  refine ⟨hI.len, hI.nodup, ?_, ?_, ?_⟩
  · intro x hx
    simpa using hI.valid x hx
  · intro j a2 tr2 hj hg p hp
    rcases (get?_set_iff _ _ _ _ _).mp hg with ⟨e1, _, e3⟩ | ⟨_, e2⟩
    · subst e1
      subst e3
      have := get?_inj_of_nodup _ hI.nodup j i a2 hj ha
      subst this
      exact hr p hp
    · exact hI.routed j a2 tr2 hj e2 p hp
  · intro j a2 tr2 hj hg p
    rcases (get?_set_iff _ _ _ _ _).mp hg with ⟨e1, _, e3⟩ | ⟨_, e2⟩
    · subst e3
      exact hd p
    · exact hI.disjoint j a2 tr2 hj e2 p

theorem parallelTracer.Inv_frame (h h1 : TracerHeap) (t : parallelTracer)
    (hI : parallelTracer.Inv h t) (hf : ∀ a ∈ t.tracers, h1.get? a = h.get? a) :
    parallelTracer.Inv h1 t := by
  refine ⟨hI.len, hI.nodup, ?_, ?_, ?_⟩
  · intro a ha
    have h2 : a < h.length := hI.valid a ha
    have h3 : h1.get? a = some h[a] := by rw [hf a ha]; simp [h2]
    exact get?_lt_of_some _ _ _ h3
  · intro j a tr hj hg
    rw [hf a (List.get?_mem hj)] at hg
    exact hI.routed j a tr hj hg
  · intro j a tr hj hg
    rw [hf a (List.get?_mem hj)] at hg
    exact hI.disjoint j a tr hj hg

/-- An event with a nibble path returns and keeps the invariant. -/
theorem parallelTracer.Inv_on (h : TracerHeap) (t : parallelTracer)
    (hI : parallelTracer.Inv h t) (e : TraceEvent) (hp : ∀ b ∈ e.path, b < 16) :
    ∃ a tr, t.tracers.get? (routeOf e.path) = some a ∧ h.get? a = some tr ∧
      t.on e h = .ok (h.set a (tr.on e)) ∧ parallelTracer.Inv (h.set a (tr.on e)) t := by
  have hlt : routeOf e.path < 17 := by
    apply routeOf_lt
    intro b hb
    apply hp b
    cases hpe : e.path with
    | nil => rw [hpe] at hb; simp at hb
    | cons c rest =>
      rw [hpe] at hb
      simp only [List.head?_cons, Option.some.injEq] at hb
      rw [hb]
      exact List.mem_cons_self _ _
  obtain ⟨a, tr, h1, h2, h3⟩ := hI.sub_ok (routeOf e.path) hlt
  refine ⟨a, tr, h1, h2, (parallelTracer.on_ok_iff _ _ _ _).mpr ⟨a, tr, h3, rfl⟩, ?_⟩
  apply parallelTracer.Inv_set h t hI (routeOf e.path) a (tr.on e) h1
  · intro p hpp
    rcases tracer.holds_on tr e p hpp with h4 | h4
    · exact hI.routed _ a tr h1 h2 p h4
    · rw [h4]
      exact ⟨rfl, hp⟩
  · exact tracer.disjoint_on tr e (hI.disjoint _ a tr h1 h2)

/-! ## The parallel tracer: what a call leaves alone, and `reset` -/

theorem parallelTracer.on_frame (t : parallelTracer) (e : TraceEvent) (h h1 : TracerHeap)
    (hok : t.on e h = .ok h1) : ∀ x, x ∉ t.tracers → h1.get? x = h.get? x := by
  obtain ⟨a, tr, hs, rfl⟩ := (parallelTracer.on_ok_iff _ _ _ _).mp hok
  obtain ⟨h2, _⟩ := (parallelTracer.sub_eq_ok _ _ _ _ _).mp hs
  intro x hx
  have hne : a ≠ x := fun e => hx (e ▸ List.get?_mem h2)
  simp only [List.get?_eq_getElem?]
  exact List.getElem?_set_ne hne

theorem parallelTracer.reset_frame (t : parallelTracer) (h h1 : TracerHeap)
    (hok : t.reset h = .ok h1) : ∀ x, x ∉ t.tracers → h1.get? x = h.get? x := by
  refine Run.forEach_rel _ (fun s s1 => ∀ x, x ∉ t.tracers → s1.get? x = s.get? x)
    (by intro s x _; rfl)
    (by intro s s1 s2 r1 r2 x hx; exact (r2 x hx).trans (r1 x hx)) ?_
    (List.range 17) h h1 hok
  intro i s s1 hstep
  cases hs : t.sub s i with
  | error e => simp [hs] at hstep
  | ok r =>
    obtain ⟨a, tr⟩ := r
    simp only [hs, pure, Except.pure, Except.ok.injEq] at hstep
    obtain ⟨h2, _⟩ := (parallelTracer.sub_eq_ok _ _ _ _ _).mp hs
    intro x hx
    have hne : a ≠ x := fun e => hx (e ▸ List.get?_mem h2)
    rw [← hstep]
    simp only [List.get?_eq_getElem?]
    exact List.getElem?_set_ne hne

/-- A call on a parallel tracer writes only to its own sub-tracers. -/
theorem parallelTracer.call_frame (t : parallelTracer) (c : TracerCall) (h h1 : TracerHeap)
    (hok : t.call c h = .ok h1) : ∀ x, x ∉ t.tracers → h1.get? x = h.get? x := by
  cases c with
  | event e => exact parallelTracer.on_frame t e h h1 hok
  | reset => exact parallelTracer.reset_frame t h h1 hok

/-- In a reachable state `reset` returns, and every sub-tracer is empty afterwards. -/
theorem parallelTracer.reset_spec (h : TracerHeap) (t : parallelTracer)
    (hI : parallelTracer.Inv h t) :
    ∃ h1, t.reset h = .ok h1 ∧ parallelTracer.Inv h1 t ∧
      ∀ i, i < 17 → ∃ a, t.sub h1 i = .ok (a, newTracer) := by
  have hpw : (List.range 17).Pairwise (fun x y => ∀ b : Nat, b = x → ¬ b = y) := by
    refine List.Pairwise.imp ?_ (List.nodup_range 17)
    intro x y hxy b hb hb2
    exact hxy (hb.symm.trans hb2)
  obtain ⟨h1, e1, e2, e3, _⟩ := Run.forEach_own
    (fun i h =>
      match t.sub h i with
      | .error e => .error e
      | .ok (a, tr) => pure (h.set a tr.reset))
    (fun i => i < 17) (fun s => parallelTracer.Inv s t)
    (fun s (i : Nat) => ∃ a, t.sub s i = .ok (a, newTracer)) (fun i b => b = i)
    (by
      intro i s hi hJ
      obtain ⟨a, tr, h2, h3, h4⟩ := hJ.sub_ok i hi
      have ha : a < s.length := get?_lt_of_some _ _ _ h3
      refine ⟨s.set a tr.reset, by simp only [h4]; rfl, ?_, ?_, ?_⟩
      · apply parallelTracer.Inv_set s t hJ i a tr.reset h2
        · intro p hp
          simp [tracer.holds, tracer.reset, GoMap.keyList] at hp
        · intro p hp
          simp [tracer.reset, GoMap.keyList] at hp
      · rintro b rfl
        exact ⟨a, (parallelTracer.sub_eq_ok _ _ _ _ _).mpr
          ⟨h2, (get?_set_iff _ _ _ _ _).mpr (Or.inl ⟨rfl, ha, rfl⟩)⟩⟩
      · rintro j hj ⟨a2, hs2⟩
        obtain ⟨h5, h6⟩ := (parallelTracer.sub_eq_ok _ _ _ _ _).mp hs2
        have hne : a2 ≠ a := by
          intro e
          rw [e] at h5
          exact hj (get?_inj_of_nodup _ hJ.nodup j i a h5 h2)
        exact ⟨a2, (parallelTracer.sub_eq_ok _ _ _ _ _).mpr
          ⟨h5, (get?_set_iff _ _ _ _ _).mpr (Or.inr ⟨hne, h6⟩)⟩⟩)
    (List.range 17) h (fun i hi => List.mem_range.mp hi) hpw hI
  exact ⟨h1, e1, e2, fun i hi => e3 i (List.mem_range.mpr hi) i rfl⟩

/-! ## The parallel tracer: `copy` -/

theorem parallelTracer.copyLoop_spec (t : parallelTracer) (h0 : TracerHeap)
    (hv : ∀ a ∈ t.tracers, a < h0.length) (L : List Nat) :
    ∀ s : TracerHeap × parallelTracer, (∀ x, x < h0.length → s.1.get? x = h0.get? x) →
      h0.length ≤ s.1.length → L.Nodup →
      (∀ i ∈ L, i < t.tracers.length ∧ i < s.2.tracers.length) →
      ∃ s1, Run.forEach (fun i (s : TracerHeap × parallelTracer) =>
          match t.sub s.1 i with
          | .error e => .error e
          | .ok (_, tr) => pure (s.1 ++ [tr.copy], ⟨s.2.tracers.set i s.1.length⟩)) L s
            = .ok s1 ∧
        s1.1.length = s.1.length + L.length ∧
        (∀ x, x < s.1.length → s1.1.get? x = s.1.get? x) ∧
        s1.2.tracers.length = s.2.tracers.length ∧
        (∀ i, i ∉ L → s1.2.tracers.get? i = s.2.tracers.get? i) ∧
        (∀ k i, L.get? k = some i → s1.2.tracers.get? i = some (s.1.length + k) ∧
          ∃ a tr, t.sub h0 i = .ok (a, tr) ∧ s1.1.get? (s.1.length + k) = some tr.copy) := by
  induction L with
  | nil =>
    intro s _ _ _ _
    exact ⟨s, rfl, rfl, fun _ _ => rfl, rfl, fun _ _ => rfl, by simp⟩
  | cons j rest ih =>
    intro s hold hlen hnd hlt
    obtain ⟨hj, hnd2⟩ := List.nodup_cons.mp hnd
    obtain ⟨hj1, hj2⟩ := hlt j (List.mem_cons_self _ _)
    have hg1 : t.tracers.get? j = some t.tracers[j] := by simp [hj1]
    have ha : t.tracers[j] < h0.length := hv _ (List.getElem_mem _)
    have hg2 : h0.get? t.tracers[j] = some h0[t.tracers[j]] := by simp [ha]
    have hg3 : s.1.get? t.tracers[j] = some h0[t.tracers[j]] := by rw [hold _ ha]; exact hg2
    have hs : t.sub s.1 j = .ok (t.tracers[j], h0[t.tracers[j]]) :=
      (parallelTracer.sub_eq_ok _ _ _ _ _).mpr ⟨hg1, hg3⟩
    have hs0 : t.sub h0 j = .ok (t.tracers[j], h0[t.tracers[j]]) :=
      (parallelTracer.sub_eq_ok _ _ _ _ _).mpr ⟨hg1, hg2⟩
    have hstep : (fun i (s : TracerHeap × parallelTracer) =>
        match t.sub s.1 i with
        | .error e => (.error e : Run (TracerHeap × parallelTracer))
        | .ok (_, tr) => pure (s.1 ++ [tr.copy], ⟨s.2.tracers.set i s.1.length⟩)) j s =
        .ok (s.1 ++ [h0[t.tracers[j]].copy], ⟨s.2.tracers.set j s.1.length⟩) := by
      simp only [hs]
      rfl
    obtain ⟨s1, e1, e2, e3, e4, e5, e6⟩ := ih
      (s.1 ++ [h0[t.tracers[j]].copy], ⟨s.2.tracers.set j s.1.length⟩)
      (by
        intro x hx
        rw [← hold x hx]
        simp only [List.get?_eq_getElem?]
        exact List.getElem?_append_left (by omega))
      (by simp only [List.length_append, List.length_singleton]; omega) hnd2
      (by
        intro i hi
        have := hlt i (List.mem_cons_of_mem _ hi)
        simpa using this)
    simp only [List.length_append, List.length_singleton, List.length_set] at e2 e3 e4 e6
    refine ⟨s1, by rw [Run.forEach_cons_ok _ j rest s _ hstep]; exact e1, ?_, ?_, ?_, ?_, ?_⟩
    · rw [e2]
      simp only [List.length_cons]
      omega
    · intro x hx
      rw [e3 x (by omega)]
      simp only [List.get?_eq_getElem?]
      exact List.getElem?_append_left hx
    · exact e4
    · intro i hi
      have hi1 : i ≠ j := fun e => hi (e ▸ List.mem_cons_self _ _)
      have hi2 : i ∉ rest := fun e => hi (List.mem_cons_of_mem _ e)
      rw [e5 i hi2]
      simp only [List.get?_eq_getElem?]
      exact List.getElem?_set_ne (Ne.symm hi1)
    · intro k i hk
      cases k with
      | zero =>
        have e : i = j := by simpa using hk.symm
        subst e
        refine ⟨?_, _, _, hs0, ?_⟩
        · rw [e5 i hj]
          simp [List.getElem?_set, hj2]
        · rw [Nat.add_zero, e3 s.1.length (by omega)]
          simp
      | succ k =>
        have hk2 : rest.get? k = some i := by simpa using hk
        obtain ⟨f1, a, tr, f2, f3⟩ := e6 k i hk2
        have harith : s.1.length + (k + 1) = s.1.length + 1 + k := by omega
        rw [harith]
        exact ⟨f1, a, tr, f2, f3⟩

/-- In a reachable state `copy` returns a parallel tracer with 17 new sub-tracers, each the
copy of the sub-tracer of the same slot; what existed before is as it was. -/
theorem parallelTracer.copy_spec (h : TracerHeap) (t : parallelTracer)
    (hI : parallelTracer.Inv h t) :
    ∃ h1 t1, t.copy h = .ok (h1, t1) ∧ h1.length = h.length + 34 ∧
      (∀ x, x < h.length → h1.get? x = h.get? x) ∧
      t1.tracers = (List.range 17).map (fun i => h.length + 17 + i) ∧
      ∀ i, i < 17 → ∃ a tr, t.sub h i = .ok (a, tr) ∧
        t1.sub h1 i = .ok (h.length + 17 + i, tr) := by
  have hnew := newParaTracer_eq h
  obtain ⟨s1, e1, e2, e3, e4, _, e6⟩ := parallelTracer.copyLoop_spec t h hI.valid
    (List.range 17) (newParaTracer h)
    (by
      intro x hx
      rw [hnew]
      simp only [List.get?_eq_getElem?]
      exact List.getElem?_append_left hx)
    (by rw [hnew]; simp)
    (List.nodup_range 17)
    (by
      intro i hi
      have := List.mem_range.mp hi
      rw [hnew, hI.len]
      simpa using this)
  have hl0 : (newParaTracer h).1.length = h.length + 17 := by rw [hnew]; simp
  have hl1 : (newParaTracer h).2.tracers.length = 17 := by rw [hnew]; simp
  rw [hl0] at e2 e3 e6
  rw [hl1] at e4
  have ht1 : s1.2.tracers = (List.range 17).map (fun i => h.length + 17 + i) :=
    list_eq_map_range_of_get? _ 17 (h.length + 17) e4
      (fun k hk => (e6 k k (get?_range 17 k hk)).1)
  refine ⟨s1.1, s1.2, e1, by rw [e2]; simp, ?_, ht1, ?_⟩
  · intro x hx
    rw [e3 x (by omega), hnew]
    simp only [List.get?_eq_getElem?]
    exact List.getElem?_append_left hx
  · intro i hi
    obtain ⟨f1, a, tr, f2, f3⟩ := e6 i i (get?_range 17 i hi)
    exact ⟨a, tr, f2, (parallelTracer.sub_eq_ok _ _ _ _ _).mpr ⟨f1, f3⟩⟩

/-! ## The parallel tracer: every reachable state satisfies the invariant -/

theorem nodup_map_add_range (base n : Nat) :
    ((List.range n).map (fun i => base + i)).Nodup :=
  List.Nodup.map (fun a b hab => by simpa using hab) (List.nodup_range n)

theorem get?_map_add_range (base n i a : Nat)
    (h : ((List.range n).map (fun i => base + i)).get? i = some a) : i < n ∧ a = base + i := by
  have hi : i < n := by
    have := get?_lt_of_some _ _ _ h
    simpa using this
  simp only [List.get?_eq_getElem?, List.getElem?_map, List.getElem?_range hi, Option.map_some',
    Option.some.injEq] at h
  exact ⟨hi, h.symm⟩

theorem parallelTracer.Inv_new (h : TracerHeap) :
    parallelTracer.Inv (newParaTracer h).1 (newParaTracer h).2 := by
  rw [newParaTracer_eq]
  have hcell : ∀ i a tr,
      ((List.range 17).map (fun i => h.length + i)).get? i = some a →
      (h ++ List.replicate 17 newTracer).get? a = some tr → tr = newTracer := by
    intro i a tr hi hg
    obtain ⟨_, rfl⟩ := get?_map_add_range _ _ _ _ hi
    have hm := List.get?_mem hg
    rcases List.mem_append.mp hm with h1 | h1
    · simp only [List.get?_eq_getElem?] at hg
      rw [List.getElem?_append_right (by omega)] at hg
      exact (List.eq_of_mem_replicate (List.getElem?_mem hg))
    · exact List.eq_of_mem_replicate h1
  refine ⟨by simp, nodup_map_add_range _ _, ?_, ?_, ?_⟩
  · intro a ha
    obtain ⟨i, hi, rfl⟩ := List.mem_map.mp ha
    have := List.mem_range.mp hi
    simp only [List.length_append, List.length_replicate]
    omega
  · intro i a tr hi hg p hp
    rw [hcell i a tr hi hg] at hp
    simp [tracer.holds, newTracer, GoMap.keyList] at hp
  · intro i a tr hi hg p hp
    rw [hcell i a tr hi hg] at hp
    simp [newTracer, GoMap.keyList] at hp

/-- After `copy` the clone and the original both satisfy the invariant, and they share no
sub-tracer. -/
theorem parallelTracer.Inv_copy (h h1 : TracerHeap) (t t1 : parallelTracer)
    (hI : parallelTracer.Inv h t) (hc : t.copy h = .ok (h1, t1)) :
    parallelTracer.Inv h1 t1 ∧ parallelTracer.Inv h1 t ∧
      (∀ a, a ∈ t1.tracers → a ∉ t.tracers) ∧
      (∀ x, x < h.length → h1.get? x = h.get? x) ∧
      ∀ i, i < 17 → ∃ a a1 tr, t.sub h i = .ok (a, tr) ∧ t1.sub h1 i = .ok (a1, tr) := by
  obtain ⟨h2, t2, e1, e2, e3, e4, e5⟩ := parallelTracer.copy_spec h t hI
  rw [hc] at e1
  have eh : h1 = h2 := by injection e1 with e1; exact (Prod.mk.inj e1).1
  have et : t1 = t2 := by injection e1 with e1; exact (Prod.mk.inj e1).2
  subst eh
  subst et
  have hold : ∀ a ∈ t.tracers, h1.get? a = h.get? a := fun a ha => e3 a (hI.valid a ha)
  have hcell : ∀ i a1 tr1, t1.tracers.get? i = some a1 → h1.get? a1 = some tr1 →
      ∃ a, t.tracers.get? i = some a ∧ h.get? a = some tr1 := by
    intro i a1 tr1 hi hg
    have hi2 : i < 17 := by
      rw [e4] at hi
      exact (get?_map_add_range _ _ _ _ hi).1
    obtain ⟨a, tr, f1, f2⟩ := e5 i hi2
    obtain ⟨g1, g2⟩ := (parallelTracer.sub_eq_ok _ _ _ _ _).mp f1
    obtain ⟨g3, g4⟩ := (parallelTracer.sub_eq_ok _ _ _ _ _).mp f2
    rw [hi] at g3
    have ea : a1 = h.length + 17 + i := Option.some.inj g3
    rw [ea] at hg
    rw [hg] at g4
    have etr : tr1 = tr := Option.some.inj g4
    rw [etr]
    exact ⟨a, g1, g2⟩
  refine ⟨⟨by rw [e4]; simp, by rw [e4]; exact nodup_map_add_range _ _, ?_, ?_, ?_⟩,
    parallelTracer.Inv_frame h h1 t hI hold, ?_, e3, ?_⟩
  · intro a ha
    rw [e4] at ha
    obtain ⟨i, hi, rfl⟩ := List.mem_map.mp ha
    have := List.mem_range.mp hi
    omega
  · intro i a1 tr1 hi hg
    obtain ⟨a, g1, g2⟩ := hcell i a1 tr1 hi hg
    exact hI.routed i a tr1 g1 g2
  · intro i a1 tr1 hi hg
    obtain ⟨a, g1, g2⟩ := hcell i a1 tr1 hi hg
    exact hI.disjoint i a tr1 g1 g2
  · intro a ha hat
    rw [e4] at ha
    obtain ⟨i, _, rfl⟩ := List.mem_map.mp ha
    have := hI.valid _ hat
    omega
  · intro i hi
    obtain ⟨a, tr, f1, f2⟩ := e5 i hi
    exact ⟨a, _, tr, f1, f2⟩

theorem parallelTracer.Reach.inv {h : TracerHeap} {t : parallelTracer}
    (hr : parallelTracer.Reach h t) : parallelTracer.Inv h t := by
  induction hr with
  | new h => exact parallelTracer.Inv_new h
  | event h h1 t e _ hp hok ih =>
    obtain ⟨a, tr, _, _, e3, e4⟩ := parallelTracer.Inv_on h t ih e hp
    rw [hok] at e3
    have e5 : h1 = h.set a (tr.on e) := by injection e3
    rw [e5]
    exact e4
  | reset h h1 t _ hok ih =>
    obtain ⟨h2, e1, e2, _⟩ := parallelTracer.reset_spec h t ih
    rw [hok] at e1
    have e5 : h1 = h2 := by injection e1
    rw [e5]
    exact e2
  | copy h h1 t t1 _ hok ih => exact (parallelTracer.Inv_copy h h1 t t1 ih hok).1
  | frame h h1 t _ hf ih => exact parallelTracer.Inv_frame h h1 t ih hf

theorem parallelTracer.sub_congr (t : parallelTracer) (h h1 : TracerHeap) (i : Nat)
    (hf : ∀ a, t.tracers.get? i = some a → h1.get? a = h.get? a) :
    t.sub h1 i = t.sub h i := by
  unfold parallelTracer.sub
  cases hg : t.tracers.get? i with
  | none => rfl
  | some a => simp only [hf a hg]

theorem head?_mem_nibble (p : List Nat) (hp : ∀ b ∈ p, b < 16) :
    ∀ b, p.head? = some b → b < 16 := by
  intro b hb
  apply hp b
  cases p with
  | nil => simp at hb
  | cons c rest =>
    simp only [List.head?_cons, Option.some.injEq] at hb
    rw [hb]
    exact List.mem_cons_self _ _

/-- C16: tracer routing is exact and exhaustive.  In every reachable state of a parallel
tracer and for every event (`onRead`, `onInsert`, `onDelete`) with a nibble path, the event
returns; it replaces the sub-tracer of slot `routeOf path` (slot `path[0]` for a non-empty
path, slot 16 for the empty path) by the result of the same event on that single-shard
tracer; the sub-tracers of the other 16 slots, and every other tracer on the heap, are
unchanged; and the state reached is again reachable.  Hence in every reachable state each
path held by the sub-tracer of a slot `i < 16` starts with the byte `i`, and the sub-tracer
of slot 16 holds only the empty path. -/
theorem parallelTracer_routing (h : TracerHeap) (t : parallelTracer)
    (hr : parallelTracer.Reach h t) :
    (∀ e : TraceEvent, (∀ b ∈ e.path, b < 16) →
      routeOf e.path < 17 ∧
      ∃ a tr h1, t.sub h (routeOf e.path) = .ok (a, tr) ∧ t.on e h = .ok h1 ∧
        t.sub h1 (routeOf e.path) = .ok (a, tr.on e) ∧
        (∀ i, i ≠ routeOf e.path → t.sub h1 i = t.sub h i) ∧
        (∀ x, x ≠ a → h1.get? x = h.get? x) ∧ parallelTracer.Reach h1 t) ∧
    (∀ i a tr, t.sub h i = .ok (a, tr) → ∀ p, tr.holds p →
      i < 17 ∧ (i < 16 → p.head? = some i) ∧ (i = 16 → p = [])) := by
  have hI := hr.inv
  constructor
  · intro e hp
    have hlt : routeOf e.path < 17 := routeOf_lt _ (head?_mem_nibble _ hp)
    obtain ⟨a, tr, e1, e2, e3, _⟩ := parallelTracer.Inv_on h t hI e hp
    have ha : a < h.length := get?_lt_of_some _ _ _ e2
    refine ⟨hlt, a, tr, _, (parallelTracer.sub_eq_ok _ _ _ _ _).mpr ⟨e1, e2⟩, e3, ?_, ?_, ?_,
      parallelTracer.Reach.event h _ t e hr hp e3⟩
    · exact (parallelTracer.sub_eq_ok _ _ _ _ _).mpr
        ⟨e1, (get?_set_iff _ _ _ _ _).mpr (Or.inl ⟨rfl, ha, rfl⟩)⟩
    · intro i hi
      apply parallelTracer.sub_congr
      intro a2 ha2
      have hne : a ≠ a2 := by
        intro e
        rw [← e] at ha2
        exact hi (get?_inj_of_nodup _ hI.nodup _ _ a ha2 e1)
      simp only [List.get?_eq_getElem?]
      exact List.getElem?_set_ne hne
    · intro x hx
      simp only [List.get?_eq_getElem?]
      exact List.getElem?_set_ne (Ne.symm hx)
  · intro i a tr hs p hp
    obtain ⟨e1, e2⟩ := (parallelTracer.sub_eq_ok _ _ _ _ _).mp hs
    obtain ⟨e3, e4⟩ := hI.routed i a tr e1 e2 p hp
    have hi : i < 17 := by
      have := get?_lt_of_some _ _ _ e1
      rw [hI.len] at this
      exact this
    refine ⟨hi, ?_, ?_⟩
    · intro hi16
      exact (routeOf_eq_iff p i hi16).mp e3
    · intro hi16
      rw [hi16] at e3
      exact (routeOf_eq_16 p (head?_mem_nibble p e4)).mp e3

theorem parallelTracer_routing_witness :
    parallelTracer.Reach (newParaTracer []).1 (newParaTracer []).2 ∧
    (∀ b ∈ (TraceEvent.onInsert [1, 2]).path, b < 16) ∧
    (newParaTracer []).2.on (.onInsert [1, 2]) (newParaTracer []).1 =
      .ok ((List.replicate 17 newTracer).set 1 ⟨[([1, 2], ())], [], []⟩) ∧
    ∃ a tr h1, (newParaTracer []).2.sub (newParaTracer []).1 1 = .ok (a, tr) ∧
      (newParaTracer []).2.on (.onInsert [1, 2]) (newParaTracer []).1 = .ok h1 ∧
      (newParaTracer []).2.sub h1 1 = .ok (a, tr.on (.onInsert [1, 2])) ∧
      ∀ i, i ≠ 1 → (newParaTracer []).2.sub h1 i =
        (newParaTracer []).2.sub (newParaTracer []).1 i := by
  refine ⟨parallelTracer.Reach.new [], by decide, rfl, ?_⟩
  obtain ⟨_, a, tr, h1, e1, e2, e3, e4, _⟩ :=
    (parallelTracer_routing _ _ (parallelTracer.Reach.new [])).1 (.onInsert [1, 2]) (by decide)
  exact ⟨a, tr, h1, e1, e2, e3, e4⟩

/-! ## The accessors of the parallel tracer -/

theorem parallelTracer.getAccessList_eq
    (iter : Nat → GoMap (List Nat) (List Nat) → GoMap (List Nat) (List Nat))
    (t : parallelTracer) (h : TracerHeap) :
    t.getAccessList iter h =
      parallelTracer.mergeMaps (fun tr => tr.accessList) iter t h (List.range 17) [] := rfl

theorem parallelTracer.getInserts_eq
    (iter : Nat → GoMap (List Nat) Unit → GoMap (List Nat) Unit)
    (t : parallelTracer) (h : TracerHeap) :
    t.getInserts iter h =
      parallelTracer.mergeMaps (fun tr => tr.inserts) iter t h (List.range 17) [] := rfl

theorem parallelTracer.getDeletes_eq
    (iter : Nat → GoMap (List Nat) Unit → GoMap (List Nat) Unit)
    (t : parallelTracer) (h : TracerHeap) :
    t.getDeletes iter h =
      parallelTracer.mergeMaps (fun tr => tr.deletes) iter t h (List.range 17) [] := rfl

/-- The accessors read the sub-tracers only: equal sub-tracers, equal results. -/
theorem parallelTracer.mergeMaps_congr {V : Type} (f : tracer → GoMap (List Nat) V)
    (iter : Nat → GoMap (List Nat) V → GoMap (List Nat) V) (t t1 : parallelTracer)
    (h h1 : TracerHeap) (L : List Nat)
    (hs : ∀ i ∈ L, t1.sub h1 i = t.sub h i ∨
      ∃ a a1 tr, t.sub h i = .ok (a, tr) ∧ t1.sub h1 i = .ok (a1, tr))
    (acc : GoMap (List Nat) V) :
    parallelTracer.mergeMaps f iter t1 h1 L acc = parallelTracer.mergeMaps f iter t h L acc := by
  unfold parallelTracer.mergeMaps
  apply Run.forEach_congr
  intro i hi s
  rcases hs i hi with e | ⟨a, a1, tr, e1, e2⟩
  · simp only [e]
  · simp only [e1, e2]

/-- The keys of the merged map: the keys of the maps of the sub-tracers. -/
theorem parallelTracer.mergeMaps_keys {V : Type} (f : tracer → GoMap (List Nat) V)
    (iter : Nat → GoMap (List Nat) V → GoMap (List Nat) V)
    (hiter : ∀ i m, (iter i m).Perm m) (t : parallelTracer) (h : TracerHeap) (L : List Nat)
    (hs : ∀ i ∈ L, ∃ a tr, t.sub h i = .ok (a, tr)) :
    ∀ acc, ∃ m, parallelTracer.mergeMaps f iter t h L acc = .ok m ∧
      ∀ q, q ∈ GoMap.keyList m ↔ q ∈ GoMap.keyList acc ∨
        ∃ i a tr, i ∈ L ∧ t.sub h i = .ok (a, tr) ∧ q ∈ GoMap.keyList (f tr) := by
  induction L with
  | nil =>
    intro acc
    exact ⟨acc, rfl, by simp⟩
  | cons j rest ih =>
    intro acc
    obtain ⟨a, tr, hj⟩ := hs j (List.mem_cons_self _ _)
    obtain ⟨m, e1, e2⟩ := ih (fun i hi => hs i (List.mem_cons_of_mem _ hi))
      (GoMap.putAll acc (iter j (f tr)))
    have hstep : (fun i acc =>
        match t.sub h i with
        | .error e => (.error e : Run (GoMap (List Nat) V))
        | .ok (_, tr) => pure (GoMap.putAll acc (iter i (f tr)))) j acc =
        .ok (GoMap.putAll acc (iter j (f tr))) := by
      simp only [hj]
      rfl
    refine ⟨m, ?_, ?_⟩
    · unfold parallelTracer.mergeMaps
      rw [Run.forEach_cons_ok _ j rest acc _ hstep]
      exact e1
    · intro q
      rw [e2 q, GoMap.mem_keyList_putAll]
      have hperm : q ∈ (iter j (f tr)).map Prod.fst ↔ q ∈ GoMap.keyList (f tr) :=
        ((hiter j (f tr)).map Prod.fst).mem_iff
      rw [hperm]
      constructor
      · rintro ((h1 | h1) | ⟨i, a2, tr2, h2, h3, h4⟩)
        · exact Or.inl h1
        · exact Or.inr ⟨j, a, tr, List.mem_cons_self _ _, hj, h1⟩
        · exact Or.inr ⟨i, a2, tr2, List.mem_cons_of_mem _ h2, h3, h4⟩
      · rintro (h1 | ⟨i, a2, tr2, h2, h3, h4⟩)
        · exact Or.inl (Or.inl h1)
        · rcases List.mem_cons.mp h2 with e | e
          · subst e
            rw [hj] at h3
            have e5 : tr = tr2 := by
              injection h3 with h3
              exact (Prod.mk.inj h3).2
            rw [e5]
            exact Or.inl (Or.inr h4)
          · exact Or.inr ⟨i, a2, tr2, e, h3, h4⟩

/-- Sub-tracers that hold nothing merge into the empty map. -/
theorem parallelTracer.mergeMaps_empty {V : Type} (f : tracer → GoMap (List Nat) V)
    (iter : Nat → GoMap (List Nat) V → GoMap (List Nat) V)
    (hiter : ∀ i m, (iter i m).Perm m) (t : parallelTracer) (h : TracerHeap) (L : List Nat)
    (hs : ∀ i ∈ L, ∃ a tr, t.sub h i = .ok (a, tr) ∧ f tr = []) :
    parallelTracer.mergeMaps f iter t h L [] = .ok [] := by
  induction L with
  | nil => rfl
  | cons j rest ih =>
    obtain ⟨a, tr, hj, hf⟩ := hs j (List.mem_cons_self _ _)
    have hnil : iter j (f tr) = [] := by
      rw [hf]
      exact List.Perm.eq_nil (hiter j [])
    have hstep : (fun i acc =>
        match t.sub h i with
        | .error e => (.error e : Run (GoMap (List Nat) V))
        | .ok (_, tr) => pure (GoMap.putAll acc (iter i (f tr)))) j [] = .ok [] := by
      simp only [hj, hnil]
      rfl
    unfold parallelTracer.mergeMaps
    rw [Run.forEach_cons_ok _ j rest [] _ hstep]
    exact ih (fun i hi => hs i (List.mem_cons_of_mem _ hi))

/-- In a reachable state an accessor returns, and a path is a key of the merged map exactly
when the sub-tracer it is routed to has it. -/
theorem parallelTracer.mergeMaps_mem_iff {V : Type} (f : tracer → GoMap (List Nat) V)
    (hf : ∀ tr q, q ∈ GoMap.keyList (f tr) → tr.holds q)
    (iter : Nat → GoMap (List Nat) V → GoMap (List Nat) V)
    (hiter : ∀ i m, (iter i m).Perm m) (h : TracerHeap) (t : parallelTracer)
    (hI : parallelTracer.Inv h t) :
    ∃ m, parallelTracer.mergeMaps f iter t h (List.range 17) [] = .ok m ∧
      ∀ q, q ∈ GoMap.keyList m ↔
        ∃ a tr, t.sub h (routeOf q) = .ok (a, tr) ∧ q ∈ GoMap.keyList (f tr) := by
  obtain ⟨m, e1, e2⟩ := parallelTracer.mergeMaps_keys f iter hiter t h (List.range 17)
    (by
      intro i hi
      obtain ⟨a, tr, _, _, e⟩ := hI.sub_ok i (List.mem_range.mp hi)
      exact ⟨a, tr, e⟩) []
  refine ⟨m, e1, ?_⟩
  intro q
  rw [e2 q]
  constructor
  · rintro (h1 | ⟨i, a, tr, _, h3, h4⟩)
    · simp [GoMap.keyList] at h1
    · obtain ⟨g1, g2⟩ := (parallelTracer.sub_eq_ok _ _ _ _ _).mp h3
      have := (hI.routed i a tr g1 g2 q (hf tr q h4)).1
      rw [this]
      exact ⟨a, tr, h3, h4⟩
  · rintro ⟨a, tr, h3, h4⟩
    obtain ⟨g1, _⟩ := (parallelTracer.sub_eq_ok _ _ _ _ _).mp h3
    have hlt : routeOf q < 17 := by
      have := get?_lt_of_some _ _ _ g1
      rw [hI.len] at this
      exact this
    exact Or.inr ⟨routeOf q, a, tr, List.mem_range.mpr hlt, h3, h4⟩

theorem tracer.holds_inserts (tr : tracer) (q : List Nat)
    (h : q ∈ GoMap.keyList tr.inserts) : tr.holds q := Or.inl h

theorem tracer.holds_deletes (tr : tracer) (q : List Nat)
    (h : q ∈ GoMap.keyList tr.deletes) : tr.holds q := Or.inr (Or.inl h)

theorem tracer.holds_accessList (tr : tracer) (q : List Nat)
    (h : q ∈ GoMap.keyList tr.accessList) : tr.holds q := Or.inr (Or.inr h)

/-- Membership in `getInserts()` and `getDeletes()`, read off the sub-tracer of the path. -/
theorem parallelTracer.view (iterI iterD : Nat → GoMap (List Nat) Unit → GoMap (List Nat) Unit)
    (hI : ∀ i m, (iterI i m).Perm m) (hD : ∀ i m, (iterD i m).Perm m)
    (h : TracerHeap) (t : parallelTracer) (hInv : parallelTracer.Inv h t)
    (p : List Nat) (a : Nat) (c : tracer) (hs : t.sub h (routeOf p) = .ok (a, c)) :
    (parallelTracer.inInserts iterI t h p ↔ p ∈ GoMap.keyList c.inserts) ∧
    (parallelTracer.notInInserts iterI t h p ↔ p ∉ GoMap.keyList c.inserts) ∧
    (parallelTracer.inDeletes iterD t h p ↔ p ∈ GoMap.keyList c.deletes) ∧
    (parallelTracer.notInDeletes iterD t h p ↔ p ∉ GoMap.keyList c.deletes) := by
  obtain ⟨mI, e1, e2⟩ := parallelTracer.mergeMaps_mem_iff (fun tr => tr.inserts)
    tracer.holds_inserts iterI hI h t hInv
  obtain ⟨mD, e3, e4⟩ := parallelTracer.mergeMaps_mem_iff (fun tr => tr.deletes)
    tracer.holds_deletes iterD hD h t hInv
  have k1 : p ∈ GoMap.keyList mI ↔ p ∈ GoMap.keyList c.inserts := by
    rw [e2 p]
    constructor
    · rintro ⟨a2, tr2, g1, g2⟩
      rw [hs] at g1
      injection g1 with g1
      rw [(Prod.mk.inj g1).2]
      exact g2
    · intro g
      exact ⟨a, c, hs, g⟩
  have k2 : p ∈ GoMap.keyList mD ↔ p ∈ GoMap.keyList c.deletes := by
    rw [e4 p]
    constructor
    · rintro ⟨a2, tr2, g1, g2⟩
      rw [hs] at g1
      injection g1 with g1
      rw [(Prod.mk.inj g1).2]
      exact g2
    · intro g
      exact ⟨a, c, hs, g⟩
  rw [← parallelTracer.getInserts_eq] at e1
  rw [← parallelTracer.getDeletes_eq] at e3
  refine ⟨?_, ?_, ?_, ?_⟩
  · constructor
    · rintro ⟨m, g1, g2⟩
      rw [e1] at g1
      injection g1 with g1
      rw [← g1] at g2
      exact k1.mp g2
    · intro g
      exact ⟨mI, e1, k1.mpr g⟩
  · constructor
    · rintro ⟨m, g1, g2⟩ g3
      rw [e1] at g1
      injection g1 with g1
      rw [← g1] at g2
      exact g2 (k1.mpr g3)
    · intro g
      exact ⟨mI, e1, fun g3 => g (k1.mp g3)⟩
  · constructor
    · rintro ⟨m, g1, g2⟩
      rw [e3] at g1
      injection g1 with g1
      rw [← g1] at g2
      exact k2.mp g2
    · intro g
      exact ⟨mD, e3, k2.mpr g⟩
  · constructor
    · rintro ⟨m, g1, g2⟩ g3
      rw [e3] at g1
      injection g1 with g1
      rw [← g1] at g2
      exact g2 (k2.mpr g3)
    · intro g
      exact ⟨mD, e3, fun g3 => g (k2.mp g3)⟩

/-- An event with a nibble path in a reachable state: the heap after it, with the
sub-tracer of the path before and after. -/
theorem parallelTracer.on_cell (h : TracerHeap) (t : parallelTracer)
    (hI : parallelTracer.Inv h t) (e : TraceEvent) (hp : ∀ b ∈ e.path, b < 16) :
    ∃ a c h1, t.sub h (routeOf e.path) = .ok (a, c) ∧ t.on e h = .ok h1 ∧
      parallelTracer.Inv h1 t ∧ t.sub h1 (routeOf e.path) = .ok (a, c.on e) ∧
      ∀ q, ¬ (q ∈ GoMap.keyList c.inserts ∧ q ∈ GoMap.keyList c.deletes) := by
  obtain ⟨a, c, e1, e2, e3, e4⟩ := parallelTracer.Inv_on h t hI e hp
  have ha : a < h.length := get?_lt_of_some _ _ _ e2
  exact ⟨a, c, _, (parallelTracer.sub_eq_ok _ _ _ _ _).mpr ⟨e1, e2⟩, e3, e4,
    (parallelTracer.sub_eq_ok _ _ _ _ _).mpr
      ⟨e1, (get?_set_iff _ _ _ _ _).mpr (Or.inl ⟨rfl, ha, rfl⟩)⟩,
    hI.disjoint _ a c e1 e2⟩

theorem tracer.onInsert_deleted (c : tracer) (p : List Nat)
    (hp : p ∈ GoMap.keyList c.deletes) :
    p ∉ GoMap.keyList (c.onInsert p).deletes ∧ (c.onInsert p).inserts = c.inserts := by
  rw [tracer.onInsert_of_deleted c p hp]
  refine ⟨?_, rfl⟩
  simp only [GoMap.mem_keyList_del]
  exact fun h => h.1 rfl

theorem tracer.onDelete_inserted (c : tracer) (p : List Nat)
    (hp : p ∈ GoMap.keyList c.inserts) :
    p ∉ GoMap.keyList (c.onDelete p).inserts ∧ (c.onDelete p).deletes = c.deletes := by
  rw [tracer.onDelete_of_inserted c p hp]
  refine ⟨?_, rfl⟩
  simp only [GoMap.mem_keyList_del]
  exact fun h => h.1 rfl

theorem tracer.onInsert_fresh (c : tracer) (p : List Nat)
    (hp : p ∉ GoMap.keyList c.deletes) :
    p ∈ GoMap.keyList (c.onInsert p).inserts ∧ (c.onInsert p).deletes = c.deletes := by
  rw [tracer.onInsert_of_not_deleted c p hp]
  refine ⟨?_, rfl⟩
  exact (GoMap.mem_keyList_put _ _ _ _).mpr (Or.inl rfl)

theorem tracer.onDelete_fresh (c : tracer) (p : List Nat)
    (hp : p ∉ GoMap.keyList c.inserts) :
    p ∈ GoMap.keyList (c.onDelete p).deletes ∧ (c.onDelete p).inserts = c.inserts := by
  rw [tracer.onDelete_of_not_inserted c p hp]
  refine ⟨?_, rfl⟩
  exact (GoMap.mem_keyList_put _ _ _ _).mpr (Or.inl rfl)

/-- C17: untouched semantics through the parallel tracer.  In every reachable state, for
every order in which the accessors visit the maps and for every nibble path `p`:
`onInsert(p)` for `p` in `getDeletes()` returns and leaves `p` in neither `getDeletes()` nor
`getInserts()`; `onDelete(p)` for `p` in `getInserts()` returns and leaves `p` in neither;
when `p` is in neither, `onDelete(p)` followed by `onInsert(p)`, and `onInsert(p)` followed
by `onDelete(p)`, return and leave `p` in neither; and `getInserts()` and `getDeletes()`
have no path in common. -/
theorem parallelTracer_untouched (h : TracerHeap) (t : parallelTracer)
    (hr : parallelTracer.Reach h t)
    (iterI iterD : Nat → GoMap (List Nat) Unit → GoMap (List Nat) Unit)
    (hI : ∀ i m, (iterI i m).Perm m) (hD : ∀ i m, (iterD i m).Perm m) :
    (∀ p, (∀ b ∈ p, b < 16) → parallelTracer.inDeletes iterD t h p →
      ∃ h1, t.onInsert p h = .ok h1 ∧ parallelTracer.notInDeletes iterD t h1 p ∧
        parallelTracer.notInInserts iterI t h1 p) ∧
    (∀ p, (∀ b ∈ p, b < 16) → parallelTracer.inInserts iterI t h p →
      ∃ h1, t.onDelete p h = .ok h1 ∧ parallelTracer.notInInserts iterI t h1 p ∧
        parallelTracer.notInDeletes iterD t h1 p) ∧
    (∀ p, (∀ b ∈ p, b < 16) → parallelTracer.notInInserts iterI t h p →
      parallelTracer.notInDeletes iterD t h p →
      ∃ h1 h2, t.onDelete p h = .ok h1 ∧ t.onInsert p h1 = .ok h2 ∧
        parallelTracer.inDeletes iterD t h1 p ∧
        parallelTracer.notInInserts iterI t h2 p ∧ parallelTracer.notInDeletes iterD t h2 p) ∧
    (∀ p, (∀ b ∈ p, b < 16) → parallelTracer.notInInserts iterI t h p →
      parallelTracer.notInDeletes iterD t h p →
      ∃ h1 h2, t.onInsert p h = .ok h1 ∧ t.onDelete p h1 = .ok h2 ∧
        parallelTracer.inInserts iterI t h1 p ∧
        parallelTracer.notInInserts iterI t h2 p ∧ parallelTracer.notInDeletes iterD t h2 p) ∧
    (∃ mI mD, t.getInserts iterI h = .ok mI ∧ t.getDeletes iterD h = .ok mD ∧
      ∀ q, ¬ (q ∈ GoMap.keyList mI ∧ q ∈ GoMap.keyList mD)) := by
  have hInv := hr.inv
  refine ⟨?_, ?_, ?_, ?_, ?_⟩
  · intro p hp hin
    obtain ⟨a, c, h1, e1, e2, e3, e4, e5⟩ :=
      parallelTracer.on_cell h t hInv (.onInsert p) hp
    obtain ⟨_, _, v3, _⟩ := parallelTracer.view iterI iterD hI hD h t hInv p a c e1
    obtain ⟨_, w2, _, w4⟩ := parallelTracer.view iterI iterD hI hD h1 t e3 p a _ e4
    have hc := v3.mp hin
    obtain ⟨b1, b2⟩ := tracer.onInsert_deleted c p hc
    refine ⟨h1, e2, w4.mpr b1, w2.mpr ?_⟩
    show p ∉ GoMap.keyList (c.onInsert p).inserts
    rw [b2]
    exact fun g => e5 p ⟨g, hc⟩
  · intro p hp hin
    obtain ⟨a, c, h1, e1, e2, e3, e4, e5⟩ :=
      parallelTracer.on_cell h t hInv (.onDelete p) hp
    obtain ⟨v1, _, _, _⟩ := parallelTracer.view iterI iterD hI hD h t hInv p a c e1
    obtain ⟨_, w2, _, w4⟩ := parallelTracer.view iterI iterD hI hD h1 t e3 p a _ e4
    have hc := v1.mp hin
    obtain ⟨b1, b2⟩ := tracer.onDelete_inserted c p hc
    refine ⟨h1, e2, w2.mpr b1, w4.mpr ?_⟩
    show p ∉ GoMap.keyList (c.onDelete p).deletes
    rw [b2]
    exact fun g => e5 p ⟨hc, g⟩
  · intro p hp hnI hnD
    obtain ⟨a, c, h1, e1, e2, e3, e4, _⟩ :=
      parallelTracer.on_cell h t hInv (.onDelete p) hp
    obtain ⟨_, v2, _, v4⟩ := parallelTracer.view iterI iterD hI hD h t hInv p a c e1
    obtain ⟨_, _, w3, _⟩ := parallelTracer.view iterI iterD hI hD h1 t e3 p a _ e4
    obtain ⟨a2, c2, h2, f1, f2, f3, f4, _⟩ :=
      parallelTracer.on_cell h1 t e3 (.onInsert p) hp
    have ec : c2 = c.onDelete p := by
      have f1b : t.sub h1 (routeOf p) = .ok (a2, c2) := f1
      have e4b : t.sub h1 (routeOf p) = .ok (a, c.onDelete p) := e4
      rw [e4b] at f1b
      injection f1b with f1b
      exact (Prod.mk.inj f1b).2.symm
    obtain ⟨_, x2, _, x4⟩ := parallelTracer.view iterI iterD hI hD h2 t f3 p a2 _ f4
    obtain ⟨b1, b2⟩ := tracer.onDelete_fresh c p (v2.mp hnI)
    have b3 : p ∈ GoMap.keyList c2.deletes := by rw [ec]; exact b1
    obtain ⟨d1, d2⟩ := tracer.onInsert_deleted c2 p b3
    refine ⟨h1, h2, e2, f2, w3.mpr b1, x2.mpr ?_, x4.mpr d1⟩
    show p ∉ GoMap.keyList (c2.onInsert p).inserts
    rw [d2, ec, b2]
    exact v2.mp hnI
  · intro p hp hnI hnD
    obtain ⟨a, c, h1, e1, e2, e3, e4, _⟩ :=
      parallelTracer.on_cell h t hInv (.onInsert p) hp
    obtain ⟨_, v2, _, v4⟩ := parallelTracer.view iterI iterD hI hD h t hInv p a c e1
    obtain ⟨w1, _, _, _⟩ := parallelTracer.view iterI iterD hI hD h1 t e3 p a _ e4
    obtain ⟨a2, c2, h2, f1, f2, f3, f4, _⟩ :=
      parallelTracer.on_cell h1 t e3 (.onDelete p) hp
    have ec : c2 = c.onInsert p := by
      have f1b : t.sub h1 (routeOf p) = .ok (a2, c2) := f1
      have e4b : t.sub h1 (routeOf p) = .ok (a, c.onInsert p) := e4
      rw [e4b] at f1b
      injection f1b with f1b
      exact (Prod.mk.inj f1b).2.symm
    obtain ⟨_, x2, _, x4⟩ := parallelTracer.view iterI iterD hI hD h2 t f3 p a2 _ f4
    obtain ⟨b1, b2⟩ := tracer.onInsert_fresh c p (v4.mp hnD)
    have b3 : p ∈ GoMap.keyList c2.inserts := by rw [ec]; exact b1
    obtain ⟨d1, d2⟩ := tracer.onDelete_inserted c2 p b3
    refine ⟨h1, h2, e2, f2, w1.mpr b1, x2.mpr d1, x4.mpr ?_⟩
    show p ∉ GoMap.keyList (c2.onDelete p).deletes
    rw [d2, ec, b2]
    exact v4.mp hnD
  · obtain ⟨mI, e1, e2⟩ := parallelTracer.mergeMaps_mem_iff (fun tr => tr.inserts)
      tracer.holds_inserts iterI hI h t hInv
    obtain ⟨mD, e3, e4⟩ := parallelTracer.mergeMaps_mem_iff (fun tr => tr.deletes)
      tracer.holds_deletes iterD hD h t hInv
    refine ⟨mI, mD, e1, e3, ?_⟩
    rintro q ⟨g1, g2⟩
    obtain ⟨a, tr, s1, m1⟩ := (e2 q).mp g1
    obtain ⟨a2, tr2, s2, m2⟩ := (e4 q).mp g2
    rw [s1] at s2
    injection s2 with s2
    have etr : tr = tr2 := (Prod.mk.inj s2).2
    rw [← etr] at m2
    obtain ⟨k1, k2⟩ := (parallelTracer.sub_eq_ok _ _ _ _ _).mp s1
    exact hInv.disjoint _ a tr k1 k2 q ⟨m1, m2⟩

theorem parallelTracer_untouched_witness :
    parallelTracer.Reach (newParaTracer []).1 (newParaTracer []).2 ∧
    (∀ (_i : Nat) (m : GoMap (List Nat) Unit), (List.reverse m).Perm m) ∧
    (∀ b ∈ [1, 2], b < 16) ∧
    ∃ h1 h2, (newParaTracer []).2.onDelete [1, 2] (newParaTracer []).1 = .ok h1 ∧
      (newParaTracer []).2.onInsert [1, 2] h1 = .ok h2 ∧
      parallelTracer.inDeletes (fun _ => id) (newParaTracer []).2 h1 [1, 2] ∧
      parallelTracer.notInInserts (fun _ => List.reverse) (newParaTracer []).2 h2 [1, 2] ∧
      parallelTracer.notInDeletes (fun _ => id) (newParaTracer []).2 h2 [1, 2] := by
  refine ⟨parallelTracer.Reach.new [], fun _ m => List.reverse_perm m, by decide, ?_⟩
  have hw := (parallelTracer_untouched _ _ (parallelTracer.Reach.new [])
    (fun _ => List.reverse) (fun _ => id) (fun _ m => List.reverse_perm m)
    (fun _ _ => List.Perm.refl _)).2.2.1 [1, 2] (by decide)
    ⟨[], rfl, by simp [GoMap.keyList]⟩ ⟨[], rfl, by simp [GoMap.keyList]⟩
  exact hw

/-- The accessors of a parallel tracer read only its own sub-tracers. -/
theorem parallelTracer.accessors_congr (o : AccessorOrders) (t t1 : parallelTracer)
    (h h1 : TracerHeap)
    (hs : ∀ i ∈ List.range 17, t1.sub h1 i = t.sub h i ∨
      ∃ a a1 tr, t.sub h i = .ok (a, tr) ∧ t1.sub h1 i = .ok (a1, tr)) :
    t1.accessors o h1 = t.accessors o h := by
  unfold parallelTracer.accessors
  rw [parallelTracer.getAccessList_eq, parallelTracer.getInserts_eq,
    parallelTracer.getDeletes_eq, parallelTracer.getAccessList_eq,
    parallelTracer.getInserts_eq, parallelTracer.getDeletes_eq,
    parallelTracer.mergeMaps_congr (fun tr => tr.accessList) o.accessList t t1 h h1 _ hs,
    parallelTracer.mergeMaps_congr (fun tr => tr.inserts) o.inserts t t1 h h1 _ hs,
    parallelTracer.mergeMaps_congr (fun tr => tr.deletes) o.deletes t t1 h h1 _ hs]

theorem parallelTracer.accessors_frame (o : AccessorOrders) (t : parallelTracer)
    (h h1 : TracerHeap) (hf : ∀ a ∈ t.tracers, h1.get? a = h.get? a) :
    t.accessors o h1 = t.accessors o h := by
  apply parallelTracer.accessors_congr
  intro i _
  exact Or.inl (parallelTracer.sub_congr t h h1 i (fun a ha => hf a (List.get?_mem ha)))

/-- C18: `copy()` on a parallel tracer in a reachable state returns a deep, independent
clone.  The clone is a reachable parallel tracer that shares no sub-tracer with the
original; right after the copy the three accessors (`getAccessList()`, `getInserts()`,
`getDeletes()`) of the clone return what those of the original return, before and after
the copy; from then on, in any later heap, a call (`onRead`, `onInsert`, `onDelete`,
`reset`) on the original does not change what the accessors of the clone return, and a
call on the clone does not change what the accessors of the original return; and `reset()`
returns and leaves all three accessors empty. -/
theorem parallelTracer_copy_independent (h : TracerHeap) (t : parallelTracer)
    (hr : parallelTracer.Reach h t) :
    ∃ h1 t1, t.copy h = .ok (h1, t1) ∧
      parallelTracer.Reach h1 t1 ∧ parallelTracer.Reach h1 t ∧
      (∀ a, a ∈ t1.tracers → a ∉ t.tracers) ∧
      (∀ o : AccessorOrders,
        t1.accessors o h1 = t.accessors o h1 ∧ t.accessors o h1 = t.accessors o h) ∧
      (∀ (c : TracerCall) (h2 h3 : TracerHeap), t.call c h2 = .ok h3 →
        ∀ o : AccessorOrders, t1.accessors o h3 = t1.accessors o h2) ∧
      (∀ (c : TracerCall) (h2 h3 : TracerHeap), t1.call c h2 = .ok h3 →
        ∀ o : AccessorOrders, t.accessors o h3 = t.accessors o h2) ∧
      (∀ o : AccessorOrders, o.Fair →
        ∃ h3, t.reset h = .ok h3 ∧ parallelTracer.Reach h3 t ∧
          t.accessors o h3 = (.ok [], .ok [], .ok [])) := by
  have hI := hr.inv
  obtain ⟨h1, t1, hc, _⟩ := parallelTracer.copy_spec h t hI
  obtain ⟨_, _, e3, e4, e5⟩ := parallelTracer.Inv_copy h h1 t t1 hI hc
  have hold : ∀ a ∈ t.tracers, h1.get? a = h.get? a := fun a ha => e4 a (hI.valid a ha)
  refine ⟨h1, t1, hc, parallelTracer.Reach.copy h h1 t t1 hr hc,
    parallelTracer.Reach.frame h h1 t hr hold, e3, ?_, ?_, ?_, ?_⟩
  · intro o
    have k1 : t.accessors o h1 = t.accessors o h := parallelTracer.accessors_frame o t h h1 hold
    have k2 : t1.accessors o h1 = t.accessors o h :=
      parallelTracer.accessors_congr o t t1 h h1
        (fun i hi => Or.inr (e5 i (List.mem_range.mp hi)))
    exact ⟨k2.trans k1.symm, k1⟩
  · intro c h2 h3 hcall o
    apply parallelTracer.accessors_frame
    intro a ha
    exact parallelTracer.call_frame t c h2 h3 hcall a (e3 a ha)
  · intro c h2 h3 hcall o
    apply parallelTracer.accessors_frame
    intro a ha
    exact parallelTracer.call_frame t1 c h2 h3 hcall a (fun g => e3 a g ha)
  · intro o hfair
    obtain ⟨h3, f1, _, f3⟩ := parallelTracer.reset_spec h t hI
    refine ⟨h3, f1, parallelTracer.Reach.reset h h3 t hr f1, ?_⟩
    unfold parallelTracer.accessors
    rw [parallelTracer.getAccessList_eq, parallelTracer.getInserts_eq,
      parallelTracer.getDeletes_eq,
      parallelTracer.mergeMaps_empty (fun tr => tr.accessList) o.accessList hfair.1 t h3 _
        (fun i hi => by
          obtain ⟨a, ha⟩ := f3 i (List.mem_range.mp hi)
          exact ⟨a, newTracer, ha, rfl⟩),
      parallelTracer.mergeMaps_empty (fun tr => tr.inserts) o.inserts hfair.2.1 t h3 _
        (fun i hi => by
          obtain ⟨a, ha⟩ := f3 i (List.mem_range.mp hi)
          exact ⟨a, newTracer, ha, rfl⟩),
      parallelTracer.mergeMaps_empty (fun tr => tr.deletes) o.deletes hfair.2.2 t h3 _
        (fun i hi => by
          obtain ⟨a, ha⟩ := f3 i (List.mem_range.mp hi)
          exact ⟨a, newTracer, ha, rfl⟩)]

theorem parallelTracer_copy_independent_witness :
    parallelTracer.Reach (newParaTracer []).1 (newParaTracer []).2 ∧
    ∃ h1 t1, (newParaTracer []).2.copy (newParaTracer []).1 = .ok (h1, t1) ∧
      h1.length = 51 ∧ t1.tracers = (List.range 17).map (fun i => 34 + i) ∧
      (∀ a, a ∈ t1.tracers → a ∉ (newParaTracer []).2.tracers) ∧
      ∀ (c : TracerCall) (h2 h3 : TracerHeap), t1.call c h2 = .ok h3 →
        ∀ o : AccessorOrders,
          (newParaTracer []).2.accessors o h3 = (newParaTracer []).2.accessors o h2 := by
  refine ⟨parallelTracer.Reach.new [], ?_⟩
  obtain ⟨h1, t1, e1, _, _, e4, _, _, e7, _⟩ :=
    parallelTracer_copy_independent _ _ (parallelTracer.Reach.new [])
  obtain ⟨h2, t2, f1, f2, _, f4, _⟩ :=
    parallelTracer.copy_spec _ _ (parallelTracer.Inv_new [])
  rw [e1] at f1
  injection f1 with f1
  obtain ⟨g1, g2⟩ := Prod.mk.inj f1
  subst g1
  subst g2
  refine ⟨h1, t1, e1, ?_, ?_, e4, e7⟩
  · rw [f2, newParaTracer_eq]
    simp
  · rw [f4, newParaTracer_eq]
    simp

/-! ## `Regroup`: the owners of the outputs -/

theorem Regroup.store_keeps (i o : Nat) (k : List Nat) (v : TNode) (s s1 : RegroupState)
    (h : Regroup.store i o k v s = .ok s1) :
    s1.regrouped = s.regrouped ∧ s1.heap.length = s.heap.length := by
  unfold Regroup.store at h
  cases hm : s.regrouped.get? i with
  | none =>
    simp only [hm] at h
    cases h
  | some m =>
    cases hf : GoMap.find m.Sets o with
    | none =>
      simp only [hm, hf] at h
      cases h
    | some a =>
      cases hg : s.heap.get? a with
      | none =>
        simp only [hm, hf, hg] at h
        cases h
      | some ns =>
        simp only [hm, hf, hg, pure, Except.pure, Except.ok.injEq] at h
        rw [← h]
        simp

theorem Regroup.place_keeps (o : Nat) (e : List Nat × TNode) (s s1 : RegroupState)
    (h : Regroup.place o e s = .ok s1) :
    s1.regrouped = s.regrouped ∧ s1.heap.length = s.heap.length := by
  unfold Regroup.place at h
  cases hk : e.1 with
  | nil =>
    simp only [hk] at h
    exact Regroup.store_keeps _ _ _ _ _ _ h
  | cons b t =>
    simp only [hk] at h
    by_cases hb : b < s.shards.length
    · simp only [hb, if_true] at h
      exact Regroup.store_keeps _ _ _ _ ⟨s.heap, s.regrouped, s.shards.set b true⟩ _ h
    · simp only [hb, if_false] at h
      cases h

/-- The second loop of `Regroup` leaves `regrouped` and the size of the heap as they are. -/
theorem Regroup.rounds_keep (iterS : Nat → GoMap Nat Nat → GoMap Nat Nat)
    (iterN : Nat → GoMap (List Nat) TNode → GoMap (List Nat) TNode) (set : MergedNodeSet)
    (L : List Nat) (s s1 : RegroupState)
    (h : Run.forEach (fun i s => Run.forEach (Regroup.ownerStep (iterN i))
      (iterS (17 + i) set.Sets) s) L s = .ok s1) :
    s1.regrouped = s.regrouped ∧ s1.heap.length = s.heap.length := by
  have hrefl : ∀ s : RegroupState,
      s.regrouped = s.regrouped ∧ s.heap.length = s.heap.length := fun _ => ⟨rfl, rfl⟩
  have htrans : ∀ s s1 s2 : RegroupState,
      (s1.regrouped = s.regrouped ∧ s1.heap.length = s.heap.length) →
      (s2.regrouped = s1.regrouped ∧ s2.heap.length = s1.heap.length) →
      (s2.regrouped = s.regrouped ∧ s2.heap.length = s.heap.length) := by
    intro s s1 s2 r1 r2
    exact ⟨r2.1.trans r1.1, r2.2.trans r1.2⟩
  refine Run.forEach_rel _
    (fun s s1 => s1.regrouped = s.regrouped ∧ s1.heap.length = s.heap.length)
    hrefl htrans ?_ L s s1 h
  intro i s2 s3 h2
  refine Run.forEach_rel _
    (fun s s1 => s1.regrouped = s.regrouped ∧ s1.heap.length = s.heap.length)
    hrefl htrans ?_ _ s2 s3 h2
  intro e s4 s5 h4
  unfold Regroup.ownerStep at h4
  cases hg : s4.heap.get? e.2 with
  | none =>
    simp only [hg] at h4
    cases h4
  | some ns =>
    simp only [hg] at h4
    refine Run.forEach_rel _
      (fun s s1 => s1.regrouped = s.regrouped ∧ s1.heap.length = s.heap.length)
      hrefl htrans ?_ _ s4 s5 h4
    intro x s6 s7 h6
    exact Regroup.place_keeps _ _ _ _ h6

/-- C21: the owners of the outputs of `Regroup`.  For a change set whose owner map has one
entry for each owner, and for every order in which the `range` loops visit the maps:
whenever `Regroup` returns, every owner of the input has a node set (a pointer that is not
`nil`) in each of the 16 shard subsets and in the root-level subset, and every owner of an
output subset is an owner of the input; and `Regroup` does return on a well-formed change
set whose non-empty paths start with a nibble. -/
theorem Regroup_owners (h0 : SetHeap) (set : MergedNodeSet)
    (hnd : (GoMap.keyList set.Sets).Nodup)
    (iterS : Nat → GoMap Nat Nat → GoMap Nat Nat) (hiterS : ∀ i m, (iterS i m).Perm m)
    (iterN : Nat → GoMap (List Nat) TNode → GoMap (List Nat) TNode)
    (hiterN : ∀ i m, (iterN i m).Perm m) :
    (∀ r, MergedNodeSet.Regroup iterS iterN h0 set = .ok r →
      r.sharded.length = 16 ∧
      ∀ m ∈ r.sharded ++ [r.rootShard],
        (∀ o, o ∈ GoMap.keyList set.Sets →
          ∃ a ns, GoMap.find m.Sets o = some a ∧ r.heap.get? a = some ns) ∧
        (∀ o, o ∈ GoMap.keyList m.Sets → o ∈ GoMap.keyList set.Sets)) ∧
    (Regroup.WF h0 set → Regroup.Routable h0 set →
      ∃ r, MergedNodeSet.Regroup iterS iterN h0 set = .ok r) := by
  constructor
  · intro r hr
    obtain ⟨s1, h1, hI1, hP1⟩ := Regroup.init_spec h0 set
      (fun i => GoMap.keyList (iterS i set.Sets))
      (fun i => (hiterS i set.Sets).map Prod.fst) hnd
    simp only [MergedNodeSet.Regroup, h1] at hr
    cases h2 : Run.forEach (fun i s => Run.forEach (Regroup.ownerStep (iterN i))
        (iterS (17 + i) set.Sets) s) (List.range s1.regrouped.length) s1 with
    | error e =>
      simp only [h2] at hr
      cases hr
    | ok s2 =>
      simp only [h2, pure, Except.pure, Except.ok.injEq] at hr
      obtain ⟨k1, k2⟩ := Regroup.rounds_keep iterS iterN set _ s1 s2 h2
      have hlen : s2.regrouped.length = 17 := by rw [k1]; exact hI1.lenR
      rw [← hr]
      refine ⟨by simp [hlen], ?_⟩
      intro m hm
      obtain ⟨j, hj⟩ := Regroup.mem_outputs _ hlen m hm
      have hj17 : j < 17 := by
        have := get?_lt_of_some _ _ _ hj
        rw [hlen] at this
        exact this
      rw [k1] at hj
      constructor
      · intro o ho
        obtain ⟨a, m2, hm2, hf⟩ := hP1 j o hj17 ho
        rw [hj] at hm2
        have em : m2 = m := (Option.some.inj hm2).symm
        subst em
        have ha : a < s2.heap.length := by
          rw [k2]
          exact (hI1.fresh j o a ⟨m2, hj, hf⟩).2
        exact ⟨a, s2.heap[a], hf, by simp [ha]⟩
      · intro o ho
        obtain ⟨v, hv⟩ := (GoMap.find_isSome_iff _ _).mpr ho
        exact hI1.owners j o v ⟨m, hj, hv⟩
  · intro hwf hrt
    obtain ⟨s2, hrun, _⟩ := Regroup.run_spec h0 set hwf hrt iterS hiterS iterN hiterN
    exact ⟨_, hrun⟩

theorem Regroup_owners_witness :
    (GoMap.keyList exampleSet.Sets).Nodup ∧
    ∃ r, MergedNodeSet.Regroup (fun _ => id) (fun _ => List.reverse) exampleSetHeap exampleSet
        = .ok r ∧ r.sharded.length = 16 ∧
      ∀ m ∈ r.sharded ++ [r.rootShard],
        (∀ o, o ∈ GoMap.keyList exampleSet.Sets →
          ∃ a ns, GoMap.find m.Sets o = some a ∧ r.heap.get? a = some ns) ∧
        (∀ o, o ∈ GoMap.keyList m.Sets → o ∈ GoMap.keyList exampleSet.Sets) := by
  have hw := Regroup_owners exampleSetHeap exampleSet exampleSet_WF.keysS (fun _ => id)
    (fun _ _ => List.Perm.refl _) (fun _ => List.reverse) (fun _ m => List.reverse_perm m)
  obtain ⟨r, hr⟩ := hw.2 exampleSet_WF exampleSet_Routable
  obtain ⟨e1, e2⟩ := hw.1 r hr
  exact ⟨exampleSet_WF.keysS, r, hr, e1, e2⟩

/-! ## `ThreadSafeGet` records what it resolves -/

theorem threadSafeGet_eq_aux (rd : Reader) (fuel : Nat) :
    threadSafeGet rd fuel = threadSafeGetAux rd (threadSafeGet.onHash rd fuel) := by
  cases fuel <;> rfl

theorem AccessListCache.append_nil (a : AccessListCache) : a.append [] = a := by
  cases a
  simp [AccessListCache.append]

theorem AccessListCache.append_cons (a : AccessListCache) (p b : List Nat)
    (recs : List (List Nat × List Nat)) :
    (a.Add p b).append recs = a.append ((p, b) :: recs) := by
  simp [AccessListCache.append, AccessListCache.Add]

/-- With fuel for every resolution, `threadSafeGet` returns; it ends with the error of the
descent, and the cache has grown by the records of the descent, in order. -/
theorem threadSafeGet_of_Resolved (rd : Reader) {n : Node} {key : List Nibble} {pos : Nat}
    {recs : List (List Nat × List Nat)} {e : Option Err}
    (hd : Resolved rd n key pos recs e) :
    ∀ fuel, recs.length ≤ fuel → ∀ a, ∃ r, threadSafeGet rd fuel n key pos a = .ok r ∧
      r.err = e ∧ r.accesses = a.append recs := by
  induction hd with
  | nil key pos =>
    intro fuel _ a
    rw [threadSafeGet_eq_aux]
    exact ⟨_, rfl, rfl, (AccessListCache.append_nil a).symm⟩
  | value v key pos =>
    intro fuel _ a
    rw [threadSafeGet_eq_aux]
    exact ⟨_, rfl, rfl, (AccessListCache.append_nil a).symm⟩
  | shortMiss k val key pos hm =>
    intro fuel _ a
    rw [threadSafeGet_eq_aux]
    simp only [threadSafeGetAux, if_pos hm]
    exact ⟨_, rfl, rfl, (AccessListCache.append_nil a).symm⟩
  | shortHit k val key pos recs e hm _ ih =>
    intro fuel hf a
    obtain ⟨r, h1, h2, h3⟩ := ih fuel hf a
    rw [threadSafeGet_eq_aux] at h1 ⊢
    simp only [threadSafeGetAux, if_neg hm, h1]
    by_cases hc : (r.err.isNone && r.didResolve) = true
    · simp only [hc, if_true]
      exact ⟨_, rfl, h2, h3⟩
    · simp only [hc]
      exact ⟨_, rfl, h2, h3⟩
  | full c key pos i recs e hk _ ih =>
    intro fuel hf a
    obtain ⟨r, h1, h2, h3⟩ := ih fuel hf a
    rw [threadSafeGet_eq_aux] at h1 ⊢
    simp only [threadSafeGetAux, hk, h1]
    exact ⟨_, rfl, h2, h3⟩
  | hashFail h key pos e hr =>
    intro fuel _ a
    rw [threadSafeGet_eq_aux]
    simp only [threadSafeGetAux, threadSafeResolveAndTrack, hr]
    exact ⟨_, rfl, rfl, (AccessListCache.append_nil a).symm⟩
  | hashOk h key pos blob n recs e hr hdec _ ih =>
    intro fuel hf a
    cases fuel with
    | zero => simp at hf
    | succ f =>
      obtain ⟨r, h1, h2, h3⟩ := ih f (by simpa using hf)
        (a.Add (pathBytes (key.take pos)) blob)
      rw [threadSafeGet_eq_aux]
      simp only [threadSafeGetAux, threadSafeResolveAndTrack, hr, hdec, threadSafeGet.onHash,
        pure, Except.pure, h1]
      refine ⟨_, rfl, h2, ?_⟩
      show r.accesses = _
      rw [h3, AccessListCache.append_cons]

/-- C27: `ThreadSafeGet(key, cache)` records exactly what it resolves.  When the descent
from the root along the hex form of `key` resolves the hash-referenced nodes `recs` (root
side first, each with the nibble prefix leading to it and the blob the reader returned),
then with fuel for these resolutions `ThreadSafeGet` returns; its error is the error of the
descent (nil, or the error of the node whose read failed, which adds no record); the cache
after the call is the caller's cache followed by the records `recs`, so it is unchanged
when nothing is resolved; and the trie, with its tracer, is as before. -/
theorem ThreadSafeGet_records (t : Trie) (key : List Nat) (recs : List (List Nat × List Nat))
    (e : Option Err) (hd : Resolved t.reader t.root (keybytesToHex key) 0 recs e)
    (fuel : Nat) (hf : recs.length ≤ fuel) (a : AccessListCache) :
    ∃ r, ThreadSafeGet fuel t key a = .ok r ∧ r.err = e ∧
      r.accesses.keys = a.keys ++ recs.map Prod.fst ∧
      r.accesses.data = a.data ++ recs.map Prod.snd ∧
      (recs = [] → r.accesses = a) ∧ r.trie = t := by
  obtain ⟨r, h1, h2, h3⟩ := threadSafeGet_of_Resolved t.reader hd fuel hf a
  refine ⟨⟨r.value, r.err, r.accesses, t⟩, ?_, h2, ?_, ?_, ?_, rfl⟩
  · simp only [ThreadSafeGet, h1]
    rfl
  · show r.accesses.keys = _
    rw [h3]
    rfl
  · show r.accesses.data = _
    rw [h3]
    rfl
  · intro hn
    show r.accesses = a
    rw [h3, hn, AccessListCache.append_nil]

/-- The descent of `resolvableTrie` along the key `[0]` resolves the child `[7]` of the
root, reached by the nibble `0`. -/
theorem resolvableTrie_Resolved :
    Resolved resolvableTrie.reader resolvableTrie.root (keybytesToHex [0]) 0
      [([0], [7, 7])] none := by
  have hk : keybytesToHex [0] = [0, 0, term16] := by decide
  rw [hk]
  refine Resolved.full _ _ _ 0 _ _ (by decide) ?_
  refine Resolved.hashOk [7] _ _ [7, 7] (Node.short [0, term16] (Node.value [5])) [] none
    (by rfl) (by rfl) ?_
  refine Resolved.shortHit _ _ _ _ _ _ (by decide) ?_
  exact Resolved.value _ _ _

theorem ThreadSafeGet_records_witness :
    Resolved resolvableTrie.reader resolvableTrie.root (keybytesToHex [0]) 0
        [([0], [7, 7])] none ∧
      ∃ r, ThreadSafeGet 1 resolvableTrie [0] AccessListCache.empty = .ok r ∧ r.err = none ∧
        r.accesses.keys = [[0]] ∧ r.accesses.data = [[7, 7]] ∧ r.trie = resolvableTrie :=
  ⟨resolvableTrie_Resolved, by
    obtain ⟨r, h1, h2, h3, h4, _, h6⟩ := ThreadSafeGet_records resolvableTrie [0]
      [([0], [7, 7])] none resolvableTrie_Resolved 1 (by decide) AccessListCache.empty
    exact ⟨r, h1, h2, h3, h4, h6⟩⟩

/-! ## The part of a map routed to one sub-tracer -/

theorem GoMap.routed_put_same {V : Type} (i : Nat) (k : List Nat) (v : V)
    (hk : routeOf k = i) (m : GoMap (List Nat) V) :
    GoMap.routed i (GoMap.put m k v) = GoMap.put (GoMap.routed i m) k v := by
  induction m with
  | nil => simp [GoMap.routed, GoMap.put, hk]
  | cons e rest ih =>
    obtain ⟨k1, v1⟩ := e
    simp only [GoMap.routed] at ih
    by_cases h1 : k1 = k
    · subst h1
      simp [GoMap.routed, GoMap.put, hk]
    · by_cases h2 : routeOf k1 = i
      · simp [GoMap.routed, GoMap.put, h1, h2, ih]
      · simp [GoMap.routed, GoMap.put, h1, h2, ih]

theorem GoMap.routed_put_other {V : Type} (i : Nat) (k : List Nat) (v : V)
    (hk : routeOf k ≠ i) (m : GoMap (List Nat) V) :
    GoMap.routed i (GoMap.put m k v) = GoMap.routed i m := by
  induction m with
  | nil => simp [GoMap.routed, GoMap.put, hk]
  | cons e rest ih =>
    obtain ⟨k1, v1⟩ := e
    simp only [GoMap.routed] at ih
    by_cases h1 : k1 = k
    · subst h1
      simp [GoMap.routed, GoMap.put, hk]
    · by_cases h2 : routeOf k1 = i
      · simp [GoMap.routed, GoMap.put, h1, h2, ih]
      · simp [GoMap.routed, GoMap.put, h1, h2, ih]

theorem GoMap.routed_del {V : Type} (i : Nat) (k : List Nat) (m : GoMap (List Nat) V) :
    GoMap.routed i (GoMap.del m k) = GoMap.del (GoMap.routed i m) k := by
  simp only [GoMap.routed, GoMap.del, List.filter_filter]
  apply List.filter_congr
  intro e _
  exact Bool.and_comm _ _

theorem GoMap.routed_del_other {V : Type} (i : Nat) (k : List Nat) (hk : routeOf k ≠ i)
    (m : GoMap (List Nat) V) : GoMap.routed i (GoMap.del m k) = GoMap.routed i m := by
  simp only [GoMap.routed, GoMap.del, List.filter_filter]
  apply List.filter_congr
  intro e _
  by_cases h2 : routeOf e.1 = i
  · have h3 : e.1 ≠ k := fun he => hk (he ▸ h2)
    simp [h2, h3]
  · simp [h2]

theorem GoMap.find_routed {V : Type} (i : Nat) (k : List Nat) (m : GoMap (List Nat) V) :
    GoMap.find (GoMap.routed i m) k = if routeOf k = i then GoMap.find m k else none := by
  induction m with
  | nil => simp [GoMap.routed, GoMap.find]
  | cons e rest ih =>
    obtain ⟨k1, v1⟩ := e
    simp only [GoMap.routed] at ih
    by_cases h1 : k1 = k
    · subst h1
      by_cases h2 : routeOf k1 = i
      · simp [GoMap.routed, GoMap.find, h2]
      · simp [GoMap.routed, GoMap.find, h2, ih]
    · by_cases h2 : routeOf k1 = i
      · simp [GoMap.routed, GoMap.find, h1, h2, ih]
      · simp [GoMap.routed, GoMap.find, h1, h2, ih]

theorem GoMap.keyList_routed {V : Type} (i : Nat) (m : GoMap (List Nat) V) :
    GoMap.keyList (GoMap.routed i m) = (GoMap.keyList m).filter (fun k => decide (routeOf k = i)) := by
  induction m with
  | nil => rfl
  | cons e rest ih =>
    obtain ⟨k1, v1⟩ := e
    simp only [GoMap.routed, GoMap.keyList] at ih ⊢
    by_cases h2 : routeOf k1 = i
    · simp [h2, ih]
    · simp [h2, ih]

/-- An event changes the part of its own route, as the event itself does, and no other. -/
theorem tracer.shard_on (tr : tracer) (e : TraceEvent) (i : Nat) :
    (tr.on e).shard i = if routeOf e.path = i then (tr.shard i).on e else tr.shard i := by
  by_cases hr : routeOf e.path = i
  · rw [if_pos hr]
    cases e with
    | onRead p v =>
      simp only [TraceEvent.path] at hr
      simp only [tracer.on, tracer.onRead, tracer.shard, GoMap.routed_put_same i p v hr]
    | onInsert p =>
      simp only [TraceEvent.path] at hr
      simp only [tracer.on, tracer.onInsert, tracer.shard, GoMap.find_routed, if_pos hr]
      cases hf : GoMap.find tr.deletes p with
      | none => simp only [tracer.shard, GoMap.routed_put_same i p () hr]
      | some u => simp only [tracer.shard, GoMap.routed_del]
    | onDelete p =>
      simp only [TraceEvent.path] at hr
      simp only [tracer.on, tracer.onDelete, tracer.shard, GoMap.find_routed, if_pos hr]
      cases hf : GoMap.find tr.inserts p with
      | none => simp only [tracer.shard, GoMap.routed_put_same i p () hr]
      | some u => simp only [tracer.shard, GoMap.routed_del]
  · rw [if_neg hr]
    cases e with
    | onRead p v =>
      simp only [TraceEvent.path] at hr
      simp only [tracer.on, tracer.onRead, tracer.shard, GoMap.routed_put_other i p v hr]
    | onInsert p =>
      simp only [TraceEvent.path] at hr
      simp only [tracer.on, tracer.onInsert]
      cases hf : GoMap.find tr.deletes p with
      | none => simp only [tracer.shard, GoMap.routed_put_other i p () hr]
      | some u => simp only [tracer.shard, GoMap.routed_del_other i p hr]
    | onDelete p =>
      simp only [TraceEvent.path] at hr
      simp only [tracer.on, tracer.onDelete]
      cases hf : GoMap.find tr.inserts p with
      | none => simp only [tracer.shard, GoMap.routed_put_other i p () hr]
      | some u => simp only [tracer.shard, GoMap.routed_del_other i p hr]

theorem tracer.shard_reset (tr : tracer) (i : Nat) : (tr.reset).shard i = newTracer := rfl

theorem tracer.shard_new (i : Nat) : newTracer.shard i = newTracer := rfl

/-! ## The parallel tracer follows one base tracer -/

theorem parallelTracer.Sim_new (h : TracerHeap) :
    parallelTracer.Sim (newParaTracer h).1 (newParaTracer h).2 newTracer := by
  refine ⟨parallelTracer.Inv_new h, ?_⟩
  intro i hi
  obtain ⟨a, tr, e1, e2, e3⟩ := (parallelTracer.Inv_new h).sub_ok i hi
  refine ⟨a, ?_⟩
  rw [e3]
  have hn : tr = newTracer := by
    rw [newParaTracer_eq] at e1 e2
    obtain ⟨_, rfl⟩ := get?_map_add_range _ _ _ _ e1
    simp only [List.get?_eq_getElem?] at e2
    rw [List.getElem?_append_right (by omega)] at e2
    exact (List.eq_of_mem_replicate (List.getElem?_mem e2))
  rw [hn]
  rfl

theorem parallelTracer.Sim_on (h : TracerHeap) (t : parallelTracer) (tr : tracer)
    (hS : parallelTracer.Sim h t tr) (e : TraceEvent) (hp : ∀ b ∈ e.path, b < 16) :
    ∃ h1, t.on e h = .ok h1 ∧ parallelTracer.Sim h1 t (tr.on e) := by
  obtain ⟨hI, hc⟩ := hS
  obtain ⟨a, c, e1, e2, e3, e4⟩ := parallelTracer.Inv_on h t hI e hp
  have ha : a < h.length := get?_lt_of_some _ _ _ e2
  have hr : routeOf e.path < 17 := by
    have hl := get?_lt_of_some _ _ _ e1
    rw [hI.len] at hl
    exact hl
  obtain ⟨a0, h0⟩ := hc _ hr
  obtain ⟨g1, g2⟩ := (parallelTracer.sub_eq_ok _ _ _ _ _).mp h0
  have ea : a0 = a := by
    rw [e1] at g1
    exact (Option.some.inj g1).symm
  subst ea
  have ec : c = tr.shard (routeOf e.path) := by
    rw [e2] at g2
    exact Option.some.inj g2
  refine ⟨_, e3, e4, ?_⟩
  intro i hi
  obtain ⟨ai, hsi⟩ := hc i hi
  obtain ⟨k1, k2⟩ := (parallelTracer.sub_eq_ok _ _ _ _ _).mp hsi
  refine ⟨ai, (parallelTracer.sub_eq_ok _ _ _ _ _).mpr ⟨k1, ?_⟩⟩
  rw [tracer.shard_on]
  by_cases hri : routeOf e.path = i
  · rw [if_pos hri]
    have eai : ai = a0 := by
      rw [← hri, e1] at k1
      exact (Option.some.inj k1).symm
    subst eai
    rw [ec, hri]
    exact (get?_set_iff _ _ _ _ _).mpr (Or.inl ⟨rfl, ha, rfl⟩)
  · rw [if_neg hri]
    have hne : ai ≠ a0 := by
      intro he
      rw [he] at k1
      exact hri (get?_inj_of_nodup _ hI.nodup _ _ _ e1 k1)
    exact (get?_set_iff _ _ _ _ _).mpr (Or.inr ⟨hne, k2⟩)

theorem parallelTracer.Sim_reset (h : TracerHeap) (t : parallelTracer) (tr : tracer)
    (hS : parallelTracer.Sim h t tr) :
    ∃ h1, t.reset h = .ok h1 ∧ parallelTracer.Sim h1 t tr.reset := by
  obtain ⟨h1, e1, e2, e3⟩ := parallelTracer.reset_spec h t hS.1
  exact ⟨h1, e1, e2, e3⟩

theorem parallelTracer.Sim_call (h : TracerHeap) (t : parallelTracer) (tr : tracer)
    (hS : parallelTracer.Sim h t tr) (c : TracerCall) (hp : c.nibbles) :
    ∃ h1, t.call c h = .ok h1 ∧ parallelTracer.Sim h1 t (tr.call c) := by
  cases c with
  | event e => exact parallelTracer.Sim_on h t tr hS e hp
  | reset => exact parallelTracer.Sim_reset h t tr hS

/-- A parallel tracer fed nibble-path calls returns from every call and holds, sub-tracer by
sub-tracer, what the single tracer fed the same calls holds. -/
theorem parallelTracer.Sim_run (t : parallelTracer) (calls : List TracerCall) :
    ∀ (h : TracerHeap) (tr : tracer), parallelTracer.Sim h t tr → (∀ c ∈ calls, c.nibbles) →
      ∃ h1, t.run calls h = .ok h1 ∧ parallelTracer.Sim h1 t (calls.foldl tracer.call tr) := by
  induction calls with
  | nil =>
    intro h tr hS _
    exact ⟨h, rfl, hS⟩
  | cons c rest ih =>
    intro h tr hS hp
    obtain ⟨h1, e1, e2⟩ := parallelTracer.Sim_call h t tr hS c (hp c (List.mem_cons_self _ _))
    obtain ⟨h2, e3, e4⟩ := ih h1 (tr.call c) e2 (fun x hx => hp x (List.mem_cons_of_mem _ hx))
    refine ⟨h2, ?_, e4⟩
    simp only [parallelTracer.run] at e3 ⊢
    rw [Run.forEach_cons_ok _ _ _ _ _ e1]
    exact e3

/-! ## The maps of one base tracer have no repeated key -/

theorem GoMap.nodup_del {K V : Type} [DecidableEq K] (m : GoMap K V) (k : K)
    (hm : (GoMap.keyList m).Nodup) : (GoMap.keyList (GoMap.del m k)).Nodup := by
  simp only [GoMap.keyList, GoMap.del] at hm ⊢
  exact (List.Sublist.map _ (List.filter_sublist _)).nodup hm

theorem tracer.NodupKeys_on (tr : tracer) (e : TraceEvent) (hn : tr.NodupKeys) :
    (tr.on e).NodupKeys := by
  obtain ⟨h1, h2, h3⟩ := hn
  cases e with
  | onRead p v => exact ⟨h1, h2, GoMap.nodup_put _ _ _ h3⟩
  | onInsert p =>
    simp only [tracer.on, tracer.onInsert]
    cases GoMap.find tr.deletes p with
    | none => exact ⟨GoMap.nodup_put _ _ _ h1, h2, h3⟩
    | some u => exact ⟨h1, GoMap.nodup_del _ _ h2, h3⟩
  | onDelete p =>
    simp only [tracer.on, tracer.onDelete]
    cases GoMap.find tr.inserts p with
    | none => exact ⟨h1, GoMap.nodup_put _ _ _ h2, h3⟩
    | some u => exact ⟨GoMap.nodup_del _ _ h1, h2, h3⟩

theorem tracer.NodupKeys_run (calls : List TracerCall) :
    ∀ tr : tracer, tr.NodupKeys → (calls.foldl tracer.call tr).NodupKeys := by
  induction calls with
  | nil => intro tr h; exact h
  | cons c rest ih =>
    intro tr h
    apply ih
    cases c with
    | event e => exact tracer.NodupKeys_on tr e h
    | reset => exact ⟨List.nodup_nil, List.nodup_nil, List.nodup_nil⟩

/-! ## The merged accessors against the maps of one base tracer -/

theorem GoMap.find_perm {K V : Type} [DecidableEq K] (m1 m2 : GoMap K V) (hp : m1.Perm m2)
    (hn : (GoMap.keyList m2).Nodup) (k : K) : GoMap.find m1 k = GoMap.find m2 k := by
  have hn1 : (GoMap.keyList m1).Nodup := ((hp.map Prod.fst).nodup_iff).mpr hn
  cases hf : GoMap.find m2 k with
  | none =>
    rw [GoMap.find_eq_none] at hf ⊢
    intro hk
    exact hf (((hp.map Prod.fst).mem_iff).mp hk)
  | some v =>
    exact GoMap.find_of_mem m1 k v hn1 (hp.mem_iff.mpr (GoMap.mem_of_find m2 k v hf))

theorem GoMap.find_putAll_nodup {K V : Type} [DecidableEq K] (m recs : GoMap K V)
    (hn : (GoMap.keyList recs).Nodup) (k : K) :
    GoMap.find (GoMap.putAll m recs) k =
      if k ∈ GoMap.keyList recs then GoMap.find recs k else GoMap.find m k := by
  by_cases hk : k ∈ GoMap.keyList recs
  · rw [if_pos hk]
    obtain ⟨pre, v, post, he, hp⟩ := exists_last_record recs k hk
    have h1 : GoMap.find (GoMap.putAll m recs) k = some v := by
      rw [he]
      exact GoMap.find_putAll_last m pre post k v hp
    rw [h1]
    exact (GoMap.find_of_mem recs k v hn (by rw [he]; simp)).symm
  · rw [if_neg hk]
    exact GoMap.find_putAll_not_mem recs k hk m

theorem GoMap.nodup_routed {V : Type} (i : Nat) (m : GoMap (List Nat) V)
    (hn : (GoMap.keyList m).Nodup) : (GoMap.keyList (GoMap.routed i m)).Nodup := by
  rw [GoMap.keyList_routed]
  exact hn.filter _

theorem GoMap.mem_keyList_routed {V : Type} (i : Nat) (m : GoMap (List Nat) V) (q : List Nat) :
    q ∈ GoMap.keyList (GoMap.routed i m) ↔ routeOf q = i ∧ q ∈ GoMap.keyList m := by
  rw [GoMap.keyList_routed]
  simp only [List.mem_filter, decide_eq_true_eq]
  exact and_comm

/-- The merged map of sub-tracers that hold the parts of a map `M`: every path routed to one
of the slots has the entry it has in `M`. -/
theorem parallelTracer.mergeMaps_find {V : Type} (f : tracer → GoMap (List Nat) V)
    (iter : Nat → GoMap (List Nat) V → GoMap (List Nat) V)
    (hiter : ∀ i m, (iter i m).Perm m) (t : parallelTracer) (h : TracerHeap)
    (M : GoMap (List Nat) V) (hM : (GoMap.keyList M).Nodup) (L : List Nat)
    (hs : ∀ i ∈ L, ∃ a c, t.sub h i = .ok (a, c) ∧ f c = GoMap.routed i M) :
    ∀ acc, (GoMap.keyList acc).Nodup →
      ∃ m, parallelTracer.mergeMaps f iter t h L acc = .ok m ∧ (GoMap.keyList m).Nodup ∧
        ∀ q, GoMap.find m q =
          if routeOf q ∈ L ∧ q ∈ GoMap.keyList M then GoMap.find M q else GoMap.find acc q := by
  induction L with
  | nil =>
    intro acc ha
    exact ⟨acc, rfl, ha, fun q => by simp⟩
  | cons i rest ih =>
    intro acc ha
    obtain ⟨a, c, e1, e2⟩ := hs i (List.mem_cons_self _ _)
    have hrn : (GoMap.keyList (iter i (GoMap.routed i M))).Nodup :=
      (((hiter i _).map Prod.fst).nodup_iff).mpr (GoMap.nodup_routed i M hM)
    obtain ⟨m, k1, k2, k3⟩ := ih (fun j hj => hs j (List.mem_cons_of_mem _ hj))
      (GoMap.putAll acc (iter i (GoMap.routed i M))) (GoMap.nodup_putAll _ _ ha)
    refine ⟨m, ?_, k2, ?_⟩
    · simp only [parallelTracer.mergeMaps] at k1 ⊢
      have hstep : (match t.sub h i with
          | .error e => (.error e : Run (GoMap (List Nat) V))
          | .ok (_, tr) => pure (GoMap.putAll acc (iter i (f tr)))) =
          .ok (GoMap.putAll acc (iter i (GoMap.routed i M))) := by
        rw [e1]
        show Except.ok (GoMap.putAll acc (iter i (f c))) = _
        rw [e2]
      rw [Run.forEach_cons_ok _ _ _ _ _ hstep]
      exact k1
    · intro q
      rw [k3 q, GoMap.find_putAll_nodup _ _ hrn,
        GoMap.find_perm _ _ (hiter i _) (GoMap.nodup_routed i M hM)]
      have hmem : q ∈ GoMap.keyList (iter i (GoMap.routed i M)) ↔
          routeOf q = i ∧ q ∈ GoMap.keyList M := by
        have hpm := ((hiter i (GoMap.routed i M)).map Prod.fst).mem_iff (a := q)
        exact hpm.trans (GoMap.mem_keyList_routed i M q)
      rw [GoMap.find_routed]
      by_cases hq : q ∈ GoMap.keyList M
      · by_cases h1 : routeOf q ∈ rest
        · simp [h1, hq]
        · by_cases h2 : routeOf q = i
          · simp [h1, hq, h2, hmem]
          · simp [h1, hq, h2, hmem]
      · simp [hq, hmem]

/-- A tracer fed nibble-path calls holds only paths with a slot among the 17. -/
theorem tracer.routes_run (calls : List TracerCall) :
    ∀ tr : tracer, (∀ q, tr.holds q → routeOf q < 17) → (∀ c ∈ calls, c.nibbles) →
      ∀ q, (calls.foldl tracer.call tr).holds q → routeOf q < 17 := by
  induction calls with
  | nil => intro tr h _; exact h
  | cons c rest ih =>
    intro tr h hp
    apply ih _ _ (fun x hx => hp x (List.mem_cons_of_mem _ hx))
    intro q hq
    cases c with
    | event e =>
      rcases tracer.holds_on tr e q hq with h1 | h1
      · exact h q h1
      · have hn : ∀ b ∈ e.path, b < 16 := hp _ (List.mem_cons_self _ _)
        rw [h1]
        exact routeOf_lt _ (fun b hb => hn b (List.mem_of_mem_head? hb))
    | reset =>
      simp [tracer.call, tracer.reset, tracer.holds, GoMap.keyList] at hq

/-- The three merged accessors of a parallel tracer that holds what `tr` holds. -/
theorem parallelTracer.Sim_accessors (o : AccessorOrders) (ho : o.Fair) (h : TracerHeap)
    (t : parallelTracer) (tr : tracer) (hS : parallelTracer.Sim h t tr) (hn : tr.NodupKeys)
    (hr : ∀ q, tr.holds q → routeOf q < 17) :
    ∃ al ins del, t.getAccessList o.accessList h = .ok al ∧ t.getInserts o.inserts h = .ok ins ∧
      t.getDeletes o.deletes h = .ok del ∧
      (GoMap.keyList al).Nodup ∧ (GoMap.keyList ins).Nodup ∧ (GoMap.keyList del).Nodup ∧
      ∀ q, GoMap.find al q = GoMap.find tr.accessList q ∧
        GoMap.find ins q = GoMap.find tr.inserts q ∧
        GoMap.find del q = GoMap.find tr.deletes q := by
  have hs : ∀ {V : Type} (f : tracer → GoMap (List Nat) V)
      (g : ∀ i, f (tr.shard i) = GoMap.routed i (f tr)),
      ∀ i ∈ List.range 17, ∃ a c, t.sub h i = .ok (a, c) ∧ f c = GoMap.routed i (f tr) := by
    intro V f g i hi
    obtain ⟨a, ha⟩ := hS.2 i (List.mem_range.mp hi)
    exact ⟨a, _, ha, g i⟩
  have fin : ∀ {V : Type} (M m : GoMap (List Nat) V)
      (hh : ∀ q, q ∈ GoMap.keyList M → routeOf q < 17)
      (hf : ∀ q, GoMap.find m q =
        if routeOf q ∈ List.range 17 ∧ q ∈ GoMap.keyList M then GoMap.find M q
        else GoMap.find ([] : GoMap (List Nat) V) q),
      ∀ q, GoMap.find m q = GoMap.find M q := by
    intro V M m hh hf q
    rw [hf q]
    by_cases hq : q ∈ GoMap.keyList M
    · rw [if_pos ⟨List.mem_range.mpr (hh q hq), hq⟩]
    · have hcond : ¬ (routeOf q ∈ List.range 17 ∧ q ∈ GoMap.keyList M) := fun hc => hq hc.2
      rw [if_neg hcond]
      exact ((GoMap.find_eq_none M q).mpr hq).symm
  obtain ⟨al, a1, a2, a3⟩ := parallelTracer.mergeMaps_find (fun c => c.accessList)
    o.accessList ho.1 t h tr.accessList hn.2.2 (List.range 17)
    (hs (fun c => c.accessList) (fun _ => rfl)) [] List.nodup_nil
  obtain ⟨ins, b1, b2, b3⟩ := parallelTracer.mergeMaps_find (fun c => c.inserts)
    o.inserts ho.2.1 t h tr.inserts hn.1 (List.range 17)
    (hs (fun c => c.inserts) (fun _ => rfl)) [] List.nodup_nil
  obtain ⟨del, c1, c2, c3⟩ := parallelTracer.mergeMaps_find (fun c => c.deletes)
    o.deletes ho.2.2 t h tr.deletes hn.2.1 (List.range 17)
    (hs (fun c => c.deletes) (fun _ => rfl)) [] List.nodup_nil
  refine ⟨al, ins, del, a1, b1, c1, a2, b2, c2, fun q => ⟨?_, ?_, ?_⟩⟩
  · exact fin _ _ (fun q hq => hr q (Or.inr (Or.inr hq))) a3 q
  · exact fin _ _ (fun q hq => hr q (Or.inl hq)) b3 q
  · exact fin _ _ (fun q hq => hr q (Or.inr (Or.inl hq))) c3 q

/-- The loop of `deletedNodes` over the slots `L`: the paths of the delete sets of these
slots, none repeated. -/
theorem parallelTracer.deletedNodes_loop
    (iter : Nat → GoMap (List Nat) Unit → GoMap (List Nat) Unit)
    (hiter : ∀ i m, (iter i m).Perm m) (t : parallelTracer) (h : TracerHeap)
    (M : GoMap (List Nat) Unit) (hM : (GoMap.keyList M).Nodup) (L : List Nat)
    (hs : ∀ i ∈ L, ∃ a c, t.sub h i = .ok (a, c) ∧ c.deletes = GoMap.routed i M) :
    L.Nodup → ∀ acc : List (List Nat), acc.Nodup → (∀ q ∈ acc, routeOf q ∉ L) →
      ∃ ds, Run.forEach (fun i paths =>
          match t.sub h i with
          | .error e => (.error e : Run (List (List Nat)))
          | .ok (_, c) => pure (paths ++ GoMap.keyList (iter i c.deletes))) L acc = .ok ds ∧
        ds.Nodup ∧ ∀ q, q ∈ ds ↔ q ∈ acc ∨ (routeOf q ∈ L ∧ q ∈ GoMap.keyList M) := by
  induction L with
  | nil =>
    intro _ acc ha _
    exact ⟨acc, rfl, ha, fun q => by simp⟩
  | cons i rest ih =>
    intro hL acc ha hacc
    obtain ⟨a, c, e1, e2⟩ := hs i (List.mem_cons_self _ _)
    have hL2 := List.nodup_cons.mp hL
    have hmem : ∀ q, q ∈ GoMap.keyList (iter i (GoMap.routed i M)) ↔
        routeOf q = i ∧ q ∈ GoMap.keyList M := by
      intro q
      have hpm := ((hiter i (GoMap.routed i M)).map Prod.fst).mem_iff (a := q)
      exact hpm.trans (GoMap.mem_keyList_routed i M q)
    have hrn : (GoMap.keyList (iter i (GoMap.routed i M))).Nodup :=
      (((hiter i _).map Prod.fst).nodup_iff).mpr (GoMap.nodup_routed i M hM)
    have hnd : (acc ++ GoMap.keyList (iter i (GoMap.routed i M))).Nodup := by
      refine List.Nodup.append ha hrn ?_
      intro q hq1 hq2
      exact hacc q hq1 (by rw [((hmem q).mp hq2).1]; exact List.mem_cons_self _ _)
    obtain ⟨ds, k1, k2, k3⟩ := ih (fun j hj => hs j (List.mem_cons_of_mem _ hj)) hL2.2
      (acc ++ GoMap.keyList (iter i (GoMap.routed i M))) hnd (by
        intro q hq hr
        rcases List.mem_append.mp hq with h1 | h1
        · exact hacc q h1 (List.mem_cons_of_mem _ hr)
        · rw [((hmem q).mp h1).1] at hr
          exact hL2.1 hr)
    refine ⟨ds, ?_, k2, ?_⟩
    · have hstep : (match t.sub h i with
          | .error e => (.error e : Run (List (List Nat)))
          | .ok (_, c) => pure (acc ++ GoMap.keyList (iter i c.deletes))) =
          .ok (acc ++ GoMap.keyList (iter i (GoMap.routed i M))) := by
        rw [e1]
        show Except.ok (acc ++ GoMap.keyList (iter i c.deletes)) = _
        rw [e2]
      rw [Run.forEach_cons_ok _ _ _ _ _ hstep]
      exact k1
    · intro q
      rw [k3 q, List.mem_append, hmem q, List.mem_cons]
      constructor
      · rintro ((h1 | h1) | h1)
        · exact Or.inl h1
        · exact Or.inr ⟨Or.inl h1.1, h1.2⟩
        · exact Or.inr ⟨Or.inr h1.1, h1.2⟩
      · rintro (h1 | ⟨h1 | h1, h2⟩)
        · exact Or.inl (Or.inl h1)
        · exact Or.inl (Or.inr ⟨h1, h2⟩)
        · exact Or.inr ⟨h1, h2⟩

/-! ## The parallel tracer refines a single tracer -/

/-- C28: the parallel tracer refines a single tracer.  A parallel tracer made by
`newParaTracer` and fed any sequence of `onRead`, `onInsert`, `onDelete` and `reset` calls
over nibble paths returns from every call; then, in whatever order the `range` loops visit
the maps, `getAccessList()`, `getInserts()` and `getDeletes()` return maps without repeated
key that give, for every path, the entry that the access list, the insert set and the delete
set of one base tracer fed the same calls give (and the maps of the base tracer repeat no
key either); and `deletedNodes()` returns a list without repetition whose members are
exactly the keys of `getDeletes()`. -/
theorem parallelTracer_refines (o : AccessorOrders) (ho : o.Fair)
    (iterD : Nat → GoMap (List Nat) Unit → GoMap (List Nat) Unit)
    (hD : ∀ i m, (iterD i m).Perm m) (h0 : TracerHeap) (calls : List TracerCall)
    (hp : ∀ c ∈ calls, c.nibbles) :
    ∃ h1 al ins del ds,
      (newParaTracer h0).2.run calls (newParaTracer h0).1 = .ok h1 ∧
      (newParaTracer h0).2.getAccessList o.accessList h1 = .ok al ∧
      (newParaTracer h0).2.getInserts o.inserts h1 = .ok ins ∧
      (newParaTracer h0).2.getDeletes o.deletes h1 = .ok del ∧
      (newParaTracer h0).2.deletedNodes iterD h1 = .ok ds ∧
      (GoMap.keyList al).Nodup ∧ (GoMap.keyList ins).Nodup ∧ (GoMap.keyList del).Nodup ∧
      (tracer.run calls).NodupKeys ∧
      (∀ q, GoMap.find al q = GoMap.find (tracer.run calls).accessList q ∧
        GoMap.find ins q = GoMap.find (tracer.run calls).inserts q ∧
        GoMap.find del q = GoMap.find (tracer.run calls).deletes q) ∧
      ds.Nodup ∧ ∀ q, q ∈ ds ↔ q ∈ GoMap.keyList del := by
  obtain ⟨h1, e1, hS⟩ := parallelTracer.Sim_run (newParaTracer h0).2 calls _ newTracer
    (parallelTracer.Sim_new h0) hp
  have hn : (tracer.run calls).NodupKeys :=
    tracer.NodupKeys_run calls newTracer ⟨List.nodup_nil, List.nodup_nil, List.nodup_nil⟩
  have hr : ∀ q, (tracer.run calls).holds q → routeOf q < 17 :=
    tracer.routes_run calls newTracer
      (by intro q hq; simp [tracer.holds, newTracer, GoMap.keyList] at hq) hp
  obtain ⟨al, ins, del, a1, a2, a3, a4, a5, a6, a7⟩ :=
    parallelTracer.Sim_accessors o ho h1 _ _ hS hn hr
  obtain ⟨ds, d1, d2, d3⟩ := parallelTracer.deletedNodes_loop iterD hD (newParaTracer h0).2 h1
    (tracer.run calls).deletes hn.2.1 (List.range 17)
    (by
      intro i hi
      obtain ⟨a, ha⟩ := hS.2 i (List.mem_range.mp hi)
      exact ⟨a, _, ha, rfl⟩)
    (List.nodup_range 17) [] List.nodup_nil (by intro q hq; cases hq)
  refine ⟨h1, al, ins, del, ds, e1, a1, a2, a3, d1, a4, a5, a6, hn, a7, d2, ?_⟩
  intro q
  rw [d3 q, ← GoMap.find_isSome_iff del q, (a7 q).2.2, GoMap.find_isSome_iff]
  constructor
  · rintro (h | h)
    · cases h
    · exact h.2
  · intro h
    exact Or.inr ⟨List.mem_range.mpr (hr q (Or.inr (Or.inl h))), h⟩

/-- The calls of the example: an insert, two deletes, a read at the root, a reset in the
middle, and an insert that wipes a delete. -/
theorem exampleCalls_nibbles :
    ∀ c ∈ [TracerCall.event (.onInsert [1, 2]), TracerCall.event (.onDelete [3]),
      TracerCall.reset, TracerCall.event (.onDelete [1, 2]),
      TracerCall.event (.onDelete [4]), TracerCall.event (.onRead [] [9]),
      TracerCall.event (.onInsert [4])], c.nibbles := by
  intro c hc
  simp only [List.mem_cons, List.mem_singleton, List.not_mem_nil, or_false] at hc
  rcases hc with rfl | rfl | rfl | rfl | rfl | rfl | rfl <;>
    simp [TracerCall.nibbles, TraceEvent.path]

theorem parallelTracer_refines_witness :
    (∀ c ∈ [TracerCall.event (.onInsert [1, 2]), TracerCall.event (.onDelete [3]),
      TracerCall.reset, TracerCall.event (.onDelete [1, 2]),
      TracerCall.event (.onDelete [4]), TracerCall.event (.onRead [] [9]),
      TracerCall.event (.onInsert [4])], c.nibbles) ∧
    ∃ h1 al ins del ds,
      (newParaTracer []).2.run [TracerCall.event (.onInsert [1, 2]),
        TracerCall.event (.onDelete [3]), TracerCall.reset,
        TracerCall.event (.onDelete [1, 2]), TracerCall.event (.onDelete [4]),
        TracerCall.event (.onRead [] [9]), TracerCall.event (.onInsert [4])]
        (newParaTracer []).1 = .ok h1 ∧
      (newParaTracer []).2.getAccessList (fun _ m => m) h1 = .ok al ∧
      (newParaTracer []).2.getInserts (fun _ m => m) h1 = .ok ins ∧
      (newParaTracer []).2.getDeletes (fun _ => List.reverse) h1 = .ok del ∧
      (newParaTracer []).2.deletedNodes (fun _ => List.reverse) h1 = .ok ds ∧
      GoMap.find al [] = some [9] ∧ GoMap.find ins [1, 2] = none ∧
      GoMap.find del [1, 2] = some () ∧ GoMap.find del [4] = none ∧
      ds.Nodup ∧ ∀ q, q ∈ ds ↔ q ∈ GoMap.keyList del := by
  refine ⟨exampleCalls_nibbles, ?_⟩
  obtain ⟨h1, al, ins, del, ds, e1, e2, e3, e4, e5, _, _, _, _, e6, e7, e8⟩ :=
    parallelTracer_refines ⟨fun _ m => m, fun _ m => m, fun _ => List.reverse⟩
      ⟨fun _ m => List.Perm.refl m, fun _ m => List.Perm.refl m,
        fun _ m => List.reverse_perm m⟩
      (fun _ => List.reverse) (fun _ m => List.reverse_perm m) []
      [TracerCall.event (.onInsert [1, 2]), TracerCall.event (.onDelete [3]),
        TracerCall.reset, TracerCall.event (.onDelete [1, 2]),
        TracerCall.event (.onDelete [4]), TracerCall.event (.onRead [] [9]),
        TracerCall.event (.onInsert [4])] exampleCalls_nibbles
  refine ⟨h1, al, ins, del, ds, e1, e2, e3, e4, e5, ?_, ?_, ?_, ?_, e7, e8⟩
  · rw [(e6 []).1]; decide
  · rw [(e6 [1, 2]).2.1]; decide
  · rw [(e6 [1, 2]).2.2]; decide
  · rw [(e6 [4]).2.2]; decide

/-! ## The calls of the parallel phase, shard by shard (C29) -/

theorem lastSnapshot_cons (snap : Node) (c : UpdateCall) (calls : List UpdateCall) :
    lastSnapshot snap (c :: calls) = lastSnapshot c.node calls := by
  cases calls with
  | nil => rfl
  | cons d ds =>
    simp only [lastSnapshot, List.getLast?_cons_cons]
    cases h : (d :: ds).getLast? with
    | none => simp at h
    | some x => rfl

theorem Node.eq_nil_of_isNil (n : Node) (h : n.isNil = true) : n = Node.nil := by
  cases n with
  | nil => rfl
  | full c => cases h
  | value _ => cases h
  | short _ _ => cases h
  | hash _ => cases h

theorem shardRun_no_keys (rd : Reader) (fuel : Nat) (root : Node) (values : List (List Nat))
    (k : Nat) :
    ∀ (rest : List (List Nat)) (i : Nat) (snap : Node) (es : List Err),
      (∀ key ∈ rest, shardOf key ≠ k) →
      shardRun rd fuel root values k rest i snap es = .ok (snap, es) := by
  intro rest
  induction rest with
  | nil => intro i snap es _; rfl
  | cons key rest ih =>
    intro i snap es h
    have hs : shardOf key ≠ k := h key (List.mem_cons_self _ _)
    simp only [shardRun, if_neg hs]
    exact ih (i + 1) snap es (fun q hq => h q (List.mem_cons_of_mem _ hq))

/-- The loop of one shard and its call log run together: when the loop returns, so does the
log, and the snapshot the loop ends with is the node returned by the last call. -/
theorem shardRun_calls (rd : Reader) (fuel : Nat) (root : Node) (values : List (List Nat))
    (k : Nat) :
    ∀ (rest : List (List Nat)) (i : Nat) (snap : Node) (es : List Err) (res : Node × List Err),
      shardRun rd fuel root values k rest i snap es = .ok res →
      ∃ calls, shardCalls rd fuel root values k rest i snap = .ok calls ∧
        res.1 = lastSnapshot snap calls := by
  intro rest
  induction rest with
  | nil =>
    intro i snap es res h
    simp only [shardRun, pure, Except.pure, Except.ok.injEq] at h
    subst h
    exact ⟨[], rfl, rfl⟩
  | cons key rest ih =>
    intro i snap es res h
    simp only [shardRun] at h
    simp only [shardCalls]
    by_cases hs : shardOf key = k
    · simp only [if_pos hs] at h ⊢
      cases hv : values.get? i with
      | none => rw [hv] at h; cases h
      | some value =>
        rw [hv] at h
        simp only [] at h ⊢
        cases ht : threadSafeUpdate rd fuel (if snap.isNil then root else snap) key value with
        | error e => rw [ht] at h; cases h
        | ok r =>
          obtain ⟨n, err, ev⟩ := r
          rw [ht] at h
          simp only [] at h ⊢
          obtain ⟨calls, hc, hl⟩ := ih (i + 1) n _ res h
          rw [hc]
          exact ⟨_, rfl, by rw [lastSnapshot_cons]; exact hl⟩
    · simp only [if_neg hs] at h ⊢
      exact ih (i + 1) snap es res h

/-- The log of one shard holds the indices of the pairs of the shard, each once, in
increasing order. -/
theorem shardCalls_indices (rd : Reader) (fuel : Nat) (root : Node)
    (keys values : List (List Nat)) (k : Nat) :
    ∀ (rest : List (List Nat)) (i : Nat) (snap : Node) (calls : List UpdateCall),
      keys.drop i = rest →
      shardCalls rd fuel root values k rest i snap = .ok calls →
      calls.map UpdateCall.index =
        (List.range' i rest.length).filter (fun j => decide (shardOf (keys.getD j []) = k)) := by
  intro rest
  induction rest with
  | nil =>
    intro i snap calls _ h
    simp only [shardCalls, pure, Except.pure, Except.ok.injEq] at h
    subst h
    rfl
  | cons key rest ih =>
    intro i snap calls hd h
    have hk : keys.getD i [] = key := by
      have h1 : keys[i]? = some key := by
        have h2 := congrArg (fun l => l[0]?) hd
        simpa using h2
      simp [List.getD_eq_getElem?_getD, h1]
    have hd1 : keys.drop (i + 1) = rest := by
      have h2 := congrArg (fun l => l.drop 1) hd
      simpa [Nat.add_comm] using h2
    have hr : List.range' i (key :: rest).length = i :: List.range' (i + 1) rest.length := by
      simp [List.range']
    rw [hr]
    simp only [shardCalls] at h
    simp only [List.filter_cons, hk]
    by_cases hs : shardOf key = k
    · have hdec : decide (shardOf key = k) = true := by simp [hs]
      simp only [if_pos hs] at h
      simp only [hdec, if_true]
      cases hv : values.get? i with
      | none => rw [hv] at h; cases h
      | some value =>
        rw [hv] at h
        simp only [] at h
        cases ht : threadSafeUpdate rd fuel (if snap.isNil then root else snap) key value with
        | error e => rw [ht] at h; cases h
        | ok r =>
          obtain ⟨n, err, ev⟩ := r
          rw [ht] at h
          simp only [] at h
          cases hc : shardCalls rd fuel root values k rest (i + 1) n with
          | error e => rw [hc] at h; cases h
          | ok cs =>
            rw [hc] at h
            simp only [pure, Except.pure, Except.ok.injEq] at h
            subst h
            simp only [List.map_cons]
            rw [ih (i + 1) n cs hd1 hc]
    · have hdec : decide (shardOf key = k) = false := by simp [hs]
      simp only [if_neg hs] at h
      simp only [hdec, Bool.false_eq_true, if_false]
      exact ih (i + 1) snap calls hd1 h

theorem shardCalls_shardIndices (rd : Reader) (fuel : Nat) (root : Node)
    (keys values : List (List Nat)) (k : Nat) (snap : Node) (calls : List UpdateCall)
    (h : shardCalls rd fuel root values k keys 0 snap = .ok calls) :
    calls.map UpdateCall.index = shardIndices keys k := by
  rw [shardCalls_indices rd fuel root keys values k keys 0 snap calls rfl h, shardIndices,
    List.range_eq_range']

/-- The root handed to every call of a shard: the snapshot of the shard, that is the node
the call before returned (`snap` at the first call), and the trie root when that is nil; and
every call is `threadSafeUpdate` on that root with the pair of its index. -/
theorem shardCalls_roots (rd : Reader) (fuel : Nat) (root : Node)
    (keys values : List (List Nat)) (k : Nat) :
    ∀ (rest : List (List Nat)) (i : Nat) (snap : Node) (calls : List UpdateCall),
      keys.drop i = rest →
      shardCalls rd fuel root values k rest i snap = .ok calls →
      (∀ a, calls.head? = some a → a.root = if snap.isNil then root else snap) ∧
      (∀ p a b, calls.get? p = some a → calls.get? (p + 1) = some b →
        b.root = if a.node.isNil then root else a.node) ∧
      (∀ a ∈ calls, ∃ value err ev, values.get? a.index = some value ∧
        threadSafeUpdate rd fuel a.root (keys.getD a.index []) value = .ok (a.node, err, ev)) := by
  intro rest
  induction rest with
  | nil =>
    intro i snap calls _ h
    simp only [shardCalls, pure, Except.pure, Except.ok.injEq] at h
    subst h
    refine ⟨fun a ha => (by cases ha), fun p a b ha => (by cases ha), fun a ha => (by cases ha)⟩
  | cons key rest ih =>
    intro i snap calls hd h
    have hk : keys.getD i [] = key := by
      have h1 : keys[i]? = some key := by
        have h2 := congrArg (fun l => l[0]?) hd
        simpa using h2
      simp [List.getD_eq_getElem?_getD, h1]
    have hd1 : keys.drop (i + 1) = rest := by
      have h2 := congrArg (fun l => l.drop 1) hd
      simpa [Nat.add_comm] using h2
    simp only [shardCalls] at h
    by_cases hs : shardOf key = k
    · simp only [if_pos hs] at h
      cases hv : values.get? i with
      | none => rw [hv] at h; cases h
      | some value =>
        rw [hv] at h
        simp only [] at h
        cases ht : threadSafeUpdate rd fuel (if snap.isNil then root else snap) key value with
        | error e => rw [ht] at h; cases h
        | ok r =>
          obtain ⟨n, err, ev⟩ := r
          rw [ht] at h
          simp only [] at h
          cases hc : shardCalls rd fuel root values k rest (i + 1) n with
          | error e => rw [hc] at h; cases h
          | ok cs =>
            rw [hc] at h
            simp only [pure, Except.pure, Except.ok.injEq] at h
            subst h
            obtain ⟨g1, g2, g3⟩ := ih (i + 1) n cs hd1 hc
            refine ⟨?_, ?_, ?_⟩
            · intro a ha
              simp only [List.head?_cons, Option.some.injEq] at ha
              subst ha
              rfl
            · intro p a b ha hb
              cases p with
              | zero =>
                simp only [List.get?_cons_zero, Option.some.injEq] at ha
                subst ha
                simp only [List.get?_cons_succ] at hb
                apply g1 b
                cases cs with
                | nil => cases hb
                | cons d ds =>
                  simp only [List.get?_cons_zero] at hb
                  exact hb
              | succ q =>
                simp only [List.get?_cons_succ] at ha hb
                exact g2 q a b ha hb
            · intro a ha
              rcases List.mem_cons.mp ha with ha | ha
              · subst ha
                exact ⟨value, err, ev, hv, by rw [hk]; exact ht⟩
              · exact g3 a ha
    · simp only [if_neg hs] at h
      exact ih (i + 1) snap calls hd1 h

/-- As long as no call of the shard returns a nil node, every call is made against the
shard's own snapshot root. -/
theorem shardCalls_own (rd : Reader) (fuel : Nat) (root : Node) (values : List (List Nat))
    (k : Nat) :
    ∀ (rest : List (List Nat)) (i : Nat) (snap : Node) (calls : List UpdateCall),
      shardCalls rd fuel root values k rest i snap = .ok calls →
      snap.isNil = false → (∀ a ∈ calls, a.node.isNil = false) →
      OwnSnapshotCalls snap calls := by
  intro rest
  induction rest with
  | nil =>
    intro i snap calls h _ _
    simp only [shardCalls, pure, Except.pure, Except.ok.injEq] at h
    subst h
    exact True.intro
  | cons key rest ih =>
    intro i snap calls h hn hall
    simp only [shardCalls] at h
    by_cases hs : shardOf key = k
    · simp only [if_pos hs] at h
      cases hv : values.get? i with
      | none => rw [hv] at h; cases h
      | some value =>
        rw [hv] at h
        simp only [] at h
        cases ht : threadSafeUpdate rd fuel (if snap.isNil then root else snap) key value with
        | error e => rw [ht] at h; cases h
        | ok r =>
          obtain ⟨n, err, ev⟩ := r
          rw [ht] at h
          simp only [] at h
          cases hc : shardCalls rd fuel root values k rest (i + 1) n with
          | error e => rw [hc] at h; cases h
          | ok cs =>
            rw [hc] at h
            simp only [pure, Except.pure, Except.ok.injEq] at h
            subst h
            have hn1 : n.isNil = false := hall _ (List.mem_cons_self _ _)
            refine ⟨?_, ih (i + 1) n cs hc hn1 (fun a ha => hall a (List.mem_cons_of_mem _ ha))⟩
            show (if snap.isNil then root else snap) = snap
            rw [hn]
            rfl
    · simp only [if_neg hs] at h
      exact ih (i + 1) snap calls h hn hall

theorem shardIndices_count (keys : List (List Nat)) (i k : Nat) (hi : i < keys.length) :
    (shardIndices keys k).count i = if k = shardOf (keys.getD i []) then 1 else 0 := by
  have hn : (shardIndices keys k).Nodup := (List.nodup_range _).filter _
  by_cases hk : k = shardOf (keys.getD i [])
  · rw [if_pos hk]
    apply List.count_eq_one_of_mem hn
    simp only [shardIndices, List.mem_filter, List.mem_range, decide_eq_true_eq]
    exact ⟨hi, hk.symm⟩
  · rw [if_neg hk]
    apply List.count_eq_zero_of_not_mem
    simp only [shardIndices, List.mem_filter, List.mem_range, decide_eq_true_eq]
    exact fun h => hk h.2.symm

theorem shardIndices_sorted (keys : List (List Nat)) (k : Nat) :
    (shardIndices keys k).Pairwise (fun a b => a < b) :=
  (List.pairwise_lt_range _).filter _

theorem ParallelWorker_16_calls {σ : Type} (worker : Nat → Nat → Nat → σ → Run σ) (s : σ) :
    ParallelWorker 16 16 worker s =
      runCalls worker ((List.range 16).map (fun k => (k, k + 1, k))) s := by
  rw [ParallelWorker_eq_in_order, ParallelWorkerIn, runTasksIn_eq_runCalls, GenerateRanges_16]
  rfl

/-- The parts of the claim on the parallel phase that hold on every input: the scheduler runs
the 16 tasks `(k, k + 1, k)`; index `i` is in the index list of the shard of `keys[i]`, once,
and in no other, and the index lists are increasing; when the phase returns, the task of
shard `k` has made one call of `threadSafeUpdate` for every index of its list, in this
order, and slot `k` holds the node returned by the last of them; every call is the update
of its own pair on the root it was handed; and the calls were all made against the shard's
own snapshot root if none of them returned a nil node. -/
theorem parallel_phase_calls (rd : Reader) (fuel : Nat) (root : Node)
    (ch : Nibble → Node) (keys values : List (List Nat)) (tr : List TraceEvent) :
    (∀ s, ParallelWorker 16 16 (inserters rd fuel root keys values) s =
      runCalls (inserters rd fuel root keys values)
        ((List.range 16).map (fun k => (k, k + 1, k))) s) ∧
    (∀ i, i < keys.length → shardOf (keys.getD i []) < 16 ∧
      ∀ k, (shardIndices keys k).count i = if k = shardOf (keys.getD i []) then 1 else 0) ∧
    (∀ k, (shardIndices keys k).Pairwise (fun a b => a < b)) ∧
    (∀ s, ParallelWorker 16 16 (inserters rd fuel root keys values)
        ⟨(List.range 16).map (seedSnapshot ch), List.replicate 16 none, tr⟩ = .ok s →
      ∀ k, k < 16 → ∃ calls,
        shardCalls rd fuel root values k keys 0 (seedSnapshot ch k) = .ok calls ∧
        calls.map UpdateCall.index = shardIndices keys k ∧
        s.rootSnapshots.getD k Node.nil = lastSnapshot (seedSnapshot ch k) calls ∧
        (∀ a ∈ calls, ∃ value err ev, values.get? a.index = some value ∧
          threadSafeUpdate rd fuel a.root (keys.getD a.index []) value
            = .ok (a.node, err, ev)) ∧
        ((∀ a ∈ calls, a.node.isNil = false) → OwnSnapshotCalls (seedSnapshot ch k) calls) ∧
        (∀ p a b, calls.get? p = some a → calls.get? (p + 1) = some b →
          a.node.isNil = true → b.root = root)) := by
  refine ⟨fun s => ParallelWorker_16_calls _ s, ?_, fun k => shardIndices_sorted keys k, ?_⟩
  · intro i hi
    exact ⟨shardOf_lt _, fun k => shardIndices_count keys i k hi⟩
  · intro s hs k hk
    obtain ⟨_, _, h3⟩ := parallel_phase_spec rd fuel root ch keys values tr s hs
    obtain ⟨snap, es, g1, g2, _⟩ := h3 k hk
    obtain ⟨calls, hc, hl⟩ := shardRun_calls rd fuel root values k keys 0 _ _ _ g1
    obtain ⟨_, r2, r3⟩ := shardCalls_roots rd fuel root keys values k keys 0 _ calls rfl hc
    refine ⟨calls, hc, shardCalls_shardIndices rd fuel root keys values k _ calls hc, ?_, r3,
      ?_, ?_⟩
    · rw [g2]
      exact hl
    · intro hall
      exact shardCalls_own rd fuel root values k keys 0 _ calls hc rfl hall
    · intro p a b ha hb hn
      rw [r2 p a b ha hb, if_pos hn]

/-- C29 fails on the code after a failed pair. The trie has a branch root whose child 0 is a
branch with two hash references that the database does not hold; the batch
`[2]→[1], [3]→[2], [0]→[9], [4]→[3]` lies in shard 0. The bootstrap returns and leaves a
branch root; the phase returns; the task of shard 0 makes one call for each of the indices
0, 1, 2, 3, in this order; the calls 0, 1 and 2 are made against the snapshot of the shard;
call 2 fails on the missing node and returns a nil node; call 3 is then made against the
root of the trie, which holds the children of the other shards and not the pair of index 1,
so the calls are not all made against the shard's own snapshot root, and slot 0 ends with
the node returned by call 3. After `ParallelUpdate`, whose error slot 0 holds the error of
index 2, the key `[3]` of index 1 reads back empty although its update returned no error,
while the keys `[2]` and `[4]` read back their values; the same pairs applied one at a time
through the engine's `Update` leave the value `[2]` under the key `[3]`. -/
theorem ParallelUpdate_failed_pair_reseeds :
    (∃ t1 s a0 a1 a2 a3,
      initSubRoots 0 (memTrie twoDanglingRoot) [[2], [3], [0], [4]] [[1], [2], [9], [3]]
        = .ok (t1, false) ∧
      t1.root.isFull = true ∧
      ParallelWorker 16 16
        (inserters t1.reader 0 t1.root [[2], [3], [0], [4]] [[1], [2], [9], [3]])
        ⟨(List.range 16).map (seedSnapshot t1.root.child), List.replicate 16 none, t1.tracer⟩
        = .ok s ∧
      shardCalls t1.reader 0 t1.root [[1], [2], [9], [3]] 0 [[2], [3], [0], [4]] 0
        (seedSnapshot t1.root.child 0) = .ok [a0, a1, a2, a3] ∧
      [a0, a1, a2, a3].map UpdateCall.index = [0, 1, 2, 3] ∧
      a0.root = seedSnapshot t1.root.child 0 ∧ a1.root = a0.node ∧ a2.root = a1.node ∧
      a2.node = Node.nil ∧ a3.root = t1.root ∧
      (a1.node.child 1).isNil = true ∧ (t1.root.child 1).isNil = false ∧
      ¬ OwnSnapshotCalls (seedSnapshot t1.root.child 0) [a0, a1, a2, a3] ∧
      s.rootSnapshots.getD 0 Node.nil = a3.node) ∧
    (∃ errs t', ParallelUpdate 0 (memTrie twoDanglingRoot) [[2], [3], [0], [4]]
        [[1], [2], [9], [3]] = .ok (errs, t') ∧
      errs.getD 0 none = some (Err.missingNode [7] [0, 0]) ∧
      (∃ t2, t'.Get 0 [3] = .ok ([], none, t2)) ∧
      (∃ t2, t'.Get 0 [2] = .ok ([1], none, t2)) ∧
      (∃ t2, t'.Get 0 [4] = .ok ([3], none, t2))) ∧
    (∃ t'', UpdateAll 0 (memTrie twoDanglingRoot)
        [([2], [1]), ([3], [2]), ([0], [9]), ([4], [3])] = .ok t'' ∧
      ∃ t3, t''.Get 0 [3] = .ok ([2], none, t3)) := by
  have ha : (initSubRoots 0 (memTrie twoDanglingRoot) [[2], [3], [0], [4]]
      [[1], [2], [9], [3]]).check (fun r =>
        !r.2 && r.1.root.isFull && !(r.1.root.child 1).isNil &&
        (List.range 16).all (fun k =>
          (shardRun r.1.reader 0 r.1.root [[1], [2], [9], [3]] k [[2], [3], [0], [4]] 0
            (seedSnapshot r.1.root.child k) []).check (fun _ => true)) &&
        (shardCalls r.1.reader 0 r.1.root [[1], [2], [9], [3]] 0 [[2], [3], [0], [4]] 0
          (seedSnapshot r.1.root.child 0)).check (fun calls =>
            match calls with
            | [b0, b1, b2, _] =>
              !b0.node.isNil && !b1.node.isNil && b2.node.isNil && (b1.node.child 1).isNil
            | _ => false)) = true := by
    decide!
  have hb : (ParallelUpdate 0 (memTrie twoDanglingRoot) [[2], [3], [0], [4]]
      [[1], [2], [9], [3]]).check (fun r =>
        decide (r.1.getD 0 none = some (Err.missingNode [7] [0, 0])) &&
        (r.2.Get 0 [3]).check (fun g => decide (g.1 = []) && decide (g.2.1 = none)) &&
        (r.2.Get 0 [2]).check (fun g => decide (g.1 = [1]) && decide (g.2.1 = none)) &&
        (r.2.Get 0 [4]).check (fun g => decide (g.1 = [3]) && decide (g.2.1 = none))) = true := by
    decide!
  have hc : (UpdateAll 0 (memTrie twoDanglingRoot)
      [([2], [1]), ([3], [2]), ([0], [9]), ([4], [3])]).check (fun t =>
        (t.Get 0 [3]).check (fun g => decide (g.1 = [2]) && decide (g.2.1 = none))) = true := by
    decide!
  refine ⟨?_, ?_, ?_⟩
  · obtain ⟨r, hr, hp⟩ := Run.check_ok ha
    obtain ⟨t1, b⟩ := r
    simp only [Bool.and_eq_true, Bool.not_eq_true', List.all_eq_true, List.mem_range] at hp
    obtain ⟨⟨⟨⟨hb0, hfull⟩, hch⟩, hall⟩, hcalls⟩ := hp
    have hb1 : b = false := hb0
    subst hb1
    have hfull1 : t1.root.isFull = true := hfull
    have hch1 : (t1.root.child 1).isNil = false := hch
    obtain ⟨calls, hcs, hm⟩ := Run.check_ok hcalls
    obtain ⟨s, hs⟩ := parallel_phase_returns t1.reader 0 t1.root t1.root.child
      [[2], [3], [0], [4]] [[1], [2], [9], [3]] t1.tracer (fun k hk => by
        obtain ⟨res, hres, _⟩ := Run.check_ok (hall k hk)
        exact ⟨res, hres⟩)
    obtain ⟨_, _, _, h4⟩ := parallel_phase_calls t1.reader 0 t1.root t1.root.child
      [[2], [3], [0], [4]] [[1], [2], [9], [3]] t1.tracer
    obtain ⟨calls1, g1, g2, g3, _, _, g6⟩ := h4 s hs 0 (by decide)
    rw [hcs] at g1
    simp only [Except.ok.injEq] at g1
    subst g1
    obtain ⟨r1, r2, _⟩ := shardCalls_roots t1.reader 0 t1.root [[2], [3], [0], [4]]
      [[1], [2], [9], [3]] 0 [[2], [3], [0], [4]] 0 _ calls rfl hcs
    match calls, hm, hcs, g2, g3, g6, r1, r2 with
    | [a0, a1, a2, a3], hm, hcs, g2, g3, g6, r1, r2 =>
      simp only [Bool.and_eq_true, Bool.not_eq_true'] at hm
      obtain ⟨⟨⟨n0, n1⟩, n2⟩, n3⟩ := hm
      have e0 : a0.root = seedSnapshot t1.root.child 0 := r1 a0 rfl
      have e1 : a1.root = a0.node := by rw [r2 0 a0 a1 rfl rfl, n0]; rfl
      have e2 : a2.root = a1.node := by rw [r2 1 a1 a2 rfl rfl, n1]; rfl
      have e3 : a3.root = t1.root := g6 2 a2 a3 rfl rfl n2
      refine ⟨t1, s, a0, a1, a2, a3, hr, hfull1, hs, hcs, ?_, e0, e1, e2,
        Node.eq_nil_of_isNil _ n2, e3, n3, hch1, ?_, g3⟩
      · have hi : shardIndices [[2], [3], [0], [4]] 0 = [0, 1, 2, 3] := by decide
        rw [g2, hi]
      · intro hown
        have h3 : a3.root = a2.node := hown.2.2.2.1
        rw [e3, Node.eq_nil_of_isNil _ n2] at h3
        rw [h3] at hfull1
        cases hfull1
  · obtain ⟨r, h1, hp⟩ := Run.check_ok hb
    simp only [Bool.and_eq_true, decide_eq_true_eq] at hp
    obtain ⟨⟨⟨he, hg1⟩, hg2⟩, hg3⟩ := hp
    obtain ⟨g1, e1, p1⟩ := Run.check_ok hg1
    obtain ⟨g2, e2, p2⟩ := Run.check_ok hg2
    obtain ⟨g3, e3, p3⟩ := Run.check_ok hg3
    simp only [Bool.and_eq_true, decide_eq_true_eq] at p1 p2 p3
    refine ⟨r.1, r.2, h1, he, ⟨g1.2.2, ?_⟩, ⟨g2.2.2, ?_⟩, ⟨g3.2.2, ?_⟩⟩
    · rw [e1, ← p1.1, ← p1.2]
    · rw [e2, ← p2.1, ← p2.2]
    · rw [e3, ← p3.1, ← p3.2]
  · obtain ⟨t, h1, hp⟩ := Run.check_ok hc
    obtain ⟨g, e, p⟩ := Run.check_ok hp
    simp only [Bool.and_eq_true, decide_eq_true_eq] at p
    refine ⟨t, h1, g.2.2, ?_⟩
    rw [e, ← p.1, ← p.2]

/-! ## One update on a branch root leaves the other child slots alone -/

theorem insertAux_full_frame (rd : Reader)
    (onHash : Node → List Nibble → List Nibble → Node → Run UpdRes) (c : Nibble → Node)
    (pfx key : List Nibble) (v : List Nat) (r : UpdRes)
    (h : insertAux rd onHash (Node.full c) pfx key (Node.value v) = .ok r)
    (c1 : Nibble → Node) (hn : r.node = Node.full c1) :
    ∀ j, key.head? ≠ some j → c1 j = c j := by
  intro j hj
  cases key with
  | nil =>
    simp only [insertAux, pure, Except.pure, Except.ok.injEq] at h
    rw [← h] at hn
    cases hn
  | cons a rest =>
    have hja : j ≠ a := fun e => hj (by rw [e]; rfl)
    simp only [insertAux] at h
    cases h0 : insertAux rd onHash (c a) (pfx ++ [a]) rest (Node.value v) with
    | error s => rw [h0] at h; cases h
    | ok r0 =>
      rw [h0] at h
      simp only [] at h
      split at h
      · simp only [pure, Except.pure, Except.ok.injEq] at h
        rw [← h] at hn
        simp only [Node.full.injEq] at hn
        rw [← hn]
      · simp only [pure, Except.pure, Except.ok.injEq] at h
        rw [← h] at hn
        simp only [Node.full.injEq] at hn
        rw [← hn, Function.update_noteq hja]

theorem insert_full_frame (rd : Reader) (fuel : Nat) (c : Nibble → Node)
    (pfx key : List Nibble) (v : List Nat) (r : UpdRes)
    (h : insert rd fuel (Node.full c) pfx key (Node.value v) = .ok r)
    (c1 : Nibble → Node) (hn : r.node = Node.full c1) :
    ∀ j, key.head? ≠ some j → c1 j = c j := by
  cases fuel with
  | zero => exact insertAux_full_frame rd _ c pfx key v r h c1 hn
  | succ f => exact insertAux_full_frame rd _ c pfx key v r h c1 hn

theorem reduceFull_full (rd : Reader) (pfx : List Nibble) (c : Nibble → Node)
    (events : List TraceEvent) (r : UpdRes) (h : reduceFull rd pfx c events = .ok r)
    (c1 : Nibble → Node) (hn : r.node = Node.full c1) : c1 = c := by
  unfold reduceFull at h
  split at h
  · split at h
    · split at h
      · split at h
        · simp only [pure, Except.pure, Except.ok.injEq] at h
          rw [← h] at hn
          cases hn
        · split at h
          · cases h
          · simp only [pure, Except.pure, Except.ok.injEq] at h
            rw [← h] at hn
            cases hn
          · simp only [pure, Except.pure, Except.ok.injEq] at h
            rw [← h] at hn
            cases hn
      · simp only [pure, Except.pure, Except.ok.injEq] at h
        rw [← h] at hn
        cases hn
      · simp only [pure, Except.pure, Except.ok.injEq] at h
        rw [← h] at hn
        cases hn
    · simp only [pure, Except.pure, Except.ok.injEq] at h
      rw [← h] at hn
      cases hn
  · simp only [pure, Except.pure, Except.ok.injEq] at h
    rw [← h] at hn
    simp only [Node.full.injEq] at hn
    exact hn.symm

theorem deleteAux_full_frame (rd : Reader)
    (onHash : Node → List Nibble → List Nibble → Run UpdRes) (c : Nibble → Node)
    (pfx key : List Nibble) (r : UpdRes)
    (h : deleteAux rd onHash (Node.full c) pfx key = .ok r)
    (c1 : Nibble → Node) (hn : r.node = Node.full c1) :
    ∀ j, key.head? ≠ some j → c1 j = c j := by
  intro j hj
  cases key with
  | nil =>
    simp only [deleteAux] at h
    cases h
  | cons a rest =>
    have hja : j ≠ a := fun e => hj (by rw [e]; rfl)
    simp only [deleteAux] at h
    cases h0 : deleteAux rd onHash (c a) (pfx ++ [a]) rest with
    | error s => rw [h0] at h; cases h
    | ok r0 =>
      rw [h0] at h
      simp only [] at h
      split at h
      · simp only [pure, Except.pure, Except.ok.injEq] at h
        rw [← h] at hn
        simp only [Node.full.injEq] at hn
        rw [← hn]
      · split at h
        · simp only [pure, Except.pure, Except.ok.injEq] at h
          rw [← h] at hn
          simp only [Node.full.injEq] at hn
          rw [← hn, Function.update_noteq hja]
        · rw [reduceFull_full rd pfx _ _ r h c1 hn, Function.update_noteq hja]

theorem delete_full_frame (rd : Reader) (fuel : Nat) (c : Nibble → Node)
    (pfx key : List Nibble) (r : UpdRes)
    (h : delete rd fuel (Node.full c) pfx key = .ok r)
    (c1 : Nibble → Node) (hn : r.node = Node.full c1) :
    ∀ j, key.head? ≠ some j → c1 j = c j := by
  cases fuel with
  | zero => exact deleteAux_full_frame rd _ c pfx key r h c1 hn
  | succ f => exact deleteAux_full_frame rd _ c pfx key r h c1 hn

/-- One `Update` on a trie whose root is a branch, when it leaves a branch root: only the
child slot of the first nibble of the key may differ. -/
theorem Update_full_frame (fuel : Nat) (t t1 : Trie) (key value : List Nat) (e : Option Err)
    (c c1 : Nibble → Node) (hr : t.root = Node.full c)
    (h : t.Update fuel key value = .ok (t1, e)) (hr1 : t1.root = Node.full c1) :
    ∀ j, (keybytesToHex key).head? ≠ some j → c1 j = c j := by
  intro j hj
  simp only [Trie.Update] at h
  split at h
  · simp only [pure, Except.pure, Except.ok.injEq, Prod.mk.injEq] at h
    rw [← h.1, hr] at hr1
    simp only [Node.full.injEq] at hr1
    rw [← hr1]
  · simp only [Trie.update, hr] at h
    split at h
    · cases h1 : insert t.reader fuel (Node.full c) [] (keybytesToHex key) (Node.value value) with
      | error s => rw [h1] at h; cases h
      | ok r =>
        rw [h1] at h
        simp only [] at h
        cases he : r.err with
        | some e1 =>
          rw [he] at h
          simp only [pure, Except.pure, Except.ok.injEq, Prod.mk.injEq] at h
          rw [← h.1] at hr1
          simp only [hr, Node.full.injEq] at hr1
          rw [← hr1]
        | none =>
          rw [he] at h
          simp only [pure, Except.pure, Except.ok.injEq, Prod.mk.injEq] at h
          rw [← h.1] at hr1
          exact insert_full_frame _ _ _ _ _ _ r h1 c1 hr1 j hj
    · cases h1 : delete t.reader fuel (Node.full c) [] (keybytesToHex key) with
      | error s => rw [h1] at h; cases h
      | ok r =>
        rw [h1] at h
        simp only [] at h
        cases he : r.err with
        | some e1 =>
          rw [he] at h
          simp only [pure, Except.pure, Except.ok.injEq, Prod.mk.injEq] at h
          rw [← h.1] at hr1
          simp only [hr, Node.full.injEq] at hr1
          rw [← hr1]
        | none =>
          rw [he] at h
          simp only [pure, Except.pure, Except.ok.injEq, Prod.mk.injEq] at h
          rw [← h.1] at hr1
          exact delete_full_frame _ _ _ _ _ r h1 c1 hr1 j hj

/-! ## The bootstrap updates and the merge, slot by slot -/

/-- The bootstrap loop is the run of `Update` over the bootstrap pairs. -/
theorem initSubRootsLoop_eq_UpdateAll (fuel : Nat) (values : List (List Nat)) :
    ∀ (rest : List (List Nat)) (i : Nat) (intialized : List Bool) (t t1 : Trie),
      initSubRootsLoop fuel values rest i intialized t = .ok t1 →
      UpdateAll fuel t (bootPairs (rest.zip (values.drop i)) intialized) = .ok t1 := by
  intro rest
  induction rest with
  | nil =>
    intro i init t t1 h
    simpa [initSubRootsLoop, bootPairs, UpdateAll] using h
  | cons key rest ih =>
    intro i init t t1 h
    simp only [initSubRootsLoop] at h
    by_cases hb : (!(init.getD (shardOf key) true)) = true
    · rw [if_pos hb] at h
      cases hv : values.get? i with
      | none => rw [hv] at h; cases h
      | some value =>
        rw [hv] at h
        simp only [] at h
        have hd : values.drop i = value :: values.drop (i + 1) := by
          rw [List.get?_eq_getElem?] at hv
          obtain ⟨hlt, hval⟩ := List.getElem?_eq_some_iff.mp hv
          rw [← hval]
          exact List.drop_eq_getElem_cons hlt
        rw [hd]
        simp only [List.zip_cons_cons, bootPairs, if_pos hb, UpdateAll]
        cases hu : t.Update fuel key value with
        | error s => rw [hu] at h; cases h
        | ok r =>
          obtain ⟨t2, e⟩ := r
          rw [hu] at h
          exact ih (i + 1) _ t2 t1 h
    · rw [if_neg hb] at h
      have h2 := ih (i + 1) init t t1 h
      cases hd : values.drop i with
      | nil =>
        have hd1 : values.drop (i + 1) = [] := by
          have hl : values.length ≤ i := List.drop_eq_nil_iff.mp hd
          exact List.drop_eq_nil_iff.mpr (by omega)
        rw [hd1] at h2
        simpa [bootPairs] using h2
      | cons v tl =>
        have hd1 : values.drop (i + 1) = tl := by
          have h3 := congrArg (fun l => l.drop 1) hd
          simpa [Nat.add_comm] using h3
        rw [hd1] at h2
        simp only [List.zip_cons_cons, bootPairs, if_neg hb]
        exact h2

/-- A run of updates on a branch root that leaves a branch root after every update changes
only the child slots of the first nibbles of its keys. -/
theorem UpdateAll_full_frame (fuel : Nat) :
    ∀ (P : List (List Nat × List Nat)) (t : Trie) (c : Nibble → Node), t.root = Node.full c →
      (∀ n tn, UpdateAll fuel t (P.take n) = .ok tn → tn.root.isFull = true) →
      ∀ t1, UpdateAll fuel t P = .ok t1 →
        ∃ c1, t1.root = Node.full c1 ∧
          ∀ j, (∀ p ∈ P, (keybytesToHex p.1).head? ≠ some j) → c1 j = c j := by
  intro P
  induction P with
  | nil =>
    intro t c hr _ t1 h
    simp only [UpdateAll, pure, Except.pure, Except.ok.injEq] at h
    subst h
    exact ⟨c, hr, fun _ _ => rfl⟩
  | cons p rest ih =>
    intro t c hr hH t1 h
    obtain ⟨k, v⟩ := p
    simp only [UpdateAll] at h
    cases hu : t.Update fuel k v with
    | error s => rw [hu] at h; cases h
    | ok r =>
      obtain ⟨t2, e⟩ := r
      rw [hu] at h
      simp only [] at h
      have hf2 : t2.root.isFull = true := by
        apply hH 1 t2
        simp only [List.take_succ_cons, List.take_zero, UpdateAll, hu]
        rfl
      cases hr2 : t2.root with
      | full c2 =>
        have hH2 : ∀ n tn, UpdateAll fuel t2 (rest.take n) = .ok tn → tn.root.isFull = true := by
          intro n tn hn
          apply hH (n + 1) tn
          simp only [List.take_succ_cons, UpdateAll, hu]
          exact hn
        obtain ⟨c1, g1, g2⟩ := ih t2 c2 hr2 hH2 t1 h
        refine ⟨c1, g1, ?_⟩
        intro j hj
        rw [g2 j (fun p hp => hj p (List.mem_cons_of_mem _ hp))]
        exact Update_full_frame fuel t t2 k v e c c2 hr hu hr2 j
          (hj (k, v) (List.mem_cons_self _ _))
      | nil => rw [hr2] at hf2; cases hf2
      | value _ => rw [hr2] at hf2; cases hf2
      | short _ _ => rw [hr2] at hf2; cases hf2
      | hash _ => rw [hr2] at hf2; cases hf2

theorem toNibble_inj_lt (i j : Nat) (hi : i < 16) (hj : j < 16) (h : toNibble i = toNibble j) :
    i = j := by
  have h1 := congrArg Fin.val h
  simp only [toNibble] at h1
  omega

theorem hexHead_ne_of_shard (key : List Nat) (j : Nat) (hj : j < 16) (hs : shardOf key ≠ j) :
    (keybytesToHex key).head? ≠ some (toNibble j) := by
  cases key with
  | nil =>
    intro h
    simp only [keybytesToHex, List.head?_cons, Option.some.injEq] at h
    have h1 := congrArg Fin.val h
    simp only [toNibble, term16] at h1
    omega
  | cons b rest =>
    intro h
    simp only [keybytesToHex, List.head?_cons, Option.some.injEq] at h
    exact hs (toNibble_inj_lt _ _ (shardOf_lt (b :: rest)) hj h)

/-- The merge loop: a slot that is not listed keeps its child, and a listed slot `i` takes
child `i` of snapshot `i`. -/
theorem mergeLoop_spec (snaps : List Node) :
    ∀ (l : List Nat) (c0 c1 : Nibble → Node), mergeLoop snaps l c0 = .ok c1 →
      (∀ j : Nibble, (∀ i ∈ l, toNibble i ≠ j) → c1 j = c0 j) ∧
      (l.Nodup → (∀ i ∈ l, i < 16) → ∀ i ∈ l, ∃ sc, snaps.getD i Node.nil = Node.full sc ∧
        c1 (toNibble i) = sc (toNibble i)) := by
  intro l
  induction l with
  | nil =>
    intro c0 c1 h
    simp only [mergeLoop, pure, Except.pure, Except.ok.injEq] at h
    subst h
    exact ⟨fun _ _ => rfl, fun _ _ i hi => by cases hi⟩
  | cons i rest ih =>
    intro c0 c1 h
    simp only [mergeLoop] at h
    cases hs : snaps.getD i Node.nil with
    | full sc =>
      rw [hs] at h
      simp only [] at h
      obtain ⟨g1, g2⟩ := ih _ c1 h
      refine ⟨?_, ?_⟩
      · intro j hj
        rw [g1 j (fun x hx => hj x (List.mem_cons_of_mem _ hx)),
          Function.update_noteq (fun e => hj i (List.mem_cons_self _ _) e.symm)]
      · intro hnd hlt x hx
        have hnd2 := List.nodup_cons.mp hnd
        rcases List.mem_cons.mp hx with e | e
        · subst e
          refine ⟨sc, hs, ?_⟩
          rw [g1 (toNibble x) (fun y hy e => hnd2.1 (by
            have := toNibble_inj_lt y x (hlt y (List.mem_cons_of_mem _ hy))
              (hlt x (List.mem_cons_self _ _)) e
            rw [← this]; exact hy)), Function.update_same]
        · exact g2 hnd2.2 (fun y hy => hlt y (List.mem_cons_of_mem _ hy)) x e
    | nil => rw [hs] at h; cases h
    | value _ => rw [hs] at h; cases h
    | short _ _ => rw [hs] at h; cases h
    | hash _ => rw [hs] at h; cases h

theorem mergeLoop_range_spec (snaps : List Node) (c0 c1 : Nibble → Node)
    (h : mergeLoop snaps (List.range 16) c0 = .ok c1) :
    c1 term16 = c0 term16 ∧
      ∀ j, j < 16 → ∃ sc, snaps.getD j Node.nil = Node.full sc ∧
        c1 (toNibble j) = sc (toNibble j) := by
  obtain ⟨g1, g2⟩ := mergeLoop_spec snaps (List.range 16) c0 c1 h
  refine ⟨g1 term16 ?_, ?_⟩
  · intro i hi e
    have hi2 := List.mem_range.mp hi
    have h1 := congrArg Fin.val e
    simp only [toNibble, term16] at h1
    omega
  · intro j hj
    exact g2 (List.nodup_range 16) (fun i hi => List.mem_range.mp hi) j (List.mem_range.mpr hj)

/-! ## The frame of `ParallelUpdate` (C30) -/

theorem Node.isFull_iff (n : Node) (h : n.isFull = true) : ∃ c, n = Node.full c := by
  cases n with
  | full c => exact ⟨c, rfl⟩
  | nil => cases h
  | value _ => cases h
  | short _ _ => cases h
  | hash _ => cases h

theorem shardIndices_eq_nil (keys : List (List Nat)) (j : Nat)
    (h : ∀ key ∈ keys, shardOf key ≠ j) : shardIndices keys j = [] := by
  simp only [shardIndices, List.filter_eq_nil_iff, List.mem_range, decide_eq_true_eq]
  intro i hi
  apply h
  rw [List.getD_eq_getElem?_getD, List.getElem?_eq_getElem hi]
  exact List.getElem_mem hi

/-- C30, as amended: for a trie whose root is a 16-way branch and still is one after each of
the bootstrap updates of `initSubRoots`, a call of `ParallelUpdate` that returns leaves a
branch root in which, for every nibble `j` that is the shard index of no key of the batch,
child slot `j` is the node it was before the call; and the merge loop leaves slot 16 alone
and writes into each slot `j` of 0..15 child `j` of the snapshot of shard `j`. -/
theorem ParallelUpdate_frame (fuel : Nat) (t : Trie) (keys values : List (List Nat))
    (errs : List (Option Err)) (t1 : Trie)
    (hboot : ∀ n tn, UpdateAll fuel t
      ((bootPairs (keys.zip values) (List.replicate 16 false)).take n) = .ok tn →
      tn.root.isFull = true)
    (hrun : ParallelUpdate fuel t keys values = .ok (errs, t1)) :
    t.root.isFull = true ∧ t1.root.isFull = true ∧
    (∀ j, j < 16 → (∀ key ∈ keys, shardOf key ≠ j) →
      t1.root.child (toNibble j) = t.root.child (toNibble j)) ∧
    (∀ snaps c0 c1, mergeLoop snaps (List.range 16) c0 = .ok c1 →
      c1 term16 = c0 term16 ∧
      ∀ j, j < 16 → ∃ sc, snaps.getD j Node.nil = Node.full sc ∧
        c1 (toNibble j) = sc (toNibble j)) := by
  have hf0 : t.root.isFull = true := hboot 0 t rfl
  suffices hmain : t1.root.isFull = true ∧ (∀ j, j < 16 → (∀ key ∈ keys, shardOf key ≠ j) →
      t1.root.child (toNibble j) = t.root.child (toNibble j)) from
    ⟨hf0, hmain.1, hmain.2, fun snaps c0 c1 h => mergeLoop_range_spec snaps c0 c1 h⟩
  obtain ⟨c, hc⟩ := Node.isFull_iff _ hf0
  simp only [ParallelUpdate] at hrun
  by_cases h0 : keys.length = 0 ∨ values.length = 0
  · rw [if_pos h0] at hrun
    simp only [pure, Except.pure, Except.ok.injEq, Prod.mk.injEq] at hrun
    rw [← hrun.2]
    exact ⟨hf0, fun _ _ _ => rfl⟩
  · rw [if_neg h0] at hrun
    simp only [initSubRoots] at hrun
    cases hl : initSubRootsLoop fuel values keys 0 (List.replicate 16 false) t with
    | error s => rw [hl] at hrun; cases hrun
    | ok t2 =>
      rw [hl] at hrun
      have hU := initSubRootsLoop_eq_UpdateAll fuel values keys 0 _ t t2 hl
      rw [List.drop_zero] at hU
      have hf2 : t2.root.isFull = true := by
        apply hboot (bootPairs (keys.zip values) (List.replicate 16 false)).length t2
        rw [List.take_length]
        exact hU
      obtain ⟨c2, hc2, hfr⟩ := UpdateAll_full_frame fuel _ t c hc hboot t2 hU
      have hns : t2.root.isShort = false := by rw [hc2]; rfl
      simp only [pure, Except.pure] at hrun
      rw [hns] at hrun
      simp only [] at hrun
      rw [hc2] at hrun
      simp only [] at hrun
      cases hw : ParallelWorker 16 16 (inserters t2.reader fuel (Node.full c2) keys values)
          ⟨(List.range 16).map (seedSnapshot c2), List.replicate 16 none, t2.tracer⟩ with
      | error s => rw [hw] at hrun; cases hrun
      | ok s =>
        rw [hw] at hrun
        simp only [] at hrun
        cases hm : mergeLoop s.rootSnapshots (List.range 16) c2 with
        | error e => rw [hm] at hrun; cases hrun
        | ok c3 =>
          rw [hm] at hrun
          simp only [Except.ok.injEq, Prod.mk.injEq] at hrun
          rw [← hrun.2]
          refine ⟨rfl, ?_⟩
          intro j hj hk
          show c3 (toNibble j) = t.root.child (toNibble j)
          rw [hc]
          show c3 (toNibble j) = c (toNibble j)
          obtain ⟨_, g2⟩ := mergeLoop_range_spec _ _ _ hm
          obtain ⟨sc, e1, e2⟩ := g2 j hj
          obtain ⟨_, _, h3⟩ := parallel_phase_spec _ _ _ c2 keys values _ s hw
          obtain ⟨snap, es, k1, k2, _⟩ := h3 j hj
          rw [shardRun_no_keys _ _ _ _ j keys 0 _ _ hk] at k1
          simp only [Except.ok.injEq, Prod.mk.injEq] at k1
          rw [← k1.1, e1] at k2
          simp only [seedSnapshot, Node.full.injEq] at k2
          rw [e2, k2, Function.update_same]
          apply hfr
          intro p hp
          have hp2 := bootPairs_mem _ _ p hp
          have hp3 : p.1 ∈ keys := (List.of_mem_zip hp2).1
          exact hexHead_ne_of_shard p.1 j hj (hk p.1 hp3)

/-- C30 as stated fails.  The root is a branch with leaves in the slots 1 and 3; the batch
deletes the only key below slot 3 (key byte `0x30`), so no key of the batch has shard
index 1.  The bootstrap `Update` removes the leaf of slot 3, the engine collapses the branch
with the one child left into a short node, and `ParallelUpdate` takes its sequential path:
after the call the root is the leaf `[1, 0, 16] → [9]`, no branch, and the node that was in
child slot 1 (the leaf `[0, 16] → [9]`) is no longer a child of the root. -/
theorem ParallelUpdate_frame_counterexample :
    (memTrie (Node.full exampleBranch)).root.isFull = true ∧
    (∀ key ∈ [[48]], shardOf key ≠ 1) ∧
    ∃ errs t1, ParallelUpdate 0 (memTrie (Node.full exampleBranch)) [[48]] [[]]
        = .ok (errs, t1) ∧
      t1.root = Node.short [1, 0, term16] (Node.value [9]) ∧ t1.root.isFull = false ∧
      (memTrie (Node.full exampleBranch)).root.child 1
        = Node.short [0, term16] (Node.value [9]) ∧
      t1.root.child 1 = Node.nil := by
  refine ⟨rfl, by decide, _, _, rfl, rfl, rfl, rfl, rfl⟩

theorem exampleBranch_boot_full :
    ∀ n, n < 2 → Run.check (UpdateAll 0 (memTrie (Node.full exampleBranch))
      ((bootPairs ([[16], [17]].zip [[5], []]) (List.replicate 16 false)).take n))
      (fun tn => tn.root.isFull) = true := by
  decide!

theorem exampleBranch_update_returns :
    Run.check (ParallelUpdate 0 (memTrie (Node.full exampleBranch)) [[16], [17]] [[5], []])
      (fun _ => true) = true := by
  decide!

theorem ParallelUpdate_frame_witness :
    (∀ key ∈ [[16], [17]], shardOf key ≠ 3) ∧
    ∃ errs t1, ParallelUpdate 0 (memTrie (Node.full exampleBranch)) [[16], [17]] [[5], []]
        = .ok (errs, t1) ∧ t1.root.isFull = true ∧
      t1.root.child (toNibble 3) = Node.short [0, term16] (Node.value [8]) := by
  have hk : ∀ key ∈ [[16], [17]], shardOf key ≠ 3 := by decide
  obtain ⟨a, ha, _⟩ := Run.check_ok exampleBranch_update_returns
  obtain ⟨errs, t1⟩ := a
  have hboot : ∀ n tn, UpdateAll 0 (memTrie (Node.full exampleBranch))
      ((bootPairs ([[16], [17]].zip [[5], []]) (List.replicate 16 false)).take n) = .ok tn →
      tn.root.isFull = true := by
    intro n tn h
    have hn : (bootPairs ([[16], [17]].zip [[5], []]) (List.replicate 16 false)).take n =
        (bootPairs ([[16], [17]].zip [[5], []]) (List.replicate 16 false)).take (min n 1) := by
      have hl : (bootPairs ([[16], [17]].zip [[5], []]) (List.replicate 16 false)).length = 1 := by
        decide
      by_cases h1 : n ≤ 1
      · rw [Nat.min_eq_left h1]
      · rw [Nat.min_eq_right (by omega), List.take_of_length_le (by omega),
          List.take_of_length_le (by omega)]
    rw [hn] at h
    obtain ⟨b, hb, hp⟩ := Run.check_ok (exampleBranch_boot_full (min n 1) (by omega))
    rw [hb] at h
    cases h
    exact hp
  obtain ⟨_, h2, h3, _⟩ := ParallelUpdate_frame 0 (memTrie (Node.full exampleBranch))
    [[16], [17]] [[5], []] errs t1 hboot ha
  exact ⟨hk, errs, t1, ha, h2, h3 3 (by decide) hk⟩

/-! ## `Database.Find` and `Database.Commit` -/

theorem Database.shard_lt (hash : Nat) : Database.shard hash < 16 := by
  simp only [Database.shard, hiNibble]
  omega

theorem Database.FindLoop_none (node : Nat) :
    ∀ (dbs : List database) (i : Nat),
      (∀ d ∈ dbs, ¬ d.Has node) →
      Database.FindLoop dbs i node = (none, [], some DbErr.nodeNotFound) := by
  intro dbs
  induction dbs with
  | nil => intro i _; rfl
  | cons d rest ih =>
    intro i h
    have hd : ¬ d.Has node := h d (List.mem_cons_self _ _)
    have hc : ((d.Node node).2.isNone && decide ((d.Node node).1.length > 0)) = false := by
      cases hb : ((d.Node node).2.isNone && decide ((d.Node node).1.length > 0)) with
      | false => rfl
      | true =>
        exfalso
        simp only [Bool.and_eq_true, Option.isNone_iff_eq_none, decide_eq_true_eq] at hb
        exact hd hb
    simp only [Database.FindLoop, hc, Bool.false_eq_true, if_false]
    exact ih (i + 1) (fun x hx => h x (List.mem_cons_of_mem _ hx))

theorem Database.FindLoop_some (node : Nat) :
    ∀ (dbs : List database) (i j : Nat) (b : List Nat) (e : Option DbErr),
      Database.FindLoop dbs i node = (some j, b, e) →
      i ≤ j ∧ ∃ d, dbs.get? (j - i) = some d ∧ d.Has node := by
  intro dbs
  induction dbs with
  | nil => intro i j b e h; simp [Database.FindLoop] at h
  | cons d rest ih =>
    intro i j b e h
    simp only [Database.FindLoop] at h
    split at h
    · rename_i hc
      simp only [Bool.and_eq_true, Option.isNone_iff_eq_none, decide_eq_true_eq] at hc
      simp only [Prod.mk.injEq, Option.some.injEq] at h
      refine ⟨by omega, d, ?_, hc⟩
      rw [← h.1]
      simp
    · obtain ⟨g1, d1, g2, g3⟩ := ih (i + 1) j b e h
      refine ⟨by omega, d1, ?_, g3⟩
      have hji : j - i = (j - (i + 1)) + 1 := by omega
      rw [hji]
      simpa using g2

theorem Database.Find_cases (s : DbState) (node : Nat) :
    ((∀ d ∈ s.dbs, ¬ d.Has node) ∧
      Database.Find s node = (none, [], some DbErr.nodeNotFound)) ∨
    ∃ j b e d, Database.Find s node = (some j, b, e) ∧ s.dbs.get? j = some d ∧ d.Has node := by
  by_cases h : ∀ d ∈ s.dbs, ¬ d.Has node
  · exact Or.inl ⟨h, Database.FindLoop_none node s.dbs 0 h⟩
  · right
    cases hf : Database.Find s node with
    | mk j rest =>
      obtain ⟨b, e⟩ := rest
      cases j with
      | none =>
        exfalso
        apply h
        intro d hd hhas
        -- a backend that has the node makes the loop stop with a backend
        have key : ∀ (dbs : List database) (i : Nat), d ∈ dbs →
            (Database.FindLoop dbs i node).1 ≠ none := by
          intro dbs
          induction dbs with
          | nil => intro i hm; cases hm
          | cons x rest ih =>
            intro i hm
            simp only [Database.FindLoop]
            split
            · simp
            · rename_i hc
              rcases List.mem_cons.mp hm with e1 | e1
              · exfalso
                apply hc
                rw [← e1]
                simp only [Bool.and_eq_true, Option.isNone_iff_eq_none, decide_eq_true_eq]
                exact hhas
              · exact ih (i + 1) e1
        exact key s.dbs 0 hd (by
          have : (Database.FindLoop s.dbs 0 node).1 = none := by
            have := congrArg Prod.fst hf
            exact this
          exact this)
      | some j =>
        obtain ⟨_, d, g1, g2⟩ := Database.FindLoop_some node s.dbs 0 j b e hf
        exact ⟨j, b, e, d, rfl, by simpa using g1, g2⟩

/-- The loop of `Commit`: a hash that no backend has ends it with an error. -/
theorem Database.CommitLoop_dangling (commitErr : Nat → Nat → Nat → Option DbErr)
    (s : DbState) (c : Nat) (hc : ∀ d ∈ s.dbs, ¬ d.Has c) :
    ∀ (children : List Nat) (k : Nat), c ∈ children →
      Database.CommitLoop commitErr s children k ≠ none := by
  intro children
  induction children with
  | nil => intro k hm; cases hm
  | cons x rest ih =>
    intro k hm
    simp only [Database.CommitLoop]
    rcases Database.Find_cases s x with ⟨_, hf⟩ | ⟨j, b, e, d, hf, hd, hhas⟩
    · rw [hf]
      simp
    · rw [hf]
      simp only []
      cases hce : commitErr k j x with
      | some e1 => simp
      | none =>
        simp only []
        rcases List.mem_cons.mp hm with e1 | e1
        · exfalso
          rw [e1] at hc
          exact hc d (List.get?_mem hd) hhas
        · exact ih (k + 1) e1

/-- The loop of `Commit` ends without error only if every hash was found in a backend that
has it and the `Commit` of that backend succeeded. -/
theorem Database.CommitLoop_none (commitErr : Nat → Nat → Nat → Option DbErr) (s : DbState) :
    ∀ (children : List Nat) (k : Nat), Database.CommitLoop commitErr s children k = none →
      ∀ p c, children.get? p = some c →
        ∃ i d, (Database.Find s c).1 = some i ∧ s.dbs.get? i = some d ∧ d.Has c ∧
          commitErr (k + p) i c = none := by
  intro children
  induction children with
  | nil => intro k _ p c hp; simp at hp
  | cons x rest ih =>
    intro k h p c hp
    simp only [Database.CommitLoop] at h
    rcases Database.Find_cases s x with ⟨_, hf⟩ | ⟨j, b, e, d, hf, hd, hhas⟩
    · rw [hf] at h
      simp at h
    · rw [hf] at h
      simp only [] at h
      cases hce : commitErr k j x with
      | some e1 => rw [hce] at h; simp at h
      | none =>
        rw [hce] at h
        simp only [] at h
        cases p with
        | zero =>
          simp only [List.get?_cons_zero, Option.some.injEq] at hp
          subst hp
          exact ⟨j, d, by rw [hf], hd, hhas, by simpa using hce⟩
        | succ q =>
          simp only [List.get?_cons_succ] at hp
          obtain ⟨i, d1, g1, g2, g3, g4⟩ := ih (k + 1) h q c hp
          exact ⟨i, d1, g1, g2, g3, by rw [← g4]; congr 1; omega⟩

/-- C26: `Database.Commit(hash, report)` on a database of 16 backends returns, and: when the
backend of `hash` cannot read the node at `hash`, it returns that error; when the node is
read and some immediate child enumerated from it is held by none of the 16 backends (no
backend returns a non-empty blob without error for it), it returns a non-nil error; and it
returns nil only if the node was read and `hash` and every immediate child were found by
`Find` in a backend that holds them and the `Commit` of that backend returned nil. -/
theorem Database_Commit_errors (childrenOf : List Nat → List Nat)
    (commitErr : Nat → Nat → Nat → Option DbErr) (s : DbState) (hash : Nat)
    (h16 : s.dbs.length = 16) :
    ∃ r d, Database.Commit childrenOf commitErr s hash = .ok r ∧
      s.dbs.get? (Database.shard hash) = some d ∧
      (∀ e, (d.Node hash).2 = some e → r = some e) ∧
      ((d.Node hash).2 = none →
        (∃ c ∈ childrenOf (d.Node hash).1, ∀ b ∈ s.dbs, ¬ b.Has c) → r ≠ none) ∧
      (r = none → (d.Node hash).2 = none ∧
        ∀ p c, (hash :: childrenOf (d.Node hash).1).get? p = some c →
          ∃ i b, (Database.Find s c).1 = some i ∧ s.dbs.get? i = some b ∧ b.Has c ∧
            commitErr p i c = none) := by
  have hlt : Database.shard hash < s.dbs.length := by
    rw [h16]
    exact Database.shard_lt hash
  have hd : s.dbs.get? (Database.shard hash) = some (s.dbs.get ⟨_, hlt⟩) :=
    List.get?_eq_get hlt
  generalize s.dbs.get ⟨_, hlt⟩ = d at hd
  have hn1 : ∀ blob err, d.Node hash = (blob, err) →
      (d.Node hash).1 = blob ∧ (d.Node hash).2 = err := by
    intro blob err h
    rw [h]
    exact ⟨rfl, rfl⟩
  cases hn : d.Node hash with
  | mk blob err =>
    obtain ⟨hb, he⟩ := hn1 blob err hn
    cases err with
    | some e =>
      refine ⟨some e, d, ?_, hd, ?_, ?_, ?_⟩
      · simp only [Database.Commit, hd, hn]
        rfl
      · intro e1 he1
        rw [he] at he1
        exact he1
      · intro h
        rw [he] at h
        cases h
      · intro h
        cases h
    | none =>
      refine ⟨Database.CommitLoop commitErr s (hash :: childrenOf blob) 0, d, ?_, hd, ?_, ?_, ?_⟩
      · simp only [Database.Commit, hd, hn]
        rfl
      · intro e1 he1
        rw [he] at he1
        cases he1
      · intro _ hc
        obtain ⟨c, hc1, hc2⟩ := hc
        rw [hb] at hc1
        exact Database.CommitLoop_dangling commitErr s c hc2 _ 0 (List.mem_cons_of_mem _ hc1)
      · intro hr
        refine ⟨he, ?_⟩
        intro p c hp
        rw [hb] at hp
        obtain ⟨i, b, g1, g2, g3, g4⟩ := Database.CommitLoop_none commitErr s _ 0 hr p c hp
        exact ⟨i, b, g1, g2, g3, by simpa using g4⟩

theorem Database_Commit_errors_witness :
    danglingDb.dbs.length = 16 ∧
    Database.Commit (fun _ => [2 ^ 253]) (fun _ _ _ => none) danglingDb (2 ^ 252)
      = .ok (some DbErr.nodeNotFound) ∧
    ∃ r d, Database.Commit (fun _ => [2 ^ 253]) (fun _ _ _ => none) danglingDb (2 ^ 252)
        = .ok r ∧
      danglingDb.dbs.get? (Database.shard (2 ^ 252)) = some d ∧
      (∀ e, (d.Node (2 ^ 252)).2 = some e → r = some e) ∧
      ((d.Node (2 ^ 252)).2 = none →
        (∃ c ∈ (fun _ => [2 ^ 253]) (d.Node (2 ^ 252)).1, ∀ b ∈ danglingDb.dbs, ¬ b.Has c) →
        r ≠ none) ∧
      (r = none → (d.Node (2 ^ 252)).2 = none ∧
        ∀ p c, ((2 ^ 252) :: (fun _ => [2 ^ 253]) (d.Node (2 ^ 252)).1).get? p = some c →
          ∃ i b, (Database.Find danglingDb c).1 = some i ∧ danglingDb.dbs.get? i = some b ∧
            b.Has c ∧ (fun _ _ _ => none) p i c = (none : Option DbErr)) :=
  ⟨by decide, rfl,
    Database_Commit_errors (fun _ => [2 ^ 253]) (fun _ _ _ => none) danglingDb (2 ^ 252)
      (by decide)⟩

/-! ## One backend `Update` -/

theorem GoMap.find_putAll_cases {K V : Type} [DecidableEq K] (st recs : GoMap K V) (k : K) :
    (∃ v, (k, v) ∈ recs ∧ GoMap.find (GoMap.putAll st recs) k = some v) ∨
    (k ∉ recs.map Prod.fst ∧ GoMap.find (GoMap.putAll st recs) k = GoMap.find st k) := by
  by_cases hk : k ∈ recs.map Prod.fst
  · left
    obtain ⟨pre, v, post, he, hp⟩ := exists_last_record recs k hk
    refine ⟨v, by rw [he]; simp, ?_⟩
    rw [he]
    exact GoMap.find_putAll_last st pre post k v hp
  · exact Or.inr ⟨hk, GoMap.find_putAll_not_mem recs k hk st⟩

theorem database.UpdateLoop_spec
    (iterN : GoMap (List Nat) TNode → GoMap (List Nat) TNode) (hN : ∀ m, (iterN m).Perm m)
    (h : SetHeap) :
    ∀ (L : List (Nat × Nat)) (d : database), (∀ e ∈ L, e.2 < h.length) →
      ∃ d1, Run.forEach (fun (e : Nat × Nat) (d : database) =>
          match h.get? e.2 with
          | none => (.error .panic : Run database)
          | some ns =>
            pure ⟨GoMap.putAll d.store ((iterN ns.Nodes).map (fun p => (p.2.Hash, p.2.Blob)))⟩)
          L d = .ok d1 ∧
        ∀ k, (∃ v, (∃ e ∈ L, ∃ ns, h.get? e.2 = some ns ∧
              ∃ x ∈ ns.Nodes, x.2.Hash = k ∧ x.2.Blob = v) ∧
            GoMap.find d1.store k = some v) ∨
          ((∀ e ∈ L, ∀ ns, h.get? e.2 = some ns → ∀ x ∈ ns.Nodes, x.2.Hash ≠ k) ∧
            GoMap.find d1.store k = GoMap.find d.store k) := by
  intro L
  induction L with
  | nil =>
    intro d _
    exact ⟨d, rfl, fun k => Or.inr ⟨fun e he => (by cases he), rfl⟩⟩
  | cons e rest ih =>
    intro d hv
    have hlt : e.2 < h.length := hv e (List.mem_cons_self _ _)
    have hg : h.get? e.2 = some (h.get ⟨_, hlt⟩) := List.get?_eq_get hlt
    generalize h.get ⟨_, hlt⟩ = ns at hg
    obtain ⟨d1, e1, e2⟩ := ih
      ⟨GoMap.putAll d.store ((iterN ns.Nodes).map (fun p => (p.2.Hash, p.2.Blob)))⟩
      (fun x hx => hv x (List.mem_cons_of_mem _ hx))
    refine ⟨d1, ?_, ?_⟩
    · have hstep : (match h.get? e.2 with
          | none => (.error .panic : Run database)
          | some ns =>
            pure ⟨GoMap.putAll d.store
              ((iterN ns.Nodes).map (fun (p : List Nat × TNode) => (p.2.Hash, p.2.Blob)))⟩) =
          .ok ⟨GoMap.putAll d.store
            ((iterN ns.Nodes).map (fun (p : List Nat × TNode) => (p.2.Hash, p.2.Blob)))⟩ := by
        rw [hg]
        rfl
      rw [Run.forEach_cons_ok _ _ _ _ _ hstep]
      exact e1
    · intro k
      rcases e2 k with ⟨v, ⟨x, hx, g⟩, hf⟩ | ⟨hno, hf⟩
      · exact Or.inl ⟨v, ⟨x, List.mem_cons_of_mem _ hx, g⟩, hf⟩
      · rcases GoMap.find_putAll_cases d.store
            ((iterN ns.Nodes).map (fun p => (p.2.Hash, p.2.Blob))) k with ⟨v, hm, hv2⟩ | ⟨hm, hv2⟩
        · left
          obtain ⟨p, hp1, hp2⟩ := List.mem_map.mp hm
          simp only [Prod.mk.injEq] at hp2
          refine ⟨v, ⟨e, List.mem_cons_self _ _, ns, hg, p, (hN _).mem_iff.mp hp1, hp2.1, hp2.2⟩,
            ?_⟩
          rw [hf]
          exact hv2
        · right
          refine ⟨?_, by rw [hf]; exact hv2⟩
          intro e0 he0 ns0 hns0 x hx hxk
          rcases List.mem_cons.mp he0 with e3 | e3
          · rw [e3, hg] at hns0
            have hnn : ns = ns0 := Option.some.inj hns0
            apply hm
            rw [List.map_map]
            refine List.mem_map.mpr ⟨x, (hN _).mem_iff.mpr (hnn ▸ hx), ?_⟩
            exact hxk
          · exact hno e0 e3 ns0 hns0 x hx hxk

/-- One backend `Update` on a change set without `nil` node set returns; afterwards a hash of
the change set is stored with the blob of a node of the change set that has this hash, and
every other hash is stored as before. -/
theorem database.Update_stores (iterS : GoMap Nat Nat → GoMap Nat Nat)
    (hS : ∀ m, (iterS m).Perm m)
    (iterN : GoMap (List Nat) TNode → GoMap (List Nat) TNode) (hN : ∀ m, (iterN m).Perm m)
    (h : SetHeap) (m : MergedNodeSet) (hv : ∀ e ∈ m.Sets, e.2 < h.length) (d : database) :
    ∃ d1, d.Update iterS iterN h m = .ok d1 ∧
      ∀ k, (∃ v, m.holdsBlob h k v ∧ GoMap.find d1.store k = some v) ∨
        ((∀ v, ¬ m.holdsBlob h k v) ∧ GoMap.find d1.store k = GoMap.find d.store k) := by
  obtain ⟨d1, e1, e2⟩ := database.UpdateLoop_spec iterN hN h (iterS m.Sets) d
    (fun e he => hv e ((hS _).mem_iff.mp he))
  refine ⟨d1, e1, ?_⟩
  intro k
  rcases e2 k with ⟨v, ⟨e, he, g⟩, hf⟩ | ⟨hno, hf⟩
  · exact Or.inl ⟨v, ⟨e, (hS _).mem_iff.mp he, g⟩, hf⟩
  · refine Or.inr ⟨?_, hf⟩
    rintro v ⟨e, he, ns, hns, x, hx, hxk, _⟩
    exact hno e ((hS _).mem_iff.mpr he) ns hns x hx hxk

/-! ## The 16 backend updates of `Database.Update` -/

theorem hashdb.ranges_16 : hashdb.ranges 16 16 = List.range' 0 17 := by decide

theorem range17_getD : ∀ i, i < 17 → (List.range' 0 17).getD i 0 = i := by decide

theorem hashdb.ParallelWorkerIn_16 {σ : Type} (worker : Nat → Nat → Nat → σ → Run σ) :
    ∀ (order : List Nat) (s : σ), (∀ i ∈ order, i < 16) →
      hashdb.ParallelWorkerIn order 16 16 worker s =
        Run.forEach (fun i s => worker i (i + 1) i s) order s := by
  intro order
  induction order with
  | nil => intro s _; rfl
  | cons i rest ih =>
    intro s h
    have hi : i < 16 := h i (List.mem_cons_self _ _)
    have ih2 := ih
    simp only [hashdb.ParallelWorkerIn, hashdb.ranges_16] at ih2 ⊢
    simp only [runTasksIn, runTask, range17_getD i (by omega), range17_getD (i + 1) (by omega),
      Run.forEach]
    have hne : i ≠ i + 1 := by omega
    rw [if_pos hne]
    cases worker i (i + 1) i s with
    | error e => rfl
    | ok s1 => exact ih2 s1 (fun x hx => h x (List.mem_cons_of_mem _ hx))

theorem Database.backendUpdate_spec (o : UpdateOrders) (ho : o.Fair) (i : Nat) (h : SetHeap)
    (m : MergedNodeSet) (hv : ∀ e ∈ m.Sets, e.2 < h.length) (s : DbState) (d : database)
    (hd : s.dbs.get? i = some d) :
    ∃ d1, Database.backendUpdate o i h m s =
        .ok { s with dbs := s.dbs.set i d1, calls := s.calls ++ [(i, m)] } ∧
      database.Stores h m d d1 := by
  obtain ⟨d1, e1, e2⟩ := database.Update_stores (o.dbS i) (ho.2.2.1 i) (o.dbN i) (ho.2.2.2.1 i)
    h m hv d
  refine ⟨d1, ?_, e2⟩
  simp only [Database.backendUpdate, hd, e1]
  rfl

/-- The tasks of the listed backends, run in the listed order: every task stores the subset
of its backend there, the calls are recorded in this order, and no other backend changes. -/
theorem Database.tasks_spec (o : UpdateOrders) (ho : o.Fair) (h : SetHeap)
    (sharded : List MergedNodeSet) (hl : sharded.length = 16)
    (hv : ∀ m ∈ sharded, ∀ e ∈ m.Sets, e.2 < h.length) :
    ∀ (order : List Nat) (s : DbState), order.Nodup → (∀ i ∈ order, i < 16) →
      s.dbs.length = 16 →
      ∃ s2, Run.forEach (fun i s => Database.updater o h sharded i (i + 1) i s) order s
          = .ok s2 ∧
        s2.dbs.length = 16 ∧
        s2.calls = s.calls ++ order.map (fun i => (i, sharded.getD i NewMergedNodeSet)) ∧
        (∀ j, j ∉ order → s2.dbs.get? j = s.dbs.get? j) ∧
        (∀ j ∈ order, ∃ d d2, s.dbs.get? j = some d ∧ s2.dbs.get? j = some d2 ∧
          database.Stores h (sharded.getD j NewMergedNodeSet) d d2) := by
  intro order
  induction order with
  | nil =>
    intro s _ _ hs
    exact ⟨s, rfl, hs, by simp, fun _ _ => rfl, fun j hj => (by cases hj)⟩
  | cons i rest ih =>
    intro s hnd hlt hs
    have hi : i < 16 := hlt i (List.mem_cons_self _ _)
    have hnd2 := List.nodup_cons.mp hnd
    have hsub : sharded.get? i = some (sharded.getD i NewMergedNodeSet) := by
      rw [List.get?_eq_getElem?, List.getD_eq_getElem?_getD,
        List.getElem?_eq_getElem (by omega)]
      rfl
    have hdi : s.dbs.get? i = some (s.dbs.get ⟨i, by omega⟩) := List.get?_eq_get (by omega)
    generalize s.dbs.get ⟨i, by omega⟩ = d at hdi
    obtain ⟨d1, e1, e2⟩ := Database.backendUpdate_spec o ho i h
      (sharded.getD i NewMergedNodeSet)
      (hv _ (List.get?_mem hsub)) s d hdi
    obtain ⟨s2, g1, g2, g4, g5, g6⟩ := ih
      { s with dbs := s.dbs.set i d1,
               calls := s.calls ++ [(i, sharded.getD i NewMergedNodeSet)] }
      hnd2.2 (fun x hx => hlt x (List.mem_cons_of_mem _ hx))
      (by simp only [List.length_set]; exact hs)
    refine ⟨s2, ?_, g2, ?_, ?_, ?_⟩
    · have hstep : Database.updater o h sharded i (i + 1) i s =
          .ok { s with dbs := s.dbs.set i d1,
                       calls := s.calls ++ [(i, sharded.getD i NewMergedNodeSet)] } := by
        simp only [Database.updater, hsub]
        exact e1
      rw [Run.forEach_cons_ok (fun i s => Database.updater o h sharded i (i + 1) i s) i rest s _
        hstep]
      exact g1
    · rw [g4]
      simp
    · intro j hj
      have hji : j ≠ i := fun e => hj (by rw [e]; exact List.mem_cons_self _ _)
      rw [g5 j (fun hm => hj (List.mem_cons_of_mem _ hm))]
      simp only [List.get?_eq_getElem?]
      exact List.getElem?_set_ne (fun e => hji e.symm)
    · intro j hj
      rcases List.mem_cons.mp hj with e | e
      · subst e
        refine ⟨d, d1, hdi, ?_, e2⟩
        rw [g5 j hnd2.1]
        exact (get?_set_iff _ _ _ _ _).mpr (Or.inl ⟨rfl, by omega, rfl⟩)
      · obtain ⟨d0, d2, k1, k2, k3⟩ := g6 j e
        have hji : j ≠ i := fun e2 => hnd2.1 (e2 ▸ e)
        refine ⟨d0, d2, ?_, k2, k3⟩
        rw [← k1]
        simp only [List.get?_eq_getElem?]
        exact (List.getElem?_set_ne (fun e => hji e.symm)).symm

/-! ## `Database.Update`, step by step -/

theorem Database.checkParent_returns (s : DbState) (hs : s.dbs.length = 16) (parent : Nat) :
    ∃ b, Database.checkParent s parent = .ok b := by
  simp only [Database.checkParent]
  by_cases hp : parent ≠ EmptyRootHash
  · rw [if_pos hp]
    have hlt : Database.shard parent < s.dbs.length := by
      rw [hs]
      exact Database.shard_lt parent
    rw [List.get?_eq_get hlt]
    exact ⟨_, rfl⟩
  · rw [if_neg hp]
    exact ⟨_, rfl⟩

/-- The addresses of the node sets of every output of `Regroup` are on the heap. -/
theorem Regroup.valid_out (h0 : SetHeap) (set : MergedNodeSet) (R : RegroupState)
    (hI : Regroup.Inv h0 set R) (j : Nat) (m : MergedNodeSet)
    (hm : R.regrouped.get? j = some m) : ∀ e ∈ m.Sets, e.2 < R.heap.length := by
  intro e he
  have hf : GoMap.find m.Sets e.1 = some e.2 :=
    GoMap.find_of_mem m.Sets e.1 e.2 (hI.keysR j m hm) he
  exact (hI.fresh j e.1 e.2 ⟨m, hm, hf⟩).2

/-- On a database of 16 backends and a well-formed change set whose non-empty paths start
with a nibble, `Database.Update` returns nil after 17 backend calls: the tasks of the 16
backends in the order of the schedule, each with the subset of its backend, and then the
call of the backend of `root` with the root-level subset. -/
theorem Database.Update_spec (o : UpdateOrders) (ho : o.Fair) (s : DbState)
    (hs : s.dbs.length = 16) (h : SetHeap) (root parent : Nat) (nodes : MergedNodeSet)
    (hwf : Regroup.WF h nodes) (hrt : Regroup.Routable h nodes) :
    ∃ (R : RegroupState) (logged : Bool) (s2 s3 : DbState),
      Regroup.Inv h nodes R ∧
      (∀ ow k n, MergedNodeSet.lookup h nodes ow k = some n → Regroup.Stored R (ow, k, n)) ∧
      MergedNodeSet.Regroup o.regS o.regN h nodes = .ok ⟨R.heap, R.regrouped.take 16,
        R.regrouped.getD 16 NewMergedNodeSet, R.shards⟩ ∧
      Database.checkParent s parent = .ok logged ∧
      Database.Update o s h root parent nodes = .ok ⟨s3, R.heap, none, logged⟩ ∧
      s3.dbs.length = 16 ∧
      s3.calls = s.calls ++
        o.schedule.map (fun i => (i, (R.regrouped.take 16).getD i NewMergedNodeSet)) ++
        [(Database.shard root, R.regrouped.getD 16 NewMergedNodeSet)] ∧
      ∀ j, j < 16 → ∃ d d2 d3, s.dbs.get? j = some d ∧ s2.dbs.get? j = some d2 ∧
        s3.dbs.get? j = some d3 ∧
        database.Stores R.heap ((R.regrouped.take 16).getD j NewMergedNodeSet) d d2 ∧
        (j = Database.shard root →
          database.Stores R.heap (R.regrouped.getD 16 NewMergedNodeSet) d2 d3) ∧
        (j ≠ Database.shard root → d3 = d2) := by
  obtain ⟨R, hreg, hI, _, hSt⟩ := Regroup.run_spec h nodes hwf hrt o.regS ho.1 o.regN ho.2.1
  obtain ⟨logged, hlog⟩ := Database.checkParent_returns s hs parent
  have hlen : (R.regrouped.take 16).length = 16 := by
    rw [List.length_take, hI.lenR]
    rfl
  have hvalid : ∀ m ∈ R.regrouped.take 16, ∀ e ∈ m.Sets, e.2 < R.heap.length := by
    intro m hm
    obtain ⟨j, hj⟩ := Regroup.mem_outputs R.regrouped hI.lenR m
      (List.mem_append_left _ hm)
    exact Regroup.valid_out h nodes R hI j m hj
  have hsched : ∀ i ∈ o.schedule, i < 16 := fun i hi =>
    List.mem_range.mp (ho.2.2.2.2.mem_iff.mp hi)
  have hnd : o.schedule.Nodup := (ho.2.2.2.2.nodup_iff).mpr (List.nodup_range 16)
  obtain ⟨s2, t1, t2, t3, t4, t5⟩ := Database.tasks_spec o ho R.heap (R.regrouped.take 16)
    hlen hvalid o.schedule s hnd hsched hs
  have hroot : Database.shard root < s2.dbs.length := by
    rw [t2]
    exact Database.shard_lt root
  have hdr : s2.dbs.get? (Database.shard root) = some (s2.dbs.get ⟨_, hroot⟩) :=
    List.get?_eq_get hroot
  generalize s2.dbs.get ⟨_, hroot⟩ = dr at hdr
  obtain ⟨dr3, u1, u2⟩ := Database.backendUpdate_spec o ho (Database.shard root) R.heap
    (R.regrouped.getD 16 NewMergedNodeSet)
    (Regroup.valid_out h nodes R hI 16 _ (Regroup.root_getD R.regrouped hI.lenR)) s2 dr hdr
  refine ⟨R, logged, s2,
    { s2 with dbs := s2.dbs.set (Database.shard root) dr3,
              calls := s2.calls ++ [(Database.shard root, R.regrouped.getD 16 NewMergedNodeSet)] },
    hI, hSt, hreg, hlog, ?_, ?_, ?_, ?_⟩
  · simp only [Database.Update, hlog, hreg, hlen]
    rw [hashdb.ParallelWorkerIn_16 _ _ _ hsched, t1]
    simp only [u1]
    rfl
  · simp only [List.length_set]
    exact t2
  · simp only [t3]
  · intro j hj
    obtain ⟨d, d2, k1, k2, k3⟩ := t5 j (ho.2.2.2.2.mem_iff.mpr (List.mem_range.mpr hj))
    by_cases hjr : j = Database.shard root
    · refine ⟨d, d2, dr3, k1, k2, ?_, k3, ?_, fun hne => absurd hjr hne⟩
      · rw [hjr]
        exact (get?_set_iff _ _ _ _ _).mpr (Or.inl ⟨rfl, hroot, rfl⟩)
      · intro _
        have hdd : dr = d2 := by
          rw [hjr, hdr] at k2
          exact Option.some.inj k2
        rw [← hdd]
        exact u2
    · refine ⟨d, d2, d2, k1, k2, ?_, k3, fun he => absurd he hjr, fun _ => rfl⟩
      exact (get?_set_iff _ _ _ _ _).mpr (Or.inr ⟨hjr, k2⟩)

/-! ## The order of the backend calls (C24) and the missing parent (C25) -/

theorem plainOrders_Fair : plainOrders.Fair :=
  ⟨fun _ m => List.Perm.refl m, fun _ m => List.Perm.refl m, fun _ m => List.Perm.refl m,
    fun _ m => List.Perm.refl m, List.Perm.refl _⟩

theorem emptyDb_length : emptyDb.dbs.length = 16 := by decide

/-- C24: on a database of 16 backends and a well-formed change set whose non-empty paths
start with a nibble, under every schedule of the 16 goroutines and every order of the
`range` loops, `Database.Update` returns after exactly 17 backend `Update` calls: first, in
the order of the schedule, one call to each backend `i` of 0..15 carrying shard subset `i` of
the regrouped change set, and then, as the last call, the root-level subset to the backend
selected by the leading nibble of the root hash. -/
theorem Database_Update_call_order (o : UpdateOrders) (ho : o.Fair) (s : DbState)
    (hs : s.dbs.length = 16) (h : SetHeap) (root parent : Nat) (nodes : MergedNodeSet)
    (hwf : Regroup.WF h nodes) (hrt : Regroup.Routable h nodes) :
    ∃ r res mid, MergedNodeSet.Regroup o.regS o.regN h nodes = .ok r ∧
      Database.Update o s h root parent nodes = .ok res ∧
      r.sharded.length = 16 ∧ Database.shard root < 16 ∧
      res.state.calls = s.calls ++ mid ++ [(Database.shard root, r.rootShard)] ∧
      mid = o.schedule.map (fun i => (i, r.sharded.getD i NewMergedNodeSet)) ∧
      mid.Perm ((List.range 16).map (fun i => (i, r.sharded.getD i NewMergedNodeSet))) ∧
      mid.length = 16 ∧ (mid.map Prod.fst).Nodup := by
  obtain ⟨R, logged, s2, s3, hI, _, hreg, _, hupd, _, hcalls, _⟩ :=
    Database.Update_spec o ho s hs h root parent nodes hwf hrt
  refine ⟨_, _, _, hreg, hupd, ?_, Database.shard_lt root, hcalls, rfl,
    ho.2.2.2.2.map _, ?_, ?_⟩
  · show (R.regrouped.take 16).length = 16
    rw [List.length_take, hI.lenR]
    rfl
  · rw [List.length_map, ho.2.2.2.2.length_eq, List.length_range]
  · rw [List.map_map]
    have hid : (Prod.fst ∘ fun i => (i, (R.regrouped.take 16).getD i NewMergedNodeSet))
        = (id : Nat → Nat) := rfl
    rw [hid, List.map_id]
    exact (ho.2.2.2.2.nodup_iff).mpr (List.nodup_range 16)

theorem Database_Update_call_order_witness :
    plainOrders.Fair ∧ emptyDb.dbs.length = 16 ∧ Regroup.WF exampleSetHeap exampleSet ∧
    Regroup.Routable exampleSetHeap exampleSet ∧
    ∃ r res mid, MergedNodeSet.Regroup plainOrders.regS plainOrders.regN exampleSetHeap
        exampleSet = .ok r ∧
      Database.Update plainOrders emptyDb exampleSetHeap (2 ^ 252) EmptyRootHash exampleSet
        = .ok res ∧
      r.sharded.length = 16 ∧ Database.shard (2 ^ 252) < 16 ∧
      res.state.calls = emptyDb.calls ++ mid ++ [(Database.shard (2 ^ 252), r.rootShard)] ∧
      mid = plainOrders.schedule.map (fun i => (i, r.sharded.getD i NewMergedNodeSet)) ∧
      mid.Perm ((List.range 16).map (fun i => (i, r.sharded.getD i NewMergedNodeSet))) ∧
      mid.length = 16 ∧ (mid.map Prod.fst).Nodup :=
  ⟨plainOrders_Fair, emptyDb_length, exampleSet_WF, exampleSet_Routable,
    Database_Update_call_order plainOrders plainOrders_Fair emptyDb emptyDb_length
      exampleSetHeap (2 ^ 252) EmptyRootHash exampleSet exampleSet_WF exampleSet_Routable⟩

/-- What `Database.Update` does after the check of the parent does not depend on the
parent. -/
theorem Database.Update_parent (o : UpdateOrders) (s : DbState) (h : SetHeap)
    (root parent : Nat) (nodes : MergedNodeSet) (b : Bool)
    (hb : Database.checkParent s parent = .ok b) (res0 : UpdateRes)
    (h0 : Database.Update o s h root EmptyRootHash nodes = .ok res0) :
    Database.Update o s h root parent nodes = .ok { res0 with logged := b } := by
  have hc : Database.checkParent s EmptyRootHash = .ok false := by
    simp [Database.checkParent, pure, Except.pure]
  simp only [Database.Update, hc, hb] at h0 ⊢
  cases hr : MergedNodeSet.Regroup o.regS o.regN h nodes with
  | error e => rw [hr] at h0; cases h0
  | ok r =>
    rw [hr] at h0
    simp only [] at h0 ⊢
    cases hw : hashdb.ParallelWorkerIn o.schedule r.sharded.length r.sharded.length
        (Database.updater o r.heap r.sharded) s with
    | error e => rw [hw] at h0; cases h0
    | ok s2 =>
      rw [hw] at h0
      simp only [] at h0 ⊢
      cases hu : Database.backendUpdate o (Database.shard root) r.heap r.rootShard s2 with
      | error e => rw [hu] at h0; cases h0
      | ok s3 =>
        rw [hu] at h0
        simp only [pure, Except.pure, Except.ok.injEq] at h0 ⊢
        rw [← h0]

theorem Database.Update_err (o : UpdateOrders) (s : DbState) (h : SetHeap)
    (root parent : Nat) (nodes : MergedNodeSet) (res : UpdateRes)
    (hu : Database.Update o s h root parent nodes = .ok res) : res.err = none := by
  simp only [Database.Update] at hu
  cases hc : Database.checkParent s parent with
  | error e => rw [hc] at hu; cases hu
  | ok b =>
    rw [hc] at hu
    simp only [] at hu
    cases hr : MergedNodeSet.Regroup o.regS o.regN h nodes with
    | error e => rw [hr] at hu; cases hu
    | ok r =>
      rw [hr] at hu
      simp only [] at hu
      cases hw : hashdb.ParallelWorkerIn o.schedule r.sharded.length r.sharded.length
          (Database.updater o r.heap r.sharded) s with
      | error e => rw [hw] at hu; cases hu
      | ok s2 =>
        rw [hw] at hu
        simp only [] at hu
        cases hb : Database.backendUpdate o (Database.shard root) r.heap r.rootShard s2 with
        | error e => rw [hb] at hu; cases hu
        | ok s3 =>
          rw [hb] at hu
          simp only [pure, Except.pure, Except.ok.injEq] at hu
          rw [← hu]

/-! ## A missing parent is not fatal (C25) -/

theorem Database.checkParent_iff (s : DbState) (parent : Nat) (b : Bool)
    (hb : Database.checkParent s parent = .ok b) :
    b = true ↔ parent ≠ EmptyRootHash ∧
      ∃ d, s.dbs.get? (Database.shard parent) = some d ∧ (d.Node parent).1.length = 0 := by
  simp only [Database.checkParent] at hb
  by_cases hp : parent ≠ EmptyRootHash
  · rw [if_pos hp] at hb
    cases hd : s.dbs.get? (Database.shard parent) with
    | none => rw [hd] at hb; cases hb
    | some d =>
      rw [hd] at hb
      simp only [pure, Except.pure, Except.ok.injEq] at hb
      rw [← hb]
      simp only [decide_eq_true_eq]
      constructor
      · intro h
        exact ⟨hp, d, rfl, h⟩
      · rintro ⟨_, d1, h1, h2⟩
        rw [Option.some.inj h1]
        exact h2
  · rw [if_neg hp] at hb
    simp only [pure, Except.pure, Except.ok.injEq] at hb
    rw [← hb]
    constructor
    · intro h
      cases h
    · rintro ⟨h1, _⟩
      exact absurd h1 hp

/-- C25: a missing parent is not fatal for `Database.Update`.  On a database of 16 backends
and a well-formed change set whose non-empty paths start with a nibble, `Update` returns
for every parent, with the error nil; for two parents whatever, the database after the call
(the stores of the 16 backends and the backend calls made, with their order and their
subsets) and the heap of node sets are the same, so a parent that is neither the empty root
nor held by its backend gets the same 17 backend calls as a parent that is present; the
parent decides only whether the error is logged; and whenever `Update` returns, on any
input, the error it returns is nil. -/
theorem Database_Update_missing_parent (o : UpdateOrders) (ho : o.Fair) (s : DbState)
    (hs : s.dbs.length = 16) (h : SetHeap) (root parent other : Nat) (nodes : MergedNodeSet)
    (hwf : Regroup.WF h nodes) (hrt : Regroup.Routable h nodes) :
    (∃ res1 res2, Database.Update o s h root parent nodes = .ok res1 ∧
      Database.Update o s h root other nodes = .ok res2 ∧
      res1.err = none ∧ res2.err = none ∧ res1.state = res2.state ∧ res1.heap = res2.heap ∧
      res1.state.calls.length = s.calls.length + 17 ∧
      (res1.logged = true ↔ parent ≠ EmptyRootHash ∧
        ∃ d, s.dbs.get? (Database.shard parent) = some d ∧ (d.Node parent).1.length = 0)) ∧
    (∀ (o1 : UpdateOrders) (s1 : DbState) (h1 : SetHeap) (root1 parent1 : Nat)
      (nodes1 : MergedNodeSet) (res : UpdateRes),
      Database.Update o1 s1 h1 root1 parent1 nodes1 = .ok res → res.err = none) := by
  refine ⟨?_, fun o1 s1 h1 root1 parent1 nodes1 res hu =>
    Database.Update_err o1 s1 h1 root1 parent1 nodes1 res hu⟩
  obtain ⟨R, l0, s2, s3, _, _, _, _, hupd, _, hcalls, _⟩ :=
    Database.Update_spec o ho s hs h root EmptyRootHash nodes hwf hrt
  obtain ⟨b1, hb1⟩ := Database.checkParent_returns s hs parent
  obtain ⟨b2, hb2⟩ := Database.checkParent_returns s hs other
  have h1 := Database.Update_parent o s h root parent nodes b1 hb1 _ hupd
  have h2 := Database.Update_parent o s h root other nodes b2 hb2 _ hupd
  refine ⟨_, _, h1, h2, rfl, rfl, rfl, rfl, ?_, Database.checkParent_iff s parent b1 hb1⟩
  show s3.calls.length = s.calls.length + 17
  rw [hcalls]
  simp only [List.length_append, List.length_map, ho.2.2.2.2.length_eq, List.length_range,
    List.length_singleton]

theorem Database_Update_missing_parent_witness :
    plainOrders.Fair ∧ emptyDb.dbs.length = 16 ∧ Regroup.WF exampleSetHeap exampleSet ∧
    Regroup.Routable exampleSetHeap exampleSet ∧
    (2 ^ 253 ≠ EmptyRootHash ∧
      ∃ d, emptyDb.dbs.get? (Database.shard (2 ^ 253)) = some d ∧
        (d.Node (2 ^ 253)).1.length = 0) ∧
    ∃ res1 res2, Database.Update plainOrders emptyDb exampleSetHeap (2 ^ 252) (2 ^ 253)
        exampleSet = .ok res1 ∧
      Database.Update plainOrders emptyDb exampleSetHeap (2 ^ 252) EmptyRootHash exampleSet
        = .ok res2 ∧
      res1.err = none ∧ res1.state = res2.state ∧ res1.logged = true := by
  have hm : 2 ^ 253 ≠ EmptyRootHash ∧
      ∃ d, emptyDb.dbs.get? (Database.shard (2 ^ 253)) = some d ∧
        (d.Node (2 ^ 253)).1.length = 0 := ⟨by decide, ⟨[]⟩, by decide, by decide⟩
  obtain ⟨⟨res1, res2, h1, h2, h3, _, h5, _, _, h8⟩, _⟩ :=
    Database_Update_missing_parent plainOrders plainOrders_Fair emptyDb emptyDb_length
      exampleSetHeap (2 ^ 252) (2 ^ 253) EmptyRootHash exampleSet exampleSet_WF
      exampleSet_Routable
  exact ⟨plainOrders_Fair, emptyDb_length, exampleSet_WF, exampleSet_Routable, hm,
    res1, res2, h1, h2, h3, h5, h8.mpr hm⟩

/-! ## Where `Update` delivers a node and where the reader looks for it (C22) -/

theorem paraReader.Node_eq (s : DbState) (owner : Nat) (path : List Nat) (hash : Nat) :
    paraReader.Node s owner path hash =
      match s.dbs.get? (paraReader.backendOf path hash) with
      | none => .error .panic
      | some d => pure (d.Node hash) := by
  cases path <;> rfl

theorem storageRoot_check :
    Run.check (Database.Update plainOrders emptyDb storageRootHeap (2 ^ 252) EmptyRootHash
        ownerSevenSet)
      (fun res =>
        decide (∀ c ∈ res.state.calls,
          MergedNodeSet.lookup res.heap c.2 7 [] = some ⟨3 * 2 ^ 252, [1]⟩ → c.1 = 1) &&
        decide (∃ c ∈ res.state.calls,
          MergedNodeSet.lookup res.heap c.2 7 [] = some ⟨3 * 2 ^ 252, [1]⟩) &&
        Run.check (paraReader.Node res.state 7 [] (3 * 2 ^ 252))
          (fun r => decide (r = ([], some DbErr.notFound)))) = true := by
  decide!

/-- C22 fails on the code for an empty-path node whose hash is not `root`.  The change set
holds the root node of the trie of owner 7 (empty path, hash with first byte `0x30`); the
root argument of `Update` has the first byte `0x10`.  `Update` returns; the only backend
call that carries the node is the root-level call, to backend 1, the backend of `root`;
the reader's `Node(owner, path, hash)` consults backend 3, the backend of the node's own
hash, and reports the node missing. -/
theorem Database_Update_root_level_routing :
    MergedNodeSet.lookup storageRootHeap ownerSevenSet 7 [] = some ⟨3 * 2 ^ 252, [1]⟩ ∧
    Database.shard (2 ^ 252) = 1 ∧ paraReader.backendOf [] (3 * 2 ^ 252) = 3 ∧
    ∃ res, Database.Update plainOrders emptyDb storageRootHeap (2 ^ 252) EmptyRootHash
        ownerSevenSet = .ok res ∧
      (∀ c ∈ res.state.calls,
        MergedNodeSet.lookup res.heap c.2 7 [] = some ⟨3 * 2 ^ 252, [1]⟩ → c.1 = 1) ∧
      (∃ c ∈ res.state.calls,
        MergedNodeSet.lookup res.heap c.2 7 [] = some ⟨3 * 2 ^ 252, [1]⟩) ∧
      paraReader.Node res.state 7 [] (3 * 2 ^ 252) = .ok ([], some DbErr.notFound) := by
  refine ⟨by decide, by decide, by decide, ?_⟩
  obtain ⟨res, h1, h2⟩ := Run.check_ok storageRoot_check
  simp only [Bool.and_eq_true, decide_eq_true_eq] at h2
  obtain ⟨⟨h3, h4⟩, h5⟩ := h2
  obtain ⟨r, h6, h7⟩ := Run.check_ok h5
  simp only [decide_eq_true_eq] at h7
  exact ⟨res, h1, h3, h4, by rw [h6, h7]⟩

/-! ## What the backends hold after `Database.Update` -/

theorem Regroup.holdsBlob_of_Stored (R : RegroupState) (ow : Nat) (k : List Nat) (n : TNode)
    (hst : Regroup.Stored R (ow, k, n)) (m : MergedNodeSet)
    (hm : R.regrouped.get? (routeOf k) = some m) : m.holdsBlob R.heap n.Hash n.Blob := by
  obtain ⟨a, ns, ⟨m1, g1, g2⟩, g3, g4⟩ := hst
  have hmm : m1 = m := by
    have g1b : R.regrouped.get? (routeOf k) = some m1 := g1
    rw [hm] at g1b
    exact (Option.some.inj g1b).symm
  subst hmm
  exact ⟨(ow, a), GoMap.mem_of_find _ _ _ g2, ns, g3, (k, n), GoMap.mem_of_find _ _ _ g4,
    rfl, rfl⟩

theorem Regroup.input_of_holdsBlob (h0 : SetHeap) (set : MergedNodeSet) (R : RegroupState)
    (hI : Regroup.Inv h0 set R) (i : Nat) (m : MergedNodeSet)
    (hm : R.regrouped.get? i = some m) (k : Nat) (v : List Nat)
    (hb : m.holdsBlob R.heap k v) :
    ∃ ow p n, MergedNodeSet.lookup h0 set ow p = some n ∧ n.Hash = k ∧ n.Blob = v := by
  obtain ⟨e, he, ns, hns, x, hx, hk, hv⟩ := hb
  have hf : GoMap.find m.Sets e.1 = some e.2 :=
    GoMap.find_of_mem m.Sets e.1 e.2 (hI.keysR i m hm) he
  have ha : Regroup.addr R i e.1 e.2 := ⟨m, hm, hf⟩
  have hfr := hI.fresh i e.1 e.2 ha
  have hfx : GoMap.find ns.Nodes x.1 = some x.2 :=
    GoMap.find_of_mem ns.Nodes x.1 x.2 (hI.keysN e.2 ns hfr.1 hns) hx
  exact ⟨e.1, x.1, x.2, (hI.sound i e.1 e.2 ns x.1 x.2 ha hns hfx).2, hk, hv⟩

theorem database.Stores_good (h : SetHeap) (m : MergedNodeSet) (d d1 : database)
    (hs : database.Stores h m d d1) (k : Nat) (blob : List Nat)
    (hc : ∀ v, m.holdsBlob h k v → v = blob)
    (hg : m.holdsBlob h k blob ∨ GoMap.find d.store k = some blob) :
    GoMap.find d1.store k = some blob := by
  rcases hs k with ⟨v, h1, h2⟩ | ⟨h1, h2⟩
  · rw [h2, hc v h1]
  · rcases hg with h3 | h3
    · exact absurd h3 (h1 blob)
    · rw [h2, h3]

theorem database.Node_of_find (d : database) (k : Nat) (blob : List Nat)
    (h : GoMap.find d.store k = some blob) : d.Node k = (blob, none) := by
  simp only [database.Node, h]

/-- After `Database.Update`, the backend of the first byte of a node's path holds the node,
and the backend of `root` holds every node with the empty path; this needs that two nodes
of the change set with one hash have one blob. -/
theorem Database.Update_holds (o : UpdateOrders) (ho : o.Fair) (s : DbState)
    (hs : s.dbs.length = 16) (h : SetHeap) (root parent : Nat) (nodes : MergedNodeSet)
    (hwf : Regroup.WF h nodes) (hrt : Regroup.Routable h nodes)
    (hcons : ∀ o1 p1 n1 o2 p2 n2, MergedNodeSet.lookup h nodes o1 p1 = some n1 →
      MergedNodeSet.lookup h nodes o2 p2 = some n2 → n1.Hash = n2.Hash → n1.Blob = n2.Blob) :
    ∃ res, Database.Update o s h root parent nodes = .ok res ∧ res.state.dbs.length = 16 ∧
      ∀ ow path n, MergedNodeSet.lookup h nodes ow path = some n →
        ∃ d, res.state.dbs.get? (match path with
            | [] => Database.shard root
            | b :: _ => b) = some d ∧ d.Node n.Hash = (n.Blob, none) := by
  obtain ⟨R, logged, s2, s3, hI, hSt, _, _, hupd, hlen, _, hdb⟩ :=
    Database.Update_spec o ho s hs h root parent nodes hwf hrt
  refine ⟨_, hupd, hlen, ?_⟩
  intro ow path n hin
  have hc : ∀ i m, R.regrouped.get? i = some m → ∀ v, m.holdsBlob R.heap n.Hash v →
      v = n.Blob := by
    intro i m hm v hv
    obtain ⟨o2, p2, n2, g1, g2, g3⟩ := Regroup.input_of_holdsBlob h nodes R hI i m hm _ v hv
    rw [← g3]
    exact hcons o2 p2 n2 ow path n g1 hin g2
  have hroot := Regroup.root_getD R.regrouped hI.lenR
  have hst := hSt ow path n hin
  cases path with
  | nil =>
    obtain ⟨d, d2, d3, _, _, k3, _, k5, _⟩ := hdb (Database.shard root) (Database.shard_lt root)
    refine ⟨d3, k3, database.Node_of_find _ _ _ ?_⟩
    exact database.Stores_good _ _ _ _ (k5 rfl) _ _ (hc 16 _ hroot)
      (Or.inl (Regroup.holdsBlob_of_Stored R ow [] n hst _ hroot))
  | cons b rest =>
    have hb : b < 16 := hrt ow (b :: rest) n hin b rfl
    have hmb := Regroup.take_getD R.regrouped hI.lenR b hb
    obtain ⟨d, d2, d3, _, _, k3, k4, k5, k6⟩ := hdb b hb
    refine ⟨d3, k3, database.Node_of_find _ _ _ ?_⟩
    have hg2 : GoMap.find d2.store n.Hash = some n.Blob :=
      database.Stores_good _ _ _ _ k4 _ _ (hc b _ hmb)
        (Or.inl (Regroup.holdsBlob_of_Stored R ow (b :: rest) n hst _ hmb))
    by_cases hbr : b = Database.shard root
    · exact database.Stores_good _ _ _ _ (k5 hbr) _ _ (hc 16 _ hroot) (Or.inr hg2)
    · rw [k6 hbr]
      exact hg2

/-! ## Writes are routed by path, reads by hash (C23) -/

theorem crossHeap_nodes (ow : Nat) (p : List Nat) (n : TNode)
    (hl : MergedNodeSet.lookup crossHeap ownerSevenSet ow p = some n) :
    p = [1] ∧ n = ⟨3 * 2 ^ 252, [1]⟩ := by
  obtain ⟨a, ns, e1, e2, e3⟩ := (MergedNodeSet.lookup_some _ _ _ _ _).mp hl
  have he := GoMap.mem_of_find _ _ _ e1
  simp only [ownerSevenSet, List.mem_singleton, Prod.mk.injEq] at he
  obtain ⟨_, rfl⟩ := he
  have hns : ns = ⟨7, [([1], ⟨3 * 2 ^ 252, [1]⟩)]⟩ := by
    simpa [crossHeap] using e2.symm
  subst hns
  have hx := GoMap.mem_of_find _ _ _ e3
  simp only [List.mem_singleton, Prod.mk.injEq] at hx
  exact hx

theorem crossHeap_WF : Regroup.WF crossHeap ownerSevenSet := by
  refine ⟨by decide, by decide, ?_⟩
  intro e he ns hns
  simp only [ownerSevenSet, List.mem_singleton] at he
  subst he
  have e : ns = ⟨7, [([1], ⟨3 * 2 ^ 252, [1]⟩)]⟩ := by
    simpa [crossHeap] using hns.symm
  subst e
  decide

theorem crossHeap_Routable : Regroup.Routable crossHeap ownerSevenSet := by
  intro ow k n hl b hb
  obtain ⟨rfl, _⟩ := crossHeap_nodes ow k n hl
  simp only [List.head?_cons, Option.some.injEq] at hb
  omega

/-- C23, as amended: `shard(hash)`, the first byte of the hash shifted right by 4, is always
an index of 0..15 and is the backend of `Database.Node(hash)`; `Database.Update` stores
each node of the change set by its path: a node with a non-empty path in the backend
numbered by the first byte of the path, a node with the empty path in the backend selected
by the leading nibble of the root hash.  Afterwards the reader's `Node(owner, path, hash)`
returns the blob of every node of the change set with a non-empty path, and
`Database.Node(h)` returns the blob of every node that was stored in the backend that the
leading nibble of its hash selects (as the node whose hash is `root`).  The change set is
well-formed, its non-empty paths start with a nibble, and two of its nodes with one hash
have one blob. -/
theorem Database_Update_path_routing (o : UpdateOrders) (ho : o.Fair) (s : DbState)
    (hs : s.dbs.length = 16) (h : SetHeap) (root parent : Nat) (nodes : MergedNodeSet)
    (hwf : Regroup.WF h nodes) (hrt : Regroup.Routable h nodes)
    (hcons : ∀ o1 p1 n1 o2 p2 n2, MergedNodeSet.lookup h nodes o1 p1 = some n1 →
      MergedNodeSet.lookup h nodes o2 p2 = some n2 → n1.Hash = n2.Hash → n1.Blob = n2.Blob) :
    (∀ hash, Database.shard hash < 16) ∧
    ∃ res, Database.Update o s h root parent nodes = .ok res ∧
      ∀ ow path n, MergedNodeSet.lookup h nodes ow path = some n →
        (∀ b rest, path = b :: rest →
          (∃ d, res.state.dbs.get? b = some d ∧ d.Node n.Hash = (n.Blob, none)) ∧
          paraReader.Node res.state ow path n.Hash = .ok (n.Blob, none) ∧
          (Database.shard n.Hash = b →
            Database.Node res.state n.Hash = .ok (n.Blob, none))) ∧
        (path = [] →
          (∃ d, res.state.dbs.get? (Database.shard root) = some d ∧
            d.Node n.Hash = (n.Blob, none)) ∧
          (Database.shard n.Hash = Database.shard root →
            Database.Node res.state n.Hash = .ok (n.Blob, none) ∧
            paraReader.Node res.state ow path n.Hash = .ok (n.Blob, none))) := by
  refine ⟨Database.shard_lt, ?_⟩
  obtain ⟨res, h1, _, h3⟩ := Database.Update_holds o ho s hs h root parent nodes hwf hrt hcons
  refine ⟨res, h1, ?_⟩
  intro ow path n hin
  obtain ⟨d, hd, hn⟩ := h3 ow path n hin
  refine ⟨?_, ?_⟩
  · intro b rest hp
    subst hp
    simp only [] at hd
    refine ⟨⟨d, hd, hn⟩, ?_, ?_⟩
    · simp only [paraReader.Node, hd, hn]
      rfl
    · intro hsh
      simp only [Database.Node, hsh, hd, hn]
      rfl
  · intro hp
    subst hp
    simp only [] at hd
    refine ⟨⟨d, hd, hn⟩, ?_⟩
    intro hsh
    constructor
    · simp only [Database.Node, hsh, hd, hn]
      rfl
    · simp only [paraReader.Node, hsh, hd, hn]
      rfl

theorem Database_Update_path_routing_witness :
    plainOrders.Fair ∧ emptyDb.dbs.length = 16 ∧ Regroup.WF crossHeap ownerSevenSet ∧
    Regroup.Routable crossHeap ownerSevenSet ∧
    MergedNodeSet.lookup crossHeap ownerSevenSet 7 [1] = some ⟨3 * 2 ^ 252, [1]⟩ ∧
    ∃ res, Database.Update plainOrders emptyDb crossHeap (2 ^ 252) EmptyRootHash
        ownerSevenSet = .ok res ∧
      paraReader.Node res.state 7 [1] (3 * 2 ^ 252) = .ok ([1], none) := by
  have hl : MergedNodeSet.lookup crossHeap ownerSevenSet 7 [1] = some ⟨3 * 2 ^ 252, [1]⟩ := by
    decide
  obtain ⟨_, res, h1, h2⟩ := Database_Update_path_routing plainOrders plainOrders_Fair emptyDb
    emptyDb_length crossHeap (2 ^ 252) EmptyRootHash ownerSevenSet crossHeap_WF
    crossHeap_Routable (by
      intro o1 p1 n1 o2 p2 n2 g1 g2 _
      rw [(crossHeap_nodes o1 p1 n1 g1).2, (crossHeap_nodes o2 p2 n2 g2).2])
  exact ⟨plainOrders_Fair, emptyDb_length, crossHeap_WF, crossHeap_Routable, hl, res, h1,
    ((h2 7 [1] _ hl).1 1 [] rfl).2.1⟩

theorem crossHeap_check :
    Run.check (Database.Update plainOrders emptyDb crossHeap (2 ^ 252) EmptyRootHash
        ownerSevenSet)
      (fun res =>
        Run.check (Database.Node res.state (3 * 2 ^ 252))
          (fun r => decide (r = ([], some DbErr.notFound))) &&
        decide (res.state.dbs.get? 1 = some ⟨[(3 * 2 ^ 252, [1])]⟩) &&
        decide (res.state.dbs.get? 3 = some ⟨[]⟩)) = true := by
  decide!

/-- C23 as stated fails.  The change set holds one node, at the path `[1]`, whose hash has
the first byte `0x30`, so `shard(hash)` is 3.  `Update` stores the node in backend 1, the
backend of the first byte of its path, and backend 3 stays empty: afterwards
`Database.Node(hash)` reports the node missing. -/
theorem Database_Update_hash_routing_counterexample :
    MergedNodeSet.lookup crossHeap ownerSevenSet 7 [1] = some ⟨3 * 2 ^ 252, [1]⟩ ∧
    Database.shard (3 * 2 ^ 252) = 3 ∧
    ∃ res, Database.Update plainOrders emptyDb crossHeap (2 ^ 252) EmptyRootHash
        ownerSevenSet = .ok res ∧
      Database.Node res.state (3 * 2 ^ 252) = .ok ([], some DbErr.notFound) ∧
      res.state.dbs.get? 1 = some ⟨[(3 * 2 ^ 252, [1])]⟩ ∧
      res.state.dbs.get? 3 = some ⟨[]⟩ := by
  refine ⟨by decide, by decide, ?_⟩
  obtain ⟨res, h1, h2⟩ := Run.check_ok crossHeap_check
  simp only [Bool.and_eq_true, decide_eq_true_eq] at h2
  obtain ⟨⟨h3, h4⟩, h5⟩ := h2
  obtain ⟨r, h6, h7⟩ := Run.check_ok h3
  simp only [decide_eq_true_eq] at h7
  exact ⟨res, h1, by rw [h6, h7], h4, h5⟩

/-! ## `ParallelGet` and the empty key (C32) -/

/-- The task of any shard does not get past an empty key. -/
theorem gettersLoop_empty_key (fuel : Nat) (start : Nat) :
    ∀ (keys : List (List Nat)) (j : Nat) (s : GetState), [] ∈ keys →
      ∃ e, gettersLoop fuel start keys j s = .error e := by
  intro keys
  induction keys with
  | nil => intro j s h; cases h
  | cons key rest ih =>
    intro j s h
    cases key with
    | nil => exact ⟨Stop.panic, rfl⟩
    | cons b bs =>
      have hr : [] ∈ rest := by
        rcases List.mem_cons.mp h with e | e
        · cases e
        · exact e
      simp only [gettersLoop]
      by_cases hn : hiNibble b = start
      · rw [if_pos hn]
        cases threadSafeGet s.trie.reader fuel s.trie.root (keybytesToHex (b :: bs)) 0
            (s.caches.getD (hiNibble b) AccessListCache.empty) with
        | error e => exact ⟨e, rfl⟩
        | ok r => exact ih (j + 1) _ hr
      · rw [if_neg hn]
        exact ih (j + 1) s hr

/-- The task of any shard panics on an empty key when the lookups before it return. -/
theorem gettersLoop_empty_key_panics (fuel : Nat) (start : Nat) (t : Trie)
    (keys0 : List (List Nat))
    (hret : ∀ k ∈ keys0, k ≠ [] → ∀ acc, ∃ r,
      threadSafeGet t.reader fuel t.root (keybytesToHex k) 0 acc = .ok r) :
    ∀ (keys : List (List Nat)) (j : Nat) (s : GetState), (∀ k ∈ keys, k ∈ keys0) →
      s.trie = t → [] ∈ keys → gettersLoop fuel start keys j s = .error Stop.panic := by
  intro keys
  induction keys with
  | nil => intro j s _ _ h; cases h
  | cons key rest ih =>
    intro j s hsub ht h
    cases key with
    | nil => rfl
    | cons b bs =>
      have hr : [] ∈ rest := by
        rcases List.mem_cons.mp h with e | e
        · cases e
        · exact e
      have hsub2 : ∀ k ∈ rest, k ∈ keys0 := fun k hk => hsub k (List.mem_cons_of_mem _ hk)
      simp only [gettersLoop]
      by_cases hn : hiNibble b = start
      · rw [if_pos hn]
        obtain ⟨r, hg⟩ := hret (b :: bs) (hsub _ (List.mem_cons_self _ _))
          (List.cons_ne_nil _ _) (s.caches.getD (hiNibble b) AccessListCache.empty)
        rw [ht, hg]
        exact ih (j + 1) _ hsub2 rfl hr
      · rw [if_neg hn]
        exact ih (j + 1) s hsub2 ht hr

theorem runRanges_first_error {σ : Type} (worker : Nat → Nat → Nat → σ → Run σ) (s : σ)
    (e : Stop) (h : worker 0 1 0 s = .error e) :
    ParallelWorker 16 16 worker s = .error e := by
  unfold ParallelWorker
  rw [GenerateRanges_16]
  have hl : List.range' 0 17 = 0 :: 1 :: List.range' 2 15 := rfl
  have hne : (0 : Nat) ≠ 1 := by decide
  rw [hl]
  unfold runRanges
  rw [if_pos hne, h]

/-- C32 fails on the code: `ParallelGet` is not total.  For every trie and every list of
keys that contains an empty key, `ParallelGet` does not return: the closure reads
`keys[j][0]` of every key before it looks at the shard, so each task faults on the empty
key (index out of range), and when the lookups of the other keys return the call ends in
that panic.  `ParallelUpdate` and `initSubRoots` guard the same index with
`len(keys[i]) > 0` and assign the empty key to shard 0: on the empty trie `ParallelUpdate`
of the one empty key returns, and `ParallelGet` of the same key list panics. -/
theorem ParallelGet_empty_key_faults (fuel : Nat) (t : Trie) (keys : List (List Nat))
    (hk : [] ∈ keys) :
    (∀ r, ParallelGet fuel t keys ≠ .ok r) ∧
    ((∀ k ∈ keys, k ≠ [] → ∀ acc, ∃ r,
        threadSafeGet t.reader fuel t.root (keybytesToHex k) 0 acc = .ok r) →
      ParallelGet fuel t keys = .error Stop.panic) ∧
    shardOf [] = 0 ∧
    (∃ errs t1, ParallelUpdate 0 (NewEmptyParallel emptyReader) [[]] [[1]] = .ok (errs, t1)) ∧
    ParallelGet 0 (NewEmptyParallel emptyReader) [[]] = .error Stop.panic := by
  have hlen : ¬ keys.length = 0 := by
    intro h0
    rw [List.length_eq_zero] at h0
    rw [h0] at hk
    cases hk
  refine ⟨?_, ?_, rfl, ⟨_, _, rfl⟩, rfl⟩
  · intro r hr
    obtain ⟨e, he⟩ := gettersLoop_empty_key fuel 0 keys 0
      ⟨List.replicate keys.length [], NewAccessListCaches 16, t⟩ hk
    have hw := runRanges_first_error
      (fun start _ _ s => gettersLoop fuel start keys 0 s)
      ⟨List.replicate keys.length [], NewAccessListCaches 16, t⟩ e he
    simp only [ParallelGet, if_neg hlen, hw] at hr
    cases hr
  · intro hret
    have he := gettersLoop_empty_key_panics fuel 0 t keys hret keys 0
      ⟨List.replicate keys.length [], NewAccessListCaches 16, t⟩ (fun _ h => h) rfl hk
    have hw := runRanges_first_error
      (fun start _ _ s => gettersLoop fuel start keys 0 s)
      ⟨List.replicate keys.length [], NewAccessListCaches 16, t⟩ Stop.panic he
    simp only [ParallelGet, if_neg hlen, hw]

theorem ParallelGet_empty_key_faults_witness :
    ([] : List Nat) ∈ [[0], [], [16]] ∧
    (∀ r, ParallelGet 0 (memTrie (Node.full exampleBranch)) [[0], [], [16]] ≠ .ok r) :=
  ⟨by decide,
    (ParallelGet_empty_key_faults 0 (memTrie (Node.full exampleBranch)) [[0], [], [16]]
      (by decide)).1⟩

/-! ## The stable sort -/

theorem StrictWeak.asymm {α : Type} {less : α → α → Bool} (h : StrictWeak less) (a b : α)
    (hab : less a b = true) : less b a = false := by
  cases hba : less b a with
  | false => rfl
  | true =>
    have := h.trans a b a hab hba
    rw [h.irrefl a] at this
    cases this

/-- Negative transitivity: `a ≤ b` and `b ≤ c` give `a ≤ c`, where `x ≤ y` is `¬ y < x`. -/
theorem StrictWeak.le_trans {α : Type} {less : α → α → Bool} (h : StrictWeak less)
    (a b c : α) (hba : less b a = false) (hcb : less c b = false) : less c a = false := by
  cases hca : less c a with
  | false => rfl
  | true =>
    exfalso
    cases hab : less a b with
    | true =>
      have := h.trans c a b hca hab
      rw [hcb] at this
      cases this
    | false =>
      cases hbc : less b c with
      | true =>
        have := h.trans b c a hbc hca
        rw [hba] at this
        cases this
      | false =>
        have := (h.incomp a b c hab hba hbc hcb).2
        rw [hca] at this
        cases this

theorem StrictWeak.comap {α β : Type} {less : α → α → Bool} (h : StrictWeak less)
    (f : β → α) : StrictWeak (fun x y => less (f x) (f y)) :=
  ⟨fun a => h.irrefl (f a), fun a b c => h.trans (f a) (f b) (f c),
    fun a b c => h.incomp (f a) (f b) (f c)⟩

theorem eqvBy_iff {α : Type} (less : α → α → Bool) (x y : α) :
    eqvBy less x y = true ↔ less x y = false ∧ less y x = false := by
  simp [eqvBy]

/-- An element less than `a` is not equivalent to what `a` is equivalent to. -/
theorem StrictWeak.not_eqv_of_less {α : Type} {less : α → α → Bool} (h : StrictWeak less)
    (x a b : α) (hxa : eqvBy less x a = true) (hba : less b a = true) :
    eqvBy less x b = false := by
  cases hxb : eqvBy less x b with
  | false => rfl
  | true =>
    exfalso
    obtain ⟨h1, h2⟩ := (eqvBy_iff less x a).mp hxa
    obtain ⟨h3, h4⟩ := (eqvBy_iff less x b).mp hxb
    have := (h.incomp b x a h4 h3 h1 h2).1
    rw [hba] at this
    cases this

theorem sort.insertStable_perm {α : Type} (less : α → α → Bool) (a : α) :
    ∀ l : List α, (sort.insertStable less a l).Perm (a :: l) := by
  intro l
  induction l with
  | nil => exact List.Perm.refl _
  | cons b l ih =>
    simp only [sort.insertStable]
    split
    · exact ((List.Perm.cons b ih).trans (List.Perm.swap a b l))
    · exact List.Perm.refl _

theorem sort.SliceStable_perm {α : Type} (less : α → α → Bool) :
    ∀ l : List α, (sort.SliceStable less l).Perm l := by
  intro l
  induction l with
  | nil => exact List.Perm.refl _
  | cons a l ih =>
    simp only [sort.SliceStable]
    exact (sort.insertStable_perm less a _).trans (List.Perm.cons a ih)

theorem sort.insertStable_sorted {α : Type} {less : α → α → Bool} (h : StrictWeak less)
    (a : α) : ∀ l : List α, l.Pairwise (fun x y => less y x = false) →
      (sort.insertStable less a l).Pairwise (fun x y => less y x = false) := by
  intro l
  induction l with
  | nil => intro _; simp [sort.insertStable]
  | cons b l ih =>
    intro hs
    obtain ⟨hb, hl⟩ := List.pairwise_cons.mp hs
    simp only [sort.insertStable]
    split
    · rename_i hba
      refine List.pairwise_cons.mpr ⟨?_, ih hl⟩
      intro c hc
      rcases List.mem_cons.mp ((sort.insertStable_perm less a l).mem_iff.mp hc) with e | e
      · rw [e]
        exact h.asymm b a hba
      · exact hb c e
    · rename_i hba
      have hba2 : less b a = false := by
        cases hx : less b a with
        | false => rfl
        | true => exact absurd hx hba
      refine List.pairwise_cons.mpr ⟨?_, hs⟩
      intro c hc
      rcases List.mem_cons.mp hc with e | e
      · rw [e]
        exact hba2
      · exact h.le_trans a b c hba2 (hb c e)

theorem sort.SliceStable_sorted {α : Type} {less : α → α → Bool} (h : StrictWeak less) :
    ∀ l : List α, (sort.SliceStable less l).Pairwise (fun x y => less y x = false) := by
  intro l
  induction l with
  | nil => exact List.Pairwise.nil
  | cons a l ih => exact sort.insertStable_sorted h a _ ih

theorem sort.insertStable_filter_by {α β : Type} {cmp : α → α → Bool} (h : StrictWeak cmp)
    (g : β → α) (x : α) (a : β) : ∀ l : List β,
      (sort.insertStable (fun p q => cmp (g p) (g q)) a l).filter (fun p => eqvBy cmp x (g p))
        = (a :: l).filter (fun p => eqvBy cmp x (g p)) := by
  intro l
  induction l with
  | nil => rfl
  | cons b l ih =>
    simp only [sort.insertStable]
    split
    · rename_i hba
      rw [List.filter_cons, ih]
      cases hxa : eqvBy cmp x (g a) with
      | true =>
        have hxb := h.not_eqv_of_less x (g a) (g b) hxa hba
        simp [List.filter_cons, hxa, hxb]
      | false =>
        simp [List.filter_cons, hxa]
    · rfl

/-- Stability, for a sort by a key `g`: the elements whose key is equivalent to `x` are, in
the sorted list, in the order in which they are in the input. -/
theorem sort.SliceStable_filter_by {α β : Type} {cmp : α → α → Bool} (h : StrictWeak cmp)
    (g : β → α) (x : α) : ∀ l : List β,
      (sort.SliceStable (fun p q => cmp (g p) (g q)) l).filter (fun p => eqvBy cmp x (g p))
        = l.filter (fun p => eqvBy cmp x (g p)) := by
  intro l
  induction l with
  | nil => rfl
  | cons a l ih =>
    simp only [sort.SliceStable]
    rw [sort.insertStable_filter_by h g x a, List.filter_cons, List.filter_cons, ih]

/-- Stability: the elements equivalent to `x` are, in the sorted list, in the order in which
they are in the input. -/
theorem sort.SliceStable_filter {α : Type} {less : α → α → Bool} (h : StrictWeak less)
    (x : α) (l : List α) :
    (sort.SliceStable less l).filter (eqvBy less x) = l.filter (eqvBy less x) :=
  sort.SliceStable_filter_by h id x l

/-- For a strict weak ordering a list has one stable sorting: two sorted rearrangements of
each other that hold the elements of every equivalence class in the same order are equal. -/
theorem sort.stable_unique {α : Type} {less : α → α → Bool} (h : StrictWeak less) :
    ∀ (A B : List α), A.Perm B → A.Pairwise (fun x y => less y x = false) →
      B.Pairwise (fun x y => less y x = false) →
      (∀ x, A.filter (eqvBy less x) = B.filter (eqvBy less x)) → A = B := by
  intro A
  induction A with
  | nil =>
    intro B hp _ _ _
    exact (List.Perm.nil_eq hp)
  | cons a A ih =>
    intro B hp hA hB hf
    cases B with
    | nil =>
      have e := List.Perm.nil_eq hp.symm
      cases e
    | cons b B =>
      obtain ⟨ha, hA2⟩ := List.pairwise_cons.mp hA
      obtain ⟨hb, hB2⟩ := List.pairwise_cons.mp hB
      have hba : less b a = false := by
        rcases List.mem_cons.mp (hp.mem_iff.mpr (List.mem_cons_self b B)) with e | e
        · rw [e]; exact h.irrefl a
        · exact ha b e
      have hab : less a b = false := by
        rcases List.mem_cons.mp (hp.mem_iff.mp (List.mem_cons_self a A)) with e | e
        · rw [e]; exact h.irrefl b
        · exact hb a e
      have haa : eqvBy less a a = true := (eqvBy_iff less a a).mpr ⟨h.irrefl a, h.irrefl a⟩
      have hab2 : eqvBy less a b = true := (eqvBy_iff less a b).mpr ⟨hab, hba⟩
      have hfa := hf a
      simp only [List.filter_cons, haa, hab2, if_true, List.cons.injEq] at hfa
      have e : a = b := hfa.1
      subst e
      have hp2 : A.Perm B := List.Perm.cons_inv hp
      have hf2 : ∀ x, A.filter (eqvBy less x) = B.filter (eqvBy less x) := by
        intro x
        have hx := hf x
        simp only [List.filter_cons] at hx
        cases hxa : eqvBy less x a with
        | true =>
          simp only [hxa, if_true, List.cons.injEq, true_and] at hx
          exact hx
        | false =>
          simp only [hxa, Bool.false_eq_true, if_false] at hx
          exact hx
      rw [ih B hp2 hA2 hB2 hf2]

/-- Every stable sort returns the list of `sort.SliceStable`. -/
theorem sort.SliceStable_unique {α : Type} {less : α → α → Bool} (h : StrictWeak less)
    (l out : List α) (hp : out.Perm l) (hs : out.Pairwise (fun x y => less y x = false))
    (hst : ∀ x, out.filter (eqvBy less x) = l.filter (eqvBy less x)) :
    out = sort.SliceStable less l :=
  sort.stable_unique h out (sort.SliceStable less l)
    (hp.trans (sort.SliceStable_perm less l).symm) hs (sort.SliceStable_sorted h l)
    (fun x => by rw [hst x, sort.SliceStable_filter h x l])

/-! ## The order of Go strings -/

theorem pathLt_irrefl : ∀ a : List Nat, pathLt a a = false := by
  intro a
  induction a with
  | nil => rfl
  | cons x xs ih => simp [pathLt, ih]

theorem pathLt_trans : ∀ a b c : List Nat, pathLt a b = true → pathLt b c = true →
    pathLt a c = true := by
  intro a
  induction a with
  | nil =>
    intro b c h1 h2
    cases c with
    | nil => cases b <;> simp [pathLt] at h2
    | cons z zs => rfl
  | cons x xs ih =>
    intro b c h1 h2
    cases b with
    | nil => simp [pathLt] at h1
    | cons y ys =>
      cases c with
      | nil => simp [pathLt] at h2
      | cons z zs =>
        simp only [pathLt] at h1 h2 ⊢
        by_cases hxy : x < y
        · by_cases hyz : y < z
          · have : x < z := by omega
            simp [this]
          · by_cases hzy : z < y
            · simp [hyz, hzy] at h2
            · have : x < z := by omega
              simp [this]
        · by_cases hyx : y < x
          · simp [hxy, hyx] at h1
          · simp only [hxy, hyx, if_false] at h1
            have hxe : x = y := by omega
            subst hxe
            by_cases hyz : x < z
            · simp [hyz]
            · by_cases hzy : z < x
              · simp [hyz, hzy] at h2
              · simp only [hyz, hzy, if_false] at h2 ⊢
                exact ih ys zs h1 h2

/-- The order is total: two strings of which neither is less than the other are equal. -/
theorem pathLt_total : ∀ a b : List Nat, pathLt a b = false → pathLt b a = false → a = b := by
  intro a
  induction a with
  | nil =>
    intro b h1 _
    cases b with
    | nil => rfl
    | cons y ys => simp [pathLt] at h1
  | cons x xs ih =>
    intro b h1 h2
    cases b with
    | nil => simp [pathLt] at h2
    | cons y ys =>
      simp only [pathLt] at h1 h2
      by_cases hxy : x < y
      · simp [hxy] at h1
      · by_cases hyx : y < x
        · simp [hyx] at h2
        · simp only [hxy, hyx, if_false] at h1 h2
          have hxe : x = y := by omega
          rw [hxe, ih ys h1 h2]

theorem pathLt_StrictWeak : StrictWeak pathLt := by
  refine ⟨pathLt_irrefl, pathLt_trans, ?_⟩
  intro a b c h1 h2 h3 h4
  have e1 := pathLt_total a b h1 h2
  have e2 := pathLt_total b c h3 h4
  subst e1
  subst e2
  exact ⟨pathLt_irrefl _, pathLt_irrefl _⟩

/-! ## `SortBy1st` (C31) -/

theorem zip_map_fst_snd {α β : Type} : ∀ l : List (α × β),
    (l.map Prod.fst).zip (l.map Prod.snd) = l := by
  intro l
  induction l with
  | nil => rfl
  | cons p l ih => simp [ih]

theorem SortBy1st_eq {T0 T1 : Type} (first : List T0) (second : List T1)
    (compare : T0 → T0 → Bool) (hlen : first.length = second.length) :
    SortBy1st first second compare =
      .ok ((sort.SliceStable (fun x y => compare x.1 y.1) (first.zip second)).map Prod.fst,
        (sort.SliceStable (fun x y => compare x.1 y.1) (first.zip second)).map Prod.snd) := by
  have hlt : ¬ second.length < first.length := by omega
  simp only [SortBy1st, if_neg hlt]
  rw [List.drop_of_length_le (by omega), List.append_nil]
  rfl

/-- What `SortBy1st` leaves for slices of equal length and a strict weak ordering. -/
theorem SortBy1st_spec {T0 T1 : Type} (first : List T0) (second : List T1)
    (compare : T0 → T0 → Bool) (hlen : first.length = second.length)
    (hsw : StrictWeak compare) :
    ∃ f s, SortBy1st first second compare = .ok (f, s) ∧
      f.length = first.length ∧ s.length = second.length ∧
      f.zip s = sort.SliceStable (fun x y => compare x.1 y.1) (first.zip second) ∧
      (f.zip s).Perm (first.zip second) ∧
      f.Pairwise (fun a b => compare b a = false) ∧
      ∀ x, (f.zip s).filter (fun p => eqvBy compare x p.1)
        = (first.zip second).filter (fun p => eqvBy compare x p.1) := by
  have hp := sort.SliceStable_perm (fun (x y : T0 × T1) => compare x.1 y.1) (first.zip second)
  have hl : (sort.SliceStable (fun (x y : T0 × T1) => compare x.1 y.1)
      (first.zip second)).length = first.length := by
    rw [hp.length_eq, List.length_zip, hlen, Nat.min_self]
  refine ⟨_, _, SortBy1st_eq first second compare hlen, ?_, ?_, ?_, ?_, ?_, ?_⟩
  · rw [List.length_map, hl]
  · rw [List.length_map, hl, hlen]
  · exact zip_map_fst_snd _
  · rw [zip_map_fst_snd]
    exact hp
  · rw [List.pairwise_map]
    exact sort.SliceStable_sorted (hsw.comap Prod.fst) _
  · intro x
    rw [zip_map_fst_snd]
    exact sort.SliceStable_filter_by hsw Prod.fst x _

theorem pathLt_strict_of_sorted {β : Type} (l : List (List Nat × β))
    (hs : l.Pairwise (fun p q => pathLt q.1 p.1 = false)) (hn : (l.map Prod.fst).Nodup) :
    l.Pairwise (fun p q => pathLt p.1 q.1 = true) := by
  have hne : l.Pairwise (fun p q => p.1 ≠ q.1) := by
    have h1 : (l.map Prod.fst).Pairwise (fun a b => a ≠ b) := hn
    rw [List.pairwise_map] at h1
    exact h1
  refine (hs.and hne).imp ?_
  intro p q hpq
  cases hlt : pathLt p.1 q.1 with
  | true => rfl
  | false => exact absurd (pathLt_total p.1 q.1 hlt hpq.1) hpq.2

/-- Two rearrangements of one list of entries with different paths, both ascending by path,
are the same list. -/
theorem pathLt_sorted_unique {β : Type} (l1 l2 : List (List Nat × β)) (hp : l1.Perm l2)
    (h1 : l1.Pairwise (fun p q => pathLt p.1 q.1 = true))
    (h2 : l2.Pairwise (fun p q => pathLt p.1 q.1 = true)) : l1 = l2 := by
  haveI : IsAntisymm (List Nat × β) (fun p q => pathLt p.1 q.1 = true) :=
    ⟨fun a b hab hba => by
      have := pathLt_StrictWeak.asymm a.1 b.1 hab
      rw [hba] at this
      cases this⟩
  exact List.eq_of_perm_of_sorted hp h1 h2

/-- The entries of a map sorted by path, whatever the order in which they are listed. -/
theorem sorted_entries_eq (M M1 : GoMap (List Nat) (List Nat)) (hp : M1.Perm M)
    (hn : (GoMap.keyList M).Nodup) :
    sort.SliceStable (fun (x y : List Nat × List Nat) => pathLt x.1 y.1) M1 =
      sort.SliceStable (fun (x y : List Nat × List Nat) => pathLt x.1 y.1) M ∧
    (sort.SliceStable (fun (x y : List Nat × List Nat) => pathLt x.1 y.1) M1).Pairwise
      (fun p q => pathLt p.1 q.1 = true) := by
  have hs : ∀ L : GoMap (List Nat) (List Nat), L.Perm M →
      (sort.SliceStable (fun (x y : List Nat × List Nat) => pathLt x.1 y.1) L).Pairwise
        (fun p q => pathLt p.1 q.1 = true) := by
    intro L hL
    apply pathLt_strict_of_sorted _
      (sort.SliceStable_sorted (pathLt_StrictWeak.comap Prod.fst) L)
    exact ((((sort.SliceStable_perm _ L).trans hL).map Prod.fst).nodup_iff).mpr hn
  refine ⟨?_, hs M1 hp⟩
  exact pathLt_sorted_unique _ _
    (((sort.SliceStable_perm _ M1).trans hp).trans (sort.SliceStable_perm _ M).symm)
    (hs M1 hp) (hs M (List.Perm.refl M))

/-- `SortBy1st` with `<` on the output of `Unique()`. -/
theorem SortBy1st_Unique (c : AccessListCache) (hc : c.keys.length = c.data.length)
    (iter : GoMap (List Nat) (List Nat) → GoMap (List Nat) (List Nat))
    (hiter : ∀ m, (iter m).Perm m) :
    ∃ ks vs, c.Unique iter = .ok (ks, vs) ∧
      SortBy1st ks vs pathLt =
        .ok ((sort.SliceStable (fun (x y : List Nat × List Nat) => pathLt x.1 y.1)
              (GoMap.putAll [] (c.keys.zip c.data))).map Prod.fst,
          (sort.SliceStable (fun (x y : List Nat × List Nat) => pathLt x.1 y.1)
              (GoMap.putAll [] (c.keys.zip c.data))).map Prod.snd) := by
  have hnd : (GoMap.keyList (GoMap.putAll ([] : GoMap (List Nat) (List Nat))
      (c.keys.zip c.data))).Nodup :=
    GoMap.nodup_putAll _ _ (by simp [GoMap.keyList])
  refine ⟨_, _, Unique_eq iter c hc, ?_⟩
  rw [SortBy1st_eq _ _ _ (by simp), zip_map_fst_snd,
    (sorted_entries_eq _ _ (hiter _) hnd).1]

/-! ## `SortBy1st` sorts stably (C31) -/

/-- C31: for slices `first` and `second` of equal length and a strict weak ordering
`compare`, `SortBy1st(first, second, compare)` returns and leaves `first` sorted by
`compare` (no element is less than one before it), the two slices with their lengths, the
pairs `(first[i], second[i])` a rearrangement of the pairs before the call, and the pairs
whose first component is equivalent to a value `x` in the order in which they were before
the call, for every `x` (stable).  Applied to the output of `Unique()` with `<` on the
paths, for every order of the `range` loop of `Unique()`: the paths are strictly ascending,
they are the paths of the cache, every pair of a path and a blob is an entry of the map of
the cache (the blob is next to its path), and the two slices are the same for every other
order of the loop. -/
theorem SortBy1st_stable {T0 T1 : Type} (first : List T0) (second : List T1)
    (compare : T0 → T0 → Bool) (hlen : first.length = second.length)
    (hsw : StrictWeak compare) (c : AccessListCache) (hc : c.keys.length = c.data.length)
    (iter iter2 : GoMap (List Nat) (List Nat) → GoMap (List Nat) (List Nat))
    (hiter : ∀ m, (iter m).Perm m) (hiter2 : ∀ m, (iter2 m).Perm m) :
    (∃ f s, SortBy1st first second compare = .ok (f, s) ∧
      f.length = first.length ∧ s.length = second.length ∧
      (f.zip s).Perm (first.zip second) ∧
      f.Pairwise (fun a b => compare b a = false) ∧
      ∀ x, (f.zip s).filter (fun p => eqvBy compare x p.1)
        = (first.zip second).filter (fun p => eqvBy compare x p.1)) ∧
    (∃ ks vs f s, c.Unique iter = .ok (ks, vs) ∧ SortBy1st ks vs pathLt = .ok (f, s) ∧
      f.length = s.length ∧ f.Pairwise (fun a b => pathLt a b = true) ∧
      (∀ p, p ∈ f ↔ p ∈ c.keys) ∧ (f.zip s).Perm (ks.zip vs) ∧
      (∀ p ∈ f.zip s, GoMap.find (GoMap.putAll [] (c.keys.zip c.data)) p.1 = some p.2) ∧
      ∀ ks2 vs2, c.Unique iter2 = .ok (ks2, vs2) → SortBy1st ks2 vs2 pathLt = .ok (f, s)) := by
  constructor
  · obtain ⟨f, s, h1, h2, h3, _, h5, h6, h7⟩ := SortBy1st_spec first second compare hlen hsw
    exact ⟨f, s, h1, h2, h3, h5, h6, h7⟩
  · have hnd : (GoMap.keyList (GoMap.putAll ([] : GoMap (List Nat) (List Nat))
        (c.keys.zip c.data))).Nodup :=
      GoMap.nodup_putAll _ _ (by simp [GoMap.keyList])
    obtain ⟨ks, vs, hu, hs⟩ := SortBy1st_Unique c hc iter hiter
    obtain ⟨ks0, vs0, hu0, hl0, _, hmem0, _⟩ := Unique_aligned iter hiter c hc
    have hk : ks0 = ks ∧ vs0 = vs := by
      rw [hu] at hu0
      injection hu0 with e
      exact ⟨(Prod.mk.inj e).1.symm, (Prod.mk.inj e).2.symm⟩
    obtain ⟨f1, s1, g1, _, _, g4, g5, _, _⟩ := SortBy1st_spec ks vs pathLt
      (by rw [← hk.1, ← hk.2]; exact hl0) pathLt_StrictWeak
    have hperm := sort.SliceStable_perm (fun (x y : List Nat × List Nat) => pathLt x.1 y.1)
      (GoMap.putAll [] (c.keys.zip c.data))
    have hsorted := (sorted_entries_eq _ _ (List.Perm.refl _) hnd).2
    have hfs : (sort.SliceStable (fun (x y : List Nat × List Nat) => pathLt x.1 y.1)
          (GoMap.putAll [] (c.keys.zip c.data))).map Prod.fst = f1 ∧
        (sort.SliceStable (fun (x y : List Nat × List Nat) => pathLt x.1 y.1)
          (GoMap.putAll [] (c.keys.zip c.data))).map Prod.snd = s1 := by
      rw [hs] at g1
      injection g1 with e
      exact Prod.mk.inj e
    have hl1 : f1.length = s1.length := by rw [← hfs.1, ← hfs.2]; simp
    have hl2 : ks.length = vs.length := by rw [← hk.1, ← hk.2]; exact hl0
    refine ⟨ks, vs, _, _, hu, hs, by simp, ?_, ?_, ?_, ?_, ?_⟩
    · rw [List.pairwise_map]
      exact hsorted
    · intro p
      rw [← hmem0 p, hk.1, hfs.1]
      have hmap := g5.map Prod.fst
      rw [List.map_fst_zip _ _ (by omega), List.map_fst_zip _ _ (by omega)] at hmap
      exact hmap.mem_iff
    · rw [hfs.1, hfs.2]
      exact g5
    · intro p hp
      rw [zip_map_fst_snd] at hp
      exact GoMap.find_of_mem _ p.1 p.2 hnd (hperm.mem_iff.mp hp)
    · intro ks2 vs2 hu2
      obtain ⟨ks3, vs3, hu3, hs3⟩ := SortBy1st_Unique c hc iter2 hiter2
      rw [hu2] at hu3
      injection hu3 with e
      rw [(Prod.mk.inj e).1, (Prod.mk.inj e).2]
      exact hs3

theorem byTens_StrictWeak : StrictWeak byTens := by
  refine ⟨?_, ?_, ?_⟩
  · intro a
    simp [byTens]
  · intro a b c h1 h2
    simp only [byTens, decide_eq_true_eq] at h1 h2 ⊢
    omega
  · intro a b c h1 h2 h3 h4
    simp only [byTens, decide_eq_false_iff_not] at h1 h2 h3 h4 ⊢
    omega

/-- The test of the repository: the merged cache, `Unique()`, then `SortBy1st` with `<`. -/
theorem testCache_sorted :
    Run.check (testCache.Unique (fun m => m)) (fun kv =>
      Run.check (SortBy1st kv.1 kv.2 pathLt) (fun r =>
        decide (r = ([[1], [2], [3], [4], [7]], [[11], [21], [21], [22], [77]])))) = true := by
  decide!

theorem SortBy1st_stable_witness :
    [21, 10, 25, 11].length = [1, 2, 3, 4].length ∧ StrictWeak byTens ∧
    testCache.keys.length = testCache.data.length ∧
    SortBy1st [21, 10, 25, 11] [1, 2, 3, 4] byTens = .ok ([10, 11, 21, 25], [2, 4, 1, 3]) ∧
    (∃ f s, SortBy1st [21, 10, 25, 11] [1, 2, 3, 4] byTens = .ok (f, s) ∧
      f.Pairwise (fun a b => byTens b a = false) ∧
      (f.zip s).Perm ([21, 10, 25, 11].zip [1, 2, 3, 4])) ∧
    ∃ ks vs, testCache.Unique (fun m => m) = .ok (ks, vs) ∧
      SortBy1st ks vs pathLt
        = .ok ([[1], [2], [3], [4], [7]], [[11], [21], [21], [22], [77]]) ∧
      ∀ ks2 vs2, testCache.Unique List.reverse = .ok (ks2, vs2) →
        SortBy1st ks2 vs2 pathLt
          = .ok ([[1], [2], [3], [4], [7]], [[11], [21], [21], [22], [77]]) := by
  obtain ⟨⟨f, s, h1, _, _, h4, h5, _⟩, ⟨ks, vs, f2, s2, u1, u2, _, _, _, _, _, u8⟩⟩ :=
    SortBy1st_stable [21, 10, 25, 11] [1, 2, 3, 4] byTens rfl byTens_StrictWeak testCache rfl
      (fun m => m) List.reverse (fun m => List.Perm.refl m) (fun m => List.reverse_perm m)
  obtain ⟨kv, c1, c2⟩ := Run.check_ok testCache_sorted
  obtain ⟨r, c3, c4⟩ := Run.check_ok c2
  simp only [decide_eq_true_eq] at c4
  have hkv : kv = (ks, vs) := by
    rw [u1] at c1
    injection c1 with e
    exact e.symm
  rw [hkv] at c3
  have hr : (f2, s2) = ([[1], [2], [3], [4], [7]], [[11], [21], [21], [22], [77]]) := by
    rw [u2] at c3
    injection c3 with e
    rw [e, c4]
  rw [hr] at u2 u8
  exact ⟨rfl, byTens_StrictWeak, rfl, rfl, ⟨f, s, h1, h5, h4⟩, ks, vs, u1, u2, u8⟩

end ParaTrie
